import Mathlib

/-!
CovenantSQL: transaction pool and query index

A shallow embedding of `blockproducer/txpool.go` and `sqlchain/queryindex.go`.

Go maps are association lists with unique-key update, Go slices are slice headers
(`arr`, `off`, `len`, `cap`) over a store of backing arrays, pointers to request
trackers are handles into an arena, and a run-time panic is the result `none`.
-/

namespace CovenantSQL

/-! ## Go maps -/

/-- Lookup `m[k]` of a Go map held as an association list. -/
def mapGet {β : Type} : List (Nat × β) → Nat → Option β
  | [], _ => none
  | (k', v) :: rest, k => if k' = k then some v else mapGet rest k

/-- Assignment `m[k] = v`: replaces the binding of `k` where it stands, or adds one. -/
def mapSet {β : Type} : List (Nat × β) → Nat → β → List (Nat × β)
  | [], k, v => [(k, v)]
  | (k', v') :: rest, k, v =>
      if k' = k then (k, v) :: rest else (k', v') :: mapSet rest k v

/-! ## Transactions and nonces -/

/-- Modelled from the spec: `pi.AccountNonce` is declared outside the given sources; the
spec fixes it as an unsigned 64-bit counter, so nonce arithmetic is taken modulo `2 ^ 64`. -/
def nonceMod : Nat := 2 ^ 64

/-- Modelled from the spec: the `pi.Transaction` interface, of which the pool uses only
`GetAccountAddress`, `GetAccountNonce` and `GetHash`; `payload` stands for the rest of
the transaction. -/
structure Transaction where
  address : Nat
  nonce : Nat
  hash : Nat
  payload : Nat
deriving DecidableEq, Repr

def Transaction.GetAccountAddress (tx : Transaction) : Nat := tx.address

def Transaction.GetAccountNonce (tx : Transaction) : Nat := tx.nonce

def Transaction.GetHash (tx : Transaction) : Nat := tx.hash

/-- Conversion `int(u)` of an unsigned 64-bit value to Go's 64-bit `int`. -/
def toInt (u : Nat) : Int := if u < 2 ^ 63 then (u : Int) else (u : Int) - 2 ^ 64

/-- Unsigned 64-bit subtraction `a - b`. -/
def subNonce (a b : Nat) : Nat := (a + nonceMod - b) % nonceMod

/-! ## Go slices over a store of backing arrays -/

/-- The store of backing arrays; a cell holds `none` while it is a nil interface. -/
abbrev Heap := List (List (Option Transaction))

/-- A Go slice header: backing array, offset of the first element, length, capacity. -/
structure Slice where
  arr : Nat
  off : Nat
  len : Nat
  cap : Nat
deriving DecidableEq, Repr

/-- The nil slice. -/
def nilSlice : Slice := { arr := 0, off := 0, len := 0, cap := 0 }

/-- Cell `i` of backing array `a`. -/
def heapGet (h : Heap) (a i : Nat) : Option Transaction := ((h.getD a []).getD i none)

/-- Store `x` in cell `i` of backing array `a`. -/
def heapSet (h : Heap) (a i : Nat) (x : Transaction) : Heap :=
  h.set a ((h.getD a []).set i (some x))

/-- The cells a slice shows: `s[0], ..., s[len-1]`. -/
def Slice.cells (h : Heap) (s : Slice) : List (Option Transaction) :=
  ((h.getD s.arr []).drop s.off).take s.len

/-- Index expression `s[i]` for `i ≥ 0`: panics (`none`) when `i ≥ len(s)`. -/
def Slice.index (h : Heap) (s : Slice) (i : Nat) : Option (Option Transaction) :=
  if i < s.len then some (heapGet h s.arr (s.off + i)) else none

/-- Slice expression `s[1:]`: panics (`none`) on an empty slice. -/
def Slice.tail (s : Slice) : Option Slice :=
  if 0 < s.len then
    some { arr := s.arr, off := s.off + 1, len := s.len - 1, cap := s.cap - 1 }
  else none

/-- Slice expression `s[:]`: the same header, hence the same backing array. -/
def Slice.full (s : Slice) : Slice := s

/-- Capacity chosen by the Go runtime (`growslice`) when `append` outgrows a slice of
capacity `c` by one element: doubling for short slices, a quarter more for long ones. The
rounding up to an allocation size class is left out; for the 16-byte interface values of
`[]pi.Transaction` the capacities 1, 2, 4, 8, ... are size classes themselves. -/
def growCap (c : Nat) : Nat :=
  if c = 0 then 1 else if c < 1024 then 2 * c else c + c / 4

/-- The built-in `append(s, x)`: writes in place when there is spare capacity, else
copies the shown cells into a fresh backing array. -/
def Slice.append (h : Heap) (s : Slice) (x : Transaction) : Heap × Slice :=
  if s.len < s.cap then
    (heapSet h s.arr (s.off + s.len) x, { s with len := s.len + 1 })
  else
    let c := growCap s.cap
    (h ++ [s.cells h ++ [some x] ++ List.replicate (c - (s.len + 1)) none],
      { arr := h.length, off := 0, len := s.len + 1, cap := c })

/-! ## blockproducer/txpool.go -/

structure accountTxEntries where
  account : Nat
  baseNonce : Nat
  transacions : Slice
deriving DecidableEq, Repr

def newAccountTxEntries (addr baseNonce : Nat) : accountTxEntries :=
  { account := addr, baseNonce := baseNonce, transacions := nilSlice }

def accountTxEntries.nextNonce (e : accountTxEntries) : Nat :=
  (e.baseNonce + e.transacions.len) % nonceMod

def accountTxEntries.addTx (h : Heap) (e : accountTxEntries) (tx : Transaction) :
    Heap × accountTxEntries :=
  let r := e.transacions.append h tx
  (r.1, { e with transacions := r.2 })

def accountTxEntries.halfDeepCopy (e : accountTxEntries) : accountTxEntries :=
  { account := e.account, baseNonce := e.baseNonce, transacions := e.transacions.full }

structure txPool where
  entries : List (Nat × accountTxEntries)
deriving DecidableEq, Repr

def newTxPool : txPool := { entries := [] }

def txPool.addTx (h : Heap) (p : txPool) (tx : Transaction) (baseNonce : Nat) :
    Heap × txPool :=
  let addr := tx.GetAccountAddress
  let e := match mapGet p.entries addr with
    | some e => e
    | none => newAccountTxEntries addr baseNonce
  let r := e.addTx h tx
  (r.1, { entries := mapSet p.entries addr r.2 })

def txPool.getTxEntries (p : txPool) (addr : Nat) : Option accountTxEntries :=
  mapGet p.entries addr

/-- The result is `none` when the Go code panics: on an index expression out of range
or on a method call through a nil interface. -/
def txPool.hasTx (h : Heap) (p : txPool) (tx : Transaction) : Option Bool :=
  match mapGet p.entries tx.GetAccountAddress with
  | none => some false
  | some te =>
    let nonce := tx.GetAccountNonce
    let index := toInt (subNonce nonce te.baseNonce)
    if nonce ≥ te.baseNonce ∧ index < (te.transacions.len : Int) then
      if index < 0 then none
      else
        match te.transacions.index h index.toNat with
        | some (some q) => some (decide (tx.GetHash = q.GetHash))
        | _ => none
    else some false

/-- The result is `none` when the Go code panics; else the pool after the call and the
returned flag. -/
def txPool.cmpAndMoveNextTx (h : Heap) (p : txPool) (tx : Transaction) :
    Option (txPool × Bool) :=
  match mapGet p.entries tx.GetAccountAddress with
  | none => some (p, false)
  | some te =>
    if tx.GetAccountNonce = te.baseNonce ∧ 0 < te.transacions.len then
      match te.transacions.index h 0 with
      | some (some q) =>
        if tx.GetHash = q.GetHash then
          match te.transacions.tail with
          | some s =>
            some ({ entries := mapSet p.entries tx.GetAccountAddress
                      { te with transacions := s, baseNonce := (te.baseNonce + 1) % nonceMod } },
                  true)
          | none => none
        else some (p, false)
      | _ => none
    else some (p, false)

def txPool.halfDeepCopy (p : txPool) : txPool :=
  { entries := p.entries.map (fun kv => (kv.1, kv.2.halfDeepCopy)) }

/-- The queue of an entry as the pool sees it. -/
def accountTxEntries.queue (h : Heap) (e : accountTxEntries) : List (Option Transaction) :=
  e.transacions.cells h

/-! ## Well-formed pool states -/

/-- A slice header the Go runtime can hold: the length is within the capacity, the
length is a Go `int`, the capacity lies in the backing array, and the shown cells have
been written. -/
def Slice.wf (h : Heap) (s : Slice) : Prop :=
  s.len ≤ s.cap ∧ s.len < 2 ^ 63 ∧ s.off + s.cap ≤ (h.getD s.arr []).length ∧
    ∀ i, i < s.len → (heapGet h s.arr (s.off + i)).isSome = true

instance (h : Heap) (s : Slice) : Decidable (s.wf h) := by
  unfold Slice.wf; infer_instance

def accountTxEntries.wf (h : Heap) (e : accountTxEntries) : Prop :=
  e.baseNonce < nonceMod ∧ e.transacions.wf h

instance (h : Heap) (e : accountTxEntries) : Decidable (e.wf h) := by
  unfold accountTxEntries.wf; infer_instance

/-- Two entries of one pool: different keys, and different backing arrays when both
have capacity. -/
def entriesApart (x y : Nat × accountTxEntries) : Prop :=
  x.1 ≠ y.1 ∧
    (0 < x.2.transacions.cap → 0 < y.2.transacions.cap →
      x.2.transacions.arr ≠ y.2.transacions.arr)

instance (x y : Nat × accountTxEntries) : Decidable (entriesApart x y) := by
  unfold entriesApart; infer_instance

/-- A pool state of the Go program: every entry is well formed, keys are unique, and no
two entries share a backing array. -/
def txPool.wf (h : Heap) (p : txPool) : Prop :=
  (∀ kv ∈ p.entries, kv.2.wf h) ∧ p.entries.Pairwise entriesApart

instance (h : Heap) (p : txPool) : Decidable (p.wf h) := by
  unfold txPool.wf; infer_instance

/-! ## Several pools over one store -/

/-- The pools of a program run together with the store of backing arrays they share. -/
structure World where
  heap : Heap
  pools : List txPool

/-- The worlds a program can reach from no pool at all by `newTxPool`, `addTx`,
`cmpAndMoveNextTx` and `halfDeepCopy` calls; `adm p tx hint` is what the caller of
`addTx` is held to. -/
inductive Reach (adm : txPool → Transaction → Nat → Prop) : World → Prop
  | init : Reach adm { heap := [], pools := [] }
  | fresh (w : World) : Reach adm w →
      Reach adm { heap := w.heap, pools := w.pools ++ [newTxPool] }
  | add (w : World) (i : Nat) (p : txPool) (tx : Transaction) (hint : Nat) :
      Reach adm w → w.pools[i]? = some p → adm p tx hint →
      Reach adm { heap := (p.addTx w.heap tx hint).1,
                  pools := w.pools.set i (p.addTx w.heap tx hint).2 }
  | move (w : World) (i : Nat) (p : txPool) (tx : Transaction) (p' : txPool) (ok : Bool) :
      Reach adm w → w.pools[i]? = some p →
      p.cmpAndMoveNextTx w.heap tx = some (p', ok) →
      Reach adm { heap := w.heap, pools := w.pools.set i p' }
  | copy (w : World) (i : Nat) (p : txPool) :
      Reach adm w → w.pools[i]? = some p →
      Reach adm { heap := w.heap, pools := w.pools ++ [p.halfDeepCopy] }

/-- No condition on the caller of `addTx`. -/
def anyAdd (_ : txPool) (_ : Transaction) (_ : Nat) : Prop := True

/-- The caller of `addTx` respects nonce order: the nonce of `tx` is the next nonce
`baseNonce + len` of its account, or the hint is the nonce of `tx` when the account is
new to the pool. -/
def orderedAdd (p : txPool) (tx : Transaction) (hint : Nat) : Prop :=
  tx.GetAccountNonce < nonceMod ∧
    match mapGet p.entries tx.GetAccountAddress with
    | none => hint = tx.GetAccountNonce
    | some e => tx.GetAccountNonce = e.baseNonce + e.transacions.len

/-- The `i`-th queued transaction of every entry of every pool has nonce
`baseNonce + i`. -/
def World.nonceOrdered (w : World) : Prop :=
  ∀ p ∈ w.pools, ∀ a e, mapGet p.entries a = some e →
    ∀ i, i < e.transacions.len →
      ∃ t, (e.queue w.heap)[i]? = some (some t) ∧ t.GetAccountNonce = e.baseNonce + i

/-- What holds of an entry in a world reached with nonce-ordered `addTx` calls, relative
to an origin nonce for each backing array: the slice lies in its array, the nonces
`baseNonce, ..., baseNonce + len` do not wrap, the base nonce is the array's origin plus
the slice offset, and the shown cells hold consecutive nonces. -/
def EntryInv (origin : Nat → Nat) (h : Heap) (e : accountTxEntries) : Prop :=
  e.transacions.len ≤ e.transacions.cap ∧
  e.transacions.off + e.transacions.cap ≤ (h.getD e.transacions.arr []).length ∧
  e.baseNonce + e.transacions.len ≤ nonceMod ∧
  e.baseNonce < nonceMod ∧
  (0 < e.transacions.cap →
    e.baseNonce = (origin e.transacions.arr + e.transacions.off) % nonceMod) ∧
  ∀ i, i < e.transacions.len →
    ∃ t, heapGet h e.transacions.arr (e.transacions.off + i) = some t ∧
      t.GetAccountNonce = e.baseNonce + i

/-- The entry after `cmpAndMoveNextTx` has moved it forward. -/
def accountTxEntries.afterMove (te : accountTxEntries) : accountTxEntries :=
  { te with
    transacions :=
      { arr := te.transacions.arr, off := te.transacions.off + 1,
        len := te.transacions.len - 1, cap := te.transacions.cap - 1 }
    baseNonce := (te.baseNonce + 1) % nonceMod }

/-- Every entry of every pool satisfies `EntryInv` for one choice of origins. -/
def WorldInv (w : World) : Prop :=
  ∃ origin : Nat → Nat, ∀ p ∈ w.pools, ∀ kv ∈ p.entries, EntryInv origin w.heap kv.2

/-! ## One pool and the transactions added to it -/

/-- The test of `hasTx` and `cmpAndMoveNextTx` for `t` being the transaction `tx`: the
same address, nonce and hash. -/
def sameTx (tx t : Transaction) : Bool :=
  decide (t.GetAccountAddress = tx.GetAccountAddress ∧
    t.GetAccountNonce = tx.GetAccountNonce ∧ t.GetHash = tx.GetHash)

/-- The queue of the account of `tx` has room for one more element within Go's `int`. -/
def queueFits (p : txPool) (tx : Transaction) : Prop :=
  ∀ e, mapGet p.entries tx.GetAccountAddress = some e → e.transacions.len + 1 < 2 ^ 63

/-- The pools built from the empty pool by nonce-ordered `addTx` calls and
`cmpAndMoveNextTx` calls, with the list of the transactions added and not yet removed by
a successful `cmpAndMoveNextTx`. -/
inductive Built : Heap → txPool → List Transaction → Prop
  | empty : Built [] newTxPool []
  | add (h : Heap) (p : txPool) (live : List Transaction) (tx : Transaction) (hint : Nat) :
      Built h p live → orderedAdd p tx hint → queueFits p tx →
      Built (p.addTx h tx hint).1 (p.addTx h tx hint).2 (live ++ [tx])
  | move (h : Heap) (p : txPool) (live : List Transaction) (tx : Transaction)
      (p' : txPool) (ok : Bool) :
      Built h p live → p.cmpAndMoveNextTx h tx = some (p', ok) →
      Built h p' (if ok then live.eraseP (sameTx tx) else live)

/-- The transactions of `live` that belong to the account `a`. -/
def liveOf (live : List Transaction) (a : Nat) : List Transaction :=
  live.filter (fun t => decide (t.GetAccountAddress = a))

/-- On a built pool: the pool is well formed, the entries satisfy `EntryInv`, and the
queue of every account holds its live transactions in the order of their addition. -/
def BuiltInv (h : Heap) (p : txPool) (live : List Transaction) : Prop :=
  p.wf h ∧ (∃ origin : Nat → Nat, ∀ kv ∈ p.entries, EntryInv origin h kv.2) ∧
    ∀ a, match mapGet p.entries a with
      | none => liveOf live a = []
      | some e => e.queue h = (liveOf live a).map some

/-! ## The index expression of `hasTx` -/

/-- The value of `index` with which `hasTx` evaluates `te.transacions[index]`; `none`
when the call returns before the index expression. -/
def txPool.hasTxIndex (p : txPool) (tx : Transaction) : Option Int :=
  match mapGet p.entries tx.GetAccountAddress with
  | none => none
  | some te =>
    let nonce := tx.GetAccountNonce
    let index := toInt (subNonce nonce te.baseNonce)
    if nonce ≥ te.baseNonce ∧ index < (te.transacions.len : Int) then some index else none

/-! ## sqlchain/queryindex.go -/

/-- The errors of package `sqlchain` that the index returns. -/
inductive QueryError where
  | ErrCorruptedIndex
  | ErrMultipleAckOfResponse
  | ErrMultipleAckOfSeqNo
  | ErrQuerySignedByAnotherBlock
  | ErrQueryExpired
  | ErrQueryNotCached
deriving DecidableEq, Repr

/-- Modelled from the spec: `wt.SignedResponseHeader` is declared outside the given
sources; the index reads its `HeaderHash` and the `SeqNo` of its request. `Signee` stands
for the rest of the header. -/
structure SignedResponseHeader where
  SeqNo : Nat
  HeaderHash : Nat
  Signee : Nat
deriving DecidableEq, Repr

/-- Modelled from the spec: `wt.SignedAckHeader` is declared outside the given sources;
the index reads its `HeaderHash`, `ResponseHeaderHash()`, the `SeqNo` of
`SignedRequestHeader()` and `SignedResponseHeader()`. `Signee` stands for the rest of the
header. -/
structure SignedAckHeader where
  HeaderHash : Nat
  RespHash : Nat
  SeqNo : Nat
  Response : SignedResponseHeader
  Signee : Nat
deriving DecidableEq, Repr

def SignedAckHeader.ResponseHeaderHash (ack : SignedAckHeader) : Nat := ack.RespHash

def SignedAckHeader.SignedResponseHeader (ack : SignedAckHeader) : SignedResponseHeader :=
  ack.Response

/-- The interface invariant of an acknowledgement: the embedded response carries the
response header hash and the request sequence number of the acknowledgement. -/
def SignedAckHeader.consistent (ack : SignedAckHeader) : Prop :=
  ack.Response.HeaderHash = ack.RespHash ∧ ack.Response.SeqNo = ack.SeqNo

/-- A `*hash.Hash` that is not nil: the package variable `placeHolder`, whose hash is
the zero hash, or a pointer to the hash of a block. -/
inductive HashRef where
  | placeHolder
  | block (h : Nat)
deriving DecidableEq, Repr

def HashRef.value : HashRef → Nat
  | .placeHolder => 0
  | .block h => h

/-- Modelled from the spec: `hash.Hash.IsEqual` is declared outside the given sources;
it compares the hashes pointed to. -/
def HashRef.IsEqual (a b : HashRef) : Bool := decide (a.value = b.value)

structure RequestTracker where
  Response : Option SignedResponseHeader
  Ack : Option SignedAckHeader
  SignedBlock : Option HashRef
deriving DecidableEq, Repr

/-- The fields `FirstAck` and `Queries` hold handles into the arena of trackers of the
`MultiIndex`; `none` is a nil `FirstAck`. -/
structure QueryTracker where
  FirstAck : Option Nat
  Queries : List Nat
deriving DecidableEq, Repr

def NewQuerySummary : QueryTracker := { FirstAck := none, Queries := [] }

/-- The tracker after the call, `newAck` and `err`. -/
def RequestTracker.UpdateAck (s : RequestTracker) (ack : SignedAckHeader) :
    RequestTracker × Bool × Option QueryError :=
  match s.Ack with
  | none =>
    ({ Response := some ack.SignedResponseHeader, Ack := some ack, SignedBlock := none },
      true, none)
  | some a =>
    if a.HeaderHash ≠ ack.HeaderHash then
      (s, false, some QueryError.ErrMultipleAckOfResponse)
    else (s, false, none)

/-- The index after the call and the `*QueryTracker` returned, given by value: the
callers write it back under the key `k`. -/
def SeqIndexEnsure (i : List (Nat × QueryTracker)) (k : Nat) :
    List (Nat × QueryTracker) × QueryTracker :=
  match mapGet i k with
  | some v => (i, v)
  | none => (mapSet i k NewQuerySummary, NewQuerySummary)

/-- The three indexes and the arena `trackers` of the `RequestTracker` values they point
into. A `*RequestTracker` is a handle into the arena, and a handle that lies outside the
arena is a nil pointer. -/
structure MultiIndex where
  trackers : List RequestTracker
  RespIndex : List (Nat × Nat)
  AckIndex : List (Nat × Nat)
  SeqIndex : List (Nat × QueryTracker)
deriving DecidableEq, Repr

def NewMultiIndex : MultiIndex :=
  { trackers := [], RespIndex := [], AckIndex := [], SeqIndex := [] }

/-- The index after the call and `err`. -/
def MultiIndex.AddResponse (i : MultiIndex) (resp : SignedResponseHeader) :
    MultiIndex × Option QueryError :=
  match mapGet i.RespIndex resp.HeaderHash with
  | some v =>
    match i.trackers[v]? with
    | none => (i, some QueryError.ErrCorruptedIndex)
    | some t =>
      match t.Response with
      | none => (i, some QueryError.ErrCorruptedIndex)
      | some _ => ({ i with trackers := i.trackers.set v { t with Response := some resp } }, none)
  | none =>
    let s := i.trackers.length
    let e := SeqIndexEnsure i.SeqIndex resp.SeqNo
    ({ trackers := i.trackers ++ [{ Response := some resp, Ack := none, SignedBlock := none }],
       RespIndex := mapSet i.RespIndex resp.HeaderHash s,
       AckIndex := i.AckIndex,
       SeqIndex := mapSet e.1 resp.SeqNo { e.2 with Queries := e.2.Queries ++ [s] } },
      none)

/-- The closing test of `AddAck` on the first acknowledgement of the query `q`, with the
tracker `v` of the call; `none` is the panic of reading `q.FirstAck.Ack.HeaderHash`
through a nil `Ack`. -/
def MultiIndex.settleFirstAck (i : MultiIndex) (seqNo : Nat) (q : QueryTracker) (v : Nat)
    (ack : SignedAckHeader) : Option (MultiIndex × Option QueryError) :=
  match q.FirstAck with
  | none =>
    some ({ i with SeqIndex := mapSet i.SeqIndex seqNo { q with FirstAck := some v } }, none)
  | some f =>
    match i.trackers[f]? with
    | none =>
      some ({ i with SeqIndex := mapSet i.SeqIndex seqNo { q with FirstAck := some v } }, none)
    | some ft =>
      match ft.Ack with
      | none => none
      | some fa =>
        if fa.HeaderHash ≠ ack.HeaderHash then
          some ({ i with SeqIndex := mapSet i.SeqIndex seqNo q },
            some QueryError.ErrMultipleAckOfSeqNo)
        else some ({ i with SeqIndex := mapSet i.SeqIndex seqNo q }, none)

/-- The index after the call and `err`; `none` when the Go code panics. -/
def MultiIndex.AddAck (i : MultiIndex) (ack : SignedAckHeader) :
    Option (MultiIndex × Option QueryError) :=
  let e := SeqIndexEnsure i.SeqIndex ack.SeqNo
  match mapGet i.RespIndex ack.ResponseHeaderHash with
  | some v =>
    match i.trackers[v]? with
    | none => some ({ i with SeqIndex := e.1 }, some QueryError.ErrCorruptedIndex)
    | some t =>
      match t.Response with
      | none => some ({ i with SeqIndex := e.1 }, some QueryError.ErrCorruptedIndex)
      | some _ =>
        let u := t.UpdateAck ack
        let i1 : MultiIndex :=
          { trackers := i.trackers.set v u.1,
            RespIndex := i.RespIndex,
            AckIndex := mapSet i.AckIndex ack.HeaderHash v,
            SeqIndex := e.1 }
        match u.2.2 with
        | some err => some (i1, some err)
        | none =>
          let q := if u.2.1 then { e.2 with Queries := e.2.Queries ++ [v] } else e.2
          i1.settleFirstAck ack.SeqNo q v ack
  | none =>
    let v := i.trackers.length
    let i1 : MultiIndex :=
      { trackers := i.trackers ++
          [{ Response := some ack.SignedResponseHeader, Ack := some ack, SignedBlock := none }],
        RespIndex := mapSet i.RespIndex ack.ResponseHeaderHash v,
        AckIndex := mapSet i.AckIndex ack.HeaderHash v,
        SeqIndex := e.1 }
    i1.settleFirstAck ack.SeqNo { e.2 with Queries := e.2.Queries ++ [v] } v ack

/-- The index after the call; `none` when the Go code panics. -/
def MultiIndex.SetSignedBlock (i : MultiIndex) (blockHash : HashRef) (ackHeaderHash : Nat) :
    Option MultiIndex :=
  match mapGet i.AckIndex ackHeaderHash with
  | some v =>
    match i.trackers[v]? with
    | none => none
    | some t =>
      some { i with trackers := i.trackers.set v { t with SignedBlock := some blockHash } }
  | none => some i

/-- The index after the call, `isKnown` and `err`; `none` when the Go code panics. -/
def MultiIndex.CheckAckFromBlock (i : MultiIndex) (b : HashRef) (ack : Nat) :
    Option (MultiIndex × Bool × Option QueryError) :=
  match mapGet i.AckIndex ack with
  | none => some (i, false, none)
  | some qh =>
    match i.trackers[qh]? with
    | none => none
    | some q =>
      let signedElsewhere : Bool :=
        match q.SignedBlock with
        | some sb => !(sb.IsEqual b)
        | none => false
      if signedElsewhere then some (i, true, some QueryError.ErrQuerySignedByAnotherBlock)
      else
        match q.Ack with
        | none => none
        | some qa =>
          match q.Response with
          | none => none
          | some qr =>
            if mapGet i.RespIndex qr.HeaderHash ≠ some qh then
              some (i, true, some QueryError.ErrCorruptedIndex)
            else
              match mapGet i.SeqIndex qa.SeqNo with
              | none => some (i, true, some QueryError.ErrCorruptedIndex)
              | some qs =>
                match qs.FirstAck with
                | none => some (i, true, some QueryError.ErrCorruptedIndex)
                | some f =>
                  match i.trackers[f]? with
                  | none => some (i, true, some QueryError.ErrCorruptedIndex)
                  | some ft =>
                    if f ≠ qh then
                      match ft.SignedBlock with
                      | some _ => some (i, true, some QueryError.ErrQuerySignedByAnotherBlock)
                      | none =>
                        some ({ i with SeqIndex :=
                                  mapSet i.SeqIndex qa.SeqNo { qs with FirstAck := some qh } },
                              true, none)
                    else some (i, true, none)

/-- The loop of `MarkAndCollectUnsignedAcks` over the entries of `SeqIndex`, in the order
of the list: the arena and the collected hashes after it, or `none` on a panic. -/
def markLoop : List (Nat × QueryTracker) → List RequestTracker → List Nat →
    Option (List RequestTracker × List Nat)
  | [], ts, out => some (ts, out)
  | (_, q) :: rest, ts, out =>
    match q.FirstAck with
    | none => markLoop rest ts out
    | some f =>
      match ts[f]? with
      | none => markLoop rest ts out
      | some t =>
        match t.SignedBlock with
        | some _ => markLoop rest ts out
        | none =>
          match t.Ack with
          | none => none
          | some a =>
            markLoop rest (ts.set f { t with SignedBlock := some HashRef.placeHolder })
              (out ++ [a.HeaderHash])

/-- The index after the call and `*qs` after it; `none` when the Go code panics. -/
def MultiIndex.MarkAndCollectUnsignedAcks (i : MultiIndex) (qs : List Nat) :
    Option (MultiIndex × List Nat) :=
  match markLoop i.SeqIndex i.trackers qs with
  | none => none
  | some r => some ({ i with trackers := r.1 }, r.2)

/-- The indexes a program can reach from `NewMultiIndex` by the five operations. -/
inductive MultiIndex.Reach : MultiIndex → Prop
  | new : MultiIndex.Reach NewMultiIndex
  | addResponse (i : MultiIndex) (resp : SignedResponseHeader) :
      MultiIndex.Reach i → MultiIndex.Reach (i.AddResponse resp).1
  | addAck (i : MultiIndex) (ack : SignedAckHeader) (i' : MultiIndex)
      (err : Option QueryError) :
      MultiIndex.Reach i → i.AddAck ack = some (i', err) → MultiIndex.Reach i'
  | setSignedBlock (i : MultiIndex) (b : HashRef) (a : Nat) (i' : MultiIndex) :
      MultiIndex.Reach i → i.SetSignedBlock b a = some i' → MultiIndex.Reach i'
  | checkAckFromBlock (i : MultiIndex) (b : HashRef) (a : Nat) (i' : MultiIndex)
      (known : Bool) (err : Option QueryError) :
      MultiIndex.Reach i → i.CheckAckFromBlock b a = some (i', known, err) →
      MultiIndex.Reach i'
  | markAndCollect (i : MultiIndex) (qs : List Nat) (i' : MultiIndex) (out : List Nat) :
      MultiIndex.Reach i → i.MarkAndCollectUnsignedAcks qs = some (i', out) →
      MultiIndex.Reach i'

/-! ## Predicates on index states -/

/-- The state in which a call `AddAck(a)` that returned `e` leaves the index: the
response hash of `a` has a tracker, the sequence number of `a` has a query tracker, and
what the call tests on them gives `e`. -/
def AckSettled (i : MultiIndex) (a : SignedAckHeader) (e : Option QueryError) : Prop :=
  ∃ v q, mapGet i.RespIndex a.ResponseHeaderHash = some v ∧
    mapGet i.SeqIndex a.SeqNo = some q ∧
    match i.trackers[v]? with
    | none => e = some QueryError.ErrCorruptedIndex
    | some t =>
      match t.Response with
      | none => e = some QueryError.ErrCorruptedIndex
      | some _ =>
        mapGet i.AckIndex a.HeaderHash = some v ∧
        ∃ b, t.Ack = some b ∧
          if b.HeaderHash ≠ a.HeaderHash then e = some QueryError.ErrMultipleAckOfResponse
          else
            ∃ f ft fa, q.FirstAck = some f ∧ i.trackers[f]? = some ft ∧ ft.Ack = some fa ∧
              e = if fa.HeaderHash ≠ a.HeaderHash then some QueryError.ErrMultipleAckOfSeqNo
                  else none

/-- Every tracker found in `RespIndex` is allocated and has a response, and every
`FirstAck` is allocated and has an acknowledgement. -/
def MultiIndex.Inv (i : MultiIndex) : Prop :=
  (∀ kv ∈ i.RespIndex, ∃ t, i.trackers[kv.2]? = some t ∧ t.Response ≠ none) ∧
  (∀ kv ∈ i.SeqIndex, ∀ f, kv.2.FirstAck = some f →
    ∃ t, i.trackers[f]? = some t ∧ t.Ack ≠ none)

/-- Allocated trackers stay allocated and keep having a response, or an acknowledgement,
once they have one. -/
def TrackersGrow (ts ts' : List RequestTracker) : Prop :=
  ∀ (f : Nat) (t : RequestTracker), ts[f]? = some t →
    ∃ t' : RequestTracker, ts'[f]? = some t' ∧ (t.Response ≠ none → t'.Response ≠ none) ∧
      (t.Ack ≠ none → t'.Ack ≠ none)

/-- What the closing test of `AddAck` on the query tracker `q` leaves behind: only
`SeqIndex` changes, at the sequence number, the `Queries` of `q` are kept, and the first
acknowledgement decides the error. -/
def SettleOut (i1 : MultiIndex) (seq : Nat) (q : QueryTracker) (a : SignedAckHeader)
    (i2 : MultiIndex) (e : Option QueryError) : Prop :=
  i2.trackers = i1.trackers ∧ i2.RespIndex = i1.RespIndex ∧ i2.AckIndex = i1.AckIndex ∧
    ∃ q2, i2.SeqIndex = mapSet i1.SeqIndex seq q2 ∧ q2.Queries = q.Queries ∧
      ∃ f ft fa, q2.FirstAck = some f ∧ i1.trackers[f]? = some ft ∧ ft.Ack = some fa ∧
        e = if fa.HeaderHash ≠ a.HeaderHash then some QueryError.ErrMultipleAckOfSeqNo
            else none

/-! ## Indexes built from consistent acknowledgements -/

/-- Every allocated tracker has a response whose header hash `RespIndex` maps to the
tracker, and every tracker found in `AckIndex` is allocated and has an
acknowledgement. -/
def Linked (ts : List RequestTracker) (R A : List (Nat × Nat)) : Prop :=
  (∀ (v : Nat) (t : RequestTracker), ts[v]? = some t →
    ∃ r : SignedResponseHeader, t.Response = some r ∧ mapGet R r.HeaderHash = some v) ∧
  (∀ kv ∈ A, ∃ t : RequestTracker, ts[kv.2]? = some t ∧ t.Ack ≠ none)

/-- The invariant of an index built from consistent acknowledgements. -/
def MultiIndex.Sound (i : MultiIndex) : Prop :=
  i.Inv ∧ Linked i.trackers i.RespIndex i.AckIndex

/-- The indexes a program can reach from `NewMultiIndex` by the five operations when the
acknowledgements it passes to `AddAck` satisfy `p`. -/
inductive MultiIndex.ReachWith (p : SignedAckHeader → Prop) : MultiIndex → Prop
  | new : MultiIndex.ReachWith p NewMultiIndex
  | addResponse (i : MultiIndex) (resp : SignedResponseHeader) :
      MultiIndex.ReachWith p i → MultiIndex.ReachWith p (i.AddResponse resp).1
  | addAck (i : MultiIndex) (ack : SignedAckHeader) (i' : MultiIndex)
      (err : Option QueryError) :
      MultiIndex.ReachWith p i → p ack → i.AddAck ack = some (i', err) →
      MultiIndex.ReachWith p i'
  | setSignedBlock (i : MultiIndex) (b : HashRef) (a : Nat) (i' : MultiIndex) :
      MultiIndex.ReachWith p i → i.SetSignedBlock b a = some i' → MultiIndex.ReachWith p i'
  | checkAckFromBlock (i : MultiIndex) (b : HashRef) (a : Nat) (i' : MultiIndex)
      (known : Bool) (err : Option QueryError) :
      MultiIndex.ReachWith p i → i.CheckAckFromBlock b a = some (i', known, err) →
      MultiIndex.ReachWith p i'
  | markAndCollect (i : MultiIndex) (qs : List Nat) (i' : MultiIndex) (out : List Nat) :
      MultiIndex.ReachWith p i → i.MarkAndCollectUnsignedAcks qs = some (i', out) →
      MultiIndex.ReachWith p i'

/-- The trackers `ts'` are the trackers `ts` up to the field `SignedBlock`. -/
def SameFields (ts ts' : List RequestTracker) : Prop :=
  ts'.length = ts.length ∧
  ∀ (v : Nat) (t : RequestTracker), ts[v]? = some t →
    ∃ t' : RequestTracker, ts'[v]? = some t' ∧ t'.Response = t.Response ∧ t'.Ack = t.Ack

/-- The tracker `f` is the `FirstAck` of an entry of `l`, is allocated in `ts` and has a
nil `SignedBlock`: `MarkAndCollectUnsignedAcks` marks and collects it. -/
def Cand (l : List (Nat × QueryTracker)) (ts : List RequestTracker) (f : Nat) : Prop :=
  (∃ kv ∈ l, kv.2.FirstAck = some f) ∧
  ∃ t : RequestTracker, ts[f]? = some t ∧ t.SignedBlock = none

/-- The header hash of the acknowledgement the tracker `f` holds; 0 when it holds
none. -/
def hashAt (ts : List RequestTracker) (f : Nat) : Nat :=
  match ts[f]? with
  | some t =>
    match t.Ack with
    | some a => a.HeaderHash
    | none => 0
  | none => 0

/-- The tracker `t` with the placeholder as its `SignedBlock`. -/
def RequestTracker.marked (t : RequestTracker) : RequestTracker :=
  { t with SignedBlock := some HashRef.placeHolder }

/-- The tracker that `AckIndex` gives for the header hash `k` is the `FirstAck` of the
sequence number of the acknowledgement it holds. -/
def MultiIndex.isFirstAck (m : MultiIndex) (k : Nat) : Prop :=
  ∃ (qh : Nat) (q : RequestTracker) (qa : SignedAckHeader) (qs : QueryTracker),
    mapGet m.AckIndex k = some qh ∧ m.trackers[qh]? = some q ∧ q.Ack = some qa ∧
    mapGet m.SeqIndex qa.SeqNo = some qs ∧ qs.FirstAck = some qh

/-- The tracker `v` is allocated in `ts` and its `SignedBlock` is `b`. -/
def SignedBy (ts : List RequestTracker) (b : HashRef) (v : Nat) : Prop :=
  ∃ t : RequestTracker, ts[v]? = some t ∧ t.SignedBlock = some b

/-! ## sqlchain/queryindex.go: the index over heights -/

/-- Lookup `m[k]` of a Go map with `int32` keys. -/
def hGet {β : Type} : List (Int × β) → Int → Option β
  | [], _ => none
  | (k', v) :: rest, k => if k' = k then some v else hGet rest k

/-- Assignment `m[k] = v` of a Go map with `int32` keys. -/
def hSet {β : Type} : List (Int × β) → Int → β → List (Int × β)
  | [], k, v => [(k, v)]
  | (k', v') :: rest, k, v =>
      if k' = k then (k, v) :: rest else (k', v') :: hSet rest k v

/-- The built-in `delete(m, k)`. -/
def hDel {β : Type} (m : List (Int × β)) (k : Int) : List (Int × β) :=
  m.filter (fun kv => decide (kv.1 ≠ k))

/-- Modelled from the spec: `ct.Block` is declared outside the given sources; the index
reads the block hash of its signed header and the header hashes of the acknowledgements
it packs. -/
structure Block where
  BlockHash : Nat
  Queries : List Nat
deriving DecidableEq, Repr

/-- The call `CheckBeforeExpire()`: the branches of its tests hold comments only, so it
leaves the index as it is. -/
def MultiIndex.CheckBeforeExpire (i : MultiIndex) : MultiIndex := i

/-- The map after the call and the `*MultiIndex` returned, given by value: the callers
write it back under the key `h`. -/
def EnsureHeight (i : List (Int × MultiIndex)) (h : Int) :
    List (Int × MultiIndex) × MultiIndex :=
  match hGet i h with
  | some v => (i, v)
  | none => (hSet i h NewMultiIndex, NewMultiIndex)

structure QueryIndex where
  barrier : Int
  heightIndex : List (Int × MultiIndex)
deriving DecidableEq, Repr

def NewQueryIndex : QueryIndex := { barrier := 0, heightIndex := [] }

/-- The index after the call and `err`. -/
def QueryIndex.AddResponse (i : QueryIndex) (h : Int) (resp : SignedResponseHeader) :
    QueryIndex × Option QueryError :=
  let e := EnsureHeight i.heightIndex h
  let r := e.2.AddResponse resp
  ({ i with heightIndex := hSet e.1 h r.1 }, r.2)

/-- The index after the call and `err`; `none` when the Go code panics. -/
def QueryIndex.AddAck (i : QueryIndex) (h : Int) (ack : SignedAckHeader) :
    Option (QueryIndex × Option QueryError) :=
  let e := EnsureHeight i.heightIndex h
  match e.2.AddAck ack with
  | none => none
  | some r => some ({ i with heightIndex := hSet e.1 h r.1 }, r.2)

/-- The index after the call, the flag and `err`; `none` when the Go code panics. -/
def QueryIndex.CheckAckFromBlock (i : QueryIndex) (h : Int) (b : HashRef) (ack : Nat) :
    Option (QueryIndex × Bool × Option QueryError) :=
  if h < i.barrier then some (i, false, some QueryError.ErrQueryExpired)
  else
    let e := EnsureHeight i.heightIndex h
    match e.2.CheckAckFromBlock b ack with
    | none => none
    | some r => some ({ i with heightIndex := hSet e.1 h r.1 }, r.2.1, r.2.2)

/-- The loop of `SetSignedBlock` over the acknowledgements packed in the block. -/
def signLoop : List Nat → MultiIndex → HashRef → Option MultiIndex
  | [], hi, _ => some hi
  | v :: vs, hi, b =>
    match hi.SetSignedBlock b v with
    | none => none
    | some hi' => signLoop vs hi' b

/-- The index after the call; `none` when the Go code panics. -/
def QueryIndex.SetSignedBlock (i : QueryIndex) (h : Int) (b : Block) : Option QueryIndex :=
  let e := EnsureHeight i.heightIndex h
  match signLoop b.Queries e.2 (HashRef.block b.BlockHash) with
  | none => none
  | some hi => some { i with heightIndex := hSet e.1 h hi }

/-- The index after the call, `ack` and `err`; `none` when the Go code panics. -/
def QueryIndex.GetAck (i : QueryIndex) (h : Int) (header : Nat) :
    Option (QueryIndex × Option SignedAckHeader × Option QueryError) :=
  if h ≥ i.barrier then
    let e := EnsureHeight i.heightIndex h
    match mapGet e.2.AckIndex header with
    | some v =>
      match e.2.trackers[v]? with
      | none => none
      | some q => some ({ i with heightIndex := e.1 }, q.Ack, none)
    | none => some ({ i with heightIndex := e.1 }, none, some QueryError.ErrQueryNotCached)
  else some (i, none, some QueryError.ErrQueryExpired)

/-- The heights `l, l + 1, ..., h - 1` a loop `for x := l; x < h; x++` runs through. -/
def heightRange (l h : Int) : List Int :=
  (List.range (h - l).toNat).map (fun (k : Nat) => l + (k : Int))

/-- The loop of `AdvanceBarrier` over the heights to expire. -/
def expireLoop : List Int → List (Int × MultiIndex) → List (Int × MultiIndex)
  | [], m => m
  | x :: xs, m =>
    match hGet m x with
    | some hi =>
      let _ := hi.CheckBeforeExpire
      expireLoop xs (hDel m x)
    | none => expireLoop xs m

def QueryIndex.AdvanceBarrier (i : QueryIndex) (height : Int) : QueryIndex :=
  { barrier := height,
    heightIndex := expireLoop (heightRange i.barrier height) i.heightIndex }

/-- The loop of `MarkAndCollectUnsignedAcks` over the heights below the given one. -/
def collectLoop : List Int → List (Int × MultiIndex) → List Nat →
    Option (List (Int × MultiIndex) × List Nat)
  | [], m, qs => some (m, qs)
  | x :: xs, m, qs =>
    match hGet m x with
    | some hi =>
      match hi.MarkAndCollectUnsignedAcks qs with
      | none => none
      | some r => collectLoop xs (hSet m x r.1) r.2
    | none => collectLoop xs m qs

/-- The index after the call and the list returned; `none` when the Go code panics. -/
def QueryIndex.MarkAndCollectUnsignedAcks (i : QueryIndex) (height : Int) :
    Option (QueryIndex × List Nat) :=
  match collectLoop (heightRange i.barrier height) i.heightIndex [] with
  | none => none
  | some r => some ({ i with heightIndex := r.1 }, r.2)

/-! ## Runs of the index over heights -/

/-- What the callers of the index are held to: the heights at which `AddResponse`,
`AddAck` and `SetSignedBlock` are called, the acknowledgements passed to `AddAck`, and the
heights passed to `AdvanceBarrier`. -/
structure CallPolicy where
  height : QueryIndex → Int → Prop
  ack : SignedAckHeader → Prop
  advance : QueryIndex → Int → Prop

/-- No condition on the callers. -/
def anyCall : CallPolicy :=
  { height := fun _ _ => True, ack := fun _ => True, advance := fun _ _ => True }

/-- The callers add and sign at heights that have not expired. -/
def liveHeights : CallPolicy :=
  { height := fun i h => i.barrier ≤ h, ack := fun _ => True, advance := fun _ _ => True }

/-- The callers never move the barrier back. -/
def forwardBarrier : CallPolicy :=
  { height := fun _ _ => True, ack := fun _ => True, advance := fun i h => i.barrier ≤ h }

/-- The callers pass acknowledgements that satisfy the interface invariant. -/
def consistentAcks : CallPolicy :=
  { height := fun _ _ => True, ack := fun a => a.consistent, advance := fun _ _ => True }

/-- The states the index reaches from `i` by a sequence of calls of its seven operations
that keeps to the policy `c`. -/
inductive QueryIndex.Run (c : CallPolicy) (i : QueryIndex) : QueryIndex → Prop
  | start : QueryIndex.Run c i i
  | addResponse (j : QueryIndex) (h : Int) (resp : SignedResponseHeader) :
      QueryIndex.Run c i j → c.height j h → QueryIndex.Run c i (j.AddResponse h resp).1
  | addAck (j : QueryIndex) (h : Int) (ack : SignedAckHeader) (j' : QueryIndex)
      (err : Option QueryError) :
      QueryIndex.Run c i j → c.height j h → c.ack ack → j.AddAck h ack = some (j', err) →
      QueryIndex.Run c i j'
  | setSignedBlock (j : QueryIndex) (h : Int) (b : Block) (j' : QueryIndex) :
      QueryIndex.Run c i j → c.height j h → j.SetSignedBlock h b = some j' →
      QueryIndex.Run c i j'
  | getAck (j : QueryIndex) (h : Int) (k : Nat) (j' : QueryIndex)
      (ack : Option SignedAckHeader) (err : Option QueryError) :
      QueryIndex.Run c i j → j.GetAck h k = some (j', ack, err) → QueryIndex.Run c i j'
  | checkAckFromBlock (j : QueryIndex) (h : Int) (b : HashRef) (k : Nat) (j' : QueryIndex)
      (known : Bool) (err : Option QueryError) :
      QueryIndex.Run c i j → j.CheckAckFromBlock h b k = some (j', known, err) →
      QueryIndex.Run c i j'
  | markAndCollect (j : QueryIndex) (h : Int) (j' : QueryIndex) (out : List Nat) :
      QueryIndex.Run c i j → j.MarkAndCollectUnsignedAcks h = some (j', out) →
      QueryIndex.Run c i j'
  | advanceBarrier (j : QueryIndex) (h : Int) :
      QueryIndex.Run c i j → c.advance j h → QueryIndex.Run c i (j.AdvanceBarrier h)

/-- The states reachable from `NewQueryIndex` under the policy `c`. -/
def QueryIndex.Reach (c : CallPolicy) (i : QueryIndex) : Prop :=
  QueryIndex.Run c NewQueryIndex i

/-- No key of the height map is below the barrier. -/
def QueryIndex.keysAboveBarrier (i : QueryIndex) : Prop :=
  ∀ kv ∈ i.heightIndex, i.barrier ≤ kv.1

/-- The `AckIndex` entry for `k` in the bucket at the height `h`, if there is one. -/
def QueryIndex.ackEntry (i : QueryIndex) (h : Int) (k : Nat) : Option Nat :=
  (hGet i.heightIndex h).bind (fun m => mapGet m.AckIndex k)

/-- The tracker with the handle `v` in the bucket at the height `h`. -/
def QueryIndex.tracker (i : QueryIndex) (h : Int) (v : Nat) : Option RequestTracker :=
  (hGet i.heightIndex h).bind (fun m => m.trackers[v]?)

/-- The index with a bucket at the height `h`, as `EnsureHeight` leaves it. -/
def QueryIndex.ensured (i : QueryIndex) (h : Int) : QueryIndex :=
  { i with heightIndex := (EnsureHeight i.heightIndex h).1 }

/-! ## What `MarkAndCollectUnsignedAcks` marks in the index over heights -/

/-- The tracker `f` of the bucket at the height `x` is one that
`MarkAndCollectUnsignedAcks` marks: the bucket exists, `f` is the `FirstAck` of one of
its query trackers, is allocated and has a nil `SignedBlock`. -/
def CandAt (M : List (Int × MultiIndex)) (x : Int) (f : Nat) : Prop :=
  ∃ m : MultiIndex, hGet M x = some m ∧ Cand m.SeqIndex m.trackers f

/-- The header hash of the acknowledgement held by the tracker `p.2` of the bucket at
the height `p.1`; 0 when there is none. -/
def hashIn (M : List (Int × MultiIndex)) (p : Int × Nat) : Nat :=
  match hGet M p.1 with
  | some m => hashAt m.trackers p.2
  | none => 0

/-! ## Verified inputs, and runs of one bucket with what they emit -/

/-- The tracker `UpdateAck` and `AddAck` build from an acknowledgement. -/
def RequestTracker.ofAck (a : SignedAckHeader) : RequestTracker :=
  { Response := some a.SignedResponseHeader, Ack := some a, SignedBlock := none }

/-- The three ways in which `AddAck(a)` records `a` when it does not return early: the
tracker `v` of the response holds an acknowledgement with the header hash of `a` and
nothing is written to it; or it holds none and takes `a`; or the response is new and a
tracker is allocated. `T` and `R` are the arena and `RespIndex` after the call and `qs` is
the `Queries` list of the sequence number of `a`. -/
def Installs (i : MultiIndex) (a : SignedAckHeader) (v : Nat) (T : List RequestTracker)
    (R : List (Nat × Nat)) (qs : List Nat) : Prop :=
  (∃ (t : RequestTracker) (b : SignedAckHeader),
    mapGet i.RespIndex a.ResponseHeaderHash = some v ∧ i.trackers[v]? = some t ∧
    t.Ack = some b ∧ b.HeaderHash = a.HeaderHash ∧ T = i.trackers ∧ R = i.RespIndex ∧
    qs = (SeqIndexEnsure i.SeqIndex a.SeqNo).2.Queries) ∨
  (∃ t : RequestTracker,
    mapGet i.RespIndex a.ResponseHeaderHash = some v ∧ i.trackers[v]? = some t ∧
    t.Ack = none ∧ T = i.trackers.set v (RequestTracker.ofAck a) ∧ R = i.RespIndex ∧
    qs = (SeqIndexEnsure i.SeqIndex a.SeqNo).2.Queries ++ [v]) ∨
  (mapGet i.RespIndex a.ResponseHeaderHash = none ∧ v = i.trackers.length ∧
    T = i.trackers ++ [RequestTracker.ofAck a] ∧
    R = mapSet i.RespIndex a.ResponseHeaderHash v ∧
    qs = (SeqIndexEnsure i.SeqIndex a.SeqNo).2.Queries ++ [v])

/-- Modelled from the spec: the header hashes are collision-resistant and the callers
feed verified inputs only, so a header hash determines the header it is the hash of.
`seqOf` gives the request sequence number of the response header with a given hash and
`respOf` the response header hash of the acknowledgement header with a given hash. -/
structure Digest where
  seqOf : Nat → Nat
  respOf : Nat → Nat

/-- A verified response: its sequence number is the one its header hash stands for. -/
def Digest.resp (d : Digest) (r : SignedResponseHeader) : Prop :=
  r.SeqNo = d.seqOf r.HeaderHash

/-- A verified acknowledgement: it satisfies the interface invariant, its response is
verified, and its response hash is the one its header hash stands for. -/
def Digest.ack (d : Digest) (a : SignedAckHeader) : Prop :=
  a.consistent ∧ d.resp a.Response ∧ a.RespHash = d.respOf a.HeaderHash

/-- The runs of one bucket from `NewMultiIndex` by the five operations, with responses
that satisfy `pr` and acknowledgements that satisfy `pa`: the index a run reaches and
the list of the header hashes that its `MarkAndCollectUnsignedAcks` calls have appended
to their argument, in the order of the run. -/
inductive MultiIndex.Trace (pr : SignedResponseHeader → Prop) (pa : SignedAckHeader → Prop) :
    MultiIndex → List Nat → Prop
  | new : MultiIndex.Trace pr pa NewMultiIndex []
  | addResponse (i : MultiIndex) (es : List Nat) (resp : SignedResponseHeader) :
      MultiIndex.Trace pr pa i es → pr resp →
      MultiIndex.Trace pr pa (i.AddResponse resp).1 es
  | addAck (i : MultiIndex) (es : List Nat) (ack : SignedAckHeader) (i' : MultiIndex)
      (err : Option QueryError) :
      MultiIndex.Trace pr pa i es → pa ack → i.AddAck ack = some (i', err) →
      MultiIndex.Trace pr pa i' es
  | setSignedBlock (i : MultiIndex) (es : List Nat) (b : HashRef) (a : Nat)
      (i' : MultiIndex) :
      MultiIndex.Trace pr pa i es → i.SetSignedBlock b a = some i' →
      MultiIndex.Trace pr pa i' es
  | checkAckFromBlock (i : MultiIndex) (es : List Nat) (b : HashRef) (a : Nat)
      (i' : MultiIndex) (known : Bool) (err : Option QueryError) :
      MultiIndex.Trace pr pa i es → i.CheckAckFromBlock b a = some (i', known, err) →
      MultiIndex.Trace pr pa i' es
  | markAndCollect (i : MultiIndex) (es : List Nat) (qs : List Nat) (i' : MultiIndex)
      (out : List Nat) :
      MultiIndex.Trace pr pa i es → i.MarkAndCollectUnsignedAcks qs = some (i', qs ++ out) →
      MultiIndex.Trace pr pa i' (es ++ out)

/-- The indexes reachable from `NewMultiIndex` with verified inputs. -/
def MultiIndex.ReachIn (d : Digest) (i : MultiIndex) : Prop :=
  ∃ es, MultiIndex.Trace d.resp d.ack i es

/-- The tracker `t` with `b` as its `SignedBlock`. -/
def RequestTracker.signed (t : RequestTracker) (b : HashRef) : RequestTracker :=
  { t with SignedBlock := some b }

/-- The tracker `v` is found in `AckIndex` under one of the hashes `ks`. -/
def Packed (A : List (Nat × Nat)) (ks : List Nat) (v : Nat) : Prop :=
  ∃ k ∈ ks, mapGet A k = some v

/-- The tracker `t` with `resp` as its response. -/
def RequestTracker.answered (t : RequestTracker) (resp : SignedResponseHeader) :
    RequestTracker :=
  { t with Response := some resp }

/-- The tracker `AddResponse` builds from a response. -/
def RequestTracker.ofResp (resp : SignedResponseHeader) : RequestTracker :=
  { Response := some resp, Ack := none, SignedBlock := none }

/-- Every query tracker of `S` is in `S'` with at least its `Queries`, and with a
`FirstAck` when it had one. -/
def SeqGrows (S S' : List (Nat × QueryTracker)) : Prop :=
  ∀ (s : Nat) (q : QueryTracker), mapGet S s = some q →
    ∃ q' : QueryTracker, mapGet S' s = some q' ∧ (∀ v ∈ q.Queries, v ∈ q'.Queries) ∧
      (q.FirstAck ≠ none → q'.FirstAck ≠ none)

/-- Every key of `R` keeps its tracker in `R'`. -/
def RespKeeps (R R' : List (Nat × Nat)) : Prop :=
  ∀ (k v : Nat), mapGet R k = some v → mapGet R' k = some v

/-- Every tracker that holds an acknowledgement is the tracker of the response hash of
that acknowledgement, and is in the `Queries` of the sequence number of that
acknowledgement, whose `FirstAck` is set. -/
def MultiIndex.AckFiled (i : MultiIndex) : Prop :=
  ∀ (v : Nat) (t : RequestTracker) (b : SignedAckHeader),
    i.trackers[v]? = some t → t.Ack = some b →
    mapGet i.RespIndex b.RespHash = some v ∧
    ∃ q : QueryTracker, mapGet i.SeqIndex b.SeqNo = some q ∧ q.FirstAck ≠ none ∧
      v ∈ q.Queries

/-- The responses and the acknowledgements that the trackers hold are verified. -/
def MultiIndex.Stored (d : Digest) (i : MultiIndex) : Prop :=
  ∀ (v : Nat) (t : RequestTracker), i.trackers[v]? = some t →
    (∀ r, t.Response = some r → d.resp r) ∧ (∀ b, t.Ack = some b → d.ack b)

/-- Every tracker that holds an acknowledgement is the tracker of its header hash in
`AckIndex`. -/
def MultiIndex.AckAgree (i : MultiIndex) : Prop :=
  ∀ (v : Nat) (t : RequestTracker) (b : SignedAckHeader),
    i.trackers[v]? = some t → t.Ack = some b → mapGet i.AckIndex b.HeaderHash = some v

/-- Every tracker of `RespIndex` is in the `Queries` of the sequence number that its
response hash stands for. -/
def MultiIndex.RespFiled (d : Digest) (i : MultiIndex) : Prop :=
  ∀ kv ∈ i.RespIndex, ∃ q : QueryTracker,
    mapGet i.SeqIndex (d.seqOf kv.1) = some q ∧ kv.2 ∈ q.Queries

/-- A `FirstAck` that is set is an element of the `Queries` of its query tracker. -/
def MultiIndex.FirstIn (i : MultiIndex) : Prop :=
  ∀ kv ∈ i.SeqIndex, ∀ f, kv.2.FirstAck = some f → f ∈ kv.2.Queries

/-- The elements of every `Queries` list are allocated. -/
def MultiIndex.QueriesAlloc (i : MultiIndex) : Prop :=
  ∀ kv ∈ i.SeqIndex, ∀ v ∈ kv.2.Queries, ∃ t : RequestTracker, i.trackers[v]? = some t

/-- The invariant of an index built from verified inputs. -/
def MultiIndex.Tidy (d : Digest) (i : MultiIndex) : Prop :=
  i.Sound ∧ i.AckFiled ∧ i.Stored d ∧ i.AckAgree ∧ i.RespFiled d ∧ i.FirstIn ∧
    i.QueriesAlloc

/-- Every tracker of `ts` that holds an acknowledgement holds it in `ts'` too, and is
signed in `ts'` when it is signed in `ts`. -/
def KeepsSigned (ts ts' : List RequestTracker) : Prop :=
  ∀ (v : Nat) (t : RequestTracker), ts[v]? = some t → t.Ack ≠ none →
    ∃ t' : RequestTracker, ts'[v]? = some t' ∧ t'.Ack = t.Ack ∧
      (t.SignedBlock ≠ none → t'.SignedBlock ≠ none)

/-- Every header hash of `es` is the header hash of the acknowledgement of a tracker
whose `SignedBlock` is not nil. -/
def MultiIndex.Claimed (i : MultiIndex) (es : List Nat) : Prop :=
  ∀ e ∈ es, ∃ (v : Nat) (t : RequestTracker) (b : SignedAckHeader),
    i.trackers[v]? = some t ∧ t.Ack = some b ∧ b.HeaderHash = e ∧ t.SignedBlock ≠ none

/-- The callers pass verified acknowledgements to `AddAck`. -/
def verifiedAcks (d : Digest) : CallPolicy :=
  { height := fun _ _ => True, ack := fun a => d.ack a, advance := fun _ _ => True }

/-- Every key of `RespIndex` is the header hash of the response that its tracker
holds. -/
def MultiIndex.RespKey (i : MultiIndex) : Prop :=
  ∀ kv ∈ i.RespIndex, ∃ (t : RequestTracker) (r : SignedResponseHeader),
    i.trackers[kv.2]? = some t ∧ t.Response = some r ∧ r.HeaderHash = kv.1

/-- Every key of `AckIndex` points to the tracker of the response that the
acknowledgement with that header hash answers. -/
def MultiIndex.AckOf (d : Digest) (i : MultiIndex) : Prop :=
  ∀ kv ∈ i.AckIndex, mapGet i.RespIndex (d.respOf kv.1) = some kv.2

/-- The invariant of a bucket built from verified acknowledgements that `GetAck` relies
on. -/
def MultiIndex.Recorded (d : Digest) (i : MultiIndex) : Prop :=
  i.Sound ∧ i.AckFiled ∧ i.AckOf d ∧ i.RespKey

/-! ## Concrete states -/

def exT1 : Transaction := { address := 1, nonce := 5, hash := 11, payload := 0 }

def exT2 : Transaction := { address := 1, nonce := 6, hash := 12, payload := 0 }

def exT3 : Transaction := { address := 1, nonce := 7, hash := 13, payload := 0 }

def exT4 : Transaction := { address := 1, nonce := 8, hash := 14, payload := 0 }

def exT5 : Transaction := { address := 1, nonce := 8, hash := 15, payload := 0 }

/-- Account 1 with `exT1, exT2` queued from base nonce 5. -/
def exHeap : Heap := [[some exT1, some exT2]]

def exPool : txPool :=
  { entries := [(1, { account := 1, baseNonce := 5,
                      transacions := { arr := 0, off := 0, len := 2, cap := 2 } })] }

/-- The store and pool after `addTx(exT1, 5); addTx(exT2, 5); addTx(exT3, 5)` on a new
pool. -/
def snapBase : Heap × txPool :=
  let a := newTxPool.addTx [] exT1 5
  let b := a.2.addTx a.1 exT2 5
  b.2.addTx b.1 exT3 5

/-- The snapshot taken then. -/
def snapCopy : txPool := snapBase.2.halfDeepCopy

/-- The source pool appends `exT4` after the snapshot. -/
def snapSrc : Heap × txPool := snapBase.2.addTx snapBase.1 exT4 5

/-- The snapshot appends `exT5` after that. -/
def snapBoth : Heap × txPool := snapCopy.addTx snapSrc.1 exT5 5

/-- A world reached with one `addTx` call that ignores nonce order. -/
def badWorld : World :=
  { heap := (newTxPool.addTx [] exT3 5).1, pools := [(newTxPool.addTx [] exT3 5).2] }

/-- A transaction with the largest nonce. -/
def maxTx : Transaction :=
  { address := 1, nonce := 18446744073709551615, hash := 7, payload := 0 }

/-- The store and pool after `addTx(maxTx, maxTx.nonce)` on a new pool. -/
def maxAdded : Heap × txPool := newTxPool.addTx [] maxTx 18446744073709551615

/-- The pool after `cmpAndMoveNextTx(maxTx)` has confirmed `maxTx`: the queue is empty
and the base nonce has wrapped to 0. -/
def maxMoved : txPool :=
  { entries := [(1, { account := 1, baseNonce := 0,
                      transacions := { arr := 0, off := 1, len := 0, cap := 0 } })] }

def exResp : SignedResponseHeader := { SeqNo := 1, HeaderHash := 100, Signee := 0 }

def exAck1 : SignedAckHeader :=
  { HeaderHash := 200, RespHash := 100, SeqNo := 1, Response := exResp, Signee := 0 }

/-- A second acknowledgement of the response `exResp`. -/
def exAck2 : SignedAckHeader :=
  { HeaderHash := 201, RespHash := 100, SeqNo := 1, Response := exResp, Signee := 0 }

/-- A tracker that has seen the response `exResp` only. -/
def exTracker : RequestTracker := { Response := some exResp, Ack := none, SignedBlock := none }

/-! ## Example indexes over heights -/

/-- A fresh index whose barrier was advanced to the height 5. -/
def exBar5 : QueryIndex := NewQueryIndex.AdvanceBarrier 5

/-- The index `exBar5` after a response is added at the expired height 2. -/
def exStale : QueryIndex := (exBar5.AddResponse 2 exResp).1

/-- An index with the response `exResp` recorded at each of the heights 1 to 4. -/
def exHeights : QueryIndex :=
  ((((NewQueryIndex.AddResponse 1 exResp).1.AddResponse 2 exResp).1.AddResponse 3
    exResp).1.AddResponse 4 exResp).1

/-- A block with the hash 7 that packs the acknowledgement `exAck1`. -/
def exBlock : Block := { BlockHash := 7, Queries := [200] }

/-- The fresh index after `AddAck(10, exAck1)`. -/
def exAcked : QueryIndex :=
  match NewQueryIndex.AddAck 10 exAck1 with
  | some r => r.1
  | none => NewQueryIndex

/-- The index `exAcked` after `MarkAndCollectUnsignedAcks(11)`. -/
def exCollected : QueryIndex :=
  match exAcked.MarkAndCollectUnsignedAcks 11 with
  | some r => r.1
  | none => exAcked

/-- The index `exBar5` after `AddAck(2, exAck1)`, at a height below the barrier. -/
def exLate : QueryIndex :=
  match exBar5.AddAck 2 exAck1 with
  | some r => r.1
  | none => exBar5

/-- The acknowledgement `exAck1` signed by another signee: the same header and header
hash. -/
def exAck1b : SignedAckHeader :=
  { HeaderHash := 200, RespHash := 100, SeqNo := 1, Response := exResp, Signee := 1 }

/-! ## Example acknowledgements of one sequence number -/

/-- A second response to the request with the sequence number 1. -/
def exRespB : SignedResponseHeader := { SeqNo := 1, HeaderHash := 101, Signee := 0 }

/-- An acknowledgement of the response `exRespB`. -/
def exAck3 : SignedAckHeader :=
  { HeaderHash := 203, RespHash := 101, SeqNo := 1, Response := exRespB, Signee := 0 }

/-- A second acknowledgement of the response `exRespB`. -/
def exAck4 : SignedAckHeader :=
  { HeaderHash := 204, RespHash := 101, SeqNo := 1, Response := exRespB, Signee := 0 }

/-- The index after `AddAck` was called with each acknowledgement of the list in turn;
a call that panics ends the run. -/
def addAcks : MultiIndex → List SignedAckHeader → MultiIndex
  | i, [] => i
  | i, a :: rest =>
    match i.AddAck a with
    | none => i
    | some r => addAcks r.1 rest

/-- The index after `AddAck(exAck1)`. -/
def exOneAck : MultiIndex := addAcks NewMultiIndex [exAck1]

/-- The index after `AddAck(exAck1); AddAck(exAck3)`. -/
def exTwoAcks : MultiIndex := addAcks NewMultiIndex [exAck1, exAck3]

/-- The index `exTwoAcks` after `MarkAndCollectUnsignedAcks`: the tracker of `exAck1`,
the first acknowledgement, has the placeholder as its `SignedBlock`. -/
def exMarked : MultiIndex :=
  match exTwoAcks.MarkAndCollectUnsignedAcks [] with
  | some r => r.1
  | none => exTwoAcks

/-- The tracker of `exAck1` in `exTwoAcks`. -/
def exTrackerA1 : RequestTracker :=
  { Response := some exResp, Ack := some exAck1, SignedBlock := none }

/-- The tracker of `exAck3` in `exTwoAcks`. -/
def exTrackerA3 : RequestTracker :=
  { Response := some exRespB, Ack := some exAck3, SignedBlock := none }

/-- The query tracker of the sequence number 1 in `exTwoAcks`. -/
def exQuery1 : QueryTracker := { FirstAck := some 0, Queries := [0, 1] }

/-- The index `exTwoAcks` with the tracker of `exAck3` as the first acknowledgement of
the sequence number 1. -/
def exPromoted : MultiIndex :=
  { exTwoAcks with SeqIndex := [(1, { FirstAck := some 1, Queries := [0, 1] })] }

/-- The index after `AddAck(exAck1); AddAck(exAck2)`: two acknowledgements of one
response. -/
def exRejected : MultiIndex := addAcks NewMultiIndex [exAck1, exAck2]

/-- The header hashes of the example headers: every response header has the sequence
number 1, the acknowledgements up to the hash 201 answer the response 100 and the others
the response 101. -/
def exDigest : Digest :=
  { seqOf := fun _ => 1, respOf := fun h => if h ≤ 201 then 100 else 101 }

/-- The index over heights after `AddAck(10, exAck1); AddAck(10, exAck2)`: the second
call returns `ErrMultipleAckOfResponse`. -/
def exTwoOnOne : QueryIndex :=
  match NewQueryIndex.AddAck 10 exAck1 with
  | none => NewQueryIndex
  | some r =>
    match r.1.AddAck 10 exAck2 with
    | none => r.1
    | some r2 => r2.1

/-! ## A transaction far ahead of the base nonce -/

/-- A transaction of account 1 with the nonce 0. -/
def zeroTx : Transaction := { address := 1, nonce := 0, hash := 21, payload := 0 }

/-- The store and pool after `addTx(zeroTx, 0)` on a new pool. -/
def zeroAdded : Heap × txPool := newTxPool.addTx [] zeroTx 0

/-- A transaction of account 1 with the nonce `2^63`. -/
def halfTx : Transaction :=
  { address := 1, nonce := 9223372036854775808, hash := 22, payload := 0 }

/-! ## Lemmas on maps and slices -/

theorem mapGet_mem {β : Type} (m : List (Nat × β)) (k : Nat) (v : β)
    (hg : mapGet m k = some v) : (k, v) ∈ m := by
  induction m with
  | nil => simp [mapGet] at hg
  | cons x rest ih =>
    obtain ⟨k', v'⟩ := x
    simp only [mapGet] at hg
    split at hg
    · rename_i hk
      simp only [Option.some.injEq] at hg
      subst hk; subst hg
      exact List.mem_cons_self _ _
    · exact List.mem_cons_of_mem _ (ih hg)

theorem mapGet_mapSet {β : Type} (m : List (Nat × β)) (k k' : Nat) (v : β) :
    mapGet (mapSet m k v) k' = if k = k' then some v else mapGet m k' := by
  induction m with
  | nil => simp [mapSet, mapGet]
  | cons x rest ih =>
    obtain ⟨k0, v0⟩ := x
    simp only [mapSet]
    by_cases h0 : k0 = k
    · subst h0
      simp only [if_true, mapGet]
      by_cases h1 : k0 = k' <;> simp [h1]
    · simp only [h0, if_false, mapGet, ih]
      by_cases h1 : k0 = k'
      · subst h1
        simp [h0, Ne.symm h0]
      · simp [h1]

theorem cells_getElem (h : Heap) (s : Slice) (i : Nat)
    (hb : s.off + s.len ≤ (h.getD s.arr []).length) (hi : i < s.len) :
    (s.cells h)[i]? = some (heapGet h s.arr (s.off + i)) := by
  unfold Slice.cells heapGet
  generalize h.getD s.arr [] = L at hb ⊢
  rw [List.getElem?_take_of_lt hi, List.getElem?_drop]
  have hlt : s.off + i < L.length := by omega
  rw [List.getD_eq_getElem?_getD, List.getElem?_eq_getElem hlt]
  rfl

theorem cells_length (h : Heap) (s : Slice)
    (hb : s.off + s.len ≤ (h.getD s.arr []).length) : (s.cells h).length = s.len := by
  unfold Slice.cells
  rw [List.length_take, List.length_drop]
  omega

theorem toInt_subNonce (n b : Nat) (hn : n < nonceMod) (hb : b ≤ n) :
    subNonce n b = n - b := by
  unfold subNonce nonceMod at *
  omega

/-! ## C1: membership test -/

/-- The answer of `hasTx` for a nonce within the queue. -/
theorem hasTx_eval (h : Heap) (p : txPool) (tx : Transaction) (e : accountTxEntries)
    (q : Transaction) (htx : tx.GetAccountNonce < nonceMod)
    (hg : mapGet p.entries tx.GetAccountAddress = some e)
    (hle : e.baseNonce ≤ tx.GetAccountNonce)
    (hlt : tx.GetAccountNonce - e.baseNonce < e.transacions.len)
    (h63 : e.transacions.len < 2 ^ 63)
    (hq : heapGet h e.transacions.arr (e.transacions.off + (tx.GetAccountNonce - e.baseNonce))
      = some q) :
    p.hasTx h tx = some (decide (tx.GetHash = q.GetHash)) := by
  unfold txPool.hasTx
  rw [hg]
  simp only
  rw [toInt_subNonce _ _ htx hle]
  have hI : toInt (tx.GetAccountNonce - e.baseNonce)
      = ((tx.GetAccountNonce - e.baseNonce : Nat) : Int) := by
    unfold toInt
    rw [if_pos (by omega)]
  rw [hI]
  have hc : ((tx.GetAccountNonce - e.baseNonce : Nat) : Int) < (e.transacions.len : Int) := by
    exact_mod_cast hlt
  have hnn : ¬ ((tx.GetAccountNonce - e.baseNonce : Nat) : Int) < 0 := by omega
  rw [if_pos ⟨hle, hc⟩, if_neg hnn, Int.toNat_natCast]
  unfold Slice.index
  rw [if_pos hlt, hq]

/-- When `hasTx` returns true, the nonce lies within the queue and the queued transaction
has the hash asked for. -/
theorem hasTx_true_elim (h : Heap) (p : txPool) (tx : Transaction)
    (htx : tx.GetAccountNonce < nonceMod) (ht : p.hasTx h tx = some true) :
    ∃ e q, mapGet p.entries tx.GetAccountAddress = some e ∧
      e.baseNonce ≤ tx.GetAccountNonce ∧
      tx.GetAccountNonce - e.baseNonce < e.transacions.len ∧
      heapGet h e.transacions.arr (e.transacions.off + (tx.GetAccountNonce - e.baseNonce))
        = some q ∧ q.GetHash = tx.GetHash := by
  unfold txPool.hasTx at ht
  cases hg : mapGet p.entries tx.GetAccountAddress with
  | none =>
    rw [hg] at ht
    exact absurd ht (by simp)
  | some te =>
    rw [hg] at ht
    simp only at ht
    split at ht
    · rename_i hc
      obtain ⟨hle, hidx⟩ := hc
      rw [toInt_subNonce _ _ htx hle] at hidx ht
      split at ht
      · exact absurd ht (by simp)
      · rename_i hnn
        have h63 : tx.GetAccountNonce - te.baseNonce < 2 ^ 63 := by
          by_contra hc
          apply hnn
          unfold toInt
          rw [if_neg hc]
          unfold nonceMod at htx
          omega
        have hI : toInt (tx.GetAccountNonce - te.baseNonce)
            = ((tx.GetAccountNonce - te.baseNonce : Nat) : Int) := by
          unfold toInt
          rw [if_pos h63]
        rw [hI] at hidx ht
        rw [Int.toNat_natCast] at ht
        have hlt : tx.GetAccountNonce - te.baseNonce < te.transacions.len := by
          exact_mod_cast hidx
        unfold Slice.index at ht
        rw [if_pos hlt] at ht
        cases hq : heapGet h te.transacions.arr
            (te.transacions.off + (tx.GetAccountNonce - te.baseNonce)) with
        | none =>
          rw [hq] at ht
          exact absurd ht (by simp)
        | some q =>
          rw [hq] at ht
          simp only [Option.some.injEq, decide_eq_true_eq] at ht
          exact ⟨te, q, rfl, hle, hlt, hq, ht.symm⟩
    · exact absurd ht (by simp)

/-- C1: in a well-formed pool state, `hasTx` returns true exactly when the pool holds an
entry for the address of `tx`, the nonce of `tx` is at least the base nonce, the offset
`nonce - baseNonce` is below the queue length, and the queued transaction at that offset
has the hash of `tx`. -/
theorem hasTx_true_iff (h : Heap) (p : txPool) (tx : Transaction)
    (hp : p.wf h) (htx : tx.GetAccountNonce < nonceMod) :
    p.hasTx h tx = some true ↔
      ∃ e, mapGet p.entries tx.GetAccountAddress = some e ∧
        e.baseNonce ≤ tx.GetAccountNonce ∧
        tx.GetAccountNonce - e.baseNonce < e.transacions.len ∧
        ∃ q, (e.queue h)[tx.GetAccountNonce - e.baseNonce]? = some (some q) ∧
          q.GetHash = tx.GetHash := by
  constructor
  · intro ht
    obtain ⟨e, q, hg, hle, hlt, hq, hh⟩ := hasTx_true_elim h p tx htx ht
    have hwf : e.wf h := hp.1 _ (mapGet_mem _ _ _ hg)
    obtain ⟨_, hlen, _, hin, _⟩ := hwf
    refine ⟨e, hg, hle, hlt, q, ?_, hh⟩
    unfold accountTxEntries.queue
    rw [cells_getElem h _ _ (by omega) hlt, hq]
  · rintro ⟨e, hg, hle, hlt, q, hq, hh⟩
    have hwf : e.wf h := hp.1 _ (mapGet_mem _ _ _ hg)
    obtain ⟨_, hlen, h63, hin, _⟩ := hwf
    unfold accountTxEntries.queue at hq
    rw [cells_getElem h _ _ (by omega) hlt] at hq
    simp only [Option.some.injEq] at hq
    rw [hasTx_eval h p tx e q htx hg hle hlt h63 hq]
    simp only [Option.some.injEq, decide_eq_true_eq]
    exact hh.symm

/-- Witness of C1 on a pool holding `exT1, exT2`. -/
theorem hasTx_true_iff_witness :
    exPool.wf exHeap ∧ exT2.GetAccountNonce < nonceMod ∧
      (exPool.hasTx exHeap exT2 = some true ↔
        ∃ e, mapGet exPool.entries exT2.GetAccountAddress = some e ∧
          e.baseNonce ≤ exT2.GetAccountNonce ∧
          exT2.GetAccountNonce - e.baseNonce < e.transacions.len ∧
          ∃ q, (e.queue exHeap)[exT2.GetAccountNonce - e.baseNonce]? = some (some q) ∧
            q.GetHash = exT2.GetHash) :=
  ⟨by decide, by decide, hasTx_true_iff exHeap exPool exT2 (by decide) (by decide)⟩

/-! ## C2: compare and move -/

theorem cells_tail (h : Heap) (s : Slice) :
    ({ arr := s.arr, off := s.off + 1, len := s.len - 1, cap := s.cap - 1 } : Slice).cells h
      = (s.cells h).tail := by
  unfold Slice.cells
  simp only
  rw [← List.drop_one, List.drop_take, List.drop_drop]

theorem index_zero_of_wf (h : Heap) (s : Slice) (hs : s.wf h) (hl : 0 < s.len) :
    ∃ q, s.index h 0 = some (some q) ∧ (s.cells h)[0]? = some (some q) := by
  obtain ⟨hlen, -, hin, hcells⟩ := hs
  have hq := hcells 0 hl
  rw [Option.isSome_iff_exists] at hq
  obtain ⟨q, hq⟩ := hq
  refine ⟨q, ?_, ?_⟩
  · unfold Slice.index
    rw [if_pos hl, hq]
  · rw [cells_getElem h s 0 (by omega) hl, hq]

/-- C2: in a well-formed pool state `cmpAndMoveNextTx` returns, and it returns true
exactly when the pool has an entry for the address of `tx` whose queue is non-empty, whose
base nonce is the nonce of `tx` and whose head has the hash of `tx`. On true the entry
stays in the pool with the head removed from its queue and its base nonce incremented (as
an unsigned 64-bit counter), and the lookup of every other address is unchanged. On false
the pool is unchanged. -/
theorem cmpAndMoveNextTx_spec (h : Heap) (p : txPool) (tx : Transaction) (hp : p.wf h) :
    ∃ p' ok, p.cmpAndMoveNextTx h tx = some (p', ok) ∧
      (ok = true ↔ ∃ e q, mapGet p.entries tx.GetAccountAddress = some e ∧
          0 < e.transacions.len ∧ e.baseNonce = tx.GetAccountNonce ∧
          (e.queue h)[0]? = some (some q) ∧ q.GetHash = tx.GetHash) ∧
      (ok = true → ∃ e e', mapGet p.entries tx.GetAccountAddress = some e ∧
          mapGet p'.entries tx.GetAccountAddress = some e' ∧
          e'.queue h = (e.queue h).tail ∧
          e'.baseNonce = (e.baseNonce + 1) % nonceMod ∧
          e'.account = e.account ∧
          ∀ a, a ≠ tx.GetAccountAddress → mapGet p'.entries a = mapGet p.entries a) ∧
      (ok = false → p' = p) := by
  unfold txPool.cmpAndMoveNextTx
  cases hg : mapGet p.entries tx.GetAccountAddress with
  | none => exact ⟨p, false, rfl, by simp, by simp, fun _ => rfl⟩
  | some te =>
    have hwf : te.wf h := hp.1 _ (mapGet_mem _ _ _ hg)
    simp only
    by_cases hc : tx.GetAccountNonce = te.baseNonce ∧ 0 < te.transacions.len
    · rw [if_pos hc]
      obtain ⟨q, hq, hq0⟩ := index_zero_of_wf h _ hwf.2 hc.2
      rw [hq]
      simp only
      by_cases hh : tx.GetHash = q.GetHash
      · rw [if_pos hh]
        simp only [Slice.tail, if_pos hc.2]
        refine ⟨_, true, rfl, ?_, ?_, by simp⟩
        · simp only [true_iff]
          exact ⟨te, q, rfl, hc.2, hc.1.symm, hq0, hh.symm⟩
        · intro _
          have hget := mapGet_mapSet p.entries tx.GetAccountAddress tx.GetAccountAddress
            { te with
              transacions :=
                { arr := te.transacions.arr, off := te.transacions.off + 1,
                  len := te.transacions.len - 1, cap := te.transacions.cap - 1 }
              baseNonce := (te.baseNonce + 1) % nonceMod }
          rw [if_pos rfl] at hget
          refine ⟨te, _, rfl, hget, ?_, rfl, rfl, ?_⟩
          · exact cells_tail h te.transacions
          · intro a ha
            rw [mapGet_mapSet, if_neg (Ne.symm ha)]
      · rw [if_neg hh]
        refine ⟨p, false, rfl, ?_, by simp, fun _ => rfl⟩
        simp only [Bool.false_eq_true, false_iff, not_exists, not_and]
        intro e q' he _ _ hq' hhq
        simp only [Option.some.injEq] at he
        subst he
        unfold accountTxEntries.queue at hq'
        rw [hq0] at hq'
        simp only [Option.some.injEq] at hq'
        subst hq'
        exact hh hhq.symm
    · rw [if_neg hc]
      refine ⟨p, false, rfl, ?_, by simp, fun _ => rfl⟩
      simp only [Bool.false_eq_true, false_iff, not_exists, not_and]
      intro e q' he hl hb _ _
      simp only [Option.some.injEq] at he
      subst he
      exact hc ⟨hb.symm, hl⟩

/-- Witness of C2: confirming `exT1` at the head of its queue. -/
theorem cmpAndMoveNextTx_spec_witness :
    exPool.wf exHeap ∧
      ∃ p' ok, exPool.cmpAndMoveNextTx exHeap exT1 = some (p', ok) ∧
        (ok = true ↔ ∃ e q, mapGet exPool.entries exT1.GetAccountAddress = some e ∧
            0 < e.transacions.len ∧ e.baseNonce = exT1.GetAccountNonce ∧
            (e.queue exHeap)[0]? = some (some q) ∧ q.GetHash = exT1.GetHash) ∧
        (ok = true → ∃ e e', mapGet exPool.entries exT1.GetAccountAddress = some e ∧
            mapGet p'.entries exT1.GetAccountAddress = some e' ∧
            e'.queue exHeap = (e.queue exHeap).tail ∧
            e'.baseNonce = (e.baseNonce + 1) % nonceMod ∧
            e'.account = e.account ∧
            ∀ a, a ≠ exT1.GetAccountAddress → mapGet p'.entries a = mapGet exPool.entries a) ∧
        (ok = false → p' = exPool) :=
  ⟨by decide, cmpAndMoveNextTx_spec exHeap exPool exT1 (by decide)⟩

/-! ## C3: adding a transaction -/

theorem getD_set_ne {α : Type} (h : List α) (a b : Nat) (v d : α) (hab : a ≠ b) :
    (h.set a v).getD b d = h.getD b d := by
  simp [List.getD_eq_getElem?_getD, List.getElem?_set_ne hab]

theorem getD_set_self {α : Type} (h : List α) (a : Nat) (v d : α) (ha : a < h.length) :
    (h.set a v).getD a d = v := by
  simp [List.getD_eq_getElem?_getD, List.getElem?_set_self, ha]

theorem getD_append_left {α : Type} (h l : List α) (a : Nat) (d : α) (ha : a < h.length) :
    (h ++ l).getD a d = h.getD a d := by
  simp [List.getD_eq_getElem?_getD, List.getElem?_append_left ha]

theorem getD_append_length {α : Type} (h : List α) (v d : α) :
    (h ++ [v]).getD h.length d = v := by
  simp [List.getD_eq_getElem?_getD]

theorem getD_of_length_le {α : Type} (h : List α) (a : Nat) (d : α) (ha : h.length ≤ a) :
    h.getD a d = d := by
  simp [List.getD_eq_getElem?_getD, List.getElem?_eq_none ha]

theorem take_drop_set {α : Type} (L : List α) (o n : Nat) (v : α) (hl : o + n < L.length) :
    ((L.set (o + n) v).drop o).take (n + 1) = (L.drop o).take n ++ [v] := by
  have hlen : ((L.drop o).take n).length = n := by
    rw [List.length_take, List.length_drop]; omega
  apply List.ext_getElem?
  intro i
  by_cases hi : i < n
  · rw [List.getElem?_take_of_lt (by omega), List.getElem?_drop,
      List.getElem?_set_ne (by omega), List.getElem?_append_left (by omega),
      List.getElem?_take_of_lt hi, List.getElem?_drop]
  · by_cases hi2 : i = n
    · subst hi2
      rw [List.getElem?_take_of_lt (by omega), List.getElem?_drop, List.getElem?_set_self hl,
        List.getElem?_append_right (by omega), hlen]
      simp
    · rw [List.getElem?_take_eq_none (by omega), List.getElem?_append_right (by omega), hlen]
      have hk : i - n = (i - n - 1) + 1 := by omega
      rw [hk]
      simp

theorem arr_lt_of_room (h : Heap) (a n : Nat) (hn : 0 < n)
    (hb : n ≤ (h.getD a []).length) : a < h.length := by
  by_contra hc
  rw [getD_of_length_le h a [] (by omega)] at hb
  simp at hb
  omega

/-- After `append` the slice shows its former cells followed by the new element. -/
theorem append_cells (h : Heap) (s : Slice) (x : Transaction)
    (hb : s.off + s.cap ≤ (h.getD s.arr []).length) (hl : s.len ≤ s.cap) :
    (s.append h x).2.cells (s.append h x).1 = s.cells h ++ [some x] := by
  unfold Slice.append
  split
  · rename_i hlt
    have ha : s.arr < h.length := arr_lt_of_room h s.arr (s.off + s.cap) (by omega) hb
    unfold Slice.cells heapSet
    simp only
    rw [getD_set_self _ _ _ _ ha]
    exact take_drop_set _ _ _ _ (by omega)
  · have hcl : (s.cells h).length = s.len := cells_length h s (by omega)
    have hcl2 : (s.cells h ++ [some x]).length = s.len + 1 := by simp [hcl]
    simp only
    generalize hc : s.cells h = c at hcl2 ⊢
    unfold Slice.cells
    simp only
    rw [getD_append_length, List.drop_zero]
    exact List.take_left' hcl2

/-- The in-place or reallocating `append` leaves the cells of every slice that does not
share the written backing array as they were. -/
theorem append_frame (h : Heap) (s t : Slice) (x : Transaction)
    (ht : t.off + t.len ≤ (h.getD t.arr []).length)
    (hd : s.len < s.cap → t.len = 0 ∨ t.arr ≠ s.arr) :
    t.cells (s.append h x).1 = t.cells h := by
  unfold Slice.append
  split
  · rename_i hlt
    simp only
    rcases hd hlt with h0 | hne
    · unfold Slice.cells
      rw [h0]
      simp
    · unfold Slice.cells heapSet
      rw [getD_set_ne _ _ _ _ _ (Ne.symm hne)]
  · simp only
    by_cases hta : t.arr < h.length
    · unfold Slice.cells
      rw [getD_append_left _ _ _ _ hta]
    · rw [getD_of_length_le h t.arr [] (by omega)] at ht
      have h0 : t.len = 0 := by simp at ht; omega
      unfold Slice.cells
      rw [h0]
      simp

theorem append_len (h : Heap) (s : Slice) (x : Transaction) :
    (s.append h x).2.len = s.len + 1 := by
  unfold Slice.append
  split <;> rfl

theorem entriesApart_of_mem (h : Heap) (p : txPool) (hp : p.wf h)
    (a b : Nat) (ea eb : accountTxEntries) (hab : a ≠ b)
    (ha : mapGet p.entries a = some ea) (hb : mapGet p.entries b = some eb) :
    entriesApart (a, ea) (b, eb) := by
  have hsymm : Symmetric entriesApart := by
    intro x y hxy
    exact ⟨Ne.symm hxy.1, fun hy hx => Ne.symm (hxy.2 hx hy)⟩
  refine hp.2.forall hsymm (mapGet_mem _ _ _ ha) (mapGet_mem _ _ _ hb) ?_
  intro hc
  exact hab (congrArg Prod.fst hc)

theorem nilSlice_cells (h : Heap) : nilSlice.cells h = [] := by
  simp [Slice.cells, nilSlice]

/-- C3: `addTx` on a well-formed pool state. For a new address the pool gains an entry
anchored at the hint whose queue is `[tx]`; for a known address the base nonce stays and
`tx` becomes the last queue element, whatever its nonce. The entries and queues of all
other addresses are unchanged, and `baseNonce + len` grows by exactly one (so `nextNonce`
grows by one as an unsigned 64-bit counter). -/
theorem addTx_spec (h : Heap) (p : txPool) (tx : Transaction) (hint : Nat) (hp : p.wf h) :
    (mapGet p.entries tx.GetAccountAddress = none →
      ∃ e', mapGet (p.addTx h tx hint).2.entries tx.GetAccountAddress = some e' ∧
        e'.account = tx.GetAccountAddress ∧ e'.baseNonce = hint ∧
        e'.queue (p.addTx h tx hint).1 = [some tx] ∧
        e'.baseNonce + e'.transacions.len = hint + 1 ∧
        e'.nextNonce = (hint + 1) % nonceMod) ∧
    (∀ e, mapGet p.entries tx.GetAccountAddress = some e →
      ∃ e', mapGet (p.addTx h tx hint).2.entries tx.GetAccountAddress = some e' ∧
        e'.account = e.account ∧ e'.baseNonce = e.baseNonce ∧
        e'.queue (p.addTx h tx hint).1 = e.queue h ++ [some tx] ∧
        e'.baseNonce + e'.transacions.len = e.baseNonce + e.transacions.len + 1 ∧
        e'.nextNonce = (e.nextNonce + 1) % nonceMod) ∧
    (∀ a, a ≠ tx.GetAccountAddress →
      mapGet (p.addTx h tx hint).2.entries a = mapGet p.entries a ∧
        ∀ e, mapGet p.entries a = some e → e.queue (p.addTx h tx hint).1 = e.queue h) := by
  refine ⟨?_, ?_, ?_⟩
  · intro hg
    unfold txPool.addTx
    simp only [hg, accountTxEntries.addTx, mapGet_mapSet, if_true]
    refine ⟨_, rfl, rfl, rfl, ?_, ?_, ?_⟩
    · unfold accountTxEntries.queue
      simp only
      have hc := append_cells h nilSlice tx (by simp [nilSlice]) (by simp [nilSlice])
      rw [nilSlice_cells] at hc
      exact hc
    · simp only [append_len]
      simp [newAccountTxEntries, nilSlice]
    · unfold accountTxEntries.nextNonce
      simp only [append_len]
      simp [newAccountTxEntries, nilSlice]
  · intro e hg
    have hwf : e.wf h := hp.1 _ (mapGet_mem _ _ _ hg)
    obtain ⟨-, hlen, -, hin, -⟩ := hwf
    unfold txPool.addTx
    simp only [hg, accountTxEntries.addTx, mapGet_mapSet, if_true]
    refine ⟨_, rfl, rfl, rfl, ?_, ?_, ?_⟩
    · unfold accountTxEntries.queue
      exact append_cells h e.transacions tx hin hlen
    · simp only [append_len]
      omega
    · unfold accountTxEntries.nextNonce
      simp only [append_len]
      unfold nonceMod
      omega
  · intro a ha
    have hget : mapGet (p.addTx h tx hint).2.entries a = mapGet p.entries a := by
      unfold txPool.addTx
      simp only [mapGet_mapSet, if_neg (Ne.symm ha)]
    refine ⟨hget, ?_⟩
    intro e he
    have hwf : e.wf h := hp.1 _ (mapGet_mem _ _ _ he)
    obtain ⟨-, hlen, -, hin, -⟩ := hwf
    unfold accountTxEntries.queue txPool.addTx
    simp only [accountTxEntries.addTx]
    apply append_frame _ _ _ _ (by omega)
    intro hlt
    cases hg : mapGet p.entries tx.GetAccountAddress with
    | none =>
      rw [hg] at hlt
      simp [newAccountTxEntries, nilSlice] at hlt
    | some te =>
      rw [hg] at hlt
      simp only at hlt
      by_cases h0 : e.transacions.len = 0
      · exact Or.inl h0
      · right
        have hap := entriesApart_of_mem h p hp a tx.GetAccountAddress e te ha he hg
        have h1 : 0 < e.transacions.cap := by omega
        have h2 : 0 < te.transacions.cap := by omega
        exact hap.2 h1 h2

/-- Witness of C3: appending `exT3` to the queue of account 1. -/
theorem addTx_spec_witness :
    exPool.wf exHeap ∧
      ∃ e', mapGet (exPool.addTx exHeap exT3 0).2.entries exT3.GetAccountAddress = some e' ∧
        e'.baseNonce = 5 ∧
        e'.queue (exPool.addTx exHeap exT3 0).1 = [some exT1, some exT2, some exT3] :=
  ⟨by decide,
    match (addTx_spec exHeap exPool exT3 0 (by decide)).2.1 _ rfl with
    | ⟨e', h1, _, h3, h4, _⟩ => ⟨e', h1, h3, h4⟩⟩

/-! ## C4: snapshots -/

/-- C4 at a failing input: after `addTx` of `exT1, exT2, exT3` the queue of account 1 has
length 3 in a backing array of capacity 4, and `halfDeepCopy` hands the snapshot the same
backing array. The source appends `exT4` and holds it; the snapshot then appends `exT5`,
which lands in the same cell: the source's queue now ends in `exT5` and its `hasTx`
answer for `exT4` has turned from true to false, though no call was made on the source. -/
theorem halfDeepCopy_append_aliases :
    (mapGet snapBase.2.entries 1).map (fun e => (e.baseNonce, e.transacions))
        = some (5, { arr := 2, off := 0, len := 3, cap := 4 }) ∧
    mapGet snapCopy.entries 1 = mapGet snapBase.2.entries 1 ∧
    (snapSrc.2.entries.map fun kv => kv.2.queue snapSrc.1)
        = [[some exT1, some exT2, some exT3, some exT4]] ∧
    snapSrc.2.hasTx snapSrc.1 exT4 = some true ∧
    (snapSrc.2.entries.map fun kv => kv.2.queue snapBoth.1)
        = [[some exT1, some exT2, some exT3, some exT5]] ∧
    snapSrc.2.hasTx snapBoth.1 exT4 = some false := by
  decide

/-! ## C5: consecutive nonces -/

theorem heapSet_getD_length (h : Heap) (a k b : Nat) (x : Transaction) :
    ((heapSet h a k x).getD b []).length = (h.getD b []).length := by
  unfold heapSet
  by_cases hab : a = b
  · subst hab
    by_cases ha : a < h.length
    · rw [getD_set_self _ _ _ _ ha, List.length_set]
    · rw [List.set_eq_of_length_le (by omega)]
  · rw [getD_set_ne _ _ _ _ _ hab]

theorem heapGet_heapSet_self (h : Heap) (a k : Nat) (x : Transaction)
    (ha : a < h.length) (hk : k < (h.getD a []).length) :
    heapGet (heapSet h a k x) a k = some x := by
  unfold heapGet heapSet
  rw [getD_set_self _ _ _ _ ha, getD_set_self _ _ _ _ hk]

theorem heapGet_heapSet_ne (h : Heap) (a k b j : Nat) (x : Transaction)
    (hne : b ≠ a ∨ j ≠ k) :
    heapGet (heapSet h a k x) b j = heapGet h b j := by
  unfold heapGet heapSet
  by_cases hab : a = b
  · subst hab
    have hjk : j ≠ k := by
      rcases hne with h1 | h1
      · exact absurd rfl h1
      · exact h1
    by_cases ha : a < h.length
    · rw [getD_set_self _ _ _ _ ha, getD_set_ne _ _ _ _ _ (Ne.symm hjk)]
    · rw [List.set_eq_of_length_le (by omega)]
  · rw [getD_set_ne _ _ _ _ _ hab]

theorem growCap_gt (c : Nat) : c < growCap c := by
  unfold growCap
  split
  · omega
  · split <;> omega

theorem halfDeepCopy_eq (e : accountTxEntries) : e.halfDeepCopy = e := rfl

theorem mem_mapSet {β : Type} (m : List (Nat × β)) (k : Nat) (v : β) (x : Nat × β)
    (hx : x ∈ mapSet m k v) : x = (k, v) ∨ x ∈ m := by
  induction m with
  | nil =>
    simp only [mapSet, List.mem_singleton] at hx
    exact Or.inl hx
  | cons y rest ih =>
    obtain ⟨k0, v0⟩ := y
    simp only [mapSet] at hx
    split at hx
    · rcases List.mem_cons.mp hx with h1 | h1
      · exact Or.inl h1
      · exact Or.inr (List.mem_cons_of_mem _ h1)
    · rcases List.mem_cons.mp hx with h1 | h1
      · exact Or.inr (h1 ▸ List.mem_cons_self _ _)
      · rcases ih h1 with h2 | h2
        · exact Or.inl h2
        · exact Or.inr (List.mem_cons_of_mem _ h2)

/-- An in-place `append` by the entry `E` keeps `EntryInv` of every entry. -/
theorem entryInv_inplace (origin : Nat → Nat) (h : Heap) (E e0 : accountTxEntries)
    (tx : Transaction) (hE : EntryInv origin h E)
    (hlt : E.transacions.len < E.transacions.cap)
    (hn : tx.GetAccountNonce = E.baseNonce + E.transacions.len)
    (hM : tx.GetAccountNonce < nonceMod) (h0 : EntryInv origin h e0) :
    EntryInv origin (heapSet h E.transacions.arr (E.transacions.off + E.transacions.len) tx)
      e0 := by
  obtain ⟨_, hEin, _, _, hEo, _⟩ := hE
  obtain ⟨h1, h2, h3, h4, h5, h6⟩ := h0
  refine ⟨h1, ?_, h3, h4, h5, ?_⟩
  · rw [heapSet_getD_length]; exact h2
  · intro i hi
    by_cases hc : e0.transacions.arr = E.transacions.arr ∧
        e0.transacions.off + i = E.transacions.off + E.transacions.len
    · have ha : E.transacions.arr < h.length :=
        arr_lt_of_room h _ (E.transacions.off + E.transacions.cap) (by omega) hEin
      rw [hc.1, hc.2, heapGet_heapSet_self h _ _ tx ha (by omega)]
      refine ⟨tx, rfl, ?_⟩
      have hb0 := h5 (by omega)
      have hbE := hEo (by omega)
      rw [hc.1] at hb0
      have hoff := hc.2
      unfold nonceMod at *
      omega
    · rw [heapGet_heapSet_ne]
      · exact h6 i hi
      · by_cases ha : e0.transacions.arr = E.transacions.arr
        · exact Or.inr (fun hk => hc ⟨ha, hk⟩)
        · exact Or.inl ha

/-- The appending entry itself after an in-place `append`. -/
theorem entryInv_inplace_self (origin : Nat → Nat) (h : Heap) (E : accountTxEntries)
    (tx : Transaction) (hE : EntryInv origin h E)
    (hlt : E.transacions.len < E.transacions.cap)
    (hn : tx.GetAccountNonce = E.baseNonce + E.transacions.len)
    (hM : tx.GetAccountNonce < nonceMod) :
    EntryInv origin (heapSet h E.transacions.arr (E.transacions.off + E.transacions.len) tx)
      { E with transacions := { E.transacions with len := E.transacions.len + 1 } } := by
  have hfr := entryInv_inplace origin h E E tx hE hlt hn hM hE
  obtain ⟨_, hEin, _, _, _, _⟩ := hE
  obtain ⟨h1, h2, h3, h4, h5, h6⟩ := hfr
  refine ⟨?_, h2, ?_, h4, h5, ?_⟩
  · simp only; omega
  · simp only; omega
  · intro i hi
    simp only at hi ⊢
    by_cases hc : i < E.transacions.len
    · exact h6 i hc
    · have hi2 : i = E.transacions.len := by omega
      subst hi2
      have ha : E.transacions.arr < h.length :=
        arr_lt_of_room h _ (E.transacions.off + E.transacions.cap) (by omega) hEin
      rw [heapGet_heapSet_self h _ _ tx ha (by omega)]
      exact ⟨tx, rfl, hn⟩

/-- A reallocating `append` keeps `EntryInv` of every entry, whatever origin the fresh
backing array is given. -/
theorem entryInv_realloc (origin : Nat → Nat) (h : Heap) (e0 : accountTxEntries)
    (fresh : List (Option Transaction)) (b : Nat) (h0 : EntryInv origin h e0) :
    EntryInv (Function.update origin h.length b) (h ++ [fresh]) e0 := by
  obtain ⟨h1, h2, h3, h4, h5, h6⟩ := h0
  by_cases hc : 0 < e0.transacions.cap
  · have ha : e0.transacions.arr < h.length :=
      arr_lt_of_room h _ (e0.transacions.off + e0.transacions.cap) (by omega) h2
    refine ⟨h1, ?_, h3, h4, ?_, ?_⟩
    · rw [getD_append_left _ _ _ _ ha]; exact h2
    · intro _
      rw [Function.update_noteq (by omega)]
      exact h5 hc
    · intro i hi
      unfold heapGet
      rw [getD_append_left _ _ _ _ ha]
      exact h6 i hi
  · have hcap : e0.transacions.cap = 0 := by omega
    refine ⟨h1, ?_, h3, h4, fun hp => absurd hp hc, ?_⟩
    · by_cases ha : e0.transacions.arr < h.length
      · rw [getD_append_left _ _ _ _ ha]; exact h2
      · rw [getD_of_length_le h _ [] (by omega)] at h2
        simp only [List.length_nil] at h2
        omega
    · intro i hi
      omega

/-- The appending entry itself after a reallocating `append`. -/
theorem entryInv_realloc_self (origin : Nat → Nat) (h : Heap) (E : accountTxEntries)
    (tx : Transaction) (hE : EntryInv origin h E)
    (hlt : ¬ E.transacions.len < E.transacions.cap)
    (hn : tx.GetAccountNonce = E.baseNonce + E.transacions.len)
    (hM : tx.GetAccountNonce < nonceMod) :
    EntryInv (Function.update origin h.length E.baseNonce)
      (h ++ [E.transacions.cells h ++ [some tx] ++
        List.replicate (growCap E.transacions.cap - (E.transacions.len + 1)) none])
      { E with transacions := { arr := h.length, off := 0, len := E.transacions.len + 1,
                                cap := growCap E.transacions.cap } } := by
  obtain ⟨h1, h2, h3, h4, h5, h6⟩ := hE
  have hg := growCap_gt E.transacions.cap
  have hcl : (E.transacions.cells h).length = E.transacions.len :=
    cells_length h _ (by omega)
  refine ⟨?_, ?_, ?_, h4, ?_, ?_⟩
  · simp only; omega
  · simp only
    rw [getD_append_length]
    simp only [List.length_append, List.length_replicate, hcl, List.length_singleton]
    omega
  · simp only; omega
  · intro _
    simp only [Function.update_same, Nat.add_zero]
    unfold nonceMod at *
    omega
  · intro i hi
    simp only at hi ⊢
    unfold heapGet
    rw [getD_append_length, List.getD_eq_getElem?_getD, Nat.zero_add, List.append_assoc]
    by_cases hc : i < E.transacions.len
    · rw [List.getElem?_append_left (by omega), cells_getElem h _ i (by omega) hc]
      exact h6 i hc
    · have hi2 : i = E.transacions.len := by omega
      subst hi2
      rw [List.getElem?_append_right (by omega), hcl, Nat.sub_self]
      exact ⟨tx, by simp, hn⟩

/-- The entry `addTx` starts from when the address is new. -/
theorem entryInv_new (origin : Nat → Nat) (h : Heap) (addr hint : Nat)
    (hM : hint < nonceMod) : EntryInv origin h (newAccountTxEntries addr hint) := by
  refine ⟨Nat.le_refl _, ?_, ?_, hM, ?_, ?_⟩
  · simp [newAccountTxEntries, nilSlice]
  · simp only [newAccountTxEntries, nilSlice, Nat.add_zero]; omega
  · intro hc
    simp [newAccountTxEntries, nilSlice] at hc
  · intro i hi
    simp [newAccountTxEntries, nilSlice] at hi

/-- The entry-level `addTx` of a nonce-ordered transaction keeps `EntryInv` for all
entries, for suitable origins. -/
theorem entryInv_addTx (origin : Nat → Nat) (h : Heap) (E : accountTxEntries)
    (tx : Transaction) (hE : EntryInv origin h E)
    (hn : tx.GetAccountNonce = E.baseNonce + E.transacions.len)
    (hM : tx.GetAccountNonce < nonceMod) :
    ∃ origin', EntryInv origin' (E.addTx h tx).1 (E.addTx h tx).2 ∧
      ∀ e0, EntryInv origin h e0 → EntryInv origin' (E.addTx h tx).1 e0 := by
  unfold accountTxEntries.addTx Slice.append
  by_cases hlt : E.transacions.len < E.transacions.cap
  · simp only [if_pos hlt]
    exact ⟨origin, entryInv_inplace_self origin h E tx hE hlt hn hM,
      fun e0 h0 => entryInv_inplace origin h E e0 tx hE hlt hn hM h0⟩
  · simp only [if_neg hlt]
    exact ⟨Function.update origin h.length E.baseNonce,
      entryInv_realloc_self origin h E tx hE hlt hn hM,
      fun e0 h0 => entryInv_realloc origin h e0 _ _ h0⟩

/-- Dropping the head of the queue keeps `EntryInv`. -/
theorem entryInv_move (origin : Nat → Nat) (h : Heap) (te : accountTxEntries)
    (hE : EntryInv origin h te) (hl : 0 < te.transacions.len) :
    EntryInv origin h te.afterMove := by
  obtain ⟨h1, h2, h3, h4, h5, h6⟩ := hE
  unfold accountTxEntries.afterMove
  refine ⟨?_, ?_, ?_, ?_, ?_, ?_⟩
  · simp only; omega
  · simp only; omega
  · simp only; unfold nonceMod at *; omega
  · simp only; unfold nonceMod; omega
  · intro hc
    simp only at hc ⊢
    have hb := h5 (by omega)
    unfold nonceMod at *
    omega
  · intro i hi
    simp only at hi ⊢
    obtain ⟨t, ht, hnn⟩ := h6 (i + 1) (by omega)
    refine ⟨t, ?_, ?_⟩
    · rw [← ht]; congr 1; omega
    · rw [hnn]
      unfold nonceMod at *
      omega

/-- What `cmpAndMoveNextTx` can do to a pool. -/
theorem cmpAndMoveNextTx_cases (h : Heap) (p p' : txPool) (tx : Transaction) (ok : Bool)
    (hr : p.cmpAndMoveNextTx h tx = some (p', ok)) :
    (p' = p ∧ ok = false) ∨
      ∃ te q, mapGet p.entries tx.GetAccountAddress = some te ∧ 0 < te.transacions.len ∧
        tx.GetAccountNonce = te.baseNonce ∧
        te.transacions.index h 0 = some (some q) ∧ tx.GetHash = q.GetHash ∧ ok = true ∧
        p' = { entries := mapSet p.entries tx.GetAccountAddress te.afterMove } := by
  unfold txPool.cmpAndMoveNextTx at hr
  cases hg : mapGet p.entries tx.GetAccountAddress with
  | none =>
    rw [hg] at hr
    simp only [Option.some.injEq, Prod.mk.injEq] at hr
    exact Or.inl ⟨hr.1.symm, hr.2.symm⟩
  | some te =>
    rw [hg] at hr
    simp only at hr
    split at hr
    · rename_i hc
      split at hr
      · rename_i q hq
        split at hr
        · rename_i hh
          simp only [Slice.tail, if_pos hc.2, Option.some.injEq, Prod.mk.injEq] at hr
          exact Or.inr ⟨te, q, rfl, hc.2, hc.1, hq, hh, hr.2.symm, hr.1.symm⟩
        · simp only [Option.some.injEq, Prod.mk.injEq] at hr
          exact Or.inl ⟨hr.1.symm, hr.2.symm⟩
      · exact absurd hr (by simp)
    · simp only [Option.some.injEq, Prod.mk.injEq] at hr
      exact Or.inl ⟨hr.1.symm, hr.2.symm⟩

/-- Worlds reached with nonce-ordered `addTx` calls satisfy `WorldInv`. -/
theorem worldInv_of_reach (w : World) (hw : Reach orderedAdd w) : WorldInv w := by
  induction hw with
  | init => exact ⟨fun _ => 0, fun p hp => absurd hp (List.not_mem_nil p)⟩
  | fresh w _ ih =>
    obtain ⟨origin, ho⟩ := ih
    refine ⟨origin, ?_⟩
    intro p hp kv hkv
    rcases List.mem_append.mp hp with h1 | h1
    · exact ho p h1 kv hkv
    · rw [List.mem_singleton] at h1
      subst h1
      exact absurd hkv (List.not_mem_nil kv)
  | add w i p tx hint _ hi hadm ih =>
    obtain ⟨origin, ho⟩ := ih
    have hpm : p ∈ w.pools := List.getElem?_mem hi
    obtain ⟨hM, hmatch⟩ := hadm
    have hE : ∃ E, (p.addTx w.heap tx hint) = ((E.addTx w.heap tx).1,
          { entries := mapSet p.entries tx.GetAccountAddress (E.addTx w.heap tx).2 }) ∧
        EntryInv origin w.heap E ∧
        tx.GetAccountNonce = E.baseNonce + E.transacions.len := by
      cases hg : mapGet p.entries tx.GetAccountAddress with
      | none =>
        rw [hg] at hmatch
        simp only at hmatch
        refine ⟨newAccountTxEntries tx.GetAccountAddress hint, ?_,
          entryInv_new origin w.heap _ hint (by omega), ?_⟩
        · unfold txPool.addTx
          simp only [hg]
        · simp only [newAccountTxEntries, nilSlice, Nat.add_zero]
          exact hmatch.symm
      | some e =>
        rw [hg] at hmatch
        simp only at hmatch
        refine ⟨e, ?_, ho p hpm _ (mapGet_mem _ _ _ hg), hmatch⟩
        unfold txPool.addTx
        simp only [hg]
    obtain ⟨E, hEq, hEinv, hEn⟩ := hE
    obtain ⟨origin', hself, hothers⟩ := entryInv_addTx origin w.heap E tx hEinv hEn hM
    refine ⟨origin', ?_⟩
    rw [hEq]
    intro q hq kv hkv
    simp only at hq hkv ⊢
    rcases List.mem_or_eq_of_mem_set hq with h1 | h1
    · exact hothers _ (ho q h1 kv hkv)
    · subst h1
      simp only at hkv
      rcases mem_mapSet _ _ _ _ hkv with h2 | h2
      · subst h2
        exact hself
      · exact hothers _ (ho p hpm kv h2)
  | move w i p tx p' ok _ hi hr ih =>
    obtain ⟨origin, ho⟩ := ih
    have hpm : p ∈ w.pools := List.getElem?_mem hi
    refine ⟨origin, ?_⟩
    intro q hq kv hkv
    simp only at hq hkv ⊢
    rcases List.mem_or_eq_of_mem_set hq with h1 | h1
    · exact ho q h1 kv hkv
    · subst h1
      rcases cmpAndMoveNextTx_cases _ _ _ _ _ hr with ⟨h2, _⟩ | ⟨te, _, hg, hl, _, _, _, _, h2⟩
      · subst h2
        exact ho _ hpm kv hkv
      · subst h2
        simp only at hkv
        rcases mem_mapSet _ _ _ _ hkv with h3 | h3
        · subst h3
          exact entryInv_move origin w.heap te (ho p hpm _ (mapGet_mem _ _ _ hg)) hl
        · exact ho p hpm kv h3
  | copy w i p _ hi ih =>
    obtain ⟨origin, ho⟩ := ih
    have hpm : p ∈ w.pools := List.getElem?_mem hi
    refine ⟨origin, ?_⟩
    intro q hq kv hkv
    simp only at hq hkv ⊢
    rcases List.mem_append.mp hq with h1 | h1
    · exact ho q h1 kv hkv
    · rw [List.mem_singleton] at h1
      subst h1
      simp only [txPool.halfDeepCopy, List.mem_map] at hkv
      obtain ⟨kv0, hkv0, hkveq⟩ := hkv
      subst hkveq
      exact ho p hpm kv0 hkv0

/-- C5 as stated fails: one `addTx` of a transaction with nonce 7 under the hint 5 gives
a reachable pool whose queue head does not have the base nonce. -/
theorem nonceOrdered_fails_for_any_add : Reach anyAdd badWorld ∧ ¬ badWorld.nonceOrdered := by
  constructor
  · exact Reach.add _ 0 newTxPool exT3 5 (Reach.fresh _ Reach.init) rfl trivial
  · intro hc
    obtain ⟨t, ht, hn⟩ := hc (newTxPool.addTx [] exT3 5).2 (List.mem_singleton.mpr rfl) 1
      { account := 1, baseNonce := 5, transacions := { arr := 0, off := 0, len := 1, cap := 1 } }
      rfl 0 (by decide)
    have ht2 : t = exT3 := by
      have : some (some exT3) = some (some t) := ht
      simp only [Option.some.injEq] at this
      exact this.symm
    subst ht2
    exact absurd hn (by decide)

/-- C5, amended: in every world reached from no pool by `newTxPool`, `cmpAndMoveNextTx`,
`halfDeepCopy` and `addTx` calls that respect nonce order, the `i`-th queued transaction
of every entry of every pool has nonce `baseNonce + i`. -/
theorem nonceOrdered_of_reach (w : World) (hw : Reach orderedAdd w) : w.nonceOrdered := by
  obtain ⟨origin, ho⟩ := worldInv_of_reach w hw
  intro p hp a e he i hi
  have hinv : EntryInv origin w.heap e := ho p hp _ (mapGet_mem _ _ _ he)
  obtain ⟨h1, h2, _, _, _, h6⟩ := hinv
  obtain ⟨t, ht, hn⟩ := h6 i hi
  refine ⟨t, ?_, hn⟩
  unfold accountTxEntries.queue
  rw [cells_getElem w.heap _ i (by omega) hi, ht]

/-- Witness of C5 (amended): the world after one nonce-ordered `addTx`. -/
theorem nonceOrdered_of_reach_witness :
    Reach orderedAdd { heap := (newTxPool.addTx [] exT1 5).1,
                       pools := [(newTxPool.addTx [] exT1 5).2] } ∧
      World.nonceOrdered { heap := (newTxPool.addTx [] exT1 5).1,
                           pools := [(newTxPool.addTx [] exT1 5).2] } :=
  have hr : Reach orderedAdd { heap := (newTxPool.addTx [] exT1 5).1,
                               pools := [(newTxPool.addTx [] exT1 5).2] } :=
    Reach.add _ 0 newTxPool exT1 5 (Reach.fresh _ Reach.init) rfl ⟨by decide, rfl⟩
  ⟨hr, nonceOrdered_of_reach _ hr⟩

/-! ## Pools built by nonce-ordered calls -/

theorem pairwise_mapSet (m : List (Nat × accountTxEntries)) (k : Nat) (v : accountTxEntries)
    (hm : m.Pairwise entriesApart)
    (hv : ∀ y ∈ m, y.1 ≠ k → entriesApart (k, v) y) :
    (mapSet m k v).Pairwise entriesApart := by
  induction m with
  | nil => simp [mapSet]
  | cons x rest ih =>
    obtain ⟨k0, v0⟩ := x
    rw [List.pairwise_cons] at hm
    obtain ⟨hx, hrest⟩ := hm
    simp only [mapSet]
    split
    · rename_i hk
      rw [List.pairwise_cons]
      refine ⟨?_, hrest⟩
      intro y hy
      have hne : y.1 ≠ k := by
        have h1 := (hx y hy).1
        simp only at h1
        rw [hk] at h1
        exact Ne.symm h1
      exact hv y (List.mem_cons_of_mem _ hy) hne
    · rename_i hk
      rw [List.pairwise_cons]
      refine ⟨?_, ih hrest (fun y hy hne => hv y (List.mem_cons_of_mem _ hy) hne)⟩
      intro y hy
      rcases mem_mapSet _ _ _ _ hy with h1 | h1
      · subst h1
        have h2 := hv (k0, v0) (List.mem_cons_self _ _) hk
        exact ⟨Ne.symm h2.1, fun ha hb => Ne.symm (h2.2 hb ha)⟩
      · exact hx y h1

theorem wf_of_entryInv (origin : Nat → Nat) (h : Heap) (e : accountTxEntries)
    (hE : EntryInv origin h e) (h63 : e.transacions.len < 2 ^ 63) : e.wf h := by
  obtain ⟨h1, h2, _, h4, _, h6⟩ := hE
  refine ⟨h4, h1, h63, h2, ?_⟩
  intro i hi
  obtain ⟨t, ht, _⟩ := h6 i hi
  rw [ht]
  rfl

theorem liveOf_append (live : List Transaction) (tx : Transaction) (a : Nat) :
    liveOf (live ++ [tx]) a =
      if tx.GetAccountAddress = a then liveOf live a ++ [tx] else liveOf live a := by
  unfold liveOf
  rw [List.filter_append]
  by_cases h : tx.GetAccountAddress = a
  · simp [h]
  · simp [h]

/-- Erasing the first transaction that compares equal to `tx` removes the head of the
live transactions of its account and leaves those of the other accounts. -/
theorem liveOf_eraseP (tx q : Transaction) (hq : sameTx tx q = true) :
    ∀ (live r : List Transaction), liveOf live tx.GetAccountAddress = q :: r →
      liveOf (live.eraseP (sameTx tx)) tx.GetAccountAddress = r ∧
      ∀ a, a ≠ tx.GetAccountAddress →
        liveOf (live.eraseP (sameTx tx)) a = liveOf live a := by
  intro live
  induction live with
  | nil =>
    intro r h
    simp [liveOf] at h
  | cons x xs ih =>
    intro r h
    by_cases hx : x.GetAccountAddress = tx.GetAccountAddress
    · have hl : liveOf (x :: xs) tx.GetAccountAddress
          = x :: liveOf xs tx.GetAccountAddress := by
        simp [liveOf, hx]
      rw [hl] at h
      simp only [List.cons.injEq] at h
      obtain ⟨h1, h2⟩ := h
      subst h1
      rw [List.eraseP_cons_of_pos hq]
      refine ⟨h2, ?_⟩
      intro a ha
      have hxa : ¬ x.GetAccountAddress = a := by
        rw [hx]; exact Ne.symm ha
      simp [liveOf, hxa]
    · have hs : ¬ sameTx tx x = true := by
        unfold sameTx
        simp only [decide_eq_true_eq, not_and]
        intro hc
        exact absurd hc hx
      have hl : liveOf (x :: xs) tx.GetAccountAddress = liveOf xs tx.GetAccountAddress := by
        simp [liveOf, hx]
      rw [hl] at h
      obtain ⟨ih1, ih2⟩ := ih r h
      rw [List.eraseP_cons_of_neg hs]
      refine ⟨?_, ?_⟩
      · have hl2 : liveOf (x :: xs.eraseP (sameTx tx)) tx.GetAccountAddress
            = liveOf (xs.eraseP (sameTx tx)) tx.GetAccountAddress := by
          simp [liveOf, hx]
        rw [hl2]
        exact ih1
      · intro a ha
        have := ih2 a ha
        unfold liveOf at this ⊢
        simp only [List.filter_cons]
        rw [this]

/-- The entry `addTx` appends to: the one of the address, or a new one. -/
theorem addTx_base (h : Heap) (p : txPool) (tx : Transaction) (hint : Nat) :
    ∃ E, p.addTx h tx hint = ((E.addTx h tx).1,
        { entries := mapSet p.entries tx.GetAccountAddress (E.addTx h tx).2 }) ∧
      (mapGet p.entries tx.GetAccountAddress = some E ∨
        (mapGet p.entries tx.GetAccountAddress = none ∧
          E = newAccountTxEntries tx.GetAccountAddress hint)) := by
  cases hg : mapGet p.entries tx.GetAccountAddress with
  | none =>
    refine ⟨newAccountTxEntries tx.GetAccountAddress hint, ?_, Or.inr ⟨rfl, rfl⟩⟩
    unfold txPool.addTx
    simp only [hg]
  | some e =>
    refine ⟨e, ?_, Or.inl rfl⟩
    unfold txPool.addTx
    simp only [hg]

theorem addTx_arr (h : Heap) (E : accountTxEntries) (tx : Transaction) :
    (E.transacions.len < E.transacions.cap ∧
        (E.addTx h tx).2.transacions.arr = E.transacions.arr) ∨
      (¬ E.transacions.len < E.transacions.cap ∧
        (E.addTx h tx).2.transacions.arr = h.length) := by
  unfold accountTxEntries.addTx Slice.append
  by_cases hlt : E.transacions.len < E.transacions.cap
  · left
    simp only [if_pos hlt]
    exact ⟨hlt, trivial⟩
  · right
    simp only [if_neg hlt]
    exact ⟨hlt, trivial⟩

/-- A nonce-ordered `addTx` within Go's `int` keeps `BuiltInv`, with the transaction
added to the live ones. -/
theorem builtInv_add (h : Heap) (p : txPool) (live : List Transaction) (tx : Transaction)
    (hint : Nat) (hinv : BuiltInv h p live) (hadm : orderedAdd p tx hint)
    (hfit : queueFits p tx) :
    BuiltInv (p.addTx h tx hint).1 (p.addTx h tx hint).2 (live ++ [tx]) := by
  obtain ⟨hwf, ⟨origin, hE⟩, hcont⟩ := hinv
  obtain ⟨hM, hmatch⟩ := hadm
  obtain ⟨E, hEq, hcase⟩ := addTx_base h p tx hint
  have hEinv : EntryInv origin h E := by
    rcases hcase with h1 | ⟨h1, h2⟩
    · exact hE _ (mapGet_mem _ _ _ h1)
    · rw [h1] at hmatch
      simp only at hmatch
      rw [h2]
      exact entryInv_new origin h _ hint (by omega)
  have hEn : tx.GetAccountNonce = E.baseNonce + E.transacions.len := by
    rcases hcase with h1 | ⟨h1, h2⟩
    · rw [h1] at hmatch
      exact hmatch
    · rw [h1] at hmatch
      simp only at hmatch
      rw [h2]
      simp only [newAccountTxEntries, nilSlice, Nat.add_zero]
      exact hmatch.symm
  have hElen : E.transacions.len + 1 < 2 ^ 63 := by
    rcases hcase with h1 | ⟨_, h2⟩
    · exact hfit E h1
    · rw [h2]
      simp [newAccountTxEntries, nilSlice]
  have hEq2 : E.queue h = (liveOf live tx.GetAccountAddress).map some := by
    have hc := hcont tx.GetAccountAddress
    rcases hcase with h1 | ⟨h1, h2⟩
    · rw [h1] at hc
      exact hc
    · rw [h1] at hc
      simp only at hc
      rw [hc, h2]
      simp [accountTxEntries.queue, newAccountTxEntries, nilSlice_cells]
  have hEap : E.transacions.len < E.transacions.cap →
      mapGet p.entries tx.GetAccountAddress = some E := by
    intro hlt
    rcases hcase with h1 | ⟨_, h2⟩
    · exact h1
    · rw [h2] at hlt
      simp [newAccountTxEntries, nilSlice] at hlt
  obtain ⟨origin', hself, hothers⟩ := entryInv_addTx origin h E tx hEinv hEn hM
  have hlen' : (E.addTx h tx).2.transacions.len = E.transacions.len + 1 := by
    unfold accountTxEntries.addTx
    exact append_len h _ tx
  obtain ⟨hE1, hE2, _, _, _, _⟩ := hEinv
  rw [hEq]
  refine ⟨⟨?_, ?_⟩, ⟨origin', ?_⟩, ?_⟩
  · intro kv hkv
    rcases mem_mapSet _ _ _ _ hkv with h1 | h1
    · subst h1
      exact wf_of_entryInv origin' _ _ hself (by rw [hlen']; exact hElen)
    · exact wf_of_entryInv origin' _ _ (hothers _ (hE kv h1)) (hwf.1 kv h1).2.2.1
  · apply pairwise_mapSet _ _ _ hwf.2
    intro y hy hne
    refine ⟨Ne.symm hne, ?_⟩
    intro _ hycap
    simp only at hycap ⊢
    rcases addTx_arr h E tx with ⟨hlt, harr⟩ | ⟨_, harr⟩
    · rw [harr]
      have hmem := mapGet_mem _ _ _ (hEap hlt)
      have hsymm : Symmetric entriesApart := by
        intro x z hxz
        exact ⟨Ne.symm hxz.1, fun hz hx => Ne.symm (hxz.2 hx hz)⟩
      have hap := hwf.2.forall hsymm hmem hy
        (fun hc => hne (congrArg Prod.fst hc).symm)
      exact hap.2 (by simp only; omega) hycap
    · rw [harr]
      have hyb := (hwf.1 y hy).2.2.2.1
      have := arr_lt_of_room h y.2.transacions.arr
        (y.2.transacions.off + y.2.transacions.cap) (by omega) hyb
      omega
  · intro kv hkv
    rcases mem_mapSet _ _ _ _ hkv with h1 | h1
    · subst h1
      exact hself
    · exact hothers _ (hE kv h1)
  · intro a
    simp only [mapGet_mapSet]
    by_cases ha : tx.GetAccountAddress = a
    · subst ha
      simp only [if_true]
      rw [liveOf_append, if_pos rfl, List.map_append, ← hEq2]
      unfold accountTxEntries.queue accountTxEntries.addTx
      exact append_cells h E.transacions tx hE2 hE1
    · simp only [if_neg ha]
      rw [liveOf_append, if_neg ha]
      have hc := hcont a
      cases hg : mapGet p.entries a with
      | none =>
        rw [hg] at hc
        exact hc
      | some e =>
        rw [hg] at hc
        simp only at hc ⊢
        rw [← hc]
        have hewf := hwf.1 _ (mapGet_mem _ _ _ hg)
        obtain ⟨_, he1, _, he2, _⟩ := hewf
        unfold accountTxEntries.queue accountTxEntries.addTx
        simp only at he1 he2 ⊢
        apply append_frame _ _ _ _ (by omega)
        intro hlt
        by_cases h0 : e.transacions.len = 0
        · exact Or.inl h0
        · right
          have hap := entriesApart_of_mem h p hwf a tx.GetAccountAddress e E
            (Ne.symm ha) hg (hEap hlt)
          have hc1 : 0 < e.transacions.cap := by omega
          have hc2 : 0 < E.transacions.cap := by omega
          exact hap.2 hc1 hc2

theorem afterMove_queue (h : Heap) (te : accountTxEntries) :
    te.afterMove.queue h = (te.queue h).tail := by
  unfold accountTxEntries.queue accountTxEntries.afterMove
  exact cells_tail h te.transacions

/-- A call of `cmpAndMoveNextTx` keeps `BuiltInv`, with the confirmed transaction taken
from the live ones. -/
theorem builtInv_move (h : Heap) (p : txPool) (live : List Transaction) (tx : Transaction)
    (p' : txPool) (ok : Bool) (hinv : BuiltInv h p live)
    (hr : p.cmpAndMoveNextTx h tx = some (p', ok)) :
    BuiltInv h p' (if ok then live.eraseP (sameTx tx) else live) := by
  rcases cmpAndMoveNextTx_cases _ _ _ _ _ hr with
    ⟨h1, h2⟩ | ⟨te, q, hg, hl, hnon, hidx, hhash, hok, hp'⟩
  · subst h1; subst h2
    exact hinv
  · subst hok; subst hp'
    simp only [if_true]
    obtain ⟨hwf, ⟨origin, hE⟩, hcont⟩ := hinv
    have hmem := mapGet_mem _ _ _ hg
    have hteinv : EntryInv origin h te := hE _ hmem
    have htewf : te.wf h := hwf.1 _ hmem
    have hcq := hcont tx.GetAccountAddress
    rw [hg] at hcq
    simp only at hcq
    have hq0 : heapGet h te.transacions.arr (te.transacions.off + 0) = some q := by
      unfold Slice.index at hidx
      rw [if_pos hl] at hidx
      simp only [Option.some.injEq] at hidx
      exact hidx
    have hhead : (te.queue h)[0]? = some (some q) := by
      unfold accountTxEntries.queue
      rw [cells_getElem h _ 0 (by have := htewf.2.1; have := htewf.2.2.2.1; omega) hl, hq0]
    have hlive : ∃ r, liveOf live tx.GetAccountAddress = q :: r := by
      rw [hcq] at hhead
      cases hlo : liveOf live tx.GetAccountAddress with
      | nil =>
        rw [hlo] at hhead
        simp at hhead
      | cons x r =>
        rw [hlo] at hhead
        simp only [List.map_cons, List.getElem?_cons_zero, Option.some.injEq] at hhead
        exact ⟨r, by rw [hhead]⟩
    obtain ⟨r, hr2⟩ := hlive
    have hqa : q.GetAccountAddress = tx.GetAccountAddress := by
      have hin : q ∈ liveOf live tx.GetAccountAddress := by
        rw [hr2]; exact List.mem_cons_self _ _
      unfold liveOf at hin
      simp only [List.mem_filter, decide_eq_true_eq] at hin
      exact hin.2
    have hqn : q.GetAccountNonce = tx.GetAccountNonce := by
      obtain ⟨t, ht, hn⟩ := hteinv.2.2.2.2.2 0 hl
      rw [hq0] at ht
      simp only [Option.some.injEq] at ht
      subst ht
      rw [hn, hnon]
      omega
    have hsame : sameTx tx q = true := by
      unfold sameTx
      simp only [decide_eq_true_eq]
      exact ⟨hqa, hqn, hhash.symm⟩
    obtain ⟨her1, her2⟩ := liveOf_eraseP tx q hsame live r hr2
    refine ⟨⟨?_, ?_⟩, ⟨origin, ?_⟩, ?_⟩
    · intro kv hkv
      rcases mem_mapSet _ _ _ _ hkv with h1 | h1
      · subst h1
        refine wf_of_entryInv origin h _ (entryInv_move origin h te hteinv hl) ?_
        have := htewf.2.2.1
        simp only [accountTxEntries.afterMove]
        omega
      · exact hwf.1 kv h1
    · apply pairwise_mapSet _ _ _ hwf.2
      intro y hy hne
      have hsymm : Symmetric entriesApart := by
        intro x z hxz
        exact ⟨Ne.symm hxz.1, fun hz hx => Ne.symm (hxz.2 hx hz)⟩
      have hap := hwf.2.forall hsymm hmem hy (fun hc => hne (congrArg Prod.fst hc).symm)
      refine ⟨Ne.symm hne, ?_⟩
      intro hc1 hc2
      simp only [accountTxEntries.afterMove] at hc1 ⊢
      exact hap.2 (by simp only; omega) hc2
    · intro kv hkv
      rcases mem_mapSet _ _ _ _ hkv with h1 | h1
      · subst h1
        exact entryInv_move origin h te hteinv hl
      · exact hE kv h1
    · intro a
      simp only [mapGet_mapSet]
      by_cases ha : tx.GetAccountAddress = a
      · subst ha
        simp only [if_true]
        rw [afterMove_queue, hcq, hr2, her1]
        rfl
      · simp only [if_neg ha]
        rw [her2 a (Ne.symm ha)]
        exact hcont a

theorem builtInv_of_built (h : Heap) (p : txPool) (live : List Transaction)
    (hb : Built h p live) : BuiltInv h p live := by
  induction hb with
  | empty =>
    refine ⟨⟨fun kv hkv => absurd hkv (List.not_mem_nil kv), List.Pairwise.nil⟩,
      ⟨fun _ => 0, fun kv hkv => absurd hkv (List.not_mem_nil kv)⟩, ?_⟩
    intro a
    simp [newTxPool, mapGet, liveOf]
  | add h p live tx hint _ hadm hfit ih => exact builtInv_add h p live tx hint ih hadm hfit
  | move h p live tx p' ok _ hr ih => exact builtInv_move h p live tx p' ok ih hr

/-- On a pool built by nonce-ordered calls, `hasTx(tx)` returns true exactly when a
transaction with the address, nonce and hash of `tx` was added and has not yet been
removed by a successful `cmpAndMoveNextTx`. -/
theorem hasTx_iff_live (h : Heap) (p : txPool) (live : List Transaction) (tx : Transaction)
    (hb : Built h p live) (htx : tx.GetAccountNonce < nonceMod) :
    p.hasTx h tx = some true ↔ ∃ t ∈ live, sameTx tx t = true := by
  obtain ⟨hwf, ⟨origin, hE⟩, hcont⟩ := builtInv_of_built h p live hb
  constructor
  · intro ht
    obtain ⟨e, q, hg, hle, hlt, hq, hh⟩ := hasTx_true_elim h p tx htx ht
    have hmem := mapGet_mem _ _ _ hg
    have hewf : e.wf h := hwf.1 _ hmem
    have heinv : EntryInv origin h e := hE _ hmem
    have hcq := hcont tx.GetAccountAddress
    rw [hg] at hcq
    simp only at hcq
    have hqi : (e.queue h)[tx.GetAccountNonce - e.baseNonce]? = some (some q) := by
      unfold accountTxEntries.queue
      rw [cells_getElem h _ _ (by have := hewf.2.1; have := hewf.2.2.2.1; omega) hlt, hq]
    rw [hcq, List.getElem?_map] at hqi
    have hql : (liveOf live tx.GetAccountAddress)[tx.GetAccountNonce - e.baseNonce]?
        = some q := by
      cases hx : (liveOf live tx.GetAccountAddress)[tx.GetAccountNonce - e.baseNonce]? with
      | none =>
        rw [hx] at hqi
        simp at hqi
      | some x =>
        rw [hx] at hqi
        simp only [Option.map_some', Option.some.injEq] at hqi
        rw [hqi]
    have hin : q ∈ liveOf live tx.GetAccountAddress := List.getElem?_mem hql
    unfold liveOf at hin
    simp only [List.mem_filter, decide_eq_true_eq] at hin
    refine ⟨q, hin.1, ?_⟩
    obtain ⟨t, ht2, hn⟩ := heinv.2.2.2.2.2 _ hlt
    rw [hq] at ht2
    simp only [Option.some.injEq] at ht2
    subst ht2
    unfold sameTx
    simp only [decide_eq_true_eq]
    exact ⟨hin.2, by rw [hn]; omega, hh⟩
  · rintro ⟨t, htl, hs⟩
    unfold sameTx at hs
    simp only [decide_eq_true_eq] at hs
    obtain ⟨hta, htn, hth⟩ := hs
    have hin : t ∈ liveOf live tx.GetAccountAddress := by
      unfold liveOf
      simp only [List.mem_filter, decide_eq_true_eq]
      exact ⟨htl, hta⟩
    have hcq := hcont tx.GetAccountAddress
    cases hg : mapGet p.entries tx.GetAccountAddress with
    | none =>
      rw [hg] at hcq
      simp only at hcq
      rw [hcq] at hin
      exact absurd hin (List.not_mem_nil t)
    | some e =>
      rw [hg] at hcq
      simp only at hcq
      have hmem := mapGet_mem _ _ _ hg
      have hewf : e.wf h := hwf.1 _ hmem
      have heinv : EntryInv origin h e := hE _ hmem
      obtain ⟨i, hi⟩ := List.mem_iff_getElem?.mp hin
      have hqi : (e.queue h)[i]? = some (some t) := by
        rw [hcq, List.getElem?_map, hi]
        rfl
      have hbound : e.transacions.off + e.transacions.len
          ≤ (h.getD e.transacions.arr []).length := by
        have := hewf.2.1
        have := hewf.2.2.2.1
        omega
      have hilt : i < e.transacions.len := by
        have hlen := cells_length h e.transacions hbound
        have := (List.getElem?_eq_some_iff.mp hqi).1
        unfold accountTxEntries.queue at this
        omega
      have hcell : heapGet h e.transacions.arr (e.transacions.off + i) = some t := by
        unfold accountTxEntries.queue at hqi
        rw [cells_getElem h _ i hbound hilt] at hqi
        simp only [Option.some.injEq] at hqi
        exact hqi
      obtain ⟨t2, ht2, hn⟩ := heinv.2.2.2.2.2 i hilt
      rw [hcell] at ht2
      simp only [Option.some.injEq] at ht2
      subst ht2
      have hoff : tx.GetAccountNonce - e.baseNonce = i := by omega
      have hle : e.baseNonce ≤ tx.GetAccountNonce := by omega
      rw [hasTx_eval h p tx e t htx hg hle (by omega) hewf.2.2.1 (by rw [hoff]; exact hcell)]
      simp only [Option.some.injEq, decide_eq_true_eq]
      exact hth.symm

/-! ## C6: membership after confirmation -/

/-- C6 at a failing input: `addTx(maxTx, maxTx.nonce)` on a new pool respects nonce
order, and `cmpAndMoveNextTx(maxTx)` then returns true, leaving an empty queue whose base
nonce has wrapped to 0. A following `hasTx(maxTx)` does not return false: the index
`int(nonce - baseNonce)` is `-1`, passes the test `index < len`, and the index expression
panics. A second `cmpAndMoveNextTx(maxTx)` returns false. -/
theorem hasTx_panics_after_move :
    orderedAdd newTxPool maxTx 18446744073709551615 ∧
    maxAdded.2.cmpAndMoveNextTx maxAdded.1 maxTx = some (maxMoved, true) ∧
    maxMoved.hasTx maxAdded.1 maxTx = none ∧
    maxMoved.cmpAndMoveNextTx maxAdded.1 maxTx = some (maxMoved, false) :=
  ⟨⟨by decide, rfl⟩, by decide, by decide, by decide⟩

/-! ## C27: the index expression of hasTx -/

theorem toInt_negative (u : Nat) (hu : u < nonceMod) (h63 : 2 ^ 63 ≤ u) :
    toInt u = (u : Int) - 2 ^ 64 ∧ toInt u < 0 := by
  unfold toInt
  unfold nonceMod at hu
  rw [if_neg (by omega)]
  exact ⟨rfl, by omega⟩

/-- C27 fails. In the pool reached by `addTx(zeroTx, 0)`, whose queue has one element
from base nonce 0, `hasTx(halfTx)` for a transaction with the nonce `2^63` passes the test
`nonce >= baseNonce && index < len` with `index = int(2^63) = -2^63` and panics in
`te.transacions[index]`. In general, in every pool, whenever the account has an entry,
`nonce >= baseNonce` and `nonce - baseNonce >= 2^63`, the index expression is reached with
the negative index `nonce - baseNonce - 2^64` and the call panics; an index that reaches
the expression is below `len`, and it is non-negative exactly when
`nonce - baseNonce < 2^63`. -/
theorem hasTx_negative_index :
    zeroAdded.2.wf zeroAdded.1 ∧
    zeroAdded.2.hasTxIndex halfTx = some (-9223372036854775808) ∧
    zeroAdded.2.hasTx zeroAdded.1 halfTx = none ∧
    (∀ (h : Heap) (p : txPool) (tx : Transaction) (te : accountTxEntries),
      mapGet p.entries tx.GetAccountAddress = some te →
      te.baseNonce ≤ tx.GetAccountNonce → tx.GetAccountNonce < nonceMod →
      2 ^ 63 ≤ tx.GetAccountNonce - te.baseNonce →
      p.hasTxIndex tx = some (((tx.GetAccountNonce - te.baseNonce : Nat) : Int) - 2 ^ 64) ∧
      p.hasTx h tx = none) ∧
    (∀ (p : txPool) (tx : Transaction) (te : accountTxEntries) (i : Int),
      mapGet p.entries tx.GetAccountAddress = some te → tx.GetAccountNonce < nonceMod →
      p.hasTxIndex tx = some i →
      i < (te.transacions.len : Int) ∧
      (0 ≤ i ↔ tx.GetAccountNonce - te.baseNonce < 2 ^ 63)) := by
  refine ⟨by decide, by decide, by decide, ?_, ?_⟩
  · intro h p tx te hg hle hlt h63
    have hsub := toInt_subNonce tx.GetAccountNonce te.baseNonce hlt hle
    obtain ⟨hneg, hneg0⟩ := toInt_negative (tx.GetAccountNonce - te.baseNonce)
      (by omega) h63
    have hc : toInt (tx.GetAccountNonce - te.baseNonce) < (te.transacions.len : Int) := by
      omega
    constructor
    · unfold txPool.hasTxIndex
      rw [hg]
      simp only
      rw [hsub, if_pos ⟨hle, hc⟩, hneg]
    · unfold txPool.hasTx
      rw [hg]
      simp only
      rw [hsub, if_pos ⟨hle, hc⟩, if_pos hneg0]
  · intro p tx te i hg hlt hi
    unfold txPool.hasTxIndex at hi
    rw [hg] at hi
    simp only at hi
    split at hi
    · rename_i hc
      simp only [Option.some.injEq] at hi
      rw [toInt_subNonce tx.GetAccountNonce te.baseNonce hlt hc.1] at hc hi
      refine ⟨by rw [← hi]; exact hc.2, ?_⟩
      rw [← hi]
      unfold toInt
      by_cases h63 : tx.GetAccountNonce - te.baseNonce < 2 ^ 63
      · rw [if_pos h63]
        exact ⟨fun _ => h63, fun _ => by omega⟩
      · rw [if_neg h63]
        unfold nonceMod at hlt
        constructor
        · intro h0
          omega
        · intro h0
          exact absurd h0 h63
    · exact absurd hi (by simp)

/-! ## Lemmas on the index maps and the arena -/

theorem mapSet_of_mapGet {β : Type} (m : List (Nat × β)) (k : Nat) (v : β)
    (h : mapGet m k = some v) : mapSet m k v = m := by
  induction m with
  | nil => simp [mapGet] at h
  | cons x rest ih =>
    obtain ⟨k0, v0⟩ := x
    simp only [mapGet] at h
    simp only [mapSet]
    split at h
    · rename_i hk
      simp only [Option.some.injEq] at h
      rw [if_pos hk, ← hk, h]
    · rename_i hk
      rw [if_neg hk, ih h]

theorem ensure_get (m : List (Nat × QueryTracker)) (k : Nat) :
    mapGet (SeqIndexEnsure m k).1 k = some (SeqIndexEnsure m k).2 := by
  unfold SeqIndexEnsure
  cases h : mapGet m k with
  | none => simp only [mapGet_mapSet, if_true]
  | some q => exact h

theorem ensure_of_get (m : List (Nat × QueryTracker)) (k : Nat) (q : QueryTracker)
    (h : mapGet m k = some q) : SeqIndexEnsure m k = (m, q) := by
  unfold SeqIndexEnsure
  rw [h]

theorem set_same {α : Type} (ts : List α) (v : Nat) (t : α) (h : ts[v]? = some t) :
    ts.set v t = ts := by
  apply List.ext_getElem?
  intro n
  by_cases hn : v = n
  · subst hn
    rw [List.getElem?_set_self (List.getElem?_eq_some_iff.mp h).1, h]
  · rw [List.getElem?_set_ne hn]

theorem getElem?_set_valid {α : Type} (ts : List α) (v : Nat) (t t' : α)
    (h : ts[v]? = some t) : (ts.set v t')[v]? = some t' :=
  List.getElem?_set_self (List.getElem?_eq_some_iff.mp h).1

theorem getElem?_append_new {α : Type} (ts : List α) (t : α) :
    (ts ++ [t])[ts.length]? = some t := by
  simp

/-! ## C7: RequestTracker.UpdateAck -/

theorem UpdateAck_unset (s : RequestTracker) (ack : SignedAckHeader) (h : s.Ack = none) :
    s.UpdateAck ack =
      ({ Response := some ack.SignedResponseHeader, Ack := some ack, SignedBlock := none },
        true, none) := by
  unfold RequestTracker.UpdateAck
  rw [h]

theorem UpdateAck_same (s : RequestTracker) (ack a : SignedAckHeader) (h : s.Ack = some a)
    (heq : a.HeaderHash = ack.HeaderHash) : s.UpdateAck ack = (s, false, none) := by
  unfold RequestTracker.UpdateAck
  rw [h]
  simp only [heq, ne_eq, not_true_eq_false, if_false]

theorem UpdateAck_other (s : RequestTracker) (ack a : SignedAckHeader) (h : s.Ack = some a)
    (hne : a.HeaderHash ≠ ack.HeaderHash) :
    s.UpdateAck ack = (s, false, some QueryError.ErrMultipleAckOfResponse) := by
  unfold RequestTracker.UpdateAck
  rw [h]
  simp only [ne_eq, hne, not_false_eq_true, if_true]

/-- C7: `UpdateAck` has three outcomes. With no `Ack` the tracker takes the response of
`ack` and `ack` itself (and a nil `SignedBlock`) and the call returns `(true, nil)`; with
an `Ack` of the same header hash the tracker is unchanged and the call returns
`(false, nil)`; otherwise the tracker is unchanged and the call returns
`(false, ErrMultipleAckOfResponse)`. -/
theorem UpdateAck_outcomes (s : RequestTracker) (ack : SignedAckHeader) :
    (s.Ack = none →
      s.UpdateAck ack =
        ({ Response := some ack.SignedResponseHeader, Ack := some ack, SignedBlock := none },
          true, none)) ∧
    (∀ a, s.Ack = some a → a.HeaderHash = ack.HeaderHash →
      s.UpdateAck ack = (s, false, none)) ∧
    (∀ a, s.Ack = some a → a.HeaderHash ≠ ack.HeaderHash →
      s.UpdateAck ack = (s, false, some QueryError.ErrMultipleAckOfResponse)) := by
  exact ⟨UpdateAck_unset s ack, fun a h heq => UpdateAck_same s ack a h heq,
    fun a h hne => UpdateAck_other s ack a h hne⟩

/-- Witness of C7: the first acknowledgement of a tracker that has a response only. -/
theorem UpdateAck_outcomes_witness :
    exTracker.Ack = none ∧
      exTracker.UpdateAck exAck1 =
        ({ Response := some exAck1.SignedResponseHeader, Ack := some exAck1,
           SignedBlock := none }, true, none) :=
  ⟨rfl, (UpdateAck_outcomes exTracker exAck1).1 rfl⟩

/-! ## The invariant of reachable indexes -/

theorem grow_refl (ts : List RequestTracker) : TrackersGrow ts ts :=
  fun _ t h => ⟨t, h, id, id⟩

theorem grow_trans (ts1 ts2 ts3 : List RequestTracker) (h12 : TrackersGrow ts1 ts2)
    (h23 : TrackersGrow ts2 ts3) : TrackersGrow ts1 ts3 := by
  intro f t h
  obtain ⟨t2, h2, hr2, ha2⟩ := h12 f t h
  obtain ⟨t3, h3, hr3, ha3⟩ := h23 f t2 h2
  exact ⟨t3, h3, fun x => hr3 (hr2 x), fun x => ha3 (ha2 x)⟩

theorem grow_set (ts : List RequestTracker) (v : Nat) (t t' : RequestTracker)
    (hv : ts[v]? = some t) (hr : t.Response ≠ none → t'.Response ≠ none)
    (ha : t.Ack ≠ none → t'.Ack ≠ none) : TrackersGrow ts (ts.set v t') := by
  intro f t0 h
  by_cases hf : v = f
  · subst hf
    rw [hv] at h
    simp only [Option.some.injEq] at h
    subst h
    exact ⟨t', List.getElem?_set_self (List.getElem?_eq_some_iff.mp hv).1, hr, ha⟩
  · exact ⟨t0, by rw [List.getElem?_set_ne hf]; exact h, id, id⟩

theorem grow_append (ts : List RequestTracker) (t : RequestTracker) :
    TrackersGrow ts (ts ++ [t]) := by
  intro f t0 h
  refine ⟨t0, ?_, id, id⟩
  rw [List.getElem?_append_left (List.getElem?_eq_some_iff.mp h).1]
  exact h

theorem ensure_mem (m : List (Nat × QueryTracker)) (k : Nat) (kv : Nat × QueryTracker)
    (h : kv ∈ (SeqIndexEnsure m k).1) : kv ∈ m ∨ kv.2.FirstAck = none := by
  unfold SeqIndexEnsure at h
  cases hg : mapGet m k with
  | none =>
    rw [hg] at h
    rcases mem_mapSet _ _ _ _ h with h1 | h1
    · subst h1
      exact Or.inr rfl
    · exact Or.inl h1
  | some q =>
    rw [hg] at h
    exact Or.inl h

theorem ensure_snd (m : List (Nat × QueryTracker)) (k : Nat) :
    (k, (SeqIndexEnsure m k).2) ∈ m ∨ (SeqIndexEnsure m k).2.FirstAck = none := by
  unfold SeqIndexEnsure
  cases hg : mapGet m k with
  | none => exact Or.inr rfl
  | some q => exact Or.inl (mapGet_mem _ _ _ hg)

/-- The invariant passes to an index whose trackers have grown and whose new map
entries are sound. -/
theorem inv_of_shape (i i1 : MultiIndex) (hI : i.Inv)
    (hg : TrackersGrow i.trackers i1.trackers)
    (hr : ∀ kv ∈ i1.RespIndex, kv ∈ i.RespIndex ∨
      ∃ t, i1.trackers[kv.2]? = some t ∧ t.Response ≠ none)
    (hs : ∀ kv ∈ i1.SeqIndex, kv ∈ i.SeqIndex ∨
      ∀ f, kv.2.FirstAck = some f → ∃ t, i1.trackers[f]? = some t ∧ t.Ack ≠ none) :
    i1.Inv := by
  constructor
  · intro kv hkv
    rcases hr kv hkv with h1 | h1
    · obtain ⟨t, ht, htr⟩ := hI.1 kv h1
      obtain ⟨t', ht', hr', _⟩ := hg _ t ht
      exact ⟨t', ht', hr' htr⟩
    · exact h1
  · intro kv hkv f hf
    rcases hs kv hkv with h1 | h1
    · obtain ⟨t, ht, hta⟩ := hI.2 kv h1 f hf
      obtain ⟨t', ht', _, ha'⟩ := hg _ t ht
      exact ⟨t', ht', ha' hta⟩
    · exact h1 f hf

theorem AddResponse_inv (i : MultiIndex) (resp : SignedResponseHeader) (hI : i.Inv) :
    (i.AddResponse resp).1.Inv := by
  unfold MultiIndex.AddResponse
  cases hv : mapGet i.RespIndex resp.HeaderHash with
  | some v =>
    simp only
    cases ht : i.trackers[v]? with
    | none => exact hI
    | some t =>
      simp only
      cases hr : t.Response with
      | none => exact hI
      | some r =>
        simp only
        exact inv_of_shape i _ hI
          (grow_set _ _ _ _ ht (fun _ => by simp) (fun h => h))
          (fun kv h => Or.inl h) (fun kv h => Or.inl h)
  | none =>
    simp only
    refine inv_of_shape i _ hI (grow_append _ _) ?_ ?_
    · intro kv hkv
      simp only at hkv ⊢
      rcases mem_mapSet _ _ _ _ hkv with h1 | h1
      · subst h1
        exact Or.inr ⟨_, getElem?_append_new _ _, by simp⟩
      · exact Or.inl h1
    · intro kv hkv
      simp only at hkv ⊢
      rcases mem_mapSet _ _ _ _ hkv with h1 | h1
      · subst h1
        rcases ensure_snd i.SeqIndex resp.SeqNo with h2 | h2
        · obtain ⟨_, hI2⟩ := hI
          right
          intro f hf
          obtain ⟨t, ht, hta⟩ := hI2 _ h2 f hf
          obtain ⟨t', ht', _, ha'⟩ := grow_append i.trackers
            { Response := some resp, Ack := none, SignedBlock := none } f t ht
          exact ⟨t', ht', ha' hta⟩
        · right
          intro f hf
          simp only [h2] at hf
          exact absurd hf (by simp)
      · rcases ensure_mem _ _ _ h1 with h2 | h2
        · exact Or.inl h2
        · right
          intro f hf
          rw [h2] at hf
          exact absurd hf (by simp)

/-- The closing test of `AddAck` adds to `SeqIndex` only query trackers whose first
acknowledgement is allocated and acknowledged. -/
theorem settleFirstAck_shape (i1 : MultiIndex) (seq : Nat) (q : QueryTracker) (v : Nat)
    (a : SignedAckHeader) (i2 : MultiIndex) (e : Option QueryError)
    (h : i1.settleFirstAck seq q v a = some (i2, e))
    (hv : ∃ t, i1.trackers[v]? = some t ∧ t.Ack ≠ none) :
    i2.trackers = i1.trackers ∧ i2.RespIndex = i1.RespIndex ∧
      ∀ kv ∈ i2.SeqIndex, kv ∈ i1.SeqIndex ∨
        ∀ f, kv.2.FirstAck = some f → ∃ t, i1.trackers[f]? = some t ∧ t.Ack ≠ none := by
  unfold MultiIndex.settleFirstAck at h
  have hout : ∀ (j : MultiIndex) (r : Option QueryError) (q2 : QueryTracker),
      some (j, r) = some (i2, e) → j.trackers = i1.trackers → j.RespIndex = i1.RespIndex →
      j.SeqIndex = mapSet i1.SeqIndex seq q2 →
      (∀ f, q2.FirstAck = some f → ∃ t, i1.trackers[f]? = some t ∧ t.Ack ≠ none) →
      i2.trackers = i1.trackers ∧ i2.RespIndex = i1.RespIndex ∧
        ∀ kv ∈ i2.SeqIndex, kv ∈ i1.SeqIndex ∨
          ∀ f, kv.2.FirstAck = some f → ∃ t, i1.trackers[f]? = some t ∧ t.Ack ≠ none := by
    intro j r q2 h4 h1 h2 h3 hq2
    simp only [Option.some.injEq, Prod.mk.injEq] at h4
    obtain ⟨h5, _⟩ := h4
    subst h5
    refine ⟨h1, h2, ?_⟩
    intro kv hkv
    rw [h3] at hkv
    rcases mem_mapSet _ _ _ _ hkv with h6 | h6
    · subst h6
      exact Or.inr hq2
    · exact Or.inl h6
  have hfresh : ∀ f, ({ q with FirstAck := some v } : QueryTracker).FirstAck = some f →
      ∃ t, i1.trackers[f]? = some t ∧ t.Ack ≠ none := by
    intro f hf
    simp only [Option.some.injEq] at hf
    subst hf
    exact hv
  split at h
  · exact hout _ _ _ h rfl rfl rfl hfresh
  · rename_i f hf
    split at h
    · exact hout _ _ _ h rfl rfl rfl hfresh
    · rename_i ft hft
      split at h
      · exact absurd h (by simp)
      · rename_i fa hfa
        have hq : ∀ f', q.FirstAck = some f' →
            ∃ t, i1.trackers[f']? = some t ∧ t.Ack ≠ none := by
          intro f' hf'
          rw [hf] at hf'
          simp only [Option.some.injEq] at hf'
          subst hf'
          exact ⟨ft, hft, by rw [hfa]; simp⟩
        split at h
        · exact hout _ _ _ h rfl rfl rfl hq
        · exact hout _ _ _ h rfl rfl rfl hq

/-- The closing test of `AddAck` returns when the first acknowledgement, if allocated,
is acknowledged. -/
theorem settleFirstAck_total (i1 : MultiIndex) (seq : Nat) (q : QueryTracker) (v : Nat)
    (a : SignedAckHeader)
    (hq : ∀ f ft, q.FirstAck = some f → i1.trackers[f]? = some ft → ft.Ack ≠ none) :
    ∃ r, i1.settleFirstAck seq q v a = some r := by
  unfold MultiIndex.settleFirstAck
  split
  · exact ⟨_, rfl⟩
  · rename_i f hf
    split
    · exact ⟨_, rfl⟩
    · rename_i ft hft
      split
      · rename_i hfa
        exact absurd hfa (hq f ft hf hft)
      · split
        · exact ⟨_, rfl⟩
        · exact ⟨_, rfl⟩

theorem inv_after_settle (i1 i2 : MultiIndex) (seq : Nat) (q : QueryTracker) (v : Nat)
    (a : SignedAckHeader) (e : Option QueryError) (hI : i1.Inv)
    (h : i1.settleFirstAck seq q v a = some (i2, e))
    (hv : ∃ t, i1.trackers[v]? = some t ∧ t.Ack ≠ none) : i2.Inv := by
  obtain ⟨h1, h2, h3⟩ := settleFirstAck_shape i1 seq q v a i2 e h hv
  refine inv_of_shape i1 i2 hI (by rw [h1]; exact grow_refl _) ?_ ?_
  · intro kv hkv
    rw [h2] at hkv
    exact Or.inl hkv
  · intro kv hkv
    rw [h1]
    exact h3 kv hkv

theorem UpdateAck_keeps (t : RequestTracker) (a : SignedAckHeader) :
    (t.UpdateAck a).1.Response ≠ none ∧ (t.UpdateAck a).1.Ack ≠ none ∨
      (t.UpdateAck a).1 = t ∧ t.Ack ≠ none := by
  unfold RequestTracker.UpdateAck
  cases hb : t.Ack with
  | none => left; simp
  | some b =>
    right
    simp only
    split <;> simp

theorem UpdateAck_acked (t : RequestTracker) (a : SignedAckHeader) :
    (t.UpdateAck a).1.Ack ≠ none := by
  rcases UpdateAck_keeps t a with h | h
  · exact h.2
  · rw [h.1]; exact h.2

theorem UpdateAck_responded (t : RequestTracker) (a : SignedAckHeader)
    (h : t.Response ≠ none) : (t.UpdateAck a).1.Response ≠ none := by
  rcases UpdateAck_keeps t a with h1 | h1
  · exact h1.1
  · rw [h1.1]; exact h

/-- The index `AddAck` hands to its closing test, for a tracker found in `RespIndex`. -/
theorem inv_ack_found (i : MultiIndex) (a : SignedAckHeader) (v : Nat) (t t' : RequestTracker)
    (hI : i.Inv) (ht : i.trackers[v]? = some t)
    (hr : t.Response ≠ none → t'.Response ≠ none) (ha : t.Ack ≠ none → t'.Ack ≠ none) :
    MultiIndex.Inv { trackers := i.trackers.set v t', RespIndex := i.RespIndex,
                     AckIndex := mapSet i.AckIndex a.HeaderHash v,
                     SeqIndex := (SeqIndexEnsure i.SeqIndex a.SeqNo).1 } := by
  refine inv_of_shape i _ hI (grow_set _ _ _ _ ht hr ha) (fun kv h => Or.inl h) ?_
  intro kv hkv
  rcases ensure_mem _ _ _ hkv with h2 | h2
  · exact Or.inl h2
  · right
    intro f hf
    rw [h2] at hf
    exact absurd hf (by simp)

/-- The index `AddAck` hands to its closing test, for a new tracker. -/
theorem inv_ack_new (i : MultiIndex) (a : SignedAckHeader) (hI : i.Inv) :
    MultiIndex.Inv { trackers := i.trackers ++
                       [{ Response := some a.SignedResponseHeader, Ack := some a,
                          SignedBlock := none }],
                     RespIndex := mapSet i.RespIndex a.ResponseHeaderHash i.trackers.length,
                     AckIndex := mapSet i.AckIndex a.HeaderHash i.trackers.length,
                     SeqIndex := (SeqIndexEnsure i.SeqIndex a.SeqNo).1 } := by
  refine inv_of_shape i _ hI (grow_append _ _) ?_ ?_
  · intro kv hkv
    simp only at hkv ⊢
    rcases mem_mapSet _ _ _ _ hkv with h1 | h1
    · subst h1
      exact Or.inr ⟨_, getElem?_append_new _ _, by simp⟩
    · exact Or.inl h1
  · intro kv hkv
    rcases ensure_mem _ _ _ hkv with h2 | h2
    · exact Or.inl h2
    · right
      intro f hf
      rw [h2] at hf
      exact absurd hf (by simp)

theorem inv_ensure (i : MultiIndex) (k : Nat) (hI : i.Inv) :
    MultiIndex.Inv { i with SeqIndex := (SeqIndexEnsure i.SeqIndex k).1 } := by
  refine inv_of_shape i _ hI (grow_refl _) (fun kv h => Or.inl h) ?_
  intro kv hkv
  rcases ensure_mem _ _ _ hkv with h2 | h2
  · exact Or.inl h2
  · right
    intro f hf
    rw [h2] at hf
    exact absurd hf (by simp)

theorem AddAck_inv (i : MultiIndex) (a : SignedAckHeader) (i1 : MultiIndex)
    (e : Option QueryError) (hI : i.Inv) (h : i.AddAck a = some (i1, e)) : i1.Inv := by
  unfold MultiIndex.AddAck at h
  cases hv : mapGet i.RespIndex a.ResponseHeaderHash with
  | some v =>
    rw [hv] at h
    simp only at h
    cases ht : i.trackers[v]? with
    | none =>
      rw [ht] at h
      simp only [Option.some.injEq, Prod.mk.injEq] at h
      rw [← h.1]
      exact inv_ensure i _ hI
    | some t =>
      rw [ht] at h
      simp only at h
      cases hr : t.Response with
      | none =>
        rw [hr] at h
        simp only [Option.some.injEq, Prod.mk.injEq] at h
        rw [← h.1]
        exact inv_ensure i _ hI
      | some r =>
        rw [hr] at h
        simp only at h
        have hI1 := inv_ack_found i a v t (t.UpdateAck a).1 hI ht
          (UpdateAck_responded t a) (fun _ => UpdateAck_acked t a)
        split at h
        · simp only [Option.some.injEq, Prod.mk.injEq] at h
          rw [← h.1]
          exact hI1
        · exact inv_after_settle _ i1 _ _ v a e hI1 h
            ⟨_, getElem?_set_valid _ _ _ _ ht, UpdateAck_acked t a⟩
  | none =>
    rw [hv] at h
    simp only at h
    exact inv_after_settle _ i1 _ _ _ a e (inv_ack_new i a hI) h
      ⟨_, getElem?_append_new _ _, by simp⟩

/-- On an index that satisfies the invariant `AddAck` does not panic. -/
theorem AddAck_total (i : MultiIndex) (a : SignedAckHeader) (hI : i.Inv) :
    ∃ r, i.AddAck a = some r := by
  have hfirst : ∀ (j : MultiIndex), j.Inv →
      j.SeqIndex = (SeqIndexEnsure i.SeqIndex a.SeqNo).1 →
      ∀ f ft, (SeqIndexEnsure i.SeqIndex a.SeqNo).2.FirstAck = some f →
        j.trackers[f]? = some ft → ft.Ack ≠ none := by
    intro j hj hs f ft hf hft
    have hmem : (a.SeqNo, (SeqIndexEnsure i.SeqIndex a.SeqNo).2) ∈ j.SeqIndex := by
      rw [hs]
      exact mapGet_mem _ _ _ (ensure_get _ _)
    obtain ⟨t, ht, hta⟩ := hj.2 _ hmem f hf
    rw [ht] at hft
    simp only [Option.some.injEq] at hft
    subst hft
    exact hta
  unfold MultiIndex.AddAck
  cases hv : mapGet i.RespIndex a.ResponseHeaderHash with
  | some v =>
    simp only
    cases ht : i.trackers[v]? with
    | none => exact ⟨_, rfl⟩
    | some t =>
      simp only
      cases hr : t.Response with
      | none => exact ⟨_, rfl⟩
      | some r =>
        simp only
        have hI1 := inv_ack_found i a v t (t.UpdateAck a).1 hI ht
          (UpdateAck_responded t a) (fun _ => UpdateAck_acked t a)
        split
        · exact ⟨_, rfl⟩
        · apply settleFirstAck_total
          intro f ft hf hft
          refine hfirst _ hI1 rfl f ft ?_ hft
          split at hf
          · exact hf
          · exact hf
  | none =>
    simp only
    apply settleFirstAck_total
    intro f ft hf hft
    exact hfirst _ (inv_ack_new i a hI) rfl f ft hf hft

theorem SetSignedBlock_inv (i : MultiIndex) (b : HashRef) (a : Nat) (i1 : MultiIndex)
    (hI : i.Inv) (h : i.SetSignedBlock b a = some i1) : i1.Inv := by
  unfold MultiIndex.SetSignedBlock at h
  split at h
  · rename_i v hv
    split at h
    · exact absurd h (by simp)
    · rename_i t ht
      simp only [Option.some.injEq] at h
      subst h
      exact inv_of_shape i _ hI (grow_set _ _ _ _ ht (fun x => x) (fun x => x))
        (fun kv h => Or.inl h) (fun kv h => Or.inl h)
  · simp only [Option.some.injEq] at h
    subst h
    exact hI

theorem CheckAckFromBlock_inv (i : MultiIndex) (b : HashRef) (a : Nat) (i1 : MultiIndex)
    (known : Bool) (e : Option QueryError) (hI : i.Inv)
    (h : i.CheckAckFromBlock b a = some (i1, known, e)) : i1.Inv := by
  unfold MultiIndex.CheckAckFromBlock at h
  have hsame : ∀ (k : Bool) (r : Option QueryError),
      some (i, k, r) = some (i1, known, e) → i1.Inv := by
    intro k r hh
    simp only [Option.some.injEq, Prod.mk.injEq] at hh
    rw [← hh.1]
    exact hI
  split at h
  · exact hsame _ _ h
  · rename_i qh hqh
    split at h
    · exact absurd h (by simp)
    · rename_i q hq
      simp only at h
      split at h
      · exact hsame _ _ h
      · split at h
        · exact absurd h (by simp)
        · rename_i qa hqa
          split at h
          · exact absurd h (by simp)
          · split at h
            · exact hsame _ _ h
            · split at h
              · exact hsame _ _ h
              · split at h
                · exact hsame _ _ h
                · split at h
                  · exact hsame _ _ h
                  · split at h
                    · split at h
                      · exact hsame _ _ h
                      · simp only [Option.some.injEq, Prod.mk.injEq] at h
                        rw [← h.1]
                        refine inv_of_shape i _ hI (grow_refl _) (fun kv h => Or.inl h) ?_
                        intro kv hkv
                        rcases mem_mapSet _ _ _ _ hkv with h1 | h1
                        · subst h1
                          right
                          intro f hf
                          simp only [Option.some.injEq] at hf
                          subst hf
                          exact ⟨q, hq, by rw [hqa]; simp⟩
                        · exact Or.inl h1
                    · exact hsame _ _ h

theorem markLoop_grow (l : List (Nat × QueryTracker)) :
    ∀ (ts : List RequestTracker) (out : List Nat) (r : List RequestTracker × List Nat),
      markLoop l ts out = some r → TrackersGrow ts r.1 := by
  induction l with
  | nil =>
    intro ts out r h
    simp only [markLoop, Option.some.injEq] at h
    subst h
    exact grow_refl _
  | cons x rest ih =>
    intro ts out r h
    obtain ⟨k, q⟩ := x
    simp only [markLoop] at h
    split at h
    · exact ih _ _ _ h
    · rename_i f hf
      split at h
      · exact ih _ _ _ h
      · rename_i t ht
        split at h
        · exact ih _ _ _ h
        · split at h
          · exact absurd h (by simp)
          · have hstep := ih _ _ _ h
            refine grow_trans _ _ _ ?_ hstep
            exact grow_set ts f t _ ht (fun x => x) (fun x => x)

theorem MarkAndCollectUnsignedAcks_inv (i : MultiIndex) (qs : List Nat) (i1 : MultiIndex)
    (out : List Nat) (hI : i.Inv)
    (h : i.MarkAndCollectUnsignedAcks qs = some (i1, out)) : i1.Inv := by
  unfold MultiIndex.MarkAndCollectUnsignedAcks at h
  split at h
  · exact absurd h (by simp)
  · rename_i r hr
    simp only [Option.some.injEq, Prod.mk.injEq] at h
    rw [← h.1]
    exact inv_of_shape i _ hI (markLoop_grow _ _ _ _ hr)
      (fun kv h => Or.inl h) (fun kv h => Or.inl h)

/-- Every reachable index satisfies the invariant. -/
theorem inv_of_reach (i : MultiIndex) (h : MultiIndex.Reach i) : i.Inv := by
  induction h with
  | new =>
    exact ⟨fun kv h => absurd h (List.not_mem_nil kv), fun kv h => absurd h (List.not_mem_nil kv)⟩
  | addResponse i resp _ ih => exact AddResponse_inv i resp ih
  | addAck i ack i' err _ h ih => exact AddAck_inv i ack i' err ih h
  | setSignedBlock i b a i' _ h ih => exact SetSignedBlock_inv i b a i' ih h
  | checkAckFromBlock i b a i' known err _ h ih =>
    exact CheckAckFromBlock_inv i b a i' known err ih h
  | markAndCollect i qs i' out _ h ih => exact MarkAndCollectUnsignedAcks_inv i qs i' out ih h

/-! ## C8: MultiIndex.AddAck twice -/

/-- A settled index answers `AddAck` with the same error and stays as it is. -/
theorem AddAck_of_settled (i : MultiIndex) (a : SignedAckHeader) (e : Option QueryError)
    (h : AckSettled i a e) : i.AddAck a = some (i, e) := by
  obtain ⟨v, q, hv, hq, hm⟩ := h
  unfold MultiIndex.AddAck
  rw [ensure_of_get _ _ _ hq]
  simp only [hv]
  cases ht : i.trackers[v]? with
  | none =>
    rw [ht] at hm
    simp only at hm
    rw [hm]
  | some t =>
    rw [ht] at hm
    simp only at hm ⊢
    cases hr : t.Response with
    | none =>
      rw [hr] at hm
      simp only at hm
      rw [hm]
    | some r =>
      rw [hr] at hm
      simp only at hm ⊢
      obtain ⟨hak, b, hb, hif⟩ := hm
      have hst : i.trackers.set v t = i.trackers := set_same _ _ _ ht
      have hsa : mapSet i.AckIndex a.HeaderHash v = i.AckIndex := mapSet_of_mapGet _ _ _ hak
      by_cases hne : b.HeaderHash ≠ a.HeaderHash
      · rw [if_pos hne] at hif
        have hu : t.UpdateAck a = (t, false, some QueryError.ErrMultipleAckOfResponse) :=
          UpdateAck_other t a b hb hne
        simp only [hu, hst, hsa, hif]
      · rw [if_neg hne] at hif
        obtain ⟨f, ft, fa, hf, hft, hfa, he⟩ := hif
        have hu : t.UpdateAck a = (t, false, none) :=
          UpdateAck_same t a b hb (not_not.mp hne)
        simp only [hu, hst, hsa, Bool.false_eq_true, if_false]
        unfold MultiIndex.settleFirstAck
        simp only [hf, hft, hfa, mapSet_of_mapGet _ _ _ hq]
        rw [he]
        split <;> rfl

/-- What the closing test of `AddAck` leaves behind when the tracker of the call holds
an acknowledgement with the header hash of `a`. -/
theorem settleFirstAck_spec (i1 : MultiIndex) (seq : Nat) (q : QueryTracker) (v : Nat)
    (a : SignedAckHeader) (i2 : MultiIndex) (e : Option QueryError)
    (h : i1.settleFirstAck seq q v a = some (i2, e))
    (t : RequestTracker) (b : SignedAckHeader) (hv : i1.trackers[v]? = some t)
    (hb : t.Ack = some b) (hh : b.HeaderHash = a.HeaderHash) :
    SettleOut i1 seq q a i2 e := by
  unfold MultiIndex.settleFirstAck at h
  have hfresh : ∀ (j : MultiIndex) (r : Option QueryError),
      j.trackers = i1.trackers → j.RespIndex = i1.RespIndex → j.AckIndex = i1.AckIndex →
      j.SeqIndex = mapSet i1.SeqIndex seq { q with FirstAck := some v } → r = none →
      SettleOut i1 seq q a j r := by
    intro j r h1 h2 h3 h4 h5
    refine ⟨h1, h2, h3, _, h4, rfl, v, t, b, rfl, hv, hb, ?_⟩
    simp [hh, h5]
  cases hf : q.FirstAck with
  | none =>
    rw [hf] at h
    simp only [Option.some.injEq, Prod.mk.injEq] at h
    obtain ⟨h1, h2⟩ := h
    subst h1
    exact hfresh _ _ rfl rfl rfl rfl h2.symm
  | some f =>
    rw [hf] at h
    simp only at h
    cases hft : i1.trackers[f]? with
    | none =>
      rw [hft] at h
      simp only [Option.some.injEq, Prod.mk.injEq] at h
      obtain ⟨h1, h2⟩ := h
      subst h1
      exact hfresh _ _ rfl rfl rfl rfl h2.symm
    | some ft =>
      rw [hft] at h
      simp only at h
      cases hfa : ft.Ack with
      | none =>
        rw [hfa] at h
        exact absurd h (by simp)
      | some fa =>
        rw [hfa] at h
        simp only at h
        split at h
        · rename_i hne
          simp only [Option.some.injEq, Prod.mk.injEq] at h
          obtain ⟨h1, h2⟩ := h
          subst h1; subst h2
          exact ⟨rfl, rfl, rfl, q, rfl, rfl, f, ft, fa, hf, hft, hfa, by rw [if_pos hne]⟩
        · rename_i hne
          simp only [Option.some.injEq, Prod.mk.injEq] at h
          obtain ⟨h1, h2⟩ := h
          subst h1; subst h2
          exact ⟨rfl, rfl, rfl, q, rfl, rfl, f, ft, fa, hf, hft, hfa, by rw [if_neg hne]⟩

/-- After the closing test the index is settled for `a`. -/
theorem settled_of_settleOut (i1 i2 : MultiIndex) (seq : Nat) (q : QueryTracker)
    (a : SignedAckHeader) (e : Option QueryError) (hs : SettleOut i1 seq q a i2 e)
    (hseq : seq = a.SeqNo)
    (v : Nat) (t : RequestTracker) (r : SignedResponseHeader) (b : SignedAckHeader)
    (hv : mapGet i1.RespIndex a.ResponseHeaderHash = some v)
    (ht : i1.trackers[v]? = some t) (hr : t.Response = some r) (hb : t.Ack = some b)
    (hh : b.HeaderHash = a.HeaderHash)
    (hak : mapGet i1.AckIndex a.HeaderHash = some v) : AckSettled i2 a e := by
  obtain ⟨h1, h2, h3, q2, h4, _, f, ft, fa, hf, hft, hfa, he⟩ := hs
  subst hseq
  refine ⟨v, q2, by rw [h2]; exact hv, by rw [h4, mapGet_mapSet, if_pos rfl], ?_⟩
  rw [h1, ht]
  simp only [hr]
  refine ⟨by rw [h3]; exact hak, b, hb, ?_⟩
  rw [if_neg (not_not.mpr hh)]
  exact ⟨f, ft, fa, hf, hft, hfa, he⟩

/-- Every call of `AddAck` that returns leaves the index settled for its argument. -/
theorem AddAck_settles (i : MultiIndex) (a : SignedAckHeader) (i1 : MultiIndex)
    (e : Option QueryError) (h : i.AddAck a = some (i1, e)) : AckSettled i1 a e := by
  unfold MultiIndex.AddAck at h
  have hens := ensure_get i.SeqIndex a.SeqNo
  cases hv : mapGet i.RespIndex a.ResponseHeaderHash with
  | some v =>
    rw [hv] at h
    simp only at h
    cases ht : i.trackers[v]? with
    | none =>
      rw [ht] at h
      simp only [Option.some.injEq, Prod.mk.injEq] at h
      obtain ⟨h1, h2⟩ := h
      subst h1; subst h2
      refine ⟨v, _, hv, hens, ?_⟩
      simp only [ht]
    | some t =>
      rw [ht] at h
      simp only at h
      cases hr : t.Response with
      | none =>
        rw [hr] at h
        simp only [Option.some.injEq, Prod.mk.injEq] at h
        obtain ⟨h1, h2⟩ := h
        subst h1; subst h2
        refine ⟨v, _, hv, hens, ?_⟩
        simp only [ht, hr]
      | some r =>
        rw [hr] at h
        simp only at h
        cases hb : t.Ack with
        | none =>
          rw [UpdateAck_unset t a hb] at h
          simp only [if_true] at h
          refine settled_of_settleOut _ i1 _ _ a e
            (settleFirstAck_spec _ _ _ v a i1 e h _ a (getElem?_set_valid _ _ _ _ ht) rfl rfl)
            rfl v _ a.SignedResponseHeader a hv (getElem?_set_valid _ _ _ _ ht) rfl rfl rfl ?_
          simp only [mapGet_mapSet, if_true]
        | some b =>
          by_cases hne : b.HeaderHash ≠ a.HeaderHash
          · rw [UpdateAck_other t a b hb hne] at h
            simp only [Option.some.injEq, Prod.mk.injEq] at h
            obtain ⟨h1, h2⟩ := h
            subst h1; subst h2
            refine ⟨v, _, hv, hens, ?_⟩
            simp only [getElem?_set_valid _ _ _ _ ht, hr, mapGet_mapSet, if_true, true_and]
            exact ⟨b, hb, by simp [hne]⟩
          · have heq : b.HeaderHash = a.HeaderHash := not_not.mp hne
            rw [UpdateAck_same t a b hb heq] at h
            simp only [Bool.false_eq_true, if_false] at h
            refine settled_of_settleOut _ i1 _ _ a e
              (settleFirstAck_spec _ _ _ v a i1 e h t b (getElem?_set_valid _ _ _ _ ht) hb heq)
              rfl v t r b hv (getElem?_set_valid _ _ _ _ ht) hr hb heq ?_
            simp only [mapGet_mapSet, if_true]
  | none =>
    rw [hv] at h
    simp only at h
    refine settled_of_settleOut _ i1 _ _ a e
      (settleFirstAck_spec _ _ _ _ a i1 e h _ a (getElem?_append_new _ _) rfl rfl)
      rfl i.trackers.length _ a.SignedResponseHeader a ?_ (getElem?_append_new _ _)
      rfl rfl rfl ?_
    · simp only [mapGet_mapSet, if_true]
    · simp only [mapGet_mapSet, if_true]

theorem AddAck_twice (i : MultiIndex) (a : SignedAckHeader) (i1 : MultiIndex)
    (e : Option QueryError) (h : i.AddAck a = some (i1, e)) :
    i1.AddAck a = some (i1, e) :=
  AddAck_of_settled i1 a e (AddAck_settles i a i1 e h)

/-- C8: on every reachable index `AddAck(a)` returns, and a second `AddAck(a)` leaves
the index (arena, `RespIndex`, `AckIndex` and `SeqIndex` with every `FirstAck` and
`Queries` list) as the first call left it and returns the error of the first call, hence
no error when the first call returned none. -/
theorem AddAck_idempotent (i : MultiIndex) (a : SignedAckHeader) (hr : MultiIndex.Reach i) :
    ∃ i1 e1, i.AddAck a = some (i1, e1) ∧ i1.AddAck a = some (i1, e1) := by
  obtain ⟨r, h⟩ := AddAck_total i a (inv_of_reach i hr)
  obtain ⟨i1, e1⟩ := r
  exact ⟨i1, e1, h, AddAck_twice i a i1 e1 h⟩

/-- Witness of C8 on the new index. -/
theorem AddAck_idempotent_witness :
    MultiIndex.Reach NewMultiIndex ∧
      ∃ i1 e1, NewMultiIndex.AddAck exAck1 = some (i1, e1) ∧
        i1.AddAck exAck1 = some (i1, e1) :=
  ⟨MultiIndex.Reach.new, AddAck_idempotent NewMultiIndex exAck1 MultiIndex.Reach.new⟩

/-! ## C9: MultiIndex.AddResponse twice -/

/-- C9: on every reachable index `AddResponse(r)` returns nil, a second `AddResponse(r)`
returns nil and leaves the index as the first call left it, and when the header hash of
`r` already has a tracker the first call changes nothing but the `Response` field of
that tracker. -/
theorem AddResponse_idempotent (i : MultiIndex) (r : SignedResponseHeader)
    (hr : MultiIndex.Reach i) :
    ∃ i1, i.AddResponse r = (i1, none) ∧ i1.AddResponse r = (i1, none) ∧
      ∀ v, mapGet i.RespIndex r.HeaderHash = some v →
        ∃ t, i.trackers[v]? = some t ∧
          i1 = { i with trackers := i.trackers.set v { t with Response := some r } } := by
  have hI := inv_of_reach i hr
  cases hv : mapGet i.RespIndex r.HeaderHash with
  | some v =>
    obtain ⟨t, ht, htr⟩ := hI.1 _ (mapGet_mem _ _ _ hv)
    simp only at ht
    cases hresp : t.Response with
    | none => exact absurd hresp htr
    | some r0 =>
      have hfirst : i.AddResponse r =
          ({ i with trackers := i.trackers.set v { t with Response := some r } }, none) := by
        unfold MultiIndex.AddResponse
        simp only [hv, ht, hresp]
      refine ⟨_, hfirst, ?_, ?_⟩
      · unfold MultiIndex.AddResponse
        simp only [hv, getElem?_set_valid _ _ _ _ ht, List.set_set]
      · intro v' hv'
        simp only [Option.some.injEq] at hv'
        subst hv'
        exact ⟨t, ht, rfl⟩
  | none =>
    have hfirst : ∃ i1, i.AddResponse r = (i1, none) ∧
        mapGet i1.RespIndex r.HeaderHash = some i.trackers.length ∧
        i1.trackers = i.trackers ++ [{ Response := some r, Ack := none, SignedBlock := none }] := by
      unfold MultiIndex.AddResponse
      simp only [hv]
      exact ⟨_, rfl, by simp only [mapGet_mapSet, if_true], rfl⟩
    obtain ⟨i1, h1, h2, h3⟩ := hfirst
    refine ⟨i1, h1, ?_, ?_⟩
    · have hget : i1.trackers[i.trackers.length]? =
          some { Response := some r, Ack := none, SignedBlock := none } := by
        rw [h3]; exact getElem?_append_new _ _
      unfold MultiIndex.AddResponse
      simp only [h2, hget, set_same _ _ _ hget]
    · intro v' hv'
      exact absurd hv' (by simp)

/-- Witness of C9 on the new index. -/
theorem AddResponse_idempotent_witness :
    MultiIndex.Reach NewMultiIndex ∧
      ∃ i1, NewMultiIndex.AddResponse exResp = (i1, none) ∧
        i1.AddResponse exResp = (i1, none) :=
  ⟨MultiIndex.Reach.new,
    match AddResponse_idempotent NewMultiIndex exResp MultiIndex.Reach.new with
    | ⟨i1, h1, h2, _⟩ => ⟨i1, h1, h2⟩⟩

/-! ## C10: conflicting acknowledgements of one response -/

/-- The closing test of `AddAck` changes `SeqIndex` only. -/
theorem settleFirstAck_frame (i1 : MultiIndex) (seq : Nat) (q : QueryTracker) (v : Nat)
    (a : SignedAckHeader) (i2 : MultiIndex) (e : Option QueryError)
    (h : i1.settleFirstAck seq q v a = some (i2, e)) :
    i2.trackers = i1.trackers ∧ i2.RespIndex = i1.RespIndex ∧ i2.AckIndex = i1.AckIndex := by
  unfold MultiIndex.settleFirstAck at h
  have hout : ∀ (j : MultiIndex) (r : Option QueryError), some (j, r) = some (i2, e) →
      j.trackers = i1.trackers → j.RespIndex = i1.RespIndex → j.AckIndex = i1.AckIndex →
      i2.trackers = i1.trackers ∧ i2.RespIndex = i1.RespIndex ∧
        i2.AckIndex = i1.AckIndex := by
    intro j r h4 h1 h2 h3
    simp only [Option.some.injEq, Prod.mk.injEq] at h4
    obtain ⟨h5, _⟩ := h4
    subst h5
    exact ⟨h1, h2, h3⟩
  split at h
  · exact hout _ _ h rfl rfl rfl
  · split at h
    · exact hout _ _ h rfl rfl rfl
    · split at h
      · exact absurd h (by simp)
      · split at h
        · exact hout _ _ h rfl rfl rfl
        · exact hout _ _ h rfl rfl rfl

/-- The acknowledgement a tracker holds after `AddAck(a)` is `a`, or the one it held
before the call. -/
theorem AddAck_recorded (i : MultiIndex) (a : SignedAckHeader) (i1 : MultiIndex)
    (e : Option QueryError) (h : i.AddAck a = some (i1, e))
    (v : Nat) (t : RequestTracker) (b : SignedAckHeader)
    (hv : mapGet i1.RespIndex a.ResponseHeaderHash = some v)
    (ht : i1.trackers[v]? = some t) (hb : t.Ack = some b) :
    b = a ∨ ∃ v0 t0, mapGet i.RespIndex a.ResponseHeaderHash = some v0 ∧
      i.trackers[v0]? = some t0 ∧ t0.Ack = some b := by
  unfold MultiIndex.AddAck at h
  cases hv0 : mapGet i.RespIndex a.ResponseHeaderHash with
  | some v0 =>
    rw [hv0] at h
    simp only at h
    cases ht0 : i.trackers[v0]? with
    | none =>
      rw [ht0] at h
      simp only [Option.some.injEq, Prod.mk.injEq] at h
      obtain ⟨h1, _⟩ := h
      subst h1
      simp only [hv0, Option.some.injEq] at hv
      subst hv
      simp only [ht0] at ht
      exact absurd ht (by simp)
    | some t0 =>
      rw [ht0] at h
      simp only at h
      cases hr : t0.Response with
      | none =>
        rw [hr] at h
        simp only [Option.some.injEq, Prod.mk.injEq] at h
        obtain ⟨h1, _⟩ := h
        subst h1
        simp only [hv0, Option.some.injEq] at hv
        subst hv
        simp only [ht0, Option.some.injEq] at ht
        subst ht
        exact Or.inr ⟨v0, t0, rfl, ht0, hb⟩
      | some r =>
        rw [hr] at h
        simp only at h
        cases hb0 : t0.Ack with
        | none =>
          rw [UpdateAck_unset t0 a hb0] at h
          simp only [if_true] at h
          obtain ⟨h1, h2, _⟩ := settleFirstAck_frame _ _ _ _ _ _ _ h
          rw [h2] at hv
          simp only [hv0, Option.some.injEq] at hv
          subst hv
          rw [h1] at ht
          simp only [getElem?_set_valid _ _ _ _ ht0, Option.some.injEq] at ht
          subst ht
          simp only [Option.some.injEq] at hb
          exact Or.inl hb.symm
        | some b0 =>
          have hkeep : ∀ (j : MultiIndex), i1 = j → j.trackers = i.trackers.set v0 t0 →
              j.RespIndex = i.RespIndex →
              b = a ∨ ∃ v1 t1, some v0 = some v1 ∧
                i.trackers[v1]? = some t1 ∧ t1.Ack = some b := by
            intro j hj3 hj1 hj2
            subst hj3
            rw [hj2] at hv
            simp only [hv0, Option.some.injEq] at hv
            subst hv
            rw [hj1, set_same _ _ _ ht0, ht0] at ht
            simp only [Option.some.injEq] at ht
            subst ht
            exact Or.inr ⟨v0, t0, rfl, ht0, hb⟩
          by_cases hne : b0.HeaderHash ≠ a.HeaderHash
          · rw [UpdateAck_other t0 a b0 hb0 hne] at h
            simp only [Option.some.injEq, Prod.mk.injEq] at h
            exact hkeep _ h.1.symm rfl rfl
          · rw [UpdateAck_same t0 a b0 hb0 (not_not.mp hne)] at h
            simp only [Bool.false_eq_true, if_false] at h
            obtain ⟨h1, h2, _⟩ := settleFirstAck_frame _ _ _ _ _ _ _ h
            exact hkeep i1 rfl h1 h2
  | none =>
    rw [hv0] at h
    simp only at h
    obtain ⟨h1, h2, _⟩ := settleFirstAck_frame _ _ _ _ _ _ _ h
    rw [h2] at hv
    simp only [mapGet_mapSet, if_true, Option.some.injEq] at hv
    subst hv
    rw [h1, getElem?_append_new] at ht
    simp only [Option.some.injEq] at ht
    subst ht
    simp only [Option.some.injEq] at hb
    exact Or.inl hb.symm

/-- C10: after `AddAck(a1)` has succeeded, `AddAck(a2)` for an acknowledgement of the
same response with another header hash returns `ErrMultipleAckOfResponse`. No tracker is
changed, so the tracker of the response keeps its acknowledgement, which has the header
hash of `a1` and is `a1` itself unless the tracker already held an acknowledgement before
`AddAck(a1)`; and `AckIndex` maps the header hashes of both `a1` and `a2` to the tracker
that `RespIndex` maps the response hash to. -/
theorem AddAck_conflicting (i0 i1 : MultiIndex) (a1 a2 : SignedAckHeader)
    (h1 : i0.AddAck a1 = some (i1, none))
    (hR : a2.ResponseHeaderHash = a1.ResponseHeaderHash)
    (hne : a2.HeaderHash ≠ a1.HeaderHash) :
    ∃ i2 v t b,
      i1.AddAck a2 = some (i2, some QueryError.ErrMultipleAckOfResponse) ∧
      mapGet i2.RespIndex a1.ResponseHeaderHash = some v ∧
      mapGet i2.AckIndex a2.HeaderHash = some v ∧
      mapGet i2.AckIndex a1.HeaderHash = some v ∧
      i2.trackers = i1.trackers ∧ i2.trackers[v]? = some t ∧
      t.Ack = some b ∧ b.HeaderHash = a1.HeaderHash ∧
      (b = a1 ∨ ∃ v0 t0, mapGet i0.RespIndex a1.ResponseHeaderHash = some v0 ∧
        i0.trackers[v0]? = some t0 ∧ t0.Ack = some b) := by
  obtain ⟨v, q, hv, hq, hm⟩ := AddAck_settles i0 a1 i1 none h1
  cases ht : i1.trackers[v]? with
  | none =>
    rw [ht] at hm
    exact absurd hm (by simp)
  | some t =>
    rw [ht] at hm
    simp only at hm
    cases hr : t.Response with
    | none =>
      rw [hr] at hm
      exact absurd hm (by simp)
    | some r =>
      rw [hr] at hm
      simp only at hm
      obtain ⟨hak, b, hb, hif⟩ := hm
      have hbh : b.HeaderHash = a1.HeaderHash := by
        by_contra hc
        rw [if_pos hc] at hif
        exact absurd hif (by simp)
      have hne2 : b.HeaderHash ≠ a2.HeaderHash := by
        rw [hbh]; exact Ne.symm hne
      have hcall : i1.AddAck a2 = some
          ({ trackers := i1.trackers.set v t, RespIndex := i1.RespIndex,
             AckIndex := mapSet i1.AckIndex a2.HeaderHash v,
             SeqIndex := (SeqIndexEnsure i1.SeqIndex a2.SeqNo).1 },
            some QueryError.ErrMultipleAckOfResponse) := by
        unfold MultiIndex.AddAck
        simp only [hR, hv, ht, hr, UpdateAck_other t a2 b hb hne2]
      refine ⟨_, v, t, b, hcall, hv, ?_, ?_, set_same _ _ _ ht, ?_, hb, hbh,
        AddAck_recorded i0 a1 i1 none h1 v t b hv ht hb⟩
      · simp only [mapGet_mapSet, if_true]
      · simp only [mapGet_mapSet, if_neg hne]
        exact hak
      · simp only [set_same _ _ _ ht]
        exact ht

/-- Witness of C10: two acknowledgements of the response `exResp` on the new index. -/
theorem AddAck_conflicting_witness :
    NewMultiIndex.AddAck exAck1 =
        some ({ trackers := [{ Response := some exResp, Ack := some exAck1,
                               SignedBlock := none }],
                RespIndex := [(100, 0)], AckIndex := [(200, 0)],
                SeqIndex := [(1, { FirstAck := some 0, Queries := [0] })] }, none) ∧
      exAck2.ResponseHeaderHash = exAck1.ResponseHeaderHash ∧
      exAck2.HeaderHash ≠ exAck1.HeaderHash ∧
      ∃ i2 v t b,
        MultiIndex.AddAck
            { trackers := [{ Response := some exResp, Ack := some exAck1,
                             SignedBlock := none }],
              RespIndex := [(100, 0)], AckIndex := [(200, 0)],
              SeqIndex := [(1, { FirstAck := some 0, Queries := [0] })] } exAck2
          = some (i2, some QueryError.ErrMultipleAckOfResponse) ∧
        mapGet i2.RespIndex exAck1.ResponseHeaderHash = some v ∧
        mapGet i2.AckIndex exAck2.HeaderHash = some v ∧
        mapGet i2.AckIndex exAck1.HeaderHash = some v ∧
        i2.trackers[v]? = some t ∧ t.Ack = some b ∧ b.HeaderHash = exAck1.HeaderHash :=
  ⟨by decide, by decide, by decide,
    match AddAck_conflicting NewMultiIndex _ exAck1 exAck2 (by decide) (by decide)
        (by decide) with
    | ⟨i2, v, t, b, h1, h2, h3, h4, _, h6, h7, h8, _⟩ => ⟨i2, v, t, b, h1, h2, h3, h4, h6, h7, h8⟩⟩

/-! ## C11: competing acknowledgements of one sequence number -/

/-- What a settled index holds for an acknowledgement whose `AddAck` returned nil. -/
theorem settled_none (i : MultiIndex) (a : SignedAckHeader) (h : AckSettled i a none) :
    ∃ v q t b f ft fa, mapGet i.RespIndex a.ResponseHeaderHash = some v ∧
      mapGet i.SeqIndex a.SeqNo = some q ∧ i.trackers[v]? = some t ∧ t.Ack = some b ∧
      b.HeaderHash = a.HeaderHash ∧ mapGet i.AckIndex a.HeaderHash = some v ∧
      q.FirstAck = some f ∧ i.trackers[f]? = some ft ∧ ft.Ack = some fa ∧
      fa.HeaderHash = a.HeaderHash := by
  obtain ⟨v, q, hv, hq, hm⟩ := h
  cases ht : i.trackers[v]? with
  | none =>
    rw [ht] at hm
    exact absurd hm (by simp)
  | some t =>
    rw [ht] at hm
    simp only at hm
    cases hr : t.Response with
    | none =>
      rw [hr] at hm
      exact absurd hm (by simp)
    | some r =>
      rw [hr] at hm
      simp only at hm
      obtain ⟨hak, b, hb, hif⟩ := hm
      by_cases hne : b.HeaderHash ≠ a.HeaderHash
      · rw [if_pos hne] at hif
        exact absurd hif (by simp)
      · rw [if_neg hne] at hif
        obtain ⟨f, ft, fa, hf, hft, hfa, he⟩ := hif
        by_cases hne2 : fa.HeaderHash ≠ a.HeaderHash
        · rw [if_pos hne2] at he
          exact absurd he (by simp)
        · exact ⟨v, q, t, b, f, ft, fa, hv, hq, ht, hb, not_not.mp hne, hak, hf, hft, hfa,
            not_not.mp hne2⟩

theorem ensure_keeps (m : List (Nat × QueryTracker)) (k s : Nat) (q : QueryTracker)
    (h : mapGet m s = some q) : mapGet (SeqIndexEnsure m k).1 s = some q := by
  unfold SeqIndexEnsure
  cases hk : mapGet m k with
  | some v => exact h
  | none =>
    simp only [mapGet_mapSet]
    by_cases hks : k = s
    · subst hks
      rw [hk] at h
      exact absurd h (by simp)
    · rw [if_neg hks]
      exact h

/-- The closing test of `AddAck` writes the query tracker back as it is when its first
acknowledgement is allocated. -/
theorem settleFirstAck_keeps (i1 : MultiIndex) (seq : Nat) (q : QueryTracker) (v : Nat)
    (a : SignedAckHeader) (i2 : MultiIndex) (e : Option QueryError)
    (h : i1.settleFirstAck seq q v a = some (i2, e))
    (f : Nat) (ft : RequestTracker) (hf : q.FirstAck = some f)
    (hft : i1.trackers[f]? = some ft) :
    i2 = { i1 with SeqIndex := mapSet i1.SeqIndex seq q } := by
  unfold MultiIndex.settleFirstAck at h
  simp only [hf, hft] at h
  split at h
  · exact absurd h (by simp)
  · split at h
    · simp only [Option.some.injEq, Prod.mk.injEq] at h
      exact h.1.symm
    · simp only [Option.some.injEq, Prod.mk.injEq] at h
      exact h.1.symm

/-- The two ways `AddAck` leaves `SeqIndex`: as `ensure` made it, on an early return, or
as the closing test makes it. -/
theorem AddAck_seq (i : MultiIndex) (a : SignedAckHeader) (i' : MultiIndex)
    (e : Option QueryError) (h : i.AddAck a = some (i', e)) :
    i'.SeqIndex = (SeqIndexEnsure i.SeqIndex a.SeqNo).1 ∨
    ∃ (i1 : MultiIndex) (q : QueryTracker) (v : Nat),
      i1.settleFirstAck a.SeqNo q v a = some (i', e) ∧
      i1.SeqIndex = (SeqIndexEnsure i.SeqIndex a.SeqNo).1 ∧
      TrackersGrow i.trackers i1.trackers ∧
      q.FirstAck = (SeqIndexEnsure i.SeqIndex a.SeqNo).2.FirstAck := by
  unfold MultiIndex.AddAck at h
  simp only at h
  cases hv : mapGet i.RespIndex a.ResponseHeaderHash with
  | none =>
    rw [hv] at h
    simp only at h
    exact Or.inr ⟨_, _, _, h, rfl, grow_append _ _, rfl⟩
  | some v =>
    rw [hv] at h
    simp only at h
    cases ht : i.trackers[v]? with
    | none =>
      rw [ht] at h
      simp only [Option.some.injEq, Prod.mk.injEq] at h
      left
      rw [← h.1]
    | some t =>
      rw [ht] at h
      simp only at h
      cases hr : t.Response with
      | none =>
        rw [hr] at h
        simp only [Option.some.injEq, Prod.mk.injEq] at h
        left
        rw [← h.1]
      | some r =>
        rw [hr] at h
        simp only at h
        cases hu : (t.UpdateAck a).2.2 with
        | some err =>
          rw [hu] at h
          simp only [Option.some.injEq, Prod.mk.injEq] at h
          left
          rw [← h.1]
        | none =>
          rw [hu] at h
          simp only at h
          refine Or.inr ⟨_, _, v, h, rfl, ?_, ?_⟩
          · exact grow_set _ _ _ _ ht (fun _ => UpdateAck_responded t a (by simp [hr]))
              (fun _ => UpdateAck_acked t a)
          · split <;> rfl

/-- A first acknowledgement that is set before `AddAck` is the first acknowledgement
after it. -/
theorem AddAck_keeps_firstAck (i : MultiIndex) (a : SignedAckHeader) (i' : MultiIndex)
    (e : Option QueryError) (hI : i.Inv) (h : i.AddAck a = some (i', e))
    (s : Nat) (q : QueryTracker) (f : Nat) (hq : mapGet i.SeqIndex s = some q)
    (hf : q.FirstAck = some f) :
    ∃ q', mapGet i'.SeqIndex s = some q' ∧ q'.FirstAck = some f := by
  have hens := ensure_keeps i.SeqIndex a.SeqNo s q hq
  rcases AddAck_seq i a i' e h with hl | ⟨i1, q0, v, hst, h1, hg, hq0⟩
  · exact ⟨q, by rw [hl]; exact hens, hf⟩
  · obtain ⟨t, ht, _⟩ := hI.2 (s, q) (mapGet_mem _ _ _ hq) f hf
    obtain ⟨t1, ht1, _⟩ := hg f t ht
    by_cases hs : a.SeqNo = s
    · subst hs
      rw [ensure_of_get _ _ _ hq] at hq0
      simp only at hq0
      have hf0 : q0.FirstAck = some f := by rw [hq0]; exact hf
      have h2 := settleFirstAck_keeps i1 a.SeqNo q0 v a i' e hst f t1 hf0 ht1
      refine ⟨q0, ?_, hf0⟩
      rw [h2]
      simp only [mapGet_mapSet, if_true]
    · unfold MultiIndex.settleFirstAck at hst
      have hget : ∀ q', mapGet (mapSet i1.SeqIndex a.SeqNo q') s = some q := by
        intro q'
        rw [mapGet_mapSet, if_neg hs, h1]
        exact hens
      refine ⟨q, ?_, hf⟩
      split at hst
      · simp only [Option.some.injEq, Prod.mk.injEq] at hst
        rw [← hst.1]
        exact hget _
      · split at hst
        · simp only [Option.some.injEq, Prod.mk.injEq] at hst
          rw [← hst.1]
          exact hget _
        · split at hst
          · exact absurd hst (by simp)
          · split at hst
            · simp only [Option.some.injEq, Prod.mk.injEq] at hst
              rw [← hst.1]
              exact hget _
            · simp only [Option.some.injEq, Prod.mk.injEq] at hst
              rw [← hst.1]
              exact hget _

/-- The call `AddAck(a2)` on an index in which the sequence number of `a2` has a first
acknowledgement with another header hash and the response of `a2` has no
acknowledgement yet. -/
theorem AddAck_second (i1 : MultiIndex) (a2 : SignedAckHeader) (q1 : QueryTracker) (f : Nat)
    (ft : RequestTracker) (fa : SignedAckHeader) (hI : i1.Inv)
    (hq : mapGet i1.SeqIndex a2.SeqNo = some q1) (hf : q1.FirstAck = some f)
    (hft : i1.trackers[f]? = some ft) (hfa : ft.Ack = some fa)
    (hne : fa.HeaderHash ≠ a2.HeaderHash)
    (hfree : ∀ v t, mapGet i1.RespIndex a2.ResponseHeaderHash = some v →
      i1.trackers[v]? = some t → t.Ack = none) :
    ∃ (T : List RequestTracker) (R : List (Nat × Nat)) (v2 : Nat) (t2 : RequestTracker),
      i1.AddAck a2 =
        some ({ trackers := T, RespIndex := R,
                AckIndex := mapSet i1.AckIndex a2.HeaderHash v2,
                SeqIndex := mapSet i1.SeqIndex a2.SeqNo
                  { q1 with Queries := q1.Queries ++ [v2] } },
              some QueryError.ErrMultipleAckOfSeqNo) ∧
      T[f]? = some ft ∧ T[v2]? = some t2 ∧ t2.Ack = some a2 ∧
      mapGet R a2.ResponseHeaderHash = some v2 ∧ v2 ≠ f := by
  have hfl : f < i1.trackers.length := (List.getElem?_eq_some.mp hft).1
  unfold MultiIndex.AddAck
  rw [ensure_of_get _ _ _ hq]
  cases hv : mapGet i1.RespIndex a2.ResponseHeaderHash with
  | none =>
    have hft' : ∀ x : RequestTracker, (i1.trackers ++ [x])[f]? = some ft := by
      intro x
      rw [List.getElem?_append_left hfl]
      exact hft
    simp only
    unfold MultiIndex.settleFirstAck
    simp only [hf, hft', hfa, if_pos hne]
    refine ⟨_, _, _, _, rfl, hft' _, getElem?_append_new _ _, rfl, ?_, ?_⟩
    · simp only [mapGet_mapSet, if_true]
    · omega
  | some v =>
    obtain ⟨t, ht, hresp⟩ := hI.1 (a2.ResponseHeaderHash, v) (mapGet_mem _ _ _ hv)
    have hta : t.Ack = none := hfree v t hv ht
    have hvf : v ≠ f := by
      intro hvf
      subst hvf
      rw [ht] at hft
      simp only [Option.some.injEq] at hft
      subst hft
      rw [hta] at hfa
      exact absurd hfa (by simp)
    cases hr : t.Response with
    | none => exact absurd hr hresp
    | some r =>
      have hu := UpdateAck_unset t a2 hta
      have hft' : ∀ x : RequestTracker, (i1.trackers.set v x)[f]? = some ft := by
        intro x
        rw [List.getElem?_set_ne hvf]
        exact hft
      simp only [ht, hr, hu, if_true]
      unfold MultiIndex.settleFirstAck
      simp only [hf, hft', hfa, if_pos hne]
      exact ⟨_, _, v, _, rfl, hft' _, getElem?_set_valid _ _ _ _ ht, rfl, hv, hvf⟩

/-- C11, counterexample: after `AddAck(exAck1); AddAck(exAck3)` the acknowledgement
`exAck1` is the first of the sequence number 1 (a further `AddAck(exAck1)` returns nil and
changes nothing), and `exAck4` has the sequence number of `exAck1` and another response
hash and header hash; `AddAck(exAck4)` returns `ErrMultipleAckOfResponse`, because the
response of `exAck4` is acknowledged by `exAck3`, not `ErrMultipleAckOfSeqNo`. -/
theorem AddAck_competing_other_error :
    MultiIndex.Reach exTwoAcks ∧
    exTwoAcks.AddAck exAck1 = some (exTwoAcks, none) ∧
    exAck4.SeqNo = exAck1.SeqNo ∧
    exAck4.ResponseHeaderHash ≠ exAck1.ResponseHeaderHash ∧
    exAck4.HeaderHash ≠ exAck1.HeaderHash ∧
    exAck1.consistent ∧ exAck3.consistent ∧ exAck4.consistent ∧
    (exTwoAcks.AddAck exAck4).map (fun r => r.2)
      = some (some QueryError.ErrMultipleAckOfResponse) ∧
    (exTwoAcks.AddAck exAck4).map (fun r => r.2)
      ≠ some (some QueryError.ErrMultipleAckOfSeqNo) := by
  have h1 : NewMultiIndex.AddAck exAck1 = some (exOneAck, none) := by decide
  have h2 : exOneAck.AddAck exAck3
      = some (exTwoAcks, some QueryError.ErrMultipleAckOfSeqNo) := by decide
  refine ⟨?_, by decide, by decide, by decide, by decide, ⟨rfl, rfl⟩, ⟨rfl, rfl⟩, ⟨rfl, rfl⟩,
    by decide, by decide⟩
  exact MultiIndex.Reach.addAck _ _ _ _
    (MultiIndex.Reach.addAck _ _ _ _ MultiIndex.Reach.new h1) h2

/-- C11, amended: on a reachable index a call of `AddAck` that returns never replaces a
`FirstAck` that is set. If `AddAck(a1)` returned nil, `a2` has the sequence number of
`a1` and another header hash, and the response of `a2` has no acknowledgement recorded
yet (so it is not the response of `a1`), then `AddAck(a2)` returns
`ErrMultipleAckOfSeqNo`, the `FirstAck` of the sequence number is the tracker it was,
which holds an acknowledgement with the header hash of `a1`, and the tracker of `a2`
holds `a2` and is found in `RespIndex`, in `AckIndex` and in the `Queries` of the
sequence number. -/
theorem AddAck_competing (i0 i1 : MultiIndex) (a1 a2 : SignedAckHeader)
    (hr : MultiIndex.Reach i0) (h1 : i0.AddAck a1 = some (i1, none))
    (hs : a2.SeqNo = a1.SeqNo) (hH : a2.HeaderHash ≠ a1.HeaderHash)
    (hfree : ∀ v t, mapGet i1.RespIndex a2.ResponseHeaderHash = some v →
      i1.trackers[v]? = some t → t.Ack = none) :
    (∀ (i : MultiIndex) (a : SignedAckHeader) (i' : MultiIndex) (e : Option QueryError),
      MultiIndex.Reach i → i.AddAck a = some (i', e) →
      ∀ s q f, mapGet i.SeqIndex s = some q → q.FirstAck = some f →
        ∃ q', mapGet i'.SeqIndex s = some q' ∧ q'.FirstAck = some f) ∧
    a2.ResponseHeaderHash ≠ a1.ResponseHeaderHash ∧
    ∃ i2 q1 q2 f ft fa v2 t2,
      i1.AddAck a2 = some (i2, some QueryError.ErrMultipleAckOfSeqNo) ∧
      mapGet i1.SeqIndex a1.SeqNo = some q1 ∧ q1.FirstAck = some f ∧
      i1.trackers[f]? = some ft ∧ ft.Ack = some fa ∧ fa.HeaderHash = a1.HeaderHash ∧
      mapGet i2.SeqIndex a1.SeqNo = some q2 ∧ q2.FirstAck = some f ∧
      i2.trackers[f]? = some ft ∧
      mapGet i2.RespIndex a2.ResponseHeaderHash = some v2 ∧
      mapGet i2.AckIndex a2.HeaderHash = some v2 ∧ v2 ∈ q2.Queries ∧
      i2.trackers[v2]? = some t2 ∧ t2.Ack = some a2 ∧ v2 ≠ f := by
  have hI1 : i1.Inv := AddAck_inv i0 a1 i1 none (inv_of_reach i0 hr) h1
  obtain ⟨v, q1, t, b, f, ft, fa, hv, hq, ht, hb, hbh, hak, hf, hft, hfa, hfh⟩ :=
    settled_none i1 a1 (AddAck_settles i0 a1 i1 none h1)
  refine ⟨?_, ?_, ?_⟩
  · intro i a i' e hri h s q f0 hq0 hf0
    exact AddAck_keeps_firstAck i a i' e (inv_of_reach i hri) h s q f0 hq0 hf0
  · intro hR
    rw [← hR] at hv
    have := hfree v t hv ht
    rw [this] at hb
    exact absurd hb (by simp)
  · have hq' : mapGet i1.SeqIndex a2.SeqNo = some q1 := by rw [hs]; exact hq
    have hne : fa.HeaderHash ≠ a2.HeaderHash := by
      rw [hfh]
      exact fun h => hH h.symm
    obtain ⟨T, R, v2, t2, hcall, hTf, hTv, ht2, hRv, hvf⟩ :=
      AddAck_second i1 a2 q1 f ft fa hI1 hq' hf hft hfa hne hfree
    refine ⟨_, q1, { q1 with Queries := q1.Queries ++ [v2] }, f, ft, fa, v2, t2, hcall, hq,
      hf, hft, hfa, hfh, ?_, hf, hTf, hRv, ?_, ?_, hTv, ht2, hvf⟩
    · simp only [hs, mapGet_mapSet, if_true]
    · simp only [mapGet_mapSet, if_true]
    · simp only [List.mem_append, List.mem_singleton, or_true]

/-- Witness of the amended C11: `exAck1` and then `exAck3` on the new index. -/
theorem AddAck_competing_witness :
    MultiIndex.Reach NewMultiIndex ∧
    NewMultiIndex.AddAck exAck1 = some (exOneAck, none) ∧
    exAck3.SeqNo = exAck1.SeqNo ∧ exAck3.HeaderHash ≠ exAck1.HeaderHash ∧
    ∃ i2 q1 q2 f ft fa v2 t2,
      exOneAck.AddAck exAck3 = some (i2, some QueryError.ErrMultipleAckOfSeqNo) ∧
      mapGet exOneAck.SeqIndex exAck1.SeqNo = some q1 ∧ q1.FirstAck = some f ∧
      exOneAck.trackers[f]? = some ft ∧ ft.Ack = some fa ∧
      fa.HeaderHash = exAck1.HeaderHash ∧
      mapGet i2.SeqIndex exAck1.SeqNo = some q2 ∧ q2.FirstAck = some f ∧
      i2.trackers[f]? = some ft ∧
      mapGet i2.RespIndex exAck3.ResponseHeaderHash = some v2 ∧
      mapGet i2.AckIndex exAck3.HeaderHash = some v2 ∧ v2 ∈ q2.Queries ∧
      i2.trackers[v2]? = some t2 ∧ t2.Ack = some exAck3 ∧ v2 ≠ f :=
  ⟨MultiIndex.Reach.new, by decide, by decide, by decide,
    (AddAck_competing NewMultiIndex exOneAck exAck1 exAck3 MultiIndex.Reach.new (by decide)
      (by decide) (by decide)
      (fun _ _ hv _ => Option.noConfusion
        ((show mapGet exOneAck.RespIndex exAck3.ResponseHeaderHash = none by
          decide).symm.trans hv))).2.2⟩

/-! ## The invariant of indexes built from consistent acknowledgements -/

theorem linked_set (ts : List RequestTracker) (R A : List (Nat × Nat)) (v : Nat)
    (t t' : RequestTracker) (hL : Linked ts R A) (hv : ts[v]? = some t)
    (hr : ∃ r : SignedResponseHeader, t'.Response = some r ∧ mapGet R r.HeaderHash = some v)
    (ha : t.Ack ≠ none → t'.Ack ≠ none) : Linked (ts.set v t') R A := by
  refine ⟨?_, ?_⟩
  · intro w t1 hw
    by_cases hwv : v = w
    · subst hwv
      rw [getElem?_set_valid _ _ _ _ hv] at hw
      simp only [Option.some.injEq] at hw
      subst hw
      exact hr
    · rw [List.getElem?_set_ne hwv] at hw
      exact hL.1 w t1 hw
  · intro kv hkv
    obtain ⟨t0, ht0, ha0⟩ := hL.2 kv hkv
    by_cases hwv : v = kv.2
    · rw [← hwv] at ht0 ⊢
      rw [hv] at ht0
      simp only [Option.some.injEq] at ht0
      subst ht0
      exact ⟨t', getElem?_set_valid _ _ _ _ hv, ha ha0⟩
    · exact ⟨t0, by rw [List.getElem?_set_ne hwv]; exact ht0, ha0⟩

theorem linked_append (ts : List RequestTracker) (R A : List (Nat × Nat)) (k : Nat)
    (t' : RequestTracker) (hL : Linked ts R A) (hk : mapGet R k = none)
    (hr : ∃ r : SignedResponseHeader, t'.Response = some r ∧ r.HeaderHash = k) :
    Linked (ts ++ [t']) (mapSet R k ts.length) A := by
  refine ⟨?_, ?_⟩
  · intro w t1 hw
    by_cases hlt : w < ts.length
    · rw [List.getElem?_append_left hlt] at hw
      obtain ⟨r, h1, h2⟩ := hL.1 w t1 hw
      refine ⟨r, h1, ?_⟩
      rw [mapGet_mapSet]
      by_cases hkr : k = r.HeaderHash
      · subst hkr
        rw [hk] at h2
        exact absurd h2 (by simp)
      · rw [if_neg hkr]
        exact h2
    · have hlen : w = ts.length := by
        have := (List.getElem?_eq_some.mp hw).1
        simp only [List.length_append, List.length_singleton] at this
        omega
      subst hlen
      rw [getElem?_append_new] at hw
      simp only [Option.some.injEq] at hw
      subst hw
      obtain ⟨r, h1, h2⟩ := hr
      exact ⟨r, h1, by rw [mapGet_mapSet, if_pos h2.symm]⟩
  · intro kv hkv
    obtain ⟨t0, ht0, ha0⟩ := hL.2 kv hkv
    have hlt : kv.2 < ts.length := (List.getElem?_eq_some.mp ht0).1
    exact ⟨t0, by rw [List.getElem?_append_left hlt]; exact ht0, ha0⟩

theorem linked_ack (ts : List RequestTracker) (R A : List (Nat × Nat)) (k v : Nat)
    (t : RequestTracker) (hL : Linked ts R A) (hv : ts[v]? = some t) (ha : t.Ack ≠ none) :
    Linked ts R (mapSet A k v) := by
  refine ⟨hL.1, ?_⟩
  intro kv hkv
  rcases mem_mapSet _ _ _ _ hkv with h1 | h1
  · subst h1
    exact ⟨t, hv, ha⟩
  · exact hL.2 kv h1

theorem sameFields_refl (ts : List RequestTracker) : SameFields ts ts :=
  ⟨rfl, fun _ t h => ⟨t, h, rfl, rfl⟩⟩

theorem sameFields_trans (ts1 ts2 ts3 : List RequestTracker) (h12 : SameFields ts1 ts2)
    (h23 : SameFields ts2 ts3) : SameFields ts1 ts3 := by
  refine ⟨h23.1.trans h12.1, ?_⟩
  intro v t hv
  obtain ⟨t2, h2, hr2, ha2⟩ := h12.2 v t hv
  obtain ⟨t3, h3, hr3, ha3⟩ := h23.2 v t2 h2
  exact ⟨t3, h3, hr3.trans hr2, ha3.trans ha2⟩

theorem sameFields_set (ts : List RequestTracker) (v : Nat) (t t' : RequestTracker)
    (hv : ts[v]? = some t) (hr : t'.Response = t.Response) (ha : t'.Ack = t.Ack) :
    SameFields ts (ts.set v t') := by
  refine ⟨List.length_set _ _ _, ?_⟩
  intro w t1 hw
  by_cases hwv : v = w
  · subst hwv
    rw [hv] at hw
    simp only [Option.some.injEq] at hw
    subst hw
    exact ⟨t', getElem?_set_valid _ _ _ _ hv, hr, ha⟩
  · exact ⟨t1, by rw [List.getElem?_set_ne hwv]; exact hw, rfl, rfl⟩

/-- Allocation is the same in two lists of trackers that agree up to `SignedBlock`. -/
theorem sameFields_back (ts ts' : List RequestTracker) (h : SameFields ts ts') (v : Nat)
    (t' : RequestTracker) (hv : ts'[v]? = some t') :
    ∃ t : RequestTracker, ts[v]? = some t ∧ t'.Response = t.Response ∧ t'.Ack = t.Ack := by
  have hlt : v < ts.length := by
    have := (List.getElem?_eq_some.mp hv).1
    rw [h.1] at this
    exact this
  have ht : ts[v]? = some (ts.get ⟨v, hlt⟩) := List.getElem?_eq_getElem hlt
  obtain ⟨t1, h1, hr, ha⟩ := h.2 v _ ht
  rw [hv] at h1
  simp only [Option.some.injEq] at h1
  subst h1
  exact ⟨_, ht, hr, ha⟩

theorem linked_sameFields (ts ts' : List RequestTracker) (R A : List (Nat × Nat))
    (hL : Linked ts R A) (h : SameFields ts ts') : Linked ts' R A := by
  refine ⟨?_, ?_⟩
  · intro v t' hv
    obtain ⟨t, ht, hr, _⟩ := sameFields_back ts ts' h v t' hv
    obtain ⟨r, h1, h2⟩ := hL.1 v t ht
    exact ⟨r, by rw [hr]; exact h1, h2⟩
  · intro kv hkv
    obtain ⟨t, ht, ha⟩ := hL.2 kv hkv
    obtain ⟨t', ht', _, ha'⟩ := h.2 kv.2 t ht
    exact ⟨t', ht', by rw [ha']; exact ha⟩

theorem AddResponse_linked (i : MultiIndex) (resp : SignedResponseHeader)
    (hL : Linked i.trackers i.RespIndex i.AckIndex) :
    Linked (i.AddResponse resp).1.trackers (i.AddResponse resp).1.RespIndex
      (i.AddResponse resp).1.AckIndex := by
  unfold MultiIndex.AddResponse
  cases hv : mapGet i.RespIndex resp.HeaderHash with
  | none =>
    exact linked_append _ _ _ _ _ hL hv ⟨resp, rfl, rfl⟩
  | some v =>
    simp only
    cases ht : i.trackers[v]? with
    | none => exact hL
    | some t =>
      simp only
      cases hr : t.Response with
      | none => exact hL
      | some r =>
        exact linked_set _ _ _ _ t _ hL ht ⟨resp, rfl, hv⟩ (fun x => x)

theorem AddAck_linked (i : MultiIndex) (a : SignedAckHeader) (i' : MultiIndex)
    (e : Option QueryError) (hL : Linked i.trackers i.RespIndex i.AckIndex)
    (hc : a.consistent) (h : i.AddAck a = some (i', e)) :
    Linked i'.trackers i'.RespIndex i'.AckIndex := by
  unfold MultiIndex.AddAck at h
  simp only at h
  cases hv : mapGet i.RespIndex a.ResponseHeaderHash with
  | none =>
    rw [hv] at h
    simp only at h
    obtain ⟨h1, h2, h3⟩ := settleFirstAck_frame _ _ _ _ _ _ _ h
    rw [h1, h2, h3]
    have hA := linked_append i.trackers i.RespIndex i.AckIndex a.ResponseHeaderHash
      { Response := some a.SignedResponseHeader, Ack := some a, SignedBlock := none } hL hv
      ⟨a.Response, rfl, hc.1⟩
    exact linked_ack _ _ _ a.HeaderHash i.trackers.length _ hA (getElem?_append_new _ _)
      (by simp)
  | some v =>
    rw [hv] at h
    simp only at h
    cases ht : i.trackers[v]? with
    | none =>
      rw [ht] at h
      simp only [Option.some.injEq, Prod.mk.injEq] at h
      rw [← h.1]
      exact hL
    | some t =>
      rw [ht] at h
      simp only at h
      cases hr : t.Response with
      | none =>
        rw [hr] at h
        simp only [Option.some.injEq, Prod.mk.injEq] at h
        rw [← h.1]
        exact hL
      | some r =>
        rw [hr] at h
        simp only at h
        have hresp : ∃ r' : SignedResponseHeader, (t.UpdateAck a).1.Response = some r' ∧
            mapGet i.RespIndex r'.HeaderHash = some v := by
          cases hta : t.Ack with
          | none =>
            rw [UpdateAck_unset t a hta]
            refine ⟨a.Response, rfl, ?_⟩
            rw [hc.1]
            exact hv
          | some b =>
            have hsame : (t.UpdateAck a).1 = t := by
              by_cases hne : b.HeaderHash ≠ a.HeaderHash
              · rw [UpdateAck_other t a b hta hne]
              · rw [UpdateAck_same t a b hta (not_not.mp hne)]
            rw [hsame]
            exact hL.1 v t ht
        have hA := linked_set i.trackers i.RespIndex i.AckIndex v t (t.UpdateAck a).1 hL ht
          hresp (fun _ => UpdateAck_acked t a)
        have hB := linked_ack _ _ _ a.HeaderHash v _ hA (getElem?_set_valid _ _ _ _ ht)
          (UpdateAck_acked t a)
        cases hu : (t.UpdateAck a).2.2 with
        | some err =>
          rw [hu] at h
          simp only [Option.some.injEq, Prod.mk.injEq] at h
          rw [← h.1]
          exact hB
        | none =>
          rw [hu] at h
          simp only at h
          obtain ⟨h1, h2, h3⟩ := settleFirstAck_frame _ _ _ _ _ _ _ h
          rw [h1, h2, h3]
          exact hB

theorem SetSignedBlock_same (i : MultiIndex) (b : HashRef) (a : Nat) (i1 : MultiIndex)
    (h : i.SetSignedBlock b a = some i1) :
    SameFields i.trackers i1.trackers ∧ i1.RespIndex = i.RespIndex ∧
      i1.AckIndex = i.AckIndex ∧ i1.SeqIndex = i.SeqIndex := by
  unfold MultiIndex.SetSignedBlock at h
  split at h
  · rename_i v hv
    split at h
    · exact absurd h (by simp)
    · rename_i t ht
      simp only [Option.some.injEq] at h
      subst h
      exact ⟨sameFields_set _ _ t _ ht rfl rfl, rfl, rfl, rfl⟩
  · simp only [Option.some.injEq] at h
    subst h
    exact ⟨sameFields_refl _, rfl, rfl, rfl⟩

theorem CheckAckFromBlock_frame (i : MultiIndex) (b : HashRef) (a : Nat) (i1 : MultiIndex)
    (known : Bool) (e : Option QueryError)
    (h : i.CheckAckFromBlock b a = some (i1, known, e)) :
    i1.trackers = i.trackers ∧ i1.RespIndex = i.RespIndex ∧ i1.AckIndex = i.AckIndex := by
  unfold MultiIndex.CheckAckFromBlock at h
  have hsame : ∀ (k : Bool) (r : Option QueryError),
      some (i, k, r) = some (i1, known, e) →
      i1.trackers = i.trackers ∧ i1.RespIndex = i.RespIndex ∧ i1.AckIndex = i.AckIndex := by
    intro k r hh
    simp only [Option.some.injEq, Prod.mk.injEq] at hh
    rw [← hh.1]
    exact ⟨rfl, rfl, rfl⟩
  split at h
  · exact hsame _ _ h
  · split at h
    · exact absurd h (by simp)
    · simp only at h
      split at h
      · exact hsame _ _ h
      · split at h
        · exact absurd h (by simp)
        · split at h
          · exact absurd h (by simp)
          · split at h
            · exact hsame _ _ h
            · split at h
              · exact hsame _ _ h
              · split at h
                · exact hsame _ _ h
                · split at h
                  · exact hsame _ _ h
                  · split at h
                    · split at h
                      · exact hsame _ _ h
                      · simp only [Option.some.injEq, Prod.mk.injEq] at h
                        rw [← h.1]
                        exact ⟨rfl, rfl, rfl⟩
                    · exact hsame _ _ h

theorem markLoop_same (l : List (Nat × QueryTracker)) :
    ∀ (ts : List RequestTracker) (out : List Nat) (r : List RequestTracker × List Nat),
      markLoop l ts out = some r → SameFields ts r.1 := by
  induction l with
  | nil =>
    intro ts out r h
    simp only [markLoop, Option.some.injEq] at h
    subst h
    exact sameFields_refl _
  | cons x rest ih =>
    intro ts out r h
    obtain ⟨k, q⟩ := x
    simp only [markLoop] at h
    split at h
    · exact ih _ _ _ h
    · split at h
      · exact ih _ _ _ h
      · rename_i t ht
        split at h
        · exact ih _ _ _ h
        · split at h
          · exact absurd h (by simp)
          · have hstep := ih _ _ _ h
            refine sameFields_trans _ _ _ ?_ hstep
            exact sameFields_set ts _ t _ ht rfl rfl

theorem sound_new : NewMultiIndex.Sound :=
  ⟨⟨fun kv h => absurd h (List.not_mem_nil kv), fun kv h => absurd h (List.not_mem_nil kv)⟩,
    fun _ _ h => absurd h (by simp [NewMultiIndex]), fun kv h => absurd h (List.not_mem_nil kv)⟩

theorem AddResponse_sound (i : MultiIndex) (resp : SignedResponseHeader) (hS : i.Sound) :
    (i.AddResponse resp).1.Sound :=
  ⟨AddResponse_inv i resp hS.1, AddResponse_linked i resp hS.2⟩

theorem AddAck_sound (i : MultiIndex) (a : SignedAckHeader) (i' : MultiIndex)
    (e : Option QueryError) (hS : i.Sound) (hc : a.consistent)
    (h : i.AddAck a = some (i', e)) : i'.Sound :=
  ⟨AddAck_inv i a i' e hS.1 h, AddAck_linked i a i' e hS.2 hc h⟩

theorem SetSignedBlock_sound (i : MultiIndex) (b : HashRef) (a : Nat) (i1 : MultiIndex)
    (hS : i.Sound) (h : i.SetSignedBlock b a = some i1) : i1.Sound := by
  obtain ⟨h1, h2, h3, _⟩ := SetSignedBlock_same i b a i1 h
  refine ⟨SetSignedBlock_inv i b a i1 hS.1 h, ?_⟩
  rw [h2, h3]
  exact linked_sameFields _ _ _ _ hS.2 h1

theorem CheckAckFromBlock_sound (i : MultiIndex) (b : HashRef) (a : Nat) (i1 : MultiIndex)
    (known : Bool) (e : Option QueryError) (hS : i.Sound)
    (h : i.CheckAckFromBlock b a = some (i1, known, e)) : i1.Sound := by
  obtain ⟨h1, h2, h3⟩ := CheckAckFromBlock_frame i b a i1 known e h
  refine ⟨CheckAckFromBlock_inv i b a i1 known e hS.1 h, ?_⟩
  rw [h1, h2, h3]
  exact hS.2

theorem MarkAndCollectUnsignedAcks_sound (i : MultiIndex) (qs : List Nat) (i1 : MultiIndex)
    (out : List Nat) (hS : i.Sound)
    (h : i.MarkAndCollectUnsignedAcks qs = some (i1, out)) : i1.Sound := by
  refine ⟨MarkAndCollectUnsignedAcks_inv i qs i1 out hS.1 h, ?_⟩
  unfold MultiIndex.MarkAndCollectUnsignedAcks at h
  split at h
  · exact absurd h (by simp)
  · rename_i r hr
    simp only [Option.some.injEq, Prod.mk.injEq] at h
    rw [← h.1]
    exact linked_sameFields _ _ _ _ hS.2 (markLoop_same _ _ _ _ hr)

/-- Every index built from consistent acknowledgements satisfies the invariant. -/
theorem sound_of_reachWith (i : MultiIndex)
    (h : MultiIndex.ReachWith SignedAckHeader.consistent i) : i.Sound := by
  induction h with
  | new => exact sound_new
  | addResponse i resp _ ih => exact AddResponse_sound i resp ih
  | addAck i ack i' err _ hc h ih => exact AddAck_sound i ack i' err ih hc h
  | setSignedBlock i b a i' _ h ih => exact SetSignedBlock_sound i b a i' ih h
  | checkAckFromBlock i b a i' known err _ h ih =>
    exact CheckAckFromBlock_sound i b a i' known err ih h
  | markAndCollect i qs i' out _ h ih =>
    exact MarkAndCollectUnsignedAcks_sound i qs i' out ih h

/-! ## C12, C13: CheckAckFromBlock and the first acknowledgement -/

/-- The result of `CheckAckFromBlock` for a known acknowledgement whose tracker is not
signed by another block and is indexed as the code expects: the first acknowledgement
of the sequence number decides. -/
theorem CheckAckFromBlock_eval (i : MultiIndex) (B : HashRef) (k qh : Nat)
    (q : RequestTracker) (a : SignedAckHeader) (r : SignedResponseHeader) (qs : QueryTracker)
    (f : Nat) (ft : RequestTracker)
    (hk : mapGet i.AckIndex k = some qh) (hq : i.trackers[qh]? = some q)
    (hsb : ∀ sb, q.SignedBlock = some sb → sb.IsEqual B = true)
    (hqa : q.Ack = some a) (hqr : q.Response = some r)
    (hresp : mapGet i.RespIndex r.HeaderHash = some qh)
    (hqs : mapGet i.SeqIndex a.SeqNo = some qs) (hf : qs.FirstAck = some f)
    (hft : i.trackers[f]? = some ft) :
    i.CheckAckFromBlock B k =
      if f ≠ qh then
        match ft.SignedBlock with
        | some _ => some (i, true, some QueryError.ErrQuerySignedByAnotherBlock)
        | none =>
          some ({ i with SeqIndex := mapSet i.SeqIndex a.SeqNo { qs with FirstAck := some qh } },
            true, none)
      else some (i, true, none) := by
  have hse : (match q.SignedBlock with
      | some sb => !(sb.IsEqual B)
      | none => false) = false := by
    cases hs : q.SignedBlock with
    | none => rfl
    | some sb =>
      simp only [hsb sb hs]
      rfl
  unfold MultiIndex.CheckAckFromBlock
  simp only [hk, hq, hse, hqa, hqr, hresp, hqs, hf, hft]
  simp

/-- C12: on an index built from consistent acknowledgements, when the tracker of `a2`
is known in `AckIndex`, holds `a2` and has a nil `SignedBlock` (or one equal to `B`), and
the `FirstAck` of the sequence number of `a2` is the tracker of another acknowledgement
`a1` with a nil `SignedBlock`, `CheckAckFromBlock(B, a2.hash)` returns `(true, nil)` and
the index after the call is the index before it with the tracker of `a2` as the
`FirstAck` of that sequence number. -/
theorem CheckAckFromBlock_promotes (i : MultiIndex) (B : HashRef) (a1 a2 : SignedAckHeader)
    (qh : Nat) (q : RequestTracker) (qs : QueryTracker) (f : Nat) (ft : RequestTracker)
    (hr : MultiIndex.ReachWith SignedAckHeader.consistent i)
    (hk : mapGet i.AckIndex a2.HeaderHash = some qh) (hq : i.trackers[qh]? = some q)
    (hqa : q.Ack = some a2)
    (hsb : q.SignedBlock = none ∨ ∃ sb, q.SignedBlock = some sb ∧ sb.IsEqual B = true)
    (hqs : mapGet i.SeqIndex a2.SeqNo = some qs) (hf : qs.FirstAck = some f)
    (hft : i.trackers[f]? = some ft) (hfa : ft.Ack = some a1) (hne : a1 ≠ a2)
    (hfs : ft.SignedBlock = none) :
    i.CheckAckFromBlock B a2.HeaderHash =
      some ({ i with SeqIndex := mapSet i.SeqIndex a2.SeqNo { qs with FirstAck := some qh } },
        true, none) := by
  obtain ⟨r, hqr, hresp⟩ := (sound_of_reachWith i hr).2.1 qh q hq
  have hfq : f ≠ qh := by
    intro heq
    subst heq
    rw [hq] at hft
    simp only [Option.some.injEq] at hft
    subst hft
    rw [hqa] at hfa
    simp only [Option.some.injEq] at hfa
    exact hne hfa.symm
  have hsb' : ∀ sb, q.SignedBlock = some sb → sb.IsEqual B = true := by
    intro sb hs
    rcases hsb with h0 | ⟨sb', h1, h2⟩
    · rw [h0] at hs
      exact absurd hs (by simp)
    · rw [h1] at hs
      simp only [Option.some.injEq] at hs
      subst hs
      exact h2
  rw [CheckAckFromBlock_eval i B a2.HeaderHash qh q a2 r qs f ft hk hq hsb' hqa hqr hresp hqs
    hf hft, if_pos hfq, hfs]

theorem exTwoAcks_reachWith : MultiIndex.ReachWith SignedAckHeader.consistent exTwoAcks := by
  have h1 : NewMultiIndex.AddAck exAck1 = some (exOneAck, none) := by decide
  have h2 : exOneAck.AddAck exAck3
      = some (exTwoAcks, some QueryError.ErrMultipleAckOfSeqNo) := by decide
  exact MultiIndex.ReachWith.addAck _ _ _ _
    (MultiIndex.ReachWith.addAck _ _ _ _ MultiIndex.ReachWith.new ⟨rfl, rfl⟩ h1) ⟨rfl, rfl⟩ h2

theorem exMarked_reachWith : MultiIndex.ReachWith SignedAckHeader.consistent exMarked := by
  have h1 : exTwoAcks.MarkAndCollectUnsignedAcks [] = some (exMarked, [200]) := by decide
  exact MultiIndex.ReachWith.markAndCollect _ _ _ _ exTwoAcks_reachWith h1

/-- Witness of C12: `exAck1` and `exAck3` share the sequence number 1, the tracker of
`exAck1` is the first acknowledgement and neither tracker is signed. -/
theorem CheckAckFromBlock_promotes_witness :
    MultiIndex.ReachWith SignedAckHeader.consistent exTwoAcks ∧
    exTwoAcks.CheckAckFromBlock (HashRef.block 9) exAck3.HeaderHash
      = some (exPromoted, true, none) :=
  ⟨exTwoAcks_reachWith,
    CheckAckFromBlock_promotes exTwoAcks (HashRef.block 9) exAck1 exAck3 1 exTrackerA3
      exQuery1 0 exTrackerA1 exTwoAcks_reachWith (by decide) (by decide) rfl (Or.inl rfl)
      (by decide) rfl (by decide) rfl (by decide) rfl⟩

/-- C13 fails. In `exMarked`, the index after `AddAck(exAck1); AddAck(exAck3);
MarkAndCollectUnsignedAcks`, the first acknowledgement of the sequence number 1 is the
tracker of `exAck1`, whose `SignedBlock` is the placeholder written by
`MarkAndCollectUnsignedAcks` and no block hash, and the tracker of `exAck3` is known and
unsigned; `CheckAckFromBlock(B, exAck3.hash)` returns `ErrQuerySignedByAnotherBlock` and
promotes nothing, where the claim has the tracker of `exAck3` promoted and
`(true, nil)` returned. -/
theorem CheckAckFromBlock_placeholder_blocks :
    MultiIndex.ReachWith SignedAckHeader.consistent exMarked ∧
    exTwoAcks.MarkAndCollectUnsignedAcks [] = some (exMarked, [200]) ∧
    mapGet exMarked.AckIndex exAck3.HeaderHash = some 1 ∧
    exMarked.trackers[1]? = some exTrackerA3 ∧
    mapGet exMarked.SeqIndex exAck3.SeqNo = some exQuery1 ∧
    exMarked.trackers[0]? = some exTrackerA1.marked ∧
    exMarked.CheckAckFromBlock (HashRef.block 9) exAck3.HeaderHash
      = some (exMarked, true, some QueryError.ErrQuerySignedByAnotherBlock) :=
  ⟨exMarked_reachWith, by decide, by decide, by decide, by decide, by decide, by decide⟩

/-- The test `qs.FirstAck.SignedBlock != nil` of `CheckAckFromBlock(B, k)` on a reachable
index, when the tracker of `k` is not the current `FirstAck` of its sequence number: the
call returns `ErrQuerySignedByAnotherBlock` and leaves the index unchanged for every
non-nil `SignedBlock` of the current `FirstAck`, the placeholder included, and promotes
the tracker of `k` with `(true, nil)` when that `SignedBlock` is nil. The test does not
tell the placeholder from a block hash. -/
theorem CheckAckFromBlock_firstAck_signed (i : MultiIndex) (B : HashRef) (k qh : Nat)
    (q : RequestTracker) (a : SignedAckHeader) (qs : QueryTracker) (f : Nat)
    (ft : RequestTracker)
    (hr : MultiIndex.ReachWith SignedAckHeader.consistent i)
    (hk : mapGet i.AckIndex k = some qh) (hq : i.trackers[qh]? = some q)
    (hsb : ∀ sb, q.SignedBlock = some sb → sb.IsEqual B = true)
    (hqa : q.Ack = some a) (hqs : mapGet i.SeqIndex a.SeqNo = some qs)
    (hf : qs.FirstAck = some f) (hft : i.trackers[f]? = some ft) (hne : f ≠ qh) :
    (∀ sb, ft.SignedBlock = some sb →
      i.CheckAckFromBlock B k
        = some (i, true, some QueryError.ErrQuerySignedByAnotherBlock)) ∧
    (ft.SignedBlock = none →
      i.CheckAckFromBlock B k =
        some ({ i with SeqIndex := mapSet i.SeqIndex a.SeqNo { qs with FirstAck := some qh } },
          true, none)) ∧
    (∀ i' err, i.CheckAckFromBlock B k = some (i', true, err) →
      (err = none ↔ ft.SignedBlock = none)) := by
  obtain ⟨r, hqr, hresp⟩ := (sound_of_reachWith i hr).2.1 qh q hq
  have he := CheckAckFromBlock_eval i B k qh q a r qs f ft hk hq hsb hqa hqr hresp hqs hf hft
  rw [if_pos hne] at he
  refine ⟨?_, ?_, ?_⟩
  · intro sb hs
    rw [he, hs]
  · intro hs
    rw [he, hs]
  · intro i' err hc
    rw [he] at hc
    cases hs : ft.SignedBlock with
    | none =>
      rw [hs] at hc
      simp only [Option.some.injEq, Prod.mk.injEq, true_and] at hc
      exact ⟨fun _ => rfl, fun _ => hc.2.symm⟩
    | some sb =>
      rw [hs] at hc
      simp only [Option.some.injEq, Prod.mk.injEq, true_and] at hc
      constructor
      · intro h0
        rw [h0] at hc
        exact absurd hc.2 (by simp)
      · intro h0
        exact absurd h0 (by simp)

/-- The test at the index `exMarked`: the placeholder on the first acknowledgement
gives `ErrQuerySignedByAnotherBlock`. -/
theorem CheckAckFromBlock_firstAck_signed_witness :
    MultiIndex.ReachWith SignedAckHeader.consistent exMarked ∧
    exTrackerA1.marked.SignedBlock = some HashRef.placeHolder ∧
    exMarked.CheckAckFromBlock (HashRef.block 9) 203
      = some (exMarked, true, some QueryError.ErrQuerySignedByAnotherBlock) :=
  ⟨exMarked_reachWith, rfl,
    (CheckAckFromBlock_firstAck_signed exMarked (HashRef.block 9) 203 1 exTrackerA3 exAck3
      exQuery1 0 exTrackerA1.marked exMarked_reachWith (by decide) (by decide)
      (fun _ hs => Option.noConfusion hs) rfl (by decide) rfl (by decide) (by decide)).1
      HashRef.placeHolder rfl⟩

/-! ## Lemmas on the height map -/

theorem hGet_hSet {β : Type} (m : List (Int × β)) (k k' : Int) (v : β) :
    hGet (hSet m k v) k' = if k = k' then some v else hGet m k' := by
  induction m with
  | nil => simp [hSet, hGet]
  | cons x rest ih =>
    obtain ⟨k0, v0⟩ := x
    simp only [hSet]
    by_cases h0 : k0 = k
    · subst h0
      simp only [if_true, hGet]
      by_cases h1 : k0 = k' <;> simp [h1]
    · simp only [h0, if_false, hGet, ih]
      by_cases h1 : k0 = k'
      · subst h1
        simp [h0, Ne.symm h0]
      · simp [h1]

theorem hSet_of_hGet {β : Type} (m : List (Int × β)) (k : Int) (v : β)
    (h : hGet m k = some v) : hSet m k v = m := by
  induction m with
  | nil => simp [hGet] at h
  | cons x rest ih =>
    obtain ⟨k0, v0⟩ := x
    simp only [hGet] at h
    simp only [hSet]
    split at h
    · rename_i hk
      simp only [Option.some.injEq] at h
      rw [if_pos hk, ← hk, h]
    · rename_i hk
      rw [if_neg hk, ih h]

theorem hGet_mem {β : Type} (m : List (Int × β)) (k : Int) (v : β)
    (hg : hGet m k = some v) : (k, v) ∈ m := by
  induction m with
  | nil => simp [hGet] at hg
  | cons x rest ih =>
    obtain ⟨k', v'⟩ := x
    simp only [hGet] at hg
    split at hg
    · rename_i hk
      simp only [Option.some.injEq] at hg
      subst hk; subst hg
      exact List.mem_cons_self _ _
    · exact List.mem_cons_of_mem _ (ih hg)

theorem mem_hSet {β : Type} (m : List (Int × β)) (k : Int) (v : β) (x : Int × β)
    (hx : x ∈ hSet m k v) : x = (k, v) ∨ x ∈ m := by
  induction m with
  | nil =>
    simp only [hSet, List.mem_singleton] at hx
    exact Or.inl hx
  | cons y rest ih =>
    obtain ⟨k0, v0⟩ := y
    simp only [hSet] at hx
    split at hx
    · rcases List.mem_cons.mp hx with h1 | h1
      · exact Or.inl h1
      · exact Or.inr (List.mem_cons_of_mem _ h1)
    · rcases List.mem_cons.mp hx with h1 | h1
      · exact Or.inr (h1 ▸ List.mem_cons_self _ _)
      · rcases ih h1 with h2 | h2
        · exact Or.inl h2
        · exact Or.inr (List.mem_cons_of_mem _ h2)

theorem hGet_hDel {β : Type} (m : List (Int × β)) (k k' : Int) :
    hGet (hDel m k) k' = if k = k' then none else hGet m k' := by
  induction m with
  | nil => simp [hDel, hGet]
  | cons x rest ih =>
    obtain ⟨k0, v0⟩ := x
    unfold hDel at ih ⊢
    by_cases h0 : k0 = k
    · subst h0
      simp only [List.filter_cons, ne_eq, not_true_eq_false, decide_False, Bool.false_eq_true,
        if_false, ih, hGet]
      by_cases h1 : k0 = k' <;> simp [h1]
    · simp only [List.filter_cons, ne_eq, h0, not_false_eq_true, decide_True, if_true, hGet, ih]
      by_cases h1 : k0 = k'
      · subst h1
        simp [Ne.symm h0]
      · simp [h1]

theorem mem_heightRange (l h x : Int) : x ∈ heightRange l h ↔ l ≤ x ∧ x < h := by
  unfold heightRange
  rw [List.mem_map]
  constructor
  · rintro ⟨k, hk, hx⟩
    rw [List.mem_range] at hk
    have h1 : (k : Int) < h - l := (Int.lt_toNat).mp hk
    omega
  · intro hx
    have h2 : ((x - l).toNat : Int) = x - l := Int.toNat_of_nonneg (by omega)
    refine ⟨(x - l).toNat, ?_, ?_⟩
    · rw [List.mem_range]
      apply (Int.lt_toNat).mpr
      omega
    · omega

theorem heightRange_empty (l h : Int) (hle : h ≤ l) : heightRange l h = [] := by
  unfold heightRange
  have h0 : (h - l).toNat = 0 := Int.toNat_eq_zero.mpr (by omega)
  rw [h0]
  rfl

theorem ensureHeight_get (m : List (Int × MultiIndex)) (h : Int) :
    hGet (EnsureHeight m h).1 h = some (EnsureHeight m h).2 := by
  unfold EnsureHeight
  cases hg : hGet m h with
  | none => simp only [hGet_hSet, if_true]
  | some v => exact hg

theorem ensureHeight_of_get (m : List (Int × MultiIndex)) (h : Int) (v : MultiIndex)
    (hg : hGet m h = some v) : EnsureHeight m h = (m, v) := by
  unfold EnsureHeight
  rw [hg]

theorem ensureHeight_of_none (m : List (Int × MultiIndex)) (h : Int)
    (hg : hGet m h = none) : EnsureHeight m h = (hSet m h NewMultiIndex, NewMultiIndex) := by
  unfold EnsureHeight
  rw [hg]

theorem ensureHeight_writeback (m : List (Int × MultiIndex)) (h : Int) :
    hSet (EnsureHeight m h).1 h (EnsureHeight m h).2 = (EnsureHeight m h).1 :=
  hSet_of_hGet _ _ _ (ensureHeight_get m h)

/-- After the loop of `AdvanceBarrier` the heights it ran through have no bucket and the
other heights have the bucket they had. -/
theorem hGet_expireLoop (xs : List Int) :
    ∀ (m : List (Int × MultiIndex)) (x : Int),
      hGet (expireLoop xs m) x = if x ∈ xs then none else hGet m x := by
  induction xs with
  | nil =>
    intro m x
    simp [expireLoop]
  | cons x0 rest ih =>
    intro m x
    simp only [expireLoop]
    cases hg : hGet m x0 with
    | none =>
      simp only
      rw [ih]
      by_cases hx : x = x0
      · subst hx
        simp [hg]
      · simp [hx]
    | some hi =>
      simp only
      rw [ih, hGet_hDel]
      by_cases hx : x = x0
      · subst hx
        simp
      · simp [hx, Ne.symm hx]

theorem hGet_none_not_mem {β : Type} (m : List (Int × β)) (k : Int)
    (hn : hGet m k = none) : ∀ kv ∈ m, kv.1 = k → False := by
  induction m with
  | nil => intro kv hkv; cases hkv
  | cons p rest ih =>
    intro kv hkv hk
    unfold hGet at hn
    split at hn
    · exact absurd hn (by simp)
    · rename_i hne
      rcases List.mem_cons.mp hkv with rfl | hin
      · exact hne hk
      · exact ih hn kv hin hk

/-! ## The barrier is written by `AdvanceBarrier` only -/

theorem AddResponse_barrier (i : QueryIndex) (h : Int) (resp : SignedResponseHeader) :
    (i.AddResponse h resp).1.barrier = i.barrier := rfl

theorem AddAck_barrier (i : QueryIndex) (h : Int) (ack : SignedAckHeader)
    (r : QueryIndex × Option QueryError) (hr : i.AddAck h ack = some r) :
    r.1.barrier = i.barrier := by
  unfold QueryIndex.AddAck at hr
  simp only at hr
  split at hr
  · exact absurd hr (by simp)
  · simp only [Option.some.injEq] at hr
    subst hr
    rfl

theorem SetSignedBlock_barrier (i : QueryIndex) (h : Int) (b : Block) (j : QueryIndex)
    (hr : i.SetSignedBlock h b = some j) : j.barrier = i.barrier := by
  unfold QueryIndex.SetSignedBlock at hr
  simp only at hr
  split at hr
  · exact absurd hr (by simp)
  · simp only [Option.some.injEq] at hr
    subst hr
    rfl

theorem GetAck_barrier (i : QueryIndex) (h : Int) (k : Nat)
    (r : QueryIndex × Option SignedAckHeader × Option QueryError)
    (hr : i.GetAck h k = some r) : r.1.barrier = i.barrier := by
  unfold QueryIndex.GetAck at hr
  split at hr
  · simp only at hr
    split at hr
    · split at hr
      · exact absurd hr (by simp)
      · simp only [Option.some.injEq] at hr
        subst hr
        rfl
    · simp only [Option.some.injEq] at hr
      subst hr
      rfl
  · simp only [Option.some.injEq] at hr
    subst hr
    rfl

theorem CheckAckFromBlock_barrier (i : QueryIndex) (h : Int) (b : HashRef) (k : Nat)
    (r : QueryIndex × Bool × Option QueryError)
    (hr : i.CheckAckFromBlock h b k = some r) : r.1.barrier = i.barrier := by
  unfold QueryIndex.CheckAckFromBlock at hr
  split at hr
  · simp only [Option.some.injEq] at hr
    subst hr
    rfl
  · simp only at hr
    split at hr
    · exact absurd hr (by simp)
    · simp only [Option.some.injEq] at hr
      subst hr
      rfl

theorem MarkAndCollect_barrier (i : QueryIndex) (h : Int) (r : QueryIndex × List Nat)
    (hr : i.MarkAndCollectUnsignedAcks h = some r) : r.1.barrier = i.barrier := by
  unfold QueryIndex.MarkAndCollectUnsignedAcks at hr
  split at hr
  · exact absurd hr (by simp)
  · simp only [Option.some.injEq] at hr
    subst hr
    rfl

theorem AdvanceBarrier_barrier (i : QueryIndex) (h : Int) :
    (i.AdvanceBarrier h).barrier = h := rfl

theorem AdvanceBarrier_back (i : QueryIndex) (h : Int) (hle : h ≤ i.barrier) :
    i.AdvanceBarrier h = { i with barrier := h } := by
  unfold QueryIndex.AdvanceBarrier
  rw [heightRange_empty _ _ hle]
  rfl

theorem run_barrier_le (i j : QueryIndex) (hr : QueryIndex.Run forwardBarrier i j) :
    i.barrier ≤ j.barrier := by
  induction hr with
  | start => exact le_refl _
  | addResponse j h resp _ _ ih => exact ih
  | addAck j h ack j' err _ _ _ he ih =>
    have := AddAck_barrier j h ack (j', err) he
    simp only at this
    omega
  | setSignedBlock j h b j' _ _ he ih =>
    have := SetSignedBlock_barrier j h b j' he
    omega
  | getAck j h k j' ack err _ he ih =>
    have := GetAck_barrier j h k (j', ack, err) he
    simp only at this
    omega
  | checkAckFromBlock j h b k j' known err _ he ih =>
    have := CheckAckFromBlock_barrier j h b k (j', known, err) he
    simp only at this
    omega
  | markAndCollect j h j' out _ he ih =>
    have := MarkAndCollect_barrier j h (j', out) he
    simp only at this
    omega
  | advanceBarrier j h _ ha ih =>
    have h1 : j.barrier ≤ h := ha
    have h2 : (j.AdvanceBarrier h).barrier = h := rfl
    omega

/-! ## Lookups at a height -/

theorem GetAck_expired (i : QueryIndex) (h : Int) (k : Nat) (hb : h < i.barrier) :
    i.GetAck h k = some (i, none, some QueryError.ErrQueryExpired) := by
  unfold QueryIndex.GetAck
  rw [if_neg (by omega)]

theorem GetAck_live (i : QueryIndex) (h : Int) (k : Nat) (hb : i.barrier ≤ h) :
    i.GetAck h k =
      match i.ackEntry h k with
      | none => some (i.ensured h, none, some QueryError.ErrQueryNotCached)
      | some v =>
        match i.tracker h v with
        | none => none
        | some t => some (i, t.Ack, none) := by
  unfold QueryIndex.GetAck QueryIndex.ackEntry QueryIndex.tracker QueryIndex.ensured
  rw [if_pos (by omega)]
  cases hg : hGet i.heightIndex h with
  | none =>
    rw [ensureHeight_of_none _ _ hg]
    simp [NewMultiIndex, mapGet]
  | some m =>
    rw [ensureHeight_of_get _ _ _ hg]
    simp only [Option.some_bind]
    cases hv : mapGet m.AckIndex k with
    | none => cases i; rfl
    | some v =>
      cases ht : m.trackers[v]? with
      | none => rfl
      | some t => cases i; rfl

theorem CheckAckFromBlock_expired (i : QueryIndex) (h : Int) (b : HashRef) (k : Nat)
    (hb : h < i.barrier) :
    i.CheckAckFromBlock h b k = some (i, false, some QueryError.ErrQueryExpired) := by
  unfold QueryIndex.CheckAckFromBlock
  rw [if_pos hb]

theorem CheckAckFromBlock_unknown (i : QueryIndex) (h : Int) (b : HashRef) (k : Nat)
    (hb : i.barrier ≤ h) (hk : i.ackEntry h k = none) :
    i.CheckAckFromBlock h b k = some (i.ensured h, false, none) := by
  have hm : mapGet (EnsureHeight i.heightIndex h).2.AckIndex k = none := by
    unfold QueryIndex.ackEntry at hk
    cases hg : hGet i.heightIndex h with
    | none =>
      rw [ensureHeight_of_none _ _ hg]
      rfl
    | some m =>
      rw [hg] at hk
      rw [ensureHeight_of_get _ _ _ hg]
      exact hk
  unfold QueryIndex.CheckAckFromBlock QueryIndex.ensured
  rw [if_neg (by omega)]
  simp only
  have hc : (EnsureHeight i.heightIndex h).2.CheckAckFromBlock b k
      = some ((EnsureHeight i.heightIndex h).2, false, none) := by
    unfold MultiIndex.CheckAckFromBlock
    rw [hm]
  rw [hc]
  simp only [ensureHeight_writeback]

/-! ## C17: moving the barrier back -/

/-- C17, counterexample: on an index with the barrier at 5, `AdvanceBarrier(3)` is not a
no-op: it sets the barrier to 3, so the barrier decreases over the call sequence
`AdvanceBarrier(5); AdvanceBarrier(3)`. -/
theorem AdvanceBarrier_lowers_barrier :
    (3 : Int) ≤ exBar5.barrier ∧
    (exBar5.AdvanceBarrier 3).barrier = 3 ∧
    exBar5.AdvanceBarrier 3 ≠ exBar5 ∧
    (exBar5.AdvanceBarrier 3).barrier < exBar5.barrier ∧
    QueryIndex.Reach anyCall exBar5 ∧
    QueryIndex.Run anyCall exBar5 (exBar5.AdvanceBarrier 3) :=
  ⟨by decide, by decide, by decide, by decide,
    QueryIndex.Run.advanceBarrier NewQueryIndex 5 QueryIndex.Run.start trivial,
    QueryIndex.Run.advanceBarrier exBar5 3 QueryIndex.Run.start trivial⟩

/-- C17, amended: for every height `h <= barrier`, `AdvanceBarrier(h)` leaves the height
buckets unchanged and sets the barrier to `h`, so it is a no-op exactly when
`h = barrier`; over every sequence of operations in which `AdvanceBarrier` is only
called with heights not below the current barrier, the barrier never decreases. -/
theorem AdvanceBarrier_backward (i : QueryIndex) (h : Int) (hle : h ≤ i.barrier) :
    i.AdvanceBarrier h = { i with barrier := h } ∧
    (i.AdvanceBarrier h).heightIndex = i.heightIndex ∧
    (i.AdvanceBarrier h = i ↔ h = i.barrier) ∧
    (∀ j, QueryIndex.Run forwardBarrier i j → i.barrier ≤ j.barrier) := by
  have he := AdvanceBarrier_back i h hle
  refine ⟨he, ?_, ?_, fun j hj => run_barrier_le i j hj⟩
  · rw [he]
  · rw [he]
    constructor
    · intro hq
      have := congrArg QueryIndex.barrier hq
      exact this
    · intro hq
      subst hq
      rfl

/-- Witness of the amended C17 on the index with the barrier at 5 and the height 3. -/
theorem AdvanceBarrier_backward_witness :
    (3 : Int) ≤ exBar5.barrier ∧
    exBar5.AdvanceBarrier 3 = { exBar5 with barrier := 3 } ∧
    (exBar5.AdvanceBarrier 3).heightIndex = exBar5.heightIndex ∧
    (exBar5.AdvanceBarrier 3 = exBar5 ↔ (3 : Int) = exBar5.barrier) ∧
    (∀ j, QueryIndex.Run forwardBarrier exBar5 j → exBar5.barrier ≤ j.barrier) :=
  ⟨by decide, AdvanceBarrier_backward exBar5 3 (by decide)⟩

/-! ## C18: expiry below the barrier -/

theorem hGet_AdvanceBarrier (i : QueryIndex) (h x : Int) :
    hGet (i.AdvanceBarrier h).heightIndex x
      = if i.barrier ≤ x ∧ x < h then none else hGet i.heightIndex x := by
  unfold QueryIndex.AdvanceBarrier
  simp only [hGet_expireLoop, mem_heightRange]

theorem GetAck_answer_congr (i j : QueryIndex) (x : Int) (k : Nat)
    (hi : i.barrier ≤ x) (hj : j.barrier ≤ x)
    (hg : hGet j.heightIndex x = hGet i.heightIndex x) :
    (j.GetAck x k).map (fun r => r.2) = (i.GetAck x k).map (fun r => r.2) := by
  rw [GetAck_live i x k hi, GetAck_live j x k hj]
  unfold QueryIndex.ackEntry QueryIndex.tracker
  rw [hg]
  cases (hGet i.heightIndex x).bind (fun m => mapGet m.AckIndex k) with
  | none => rfl
  | some v =>
    simp only
    cases (hGet i.heightIndex x).bind (fun m => m.trackers[v]?) with
    | none => rfl
    | some t => rfl

/-- C18: for every index with barrier `b` and every `h > b`, after `AdvanceBarrier(h)`
the barrier is `h`, no bucket remains at a height in `[b, h)`, the buckets at heights
`>= h` are unchanged, `GetAck(x, k)` returns `ErrQueryExpired` for every `x < h`, `GetAck`
at a height `>= h` answers as it did before the call, and a second `AdvanceBarrier(h)`
changes nothing. -/
theorem AdvanceBarrier_expires (i : QueryIndex) (h : Int) (hb : i.barrier < h) :
    (i.AdvanceBarrier h).barrier = h ∧
    (∀ x, i.barrier ≤ x → x < h → hGet (i.AdvanceBarrier h).heightIndex x = none) ∧
    (∀ kv ∈ (i.AdvanceBarrier h).heightIndex, ¬ (i.barrier ≤ kv.1 ∧ kv.1 < h)) ∧
    (∀ x, h ≤ x → hGet (i.AdvanceBarrier h).heightIndex x = hGet i.heightIndex x) ∧
    (∀ x k, x < h → (i.AdvanceBarrier h).GetAck x k
      = some (i.AdvanceBarrier h, none, some QueryError.ErrQueryExpired)) ∧
    (∀ x k, h ≤ x → ((i.AdvanceBarrier h).GetAck x k).map (fun r => r.2)
      = (i.GetAck x k).map (fun r => r.2)) ∧
    (i.AdvanceBarrier h).AdvanceBarrier h = i.AdvanceBarrier h := by
  refine ⟨rfl, ?_, ?_, ?_, ?_, ?_, ?_⟩
  · intro x h1 h2
    rw [hGet_AdvanceBarrier, if_pos ⟨h1, h2⟩]
  · intro kv hkv hin
    have hn : hGet (i.AdvanceBarrier h).heightIndex kv.1 = none := by
      rw [hGet_AdvanceBarrier, if_pos hin]
    exact hGet_none_not_mem _ _ hn kv hkv rfl
  · intro x h1
    rw [hGet_AdvanceBarrier, if_neg (by omega)]
  · intro x k h1
    exact GetAck_expired (i.AdvanceBarrier h) x k h1
  · intro x k h1
    refine GetAck_answer_congr i (i.AdvanceBarrier h) x k (by omega) h1 ?_
    rw [hGet_AdvanceBarrier, if_neg (by omega)]
  · exact AdvanceBarrier_back (i.AdvanceBarrier h) h (le_refl _)

/-- Witness of C18: the heights 1 to 4 are populated and the barrier moves from 0 to 3. -/
theorem AdvanceBarrier_expires_witness :
    exHeights.barrier < 3 ∧
    (exHeights.AdvanceBarrier 3).barrier = 3 ∧
    (exHeights.AdvanceBarrier 3).GetAck 2 200
      = some (exHeights.AdvanceBarrier 3, none, some QueryError.ErrQueryExpired) ∧
    (exHeights.AdvanceBarrier 3).AdvanceBarrier 3 = exHeights.AdvanceBarrier 3 :=
  have w := AdvanceBarrier_expires exHeights 3 (by decide)
  ⟨by decide, w.1, w.2.2.2.2.1 2 200 (by decide), w.2.2.2.2.2.2⟩

/-! ## C19: the keys of the height map and the barrier -/

theorem mem_ensureHeight (m : List (Int × MultiIndex)) (h : Int) (x : Int × MultiIndex)
    (hx : x ∈ (EnsureHeight m h).1) : x.1 = h ∨ x ∈ m := by
  unfold EnsureHeight at hx
  split at hx
  · exact Or.inr hx
  · rcases mem_hSet _ _ _ _ hx with rfl | hin
    · exact Or.inl rfl
    · exact Or.inr hin

theorem keys_write (i : QueryIndex) (h : Int) (v : MultiIndex) (hk : i.keysAboveBarrier)
    (hb : i.barrier ≤ h) :
    ∀ kv ∈ hSet (EnsureHeight i.heightIndex h).1 h v, i.barrier ≤ kv.1 := by
  intro kv hkv
  rcases mem_hSet _ _ _ _ hkv with rfl | hin
  · exact hb
  · rcases mem_ensureHeight _ _ _ hin with he | hm
    · rw [he]
      exact hb
    · exact hk kv hm

theorem mem_expireLoop (xs : List Int) :
    ∀ (m : List (Int × MultiIndex)) (kv : Int × MultiIndex),
      kv ∈ expireLoop xs m → kv ∈ m ∧ kv.1 ∉ xs := by
  induction xs with
  | nil =>
    intro m kv hkv
    exact ⟨hkv, List.not_mem_nil _⟩
  | cons x xs ih =>
    intro m kv hkv
    unfold expireLoop at hkv
    cases hg : hGet m x with
    | none =>
      rw [hg] at hkv
      obtain ⟨h1, h2⟩ := ih m kv hkv
      refine ⟨h1, ?_⟩
      intro hmem
      rcases List.mem_cons.mp hmem with he | hin
      · exact hGet_none_not_mem m x hg kv h1 he
      · exact h2 hin
    | some hi =>
      rw [hg] at hkv
      obtain ⟨h1, h2⟩ := ih (hDel m x) kv hkv
      unfold hDel at h1
      rw [List.mem_filter] at h1
      refine ⟨h1.1, ?_⟩
      intro hmem
      rcases List.mem_cons.mp hmem with he | hin
      · exact (of_decide_eq_true h1.2) he
      · exact h2 hin

theorem collectLoop_keys (xs : List Int) :
    ∀ (m : List (Int × MultiIndex)) (qs : List Nat) (r : List (Int × MultiIndex) × List Nat),
      collectLoop xs m qs = some r → ∀ kv ∈ r.1, ∃ kv' ∈ m, kv'.1 = kv.1 := by
  induction xs with
  | nil =>
    intro m qs r hr kv hkv
    unfold collectLoop at hr
    simp only [Option.some.injEq] at hr
    subst hr
    exact ⟨kv, hkv, rfl⟩
  | cons x xs ih =>
    intro m qs r hr kv hkv
    unfold collectLoop at hr
    cases hg : hGet m x with
    | none =>
      rw [hg] at hr
      exact ih m qs r hr kv hkv
    | some hi =>
      rw [hg] at hr
      simp only at hr
      cases hc : hi.MarkAndCollectUnsignedAcks qs with
      | none =>
        rw [hc] at hr
        exact absurd hr (by simp)
      | some r1 =>
        rw [hc] at hr
        obtain ⟨kv1, h1, h2⟩ := ih _ _ r hr kv hkv
        rcases mem_hSet _ _ _ _ h1 with rfl | hin
        · exact ⟨(x, hi), hGet_mem m x hi hg, h2⟩
        · exact ⟨kv1, hin, h2⟩

theorem keysAboveBarrier_of_run (i j : QueryIndex) (hi : i.keysAboveBarrier)
    (hr : QueryIndex.Run liveHeights i j) : j.keysAboveBarrier := by
  induction hr with
  | start => exact hi
  | addResponse j h resp _ hh ih =>
    exact keys_write j h _ ih hh
  | addAck j h ack j' err _ hh _ he ih =>
    unfold QueryIndex.AddAck at he
    simp only at he
    split at he
    · exact absurd he (by simp)
    · simp only [Option.some.injEq, Prod.mk.injEq] at he
      rw [← he.1]
      exact keys_write j h _ ih hh
  | setSignedBlock j h b j' _ hh he ih =>
    unfold QueryIndex.SetSignedBlock at he
    simp only at he
    split at he
    · exact absurd he (by simp)
    · simp only [Option.some.injEq] at he
      rw [← he]
      exact keys_write j h _ ih hh
  | getAck j h k j' ack err _ he ih =>
    unfold QueryIndex.GetAck at he
    split at he
    · rename_i hb
      have hmem : ∀ kv ∈ (EnsureHeight j.heightIndex h).1, j.barrier ≤ kv.1 := by
        intro kv hkv
        rcases mem_ensureHeight _ _ _ hkv with he1 | hm
        · rw [he1]
          exact hb
        · exact ih kv hm
      simp only at he
      split at he
      · split at he
        · exact absurd he (by simp)
        · simp only [Option.some.injEq, Prod.mk.injEq] at he
          rw [← he.1]
          exact hmem
      · simp only [Option.some.injEq, Prod.mk.injEq] at he
        rw [← he.1]
        exact hmem
    · simp only [Option.some.injEq, Prod.mk.injEq] at he
      rw [← he.1]
      exact ih
  | checkAckFromBlock j h b k j' known err _ he ih =>
    unfold QueryIndex.CheckAckFromBlock at he
    split at he
    · simp only [Option.some.injEq, Prod.mk.injEq] at he
      rw [← he.1]
      exact ih
    · rename_i hb
      simp only at he
      split at he
      · exact absurd he (by simp)
      · simp only [Option.some.injEq, Prod.mk.injEq] at he
        rw [← he.1]
        exact keys_write j h _ ih (by omega)
  | markAndCollect j h j' out _ he ih =>
    unfold QueryIndex.MarkAndCollectUnsignedAcks at he
    split at he
    · exact absurd he (by simp)
    · rename_i r hc
      simp only [Option.some.injEq, Prod.mk.injEq] at he
      rw [← he.1]
      intro kv hkv
      obtain ⟨kv1, h1, h2⟩ := collectLoop_keys _ _ _ r hc kv hkv
      have := ih kv1 h1
      show j.barrier ≤ kv.1
      omega
  | advanceBarrier j h _ _ ih =>
    intro kv hkv
    obtain ⟨h1, h2⟩ := mem_expireLoop _ _ kv hkv
    have h3 := ih kv h1
    rw [mem_heightRange] at h2
    show h ≤ kv.1
    omega

/-- C19, counterexample: after `AdvanceBarrier(5)` on a fresh index, `AddResponse(2, r)`
creates a bucket at the height 2, below the barrier 5. The state is reachable from
`NewQueryIndex` by calls of the operations. -/
theorem keysAboveBarrier_fails :
    QueryIndex.Reach anyCall exStale ∧ exStale.barrier = 5 ∧
    hGet exStale.heightIndex 2 ≠ none ∧ ¬ exStale.keysAboveBarrier := by
  refine ⟨?_, by decide, by decide, ?_⟩
  · exact QueryIndex.Run.addResponse exBar5 2 exResp
      (QueryIndex.Run.advanceBarrier NewQueryIndex 5 QueryIndex.Run.start trivial) trivial
  · intro hk
    have h0 : hGet exStale.heightIndex 2 ≠ none := by decide
    cases hg : hGet exStale.heightIndex 2 with
    | none => exact h0 hg
    | some m =>
      have h3 : exStale.barrier ≤ 2 := hk (2, m) (hGet_mem _ _ _ hg)
      have h4 : exStale.barrier = 5 := by decide
      omega

/-- C19, amended: in every state reachable from `NewQueryIndex` by calls of the seven
operations in which `AddResponse`, `AddAck` and `SetSignedBlock` are only called with
heights not below the current barrier, no key of the height map is below the barrier. -/
theorem keysAboveBarrier_of_reach (i : QueryIndex) (hr : QueryIndex.Reach liveHeights i) :
    i.keysAboveBarrier := by
  refine keysAboveBarrier_of_run NewQueryIndex i ?_ hr
  intro kv hkv
  cases hkv

/-- Witness of the amended C19: a response added at the height 7 after the barrier moved
to 5. -/
theorem keysAboveBarrier_of_reach_witness :
    QueryIndex.Reach liveHeights (exBar5.AddResponse 7 exResp).1 ∧
    (exBar5.AddResponse 7 exResp).1.keysAboveBarrier :=
  have hr : QueryIndex.Reach liveHeights (exBar5.AddResponse 7 exResp).1 :=
    QueryIndex.Run.addResponse exBar5 7 exResp
      (QueryIndex.Run.advanceBarrier NewQueryIndex 5 QueryIndex.Run.start trivial)
      (show exBar5.barrier ≤ 7 by decide)
  ⟨hr, keysAboveBarrier_of_reach _ hr⟩

/-! ## Invariants of the buckets of the index over heights -/

theorem mem_ensureHeight_new (m : List (Int × MultiIndex)) (h : Int) (x : Int × MultiIndex)
    (hx : x ∈ (EnsureHeight m h).1) : x = (h, NewMultiIndex) ∨ x ∈ m := by
  unfold EnsureHeight at hx
  split at hx
  · exact Or.inr hx
  · exact mem_hSet _ _ _ _ hx

theorem ensureHeight_all (P : MultiIndex → Prop) (m : List (Int × MultiIndex)) (h : Int)
    (hnew : P NewMultiIndex) (hm : ∀ kv ∈ m, P kv.2) :
    P (EnsureHeight m h).2 ∧ ∀ kv ∈ (EnsureHeight m h).1, P kv.2 := by
  constructor
  · cases hg : hGet m h with
    | none =>
      rw [ensureHeight_of_none _ _ hg]
      exact hnew
    | some v =>
      rw [ensureHeight_of_get _ _ _ hg]
      exact hm (h, v) (hGet_mem _ _ _ hg)
  · intro kv hkv
    rcases mem_ensureHeight_new _ _ _ hkv with h1 | h1
    · rw [h1]
      exact hnew
    · exact hm kv h1

theorem write_all (P : MultiIndex → Prop) (m : List (Int × MultiIndex)) (h : Int)
    (v : MultiIndex) (hm : ∀ kv ∈ m, P kv.2) (hv : P v) : ∀ kv ∈ hSet m h v, P kv.2 := by
  intro kv hkv
  rcases mem_hSet _ _ _ _ hkv with h1 | h1
  · rw [h1]
    exact hv
  · exact hm kv h1

theorem signLoop_all (P : MultiIndex → Prop)
    (hset : ∀ m b a m', P m → MultiIndex.SetSignedBlock m b a = some m' → P m')
    (vs : List Nat) :
    ∀ (m : MultiIndex) (b : HashRef) (m' : MultiIndex), P m → signLoop vs m b = some m' →
      P m' := by
  induction vs with
  | nil =>
    intro m b m' hp h
    simp only [signLoop, Option.some.injEq] at h
    rw [← h]
    exact hp
  | cons v vs ih =>
    intro m b m' hp h
    unfold signLoop at h
    cases hs : m.SetSignedBlock b v with
    | none =>
      rw [hs] at h
      exact absurd h (by simp)
    | some m1 =>
      rw [hs] at h
      exact ih m1 b m' (hset m b v m1 hp hs) h

theorem collectLoop_all (P : MultiIndex → Prop)
    (hmark : ∀ m qs m' out, P m → MultiIndex.MarkAndCollectUnsignedAcks m qs = some (m', out) →
      P m')
    (xs : List Int) :
    ∀ (m : List (Int × MultiIndex)) (qs : List Nat) (r : List (Int × MultiIndex) × List Nat),
      (∀ kv ∈ m, P kv.2) → collectLoop xs m qs = some r → ∀ kv ∈ r.1, P kv.2 := by
  induction xs with
  | nil =>
    intro m qs r hm hr
    unfold collectLoop at hr
    simp only [Option.some.injEq] at hr
    rw [← hr]
    exact hm
  | cons x xs ih =>
    intro m qs r hm hr
    unfold collectLoop at hr
    cases hg : hGet m x with
    | none =>
      rw [hg] at hr
      exact ih m qs r hm hr
    | some hi =>
      rw [hg] at hr
      simp only at hr
      cases hc : hi.MarkAndCollectUnsignedAcks qs with
      | none =>
        rw [hc] at hr
        exact absurd hr (by simp)
      | some r1 =>
        rw [hc] at hr
        refine ih _ _ r ?_ hr
        exact write_all P m x r1.1 hm
          (hmark hi qs r1.1 r1.2 (hm (x, hi) (hGet_mem _ _ _ hg)) hc)

/-- A property of indexes that the five operations of `MultiIndex` keep holds of every
bucket of the index over heights, along every run. -/
theorem buckets_of_run (c : CallPolicy) (P : MultiIndex → Prop) (hnew : P NewMultiIndex)
    (hresp : ∀ m r, P m → P (MultiIndex.AddResponse m r).1)
    (hack : ∀ m a m' e, c.ack a → P m → MultiIndex.AddAck m a = some (m', e) → P m')
    (hset : ∀ m b a m', P m → MultiIndex.SetSignedBlock m b a = some m' → P m')
    (hchk : ∀ m b a m' k e, P m → MultiIndex.CheckAckFromBlock m b a = some (m', k, e) → P m')
    (hmark : ∀ m qs m' out, P m → MultiIndex.MarkAndCollectUnsignedAcks m qs = some (m', out) →
      P m')
    (i j : QueryIndex) (hr : QueryIndex.Run c i j) (hi : ∀ kv ∈ i.heightIndex, P kv.2) :
    ∀ kv ∈ j.heightIndex, P kv.2 := by
  induction hr with
  | start => exact hi
  | addResponse j h resp _ _ ih =>
    obtain ⟨h1, h2⟩ := ensureHeight_all P j.heightIndex h hnew ih
    exact write_all P _ h _ h2 (hresp _ resp h1)
  | addAck j h ack j' err _ _ ha he ih =>
    obtain ⟨h1, h2⟩ := ensureHeight_all P j.heightIndex h hnew ih
    unfold QueryIndex.AddAck at he
    simp only at he
    cases hc : (EnsureHeight j.heightIndex h).2.AddAck ack with
    | none =>
      rw [hc] at he
      exact absurd he (by simp)
    | some r =>
      rw [hc] at he
      simp only [Option.some.injEq, Prod.mk.injEq] at he
      rw [← he.1]
      exact write_all P _ h _ h2 (hack _ ack r.1 r.2 ha h1 hc)
  | setSignedBlock j h b j' _ _ he ih =>
    obtain ⟨h1, h2⟩ := ensureHeight_all P j.heightIndex h hnew ih
    unfold QueryIndex.SetSignedBlock at he
    simp only at he
    cases hc : signLoop b.Queries (EnsureHeight j.heightIndex h).2 (HashRef.block b.BlockHash) with
    | none =>
      rw [hc] at he
      exact absurd he (by simp)
    | some hi1 =>
      rw [hc] at he
      simp only [Option.some.injEq] at he
      rw [← he]
      exact write_all P _ h _ h2 (signLoop_all P hset _ _ _ _ h1 hc)
  | getAck j h k j' ack err _ he ih =>
    obtain ⟨_, h2⟩ := ensureHeight_all P j.heightIndex h hnew ih
    unfold QueryIndex.GetAck at he
    split at he
    · simp only at he
      split at he
      · split at he
        · exact absurd he (by simp)
        · simp only [Option.some.injEq, Prod.mk.injEq] at he
          rw [← he.1]
          exact h2
      · simp only [Option.some.injEq, Prod.mk.injEq] at he
        rw [← he.1]
        exact h2
    · simp only [Option.some.injEq, Prod.mk.injEq] at he
      rw [← he.1]
      exact ih
  | checkAckFromBlock j h b k j' known err _ he ih =>
    obtain ⟨h1, h2⟩ := ensureHeight_all P j.heightIndex h hnew ih
    unfold QueryIndex.CheckAckFromBlock at he
    split at he
    · simp only [Option.some.injEq, Prod.mk.injEq] at he
      rw [← he.1]
      exact ih
    · simp only at he
      cases hc : (EnsureHeight j.heightIndex h).2.CheckAckFromBlock b k with
      | none =>
        rw [hc] at he
        exact absurd he (by simp)
      | some r =>
        rw [hc] at he
        simp only [Option.some.injEq, Prod.mk.injEq] at he
        rw [← he.1]
        exact write_all P _ h _ h2 (hchk _ b k r.1 r.2.1 r.2.2 h1 hc)
  | markAndCollect j h j' out _ he ih =>
    unfold QueryIndex.MarkAndCollectUnsignedAcks at he
    split at he
    · exact absurd he (by simp)
    · rename_i r hc
      simp only [Option.some.injEq, Prod.mk.injEq] at he
      rw [← he.1]
      exact collectLoop_all P hmark _ _ _ r ih hc
  | advanceBarrier j h _ _ ih =>
    intro kv hkv
    exact ih kv (mem_expireLoop _ _ kv hkv).1

/-- Every bucket of an index over heights that is reachable with consistent
acknowledgements satisfies the invariant. -/
theorem buckets_sound (i : QueryIndex) (hr : QueryIndex.Reach consistentAcks i) :
    ∀ kv ∈ i.heightIndex, kv.2.Sound := by
  refine buckets_of_run consistentAcks MultiIndex.Sound sound_new
    (fun m r h => AddResponse_sound m r h)
    (fun m a m' e hc h he => AddAck_sound m a m' e h hc he)
    (fun m b a m' h he => SetSignedBlock_sound m b a m' h he)
    (fun m b a m' k e h he => CheckAckFromBlock_sound m b a m' k e h he)
    (fun m qs m' out h he => MarkAndCollectUnsignedAcks_sound m qs m' out h he)
    NewQueryIndex i hr ?_
  intro kv hkv
  cases hkv

/-- Every bucket of a reachable index over heights satisfies the allocation
invariant. -/
theorem buckets_inv (i : QueryIndex) (hr : QueryIndex.Reach anyCall i) :
    ∀ kv ∈ i.heightIndex, kv.2.Inv := by
  refine buckets_of_run anyCall MultiIndex.Inv (inv_of_reach _ MultiIndex.Reach.new)
    (fun m r h => AddResponse_inv m r h)
    (fun m a m' e _ h he => AddAck_inv m a m' e h he)
    (fun m b a m' h he => SetSignedBlock_inv m b a m' h he)
    (fun m b a m' k e h he => CheckAckFromBlock_inv m b a m' k e h he)
    (fun m qs m' out h he => MarkAndCollectUnsignedAcks_inv m qs m' out h he)
    NewQueryIndex i hr ?_
  intro kv hkv
  cases hkv

/-! ## C14: a block that signs an acknowledgement signed by another block -/

theorem AddAck_indexed (i : MultiIndex) (a : SignedAckHeader) (i' : MultiIndex)
    (e : Option QueryError) (hI : i'.Inv) (h : i.AddAck a = some (i', e)) :
    ∃ v, mapGet i'.AckIndex a.HeaderHash = some v := by
  obtain ⟨v, q, hv, _, hm⟩ := AddAck_settles i a i' e h
  obtain ⟨t, ht, hresp⟩ := hI.1 (a.ResponseHeaderHash, v) (mapGet_mem _ _ _ hv)
  rw [ht] at hm
  simp only at hm
  cases hr : t.Response with
  | none => exact absurd hr hresp
  | some r =>
    rw [hr] at hm
    exact ⟨v, hm.1⟩

theorem SetSignedBlock_step (m : MultiIndex) (b : HashRef) (k : Nat) (hS : m.Sound) :
    ∃ m1, m.SetSignedBlock b k = some m1 ∧
      (∀ v, SignedBy m.trackers b v → SignedBy m1.trackers b v) ∧
      (∀ v, mapGet m.AckIndex k = some v → SignedBy m1.trackers b v) := by
  unfold MultiIndex.SetSignedBlock
  cases hv : mapGet m.AckIndex k with
  | none =>
    refine ⟨m, rfl, fun v h => h, ?_⟩
    intro v h
    exact absurd h (by simp)
  | some v =>
    obtain ⟨t, ht, _⟩ := hS.2.2 (k, v) (mapGet_mem _ _ _ hv)
    simp only [ht]
    refine ⟨_, rfl, ?_, ?_⟩
    · intro w hw
      obtain ⟨t0, hw0, hsb⟩ := hw
      by_cases hwv : v = w
      · subst hwv
        exact ⟨_, getElem?_set_valid _ _ _ _ ht, rfl⟩
      · exact ⟨t0, by simp only [List.getElem?_set_ne hwv]; exact hw0, hsb⟩
    · intro w hw
      simp only [Option.some.injEq] at hw
      subst hw
      exact ⟨_, getElem?_set_valid _ _ _ _ ht, rfl⟩

/-- The loop of `SetSignedBlock` over the queries of a block returns on a sound bucket,
keeps `AckIndex`, and leaves the tracker of every query of the block signed by the
block. -/
theorem signLoop_spec (vs : List Nat) :
    ∀ (m : MultiIndex) (b : HashRef), m.Sound →
      ∃ m', signLoop vs m b = some m' ∧ m'.Sound ∧ m'.AckIndex = m.AckIndex ∧
        (∀ v, SignedBy m.trackers b v → SignedBy m'.trackers b v) ∧
        (∀ k ∈ vs, ∀ v, mapGet m.AckIndex k = some v → SignedBy m'.trackers b v) := by
  induction vs with
  | nil =>
    intro m b hS
    exact ⟨m, rfl, hS, rfl, fun v h => h, fun k hk => absurd hk (List.not_mem_nil k)⟩
  | cons x xs ih =>
    intro m b hS
    obtain ⟨m1, h1, hkeep1, hnew1⟩ := SetSignedBlock_step m b x hS
    have hS1 := SetSignedBlock_sound m b x m1 hS h1
    have hA1 := (SetSignedBlock_same m b x m1 h1).2.2.1
    obtain ⟨m', h2, hS2, hA2, hkeep2, hnew2⟩ := ih m1 b hS1
    refine ⟨m', ?_, hS2, hA2.trans hA1, ?_, ?_⟩
    · unfold signLoop
      rw [h1]
      exact h2
    · intro v hv
      exact hkeep2 v (hkeep1 v hv)
    · intro k hk v hv
      rcases List.mem_cons.mp hk with hkx | hkxs
      · subst hkx
        exact hkeep2 v (hnew1 v hv)
      · exact hnew2 k hkxs v (by rw [hA1]; exact hv)

/-- A call of `CheckAckFromBlock` at a live height whose bucket answers without
changing. -/
theorem CheckAckFromBlock_bucket (Q : QueryIndex) (h : Int) (b : HashRef) (k : Nat)
    (m : MultiIndex) (known : Bool) (err : Option QueryError) (hb : Q.barrier ≤ h)
    (hg : hGet Q.heightIndex h = some m)
    (hc : m.CheckAckFromBlock b k = some (m, known, err)) :
    Q.CheckAckFromBlock h b k = some (Q, known, err) := by
  unfold QueryIndex.CheckAckFromBlock
  rw [if_neg (by omega), ensureHeight_of_get _ _ _ hg]
  simp only [hc, hSet_of_hGet _ _ _ hg]

theorem CheckAckFromBlock_signedElsewhere (m : MultiIndex) (B : HashRef) (k v : Nat)
    (t : RequestTracker) (sb : HashRef) (hk : mapGet m.AckIndex k = some v)
    (ht : m.trackers[v]? = some t) (hs : t.SignedBlock = some sb)
    (hne : sb.value ≠ B.value) :
    m.CheckAckFromBlock B k = some (m, true, some QueryError.ErrQuerySignedByAnotherBlock) := by
  unfold MultiIndex.CheckAckFromBlock
  simp only [hk, ht, hs]
  have : sb.IsEqual B = false := by
    unfold HashRef.IsEqual
    exact decide_eq_false hne
  simp [this]

/-- C14: on an index reachable with consistent acknowledgements, for a height
`h >= barrier`, after `AddAck(h, a)` has returned and `SetSignedBlock(h, blk)` for a block
`blk` that packs `a` (the call returns), `CheckAckFromBlock(h, B2, a.hash)` for a hash
`B2` other than the hash of `blk` returns `(true, ErrQuerySignedByAnotherBlock)` and
leaves the index unchanged, and `CheckAckFromBlock(h, B1, a.hash)` for the hash `B1` of
`blk` returns `(true, nil)` and leaves the index unchanged when the tracker of `a` is the
first acknowledgement of its sequence number. -/
theorem CheckAckFromBlock_after_sign (Q0 Q1 : QueryIndex) (h : Int) (a : SignedAckHeader)
    (e : Option QueryError) (blk : Block) (B2 : HashRef)
    (hr : QueryIndex.Reach consistentAcks Q0) (hc : a.consistent) (hb : Q0.barrier ≤ h)
    (h1 : Q0.AddAck h a = some (Q1, e)) (hin : a.HeaderHash ∈ blk.Queries)
    (hB : B2.value ≠ blk.BlockHash) :
    ∃ Q2, Q1.SetSignedBlock h blk = some Q2 ∧
      Q2.CheckAckFromBlock h B2 a.HeaderHash
        = some (Q2, true, some QueryError.ErrQuerySignedByAnotherBlock) ∧
      (∀ m, hGet Q2.heightIndex h = some m → m.isFirstAck a.HeaderHash →
        Q2.CheckAckFromBlock h (HashRef.block blk.BlockHash) a.HeaderHash
          = some (Q2, true, none)) := by
  obtain ⟨hm0, _⟩ := ensureHeight_all MultiIndex.Sound Q0.heightIndex h sound_new
    (buckets_sound Q0 hr)
  unfold QueryIndex.AddAck at h1
  simp only at h1
  cases hc1 : (EnsureHeight Q0.heightIndex h).2.AddAck a with
  | none =>
    rw [hc1] at h1
    exact absurd h1 (by simp)
  | some r =>
    rw [hc1] at h1
    simp only [Option.some.injEq, Prod.mk.injEq] at h1
    obtain ⟨hQ1, _⟩ := h1
    subst hQ1
    have hS1 : r.1.Sound := AddAck_sound _ a r.1 r.2 hm0 hc hc1
    have hg1 : hGet (hSet (EnsureHeight Q0.heightIndex h).1 h r.1) h = some r.1 := by
      rw [hGet_hSet, if_pos rfl]
    obtain ⟨v, hv⟩ := AddAck_indexed _ a r.1 r.2 hS1.1 hc1
    obtain ⟨m2, hs, hS2, hA2, _, hnew⟩ :=
      signLoop_spec blk.Queries r.1 (HashRef.block blk.BlockHash) hS1
    obtain ⟨t, ht, hsb⟩ := hnew a.HeaderHash hin v hv
    have hv2 : mapGet m2.AckIndex a.HeaderHash = some v := by rw [hA2]; exact hv
    have hg2 : hGet (hSet (hSet (EnsureHeight Q0.heightIndex h).1 h r.1) h m2) h = some m2 := by
      rw [hGet_hSet, if_pos rfl]
    refine ⟨{ barrier := Q0.barrier,
              heightIndex := hSet (hSet (EnsureHeight Q0.heightIndex h).1 h r.1) h m2 },
      ?_, ?_, ?_⟩
    · unfold QueryIndex.SetSignedBlock
      simp only [ensureHeight_of_get _ _ _ hg1, hs]
    · refine CheckAckFromBlock_bucket _ h B2 a.HeaderHash m2 true _ hb hg2 ?_
      exact CheckAckFromBlock_signedElsewhere m2 B2 a.HeaderHash v t _ hv2 ht hsb
        (fun hh => hB hh.symm)
    · intro m hm hfirst
      have hmm : m = m2 := by
        have := hm.symm.trans hg2
        simp only [Option.some.injEq] at this
        exact this
      subst hmm
      obtain ⟨qh, q, qa, qs, hk, hq, hqa, hqs, hf⟩ := hfirst
      have hqv : qh = v := by
        have := hk.symm.trans hv2
        simp only [Option.some.injEq] at this
        exact this
      subst hqv
      have hqt : q = t := by
        have := hq.symm.trans ht
        simp only [Option.some.injEq] at this
        exact this
      subst hqt
      obtain ⟨r', hqr, hresp⟩ := hS2.2.1 qh q hq
      have hsb' : ∀ sb, q.SignedBlock = some sb →
          sb.IsEqual (HashRef.block blk.BlockHash) = true := by
        intro sb hs'
        rw [hsb] at hs'
        simp only [Option.some.injEq] at hs'
        subst hs'
        unfold HashRef.IsEqual
        exact decide_eq_true rfl
      refine CheckAckFromBlock_bucket _ h _ a.HeaderHash m true none hb hm ?_
      rw [CheckAckFromBlock_eval m _ a.HeaderHash qh q qa r' qs qh q hk hq hsb' hqa hqr hresp
        hqs hf hq]
      simp

/-- Witness of C14: `AddAck(10, exAck1)` on the fresh index and the block `exBlock` with
the hash 7, checked against the hash 8. -/
theorem CheckAckFromBlock_after_sign_witness :
    QueryIndex.Reach consistentAcks NewQueryIndex ∧ exAck1.consistent ∧
    NewQueryIndex.barrier ≤ 10 ∧ NewQueryIndex.AddAck 10 exAck1 = some (exAcked, none) ∧
    exAck1.HeaderHash ∈ exBlock.Queries ∧ (HashRef.block 8).value ≠ exBlock.BlockHash ∧
    ∃ Q2, exAcked.SetSignedBlock 10 exBlock = some Q2 ∧
      Q2.CheckAckFromBlock 10 (HashRef.block 8) exAck1.HeaderHash
        = some (Q2, true, some QueryError.ErrQuerySignedByAnotherBlock) ∧
      (∀ m, hGet Q2.heightIndex 10 = some m → m.isFirstAck exAck1.HeaderHash →
        Q2.CheckAckFromBlock 10 (HashRef.block exBlock.BlockHash) exAck1.HeaderHash
          = some (Q2, true, none)) :=
  ⟨QueryIndex.Run.start, ⟨rfl, rfl⟩, by decide, by decide, by decide, by decide,
    CheckAckFromBlock_after_sign NewQueryIndex exAcked 10 exAck1 none exBlock (HashRef.block 8)
      QueryIndex.Run.start ⟨rfl, rfl⟩ (by decide) (by decide) (by decide) (by decide)⟩

/-- In the example of C14 the tracker of `exAck1` is the first acknowledgement of its
sequence number, and the check against the hash of the block returns `(true, nil)`. -/
theorem exAcked_isFirstAck :
    ∃ Q2 m, exAcked.SetSignedBlock 10 exBlock = some Q2 ∧
      hGet Q2.heightIndex 10 = some m ∧ m.isFirstAck exAck1.HeaderHash ∧
      Q2.CheckAckFromBlock 10 (HashRef.block exBlock.BlockHash) exAck1.HeaderHash
        = some (Q2, true, none) :=
  ⟨_, _, rfl, rfl, ⟨0, _, _, _, rfl, rfl, rfl, rfl, rfl⟩, by decide⟩

/-! ## What the loop of `MarkAndCollectUnsignedAcks` marks and collects -/

theorem cand_cons_skip (k : Nat) (q : QueryTracker) (rest : List (Nat × QueryTracker))
    (ts : List RequestTracker)
    (hskip : ∀ f, q.FirstAck = some f → ∀ t, ts[f]? = some t → t.SignedBlock ≠ none) :
    ∀ f, Cand ((k, q) :: rest) ts f ↔ Cand rest ts f := by
  intro f
  constructor
  · rintro ⟨⟨kv, hkv, hf⟩, t, ht, hs⟩
    rcases List.mem_cons.mp hkv with h1 | h1
    · subst h1
      exact absurd hs (hskip f hf t ht)
    · exact ⟨⟨kv, h1, hf⟩, t, ht, hs⟩
  · rintro ⟨⟨kv, hkv, hf⟩, hx⟩
    exact ⟨⟨kv, List.mem_cons_of_mem _ hkv, hf⟩, hx⟩

theorem hashAt_set_ne (ts : List RequestTracker) (f0 f : Nat) (t : RequestTracker)
    (hne : f0 ≠ f) : hashAt (ts.set f0 t) f = hashAt ts f := by
  unfold hashAt
  rw [List.getElem?_set_ne hne]

/-- The loop marks each tracker that is a candidate at its start, once, appends the
header hashes of their acknowledgements, and changes no other tracker. -/
theorem markLoop_spec (l : List (Nat × QueryTracker)) :
    ∀ (ts : List RequestTracker) (out : List Nat) (r : List RequestTracker × List Nat),
      markLoop l ts out = some r →
      ∃ fs : List Nat, fs.Nodup ∧ r.2 = out ++ fs.map (hashAt ts) ∧
        (∀ f, f ∈ fs ↔ Cand l ts f) ∧ r.1.length = ts.length ∧
        ∀ (v : Nat) (t : RequestTracker), ts[v]? = some t →
          r.1[v]? = some (if v ∈ fs then t.marked else t) := by
  induction l with
  | nil =>
    intro ts out r h
    simp only [markLoop, Option.some.injEq] at h
    subst h
    refine ⟨[], List.nodup_nil, by simp, ?_, rfl, ?_⟩
    · intro f
      constructor
      · intro hf
        exact absurd hf (List.not_mem_nil f)
      · rintro ⟨⟨kv, hkv, _⟩, _⟩
        exact absurd hkv (List.not_mem_nil kv)
    · intro v t hv
      simp only [List.not_mem_nil, if_false]
      exact hv
  | cons x rest ih =>
    intro ts out r h
    obtain ⟨k, q⟩ := x
    simp only [markLoop] at h
    have hskipcase : (∀ f, q.FirstAck = some f → ∀ t, ts[f]? = some t → t.SignedBlock ≠ none) →
        markLoop rest ts out = some r →
        ∃ fs : List Nat, fs.Nodup ∧ r.2 = out ++ fs.map (hashAt ts) ∧
          (∀ f, f ∈ fs ↔ Cand ((k, q) :: rest) ts f) ∧ r.1.length = ts.length ∧
          ∀ (v : Nat) (t : RequestTracker), ts[v]? = some t →
            r.1[v]? = some (if v ∈ fs then t.marked else t) := by
      intro hskip h'
      obtain ⟨fs, h1, h2, h3, h4, h5⟩ := ih ts out r h'
      exact ⟨fs, h1, h2, fun f => (h3 f).trans (cand_cons_skip k q rest ts hskip f).symm, h4, h5⟩
    cases hq : q.FirstAck with
    | none =>
      rw [hq] at h
      refine hskipcase ?_ h
      intro f hf
      rw [hq] at hf
      exact absurd hf (by simp)
    | some f0 =>
      rw [hq] at h
      simp only at h
      cases ht : ts[f0]? with
      | none =>
        rw [ht] at h
        refine hskipcase ?_ h
        intro f hf t htf
        rw [hq] at hf
        simp only [Option.some.injEq] at hf
        subst hf
        rw [ht] at htf
        exact absurd htf (by simp)
      | some t0 =>
        rw [ht] at h
        simp only at h
        cases hs : t0.SignedBlock with
        | some sb =>
          rw [hs] at h
          refine hskipcase ?_ h
          intro f hf t htf
          rw [hq] at hf
          simp only [Option.some.injEq] at hf
          subst hf
          rw [ht] at htf
          simp only [Option.some.injEq] at htf
          subst htf
          rw [hs]
          simp
        | none =>
          rw [hs] at h
          simp only at h
          cases ha : t0.Ack with
          | none =>
            rw [ha] at h
            exact absurd h (by simp)
          | some a =>
            rw [ha] at h
            simp only at h
            have hmk : RequestTracker.mk t0.Response (some a) (some HashRef.placeHolder)
                = t0.marked := by
              unfold RequestTracker.marked
              rw [ha]
            rw [hmk] at h
            obtain ⟨fs1, hnd, hout, hmem, hlen, htr⟩ := ih _ _ r h
            have hset0 : (ts.set f0 t0.marked)[f0]? = some t0.marked :=
              getElem?_set_valid _ _ _ _ ht
            have hf0 : f0 ∉ fs1 := by
              intro hin
              obtain ⟨_, t', ht', hs'⟩ := (hmem f0).mp hin
              have : (ts.set f0 t0.marked)[f0]? = some t' := ht'
              rw [hset0] at this
              simp only [Option.some.injEq] at this
              subst this
              exact absurd hs' (by simp [RequestTracker.marked])
            have hne : ∀ f ∈ fs1, f0 ≠ f := by
              intro f hf heq
              subst heq
              exact hf0 hf
            refine ⟨f0 :: fs1, List.nodup_cons.mpr ⟨hf0, hnd⟩, ?_, ?_, ?_, ?_⟩
            · rw [hout]
              have h0 : hashAt ts f0 = a.HeaderHash := by
                unfold hashAt
                simp only [ht, ha]
              have h1 : fs1.map (hashAt (ts.set f0 t0.marked)) = fs1.map (hashAt ts) := by
                apply List.map_congr_left
                intro f hf
                exact hashAt_set_ne ts f0 f _ (hne f hf)
              rw [h1]
              simp only [List.map_cons, h0, List.append_assoc, List.singleton_append]
            · intro f
              constructor
              · intro hf
                rcases List.mem_cons.mp hf with h1 | h1
                · subst h1
                  exact ⟨⟨(k, q), List.mem_cons_self _ _, hq⟩, t0, ht, hs⟩
                · obtain ⟨⟨kv, hkv, hkf⟩, t', ht', hs'⟩ := (hmem f).mp h1
                  have ht'' : (ts.set f0 t0.marked)[f]? = some t' := ht'
                  rw [List.getElem?_set_ne (hne f h1)] at ht''
                  exact ⟨⟨kv, List.mem_cons_of_mem _ hkv, hkf⟩, t', ht'', hs'⟩
              · rintro ⟨⟨kv, hkv, hkf⟩, t', ht', hs'⟩
                by_cases hff : f0 = f
                · subst hff
                  exact List.mem_cons_self _ _
                · have hkv' : kv ∈ rest := by
                    rcases List.mem_cons.mp hkv with h1 | h1
                    · subst h1
                      rw [hq] at hkf
                      simp only [Option.some.injEq] at hkf
                      exact absurd hkf hff
                    · exact h1
                  refine List.mem_cons_of_mem _ ((hmem f).mpr ⟨⟨kv, hkv', hkf⟩, t', ?_, hs'⟩)
                  show (ts.set f0 t0.marked)[f]? = some t'
                  rw [List.getElem?_set_ne hff]
                  exact ht'
            · rw [hlen]
              exact List.length_set _ _ _
            · intro v t hv
              by_cases hvf : f0 = v
              · subst hvf
                rw [ht] at hv
                simp only [Option.some.injEq] at hv
                subst hv
                have := htr f0 t0.marked hset0
                rw [if_neg hf0] at this
                rw [this, if_pos (List.mem_cons_self _ _)]
              · have hv' : (ts.set f0 t0.marked)[v]? = some t := by
                  rw [List.getElem?_set_ne hvf]
                  exact hv
                have := htr v t hv'
                rw [this]
                have hiff : v ∈ f0 :: fs1 ↔ v ∈ fs1 := by
                  simp only [List.mem_cons]
                  constructor
                  · rintro (h1 | h1)
                    · exact absurd h1.symm hvf
                    · exact h1
                  · exact Or.inr
                simp only [hiff]

/-! ## A second pass of the marking loop, and its totality -/

/-- With no candidate the loop changes nothing. -/
theorem markLoop_fix (l : List (Nat × QueryTracker)) (ts : List RequestTracker)
    (out : List Nat) (hno : ∀ f, ¬ Cand l ts f) : markLoop l ts out = some (ts, out) := by
  induction l with
  | nil => rfl
  | cons x rest ih =>
    obtain ⟨k, q⟩ := x
    have hrest : ∀ f, ¬ Cand rest ts f := by
      rintro f ⟨⟨kv, hkv, hf⟩, hx⟩
      exact hno f ⟨⟨kv, List.mem_cons_of_mem _ hkv, hf⟩, hx⟩
    simp only [markLoop]
    cases hq : q.FirstAck with
    | none => exact ih hrest
    | some f0 =>
      simp only
      cases ht : ts[f0]? with
      | none => exact ih hrest
      | some t0 =>
        simp only
        cases hs : t0.SignedBlock with
        | some sb => exact ih hrest
        | none =>
          exact absurd ⟨⟨(k, q), List.mem_cons_self _ _, hq⟩, t0, ht, hs⟩ (hno f0)

/-- After the loop no tracker is a candidate. -/
theorem markLoop_done (l : List (Nat × QueryTracker)) (ts : List RequestTracker)
    (out : List Nat) (r : List RequestTracker × List Nat) (h : markLoop l ts out = some r) :
    ∀ f, ¬ Cand l r.1 f := by
  obtain ⟨fs, _, _, hmem, hlen, htr⟩ := markLoop_spec l ts out r h
  rintro f ⟨hkv, t1, ht1, hs1⟩
  have hlt : f < ts.length := by
    have := (List.getElem?_eq_some.mp ht1).1
    rw [hlen] at this
    exact this
  have ht : ts[f]? = some (ts.get ⟨f, hlt⟩) := List.getElem?_eq_getElem hlt
  have h2 := htr f _ ht
  rw [ht1] at h2
  simp only [Option.some.injEq] at h2
  by_cases hin : f ∈ fs
  · rw [if_pos hin] at h2
    rw [h2] at hs1
    exact absurd hs1 (by simp [RequestTracker.marked])
  · rw [if_neg hin] at h2
    rw [h2] at hs1
    exact hin ((hmem f).mpr ⟨hkv, _, ht, hs1⟩)

/-- The loop returns when every allocated first acknowledgement holds an
acknowledgement. -/
theorem markLoop_total (l : List (Nat × QueryTracker)) :
    ∀ (ts : List RequestTracker) (out : List Nat),
      (∀ kv ∈ l, ∀ f, kv.2.FirstAck = some f → ∀ t, ts[f]? = some t → t.Ack ≠ none) →
      ∃ r, markLoop l ts out = some r := by
  induction l with
  | nil =>
    intro ts out _
    exact ⟨_, rfl⟩
  | cons x rest ih =>
    intro ts out hack
    obtain ⟨k, q⟩ := x
    have hrest : ∀ kv ∈ rest, ∀ f, kv.2.FirstAck = some f → ∀ t, ts[f]? = some t →
        t.Ack ≠ none := fun kv hkv => hack kv (List.mem_cons_of_mem _ hkv)
    simp only [markLoop]
    cases hq : q.FirstAck with
    | none => exact ih ts out hrest
    | some f0 =>
      simp only
      cases ht : ts[f0]? with
      | none => exact ih ts out hrest
      | some t0 =>
        simp only
        cases hs : t0.SignedBlock with
        | some sb => exact ih ts out hrest
        | none =>
          simp only
          cases ha : t0.Ack with
          | none => exact absurd ha (hack (k, q) (List.mem_cons_self _ _) f0 hq t0 ht)
          | some a =>
            simp only
            apply ih
            intro kv hkv f hf t htf
            by_cases hff : f0 = f
            · subst hff
              rw [getElem?_set_valid _ _ _ _ ht] at htf
              simp only [Option.some.injEq] at htf
              rw [← htf]
              simp
            · rw [List.getElem?_set_ne hff] at htf
              exact hrest kv hkv f hf t htf

/-- What a call of `MarkAndCollectUnsignedAcks` on a bucket that returns does. -/
theorem MarkAndCollect_spec (m : MultiIndex) (qs : List Nat) (m' : MultiIndex)
    (out : List Nat) (h : m.MarkAndCollectUnsignedAcks qs = some (m', out)) :
    ∃ fs : List Nat, fs.Nodup ∧ out = qs ++ fs.map (hashAt m.trackers) ∧
      (∀ f, f ∈ fs ↔ Cand m.SeqIndex m.trackers f) ∧
      m'.RespIndex = m.RespIndex ∧ m'.AckIndex = m.AckIndex ∧ m'.SeqIndex = m.SeqIndex ∧
      m'.trackers.length = m.trackers.length ∧
      ∀ (v : Nat) (t : RequestTracker), m.trackers[v]? = some t →
        m'.trackers[v]? = some (if v ∈ fs then t.marked else t) := by
  unfold MultiIndex.MarkAndCollectUnsignedAcks at h
  cases hl : markLoop m.SeqIndex m.trackers qs with
  | none =>
    rw [hl] at h
    exact absurd h (by simp)
  | some r =>
    rw [hl] at h
    simp only [Option.some.injEq, Prod.mk.injEq] at h
    obtain ⟨h1, h2⟩ := h
    subst h1
    subst h2
    obtain ⟨fs, a1, a2, a3, a4, a5⟩ := markLoop_spec _ _ _ r hl
    exact ⟨fs, a1, a2, a3, rfl, rfl, rfl, a4, a5⟩

theorem MarkAndCollect_fix (m : MultiIndex) (qs : List Nat)
    (hno : ∀ f, ¬ Cand m.SeqIndex m.trackers f) :
    m.MarkAndCollectUnsignedAcks qs = some (m, qs) := by
  unfold MultiIndex.MarkAndCollectUnsignedAcks
  rw [markLoop_fix _ _ _ hno]

theorem MarkAndCollect_total (m : MultiIndex) (qs : List Nat) (hI : m.Inv) :
    ∃ r, m.MarkAndCollectUnsignedAcks qs = some r := by
  have htot := markLoop_total m.SeqIndex m.trackers qs (by
    intro kv hkv f hf t ht
    obtain ⟨t', ht', ha⟩ := hI.2 kv hkv f hf
    rw [ht] at ht'
    simp only [Option.some.injEq] at ht'
    rw [ht']
    exact ha)
  obtain ⟨r, hr⟩ := htot
  unfold MultiIndex.MarkAndCollectUnsignedAcks
  rw [hr]
  exact ⟨_, rfl⟩

/-! ## What the loop of `QueryIndex.MarkAndCollectUnsignedAcks` marks and collects -/

theorem hSet_keys {β : Type} (m : List (Int × β)) (k : Int) (v0 v : β)
    (h : hGet m k = some v0) : (hSet m k v).map Prod.fst = m.map Prod.fst := by
  induction m with
  | nil => simp [hGet] at h
  | cons x rest ih =>
    obtain ⟨k1, v1⟩ := x
    simp only [hGet] at h
    simp only [hSet]
    by_cases hk : k1 = k
    · rw [if_pos hk]
      simp only [List.map_cons, hk]
    · rw [if_neg hk] at h ⊢
      simp only [List.map_cons, ih h]

theorem hGet_of_key {β : Type} (m : List (Int × β)) (k : Int)
    (h : k ∈ m.map Prod.fst) : ∃ v, hGet m k = some v := by
  induction m with
  | nil => simp at h
  | cons x rest ih =>
    obtain ⟨k1, v1⟩ := x
    simp only [hGet]
    by_cases hk : k1 = k
    · rw [if_pos hk]
      exact ⟨v1, rfl⟩
    · rw [if_neg hk]
      simp only [List.map_cons, List.mem_cons] at h
      rcases h with h1 | h1
      · exact absurd h1.symm hk
      · exact ih h1

theorem hGet_key {β : Type} (m : List (Int × β)) (k : Int) (v : β)
    (h : hGet m k = some v) : k ∈ m.map Prod.fst :=
  List.mem_map.mpr ⟨(k, v), hGet_mem m k v h, rfl⟩

theorem heightRange_nodup (l h : Int) : (heightRange l h).Nodup := by
  unfold heightRange
  refine List.Nodup.map ?_ (List.nodup_range _)
  intro a b hab
  simp only at hab
  omega

theorem candAt_hSet_ne (M : List (Int × MultiIndex)) (y x : Int) (v : MultiIndex) (f : Nat)
    (hne : y ≠ x) : CandAt (hSet M y v) x f ↔ CandAt M x f := by
  unfold CandAt
  rw [hGet_hSet, if_neg hne]

theorem hashIn_hSet_ne (M : List (Int × MultiIndex)) (y : Int) (v : MultiIndex)
    (p : Int × Nat) (hne : y ≠ p.1) : hashIn (hSet M y v) p = hashIn M p := by
  unfold hashIn
  rw [hGet_hSet, if_neg hne]

/-- The loop over the heights marks, in each bucket it visits, the trackers that are
candidates at the start, collects the header hashes of their acknowledgements, each
once, and changes nothing else. -/
theorem collectLoop_spec (xs : List Int) :
    ∀ (M : List (Int × MultiIndex)) (qs : List Nat) (r : List (Int × MultiIndex) × List Nat),
      xs.Nodup → collectLoop xs M qs = some r →
      ∃ ps : List (Int × Nat), ps.Nodup ∧ r.2 = qs ++ ps.map (hashIn M) ∧
        (∀ p, p ∈ ps ↔ p.1 ∈ xs ∧ CandAt M p.1 p.2) ∧
        r.1.map Prod.fst = M.map Prod.fst ∧
        ∀ (x : Int) (m : MultiIndex), hGet M x = some m →
          ∃ m1 : MultiIndex, hGet r.1 x = some m1 ∧ m1.RespIndex = m.RespIndex ∧
            m1.AckIndex = m.AckIndex ∧ m1.SeqIndex = m.SeqIndex ∧
            m1.trackers.length = m.trackers.length ∧
            ∀ (v : Nat) (t : RequestTracker), m.trackers[v]? = some t →
              m1.trackers[v]? = some (if (x, v) ∈ ps then t.marked else t) := by
  induction xs with
  | nil =>
    intro M qs r _ h
    unfold collectLoop at h
    simp only [Option.some.injEq] at h
    subst h
    refine ⟨[], List.nodup_nil, by simp, ?_, rfl, ?_⟩
    · intro p
      constructor
      · intro hp
        exact absurd hp (List.not_mem_nil p)
      · rintro ⟨hp, _⟩
        exact absurd hp (List.not_mem_nil _)
    · intro x m hm
      refine ⟨m, hm, rfl, rfl, rfl, rfl, ?_⟩
      intro v t hv
      simp only [List.not_mem_nil, if_false]
      exact hv
  | cons y ys ih =>
    intro M qs r hnd h
    obtain ⟨hy, hnd'⟩ := List.nodup_cons.mp hnd
    unfold collectLoop at h
    cases hg : hGet M y with
    | none =>
      rw [hg] at h
      obtain ⟨ps, h1, h2, h3, h4, h5⟩ := ih M qs r hnd' h
      refine ⟨ps, h1, h2, ?_, h4, h5⟩
      intro p
      rw [h3 p]
      constructor
      · rintro ⟨ha, hb⟩
        exact ⟨List.mem_cons_of_mem _ ha, hb⟩
      · rintro ⟨ha, hb⟩
        refine ⟨?_, hb⟩
        rcases List.mem_cons.mp ha with h6 | h6
        · obtain ⟨m, hm, _⟩ := hb
          rw [h6, hg] at hm
          exact absurd hm (by simp)
        · exact h6
    | some hi =>
      rw [hg] at h
      simp only at h
      cases hc : hi.MarkAndCollectUnsignedAcks qs with
      | none =>
        rw [hc] at h
        exact absurd h (by simp)
      | some r1 =>
        rw [hc] at h
        simp only at h
        obtain ⟨fs, f1, f2, f3, f4, f5, f6, f7, f8⟩ :=
          MarkAndCollect_spec hi qs r1.1 r1.2 hc
        obtain ⟨ps, h1, h2, h3, h4, h5⟩ := ih _ _ r hnd' h
        have hps : ∀ p ∈ ps, y ≠ p.1 := by
          intro p hp heq
          rw [heq] at hy
          exact hy ((h3 p).mp hp).1
        have hcand : ∀ f, CandAt M y f ↔ Cand hi.SeqIndex hi.trackers f := by
          intro f
          constructor
          · rintro ⟨m, hm, hcd⟩
            rw [hg] at hm
            simp only [Option.some.injEq] at hm
            subst hm
            exact hcd
          · intro hcd
            exact ⟨hi, hg, hcd⟩
        refine ⟨fs.map (fun f => (y, f)) ++ ps, ?_, ?_, ?_, ?_, ?_⟩
        · refine List.Nodup.append ?_ h1 ?_
          · refine List.Nodup.map ?_ f1
            intro a b hab
            simp only [Prod.mk.injEq, true_and] at hab
            exact hab
          · intro p hp1 hp2
            obtain ⟨f, _, hf⟩ := List.mem_map.mp hp1
            have := hps p hp2
            rw [← hf] at this
            exact this rfl
        · rw [h2, f2]
          have e1 : (fs.map (fun f => (y, f))).map (hashIn M) = fs.map (hashAt hi.trackers) := by
            rw [List.map_map]
            apply List.map_congr_left
            intro f _
            simp only [Function.comp, hashIn, hg]
          have e2 : ps.map (hashIn (hSet M y r1.1)) = ps.map (hashIn M) := by
            apply List.map_congr_left
            intro p hp
            exact hashIn_hSet_ne M y r1.1 p (hps p hp)
          rw [List.map_append, e1, e2, List.append_assoc]
        · intro p
          rw [List.mem_append, h3 p]
          constructor
          · rintro (hp | ⟨ha, hb⟩)
            · obtain ⟨f, hf, hp'⟩ := List.mem_map.mp hp
              subst hp'
              exact ⟨List.mem_cons_self _ _, (hcand f).mpr ((f3 f).mp hf)⟩
            · have hne : y ≠ p.1 := by
                intro heq
                rw [heq] at hy
                exact hy ha
              exact ⟨List.mem_cons_of_mem _ ha, (candAt_hSet_ne M y p.1 r1.1 p.2 hne).mp hb⟩
          · rintro ⟨ha, hb⟩
            by_cases hyp : y = p.1
            · left
              refine List.mem_map.mpr ⟨p.2, (f3 p.2).mpr ((hcand p.2).mp ?_), ?_⟩
              · rw [hyp]
                exact hb
              · rw [hyp]
            · right
              refine ⟨?_, (candAt_hSet_ne M y p.1 r1.1 p.2 hyp).mpr hb⟩
              rcases List.mem_cons.mp ha with h6 | h6
              · exact absurd h6.symm hyp
              · exact h6
        · rw [h4]
          exact hSet_keys M y hi r1.1 hg
        · intro x m hm
          by_cases hyx : y = x
          · subst hyx
            rw [hg] at hm
            simp only [Option.some.injEq] at hm
            subst hm
            have hg' : hGet (hSet M y r1.1) y = some r1.1 := by rw [hGet_hSet, if_pos rfl]
            obtain ⟨m1, g1, g2, g3, g4, g5, g6⟩ := h5 y r1.1 hg'
            refine ⟨m1, g1, g2.trans f4, g3.trans f5, g4.trans f6, g5.trans f7, ?_⟩
            intro v t hv
            have hv1 := f8 v t hv
            have hv2 := g6 v _ hv1
            have hnot : (y, v) ∉ ps := fun hp => hps (y, v) hp rfl
            rw [if_neg hnot] at hv2
            rw [hv2]
            have hiff : (y, v) ∈ fs.map (fun f => (y, f)) ++ ps ↔ v ∈ fs := by
              rw [List.mem_append]
              constructor
              · rintro (hp | hp)
                · obtain ⟨f, hf, hp'⟩ := List.mem_map.mp hp
                  simp only [Prod.mk.injEq, true_and] at hp'
                  rw [← hp']
                  exact hf
                · exact absurd hp hnot
              · intro hf
                exact Or.inl (List.mem_map.mpr ⟨v, hf, rfl⟩)
            simp only [hiff]
          · have hg' : hGet (hSet M y r1.1) x = some m := by
              rw [hGet_hSet, if_neg hyx]
              exact hm
            obtain ⟨m1, g1, g2, g3, g4, g5, g6⟩ := h5 x m hg'
            refine ⟨m1, g1, g2, g3, g4, g5, ?_⟩
            intro v t hv
            rw [g6 v t hv]
            have hiff : (x, v) ∈ fs.map (fun f => (y, f)) ++ ps ↔ (x, v) ∈ ps := by
              rw [List.mem_append]
              constructor
              · rintro (hp | hp)
                · obtain ⟨f, _, hp'⟩ := List.mem_map.mp hp
                  simp only [Prod.mk.injEq] at hp'
                  exact absurd hp'.1 hyx
                · exact hp
              · exact Or.inr
            simp only [hiff]

/-! ## A second pass of the loop over the heights, and its totality -/

theorem collectLoop_fix (xs : List Int) :
    ∀ (M : List (Int × MultiIndex)) (qs : List Nat),
      (∀ x ∈ xs, ∀ m, hGet M x = some m → ∀ f, ¬ Cand m.SeqIndex m.trackers f) →
      collectLoop xs M qs = some (M, qs) := by
  induction xs with
  | nil =>
    intro M qs _
    rfl
  | cons y ys ih =>
    intro M qs hno
    have hrest : ∀ x ∈ ys, ∀ m, hGet M x = some m → ∀ f, ¬ Cand m.SeqIndex m.trackers f :=
      fun x hx => hno x (List.mem_cons_of_mem _ hx)
    unfold collectLoop
    cases hg : hGet M y with
    | none => exact ih M qs hrest
    | some hi =>
      simp only
      rw [MarkAndCollect_fix hi qs (hno y (List.mem_cons_self _ _) hi hg)]
      simp only [hSet_of_hGet _ _ _ hg]
      exact ih M qs hrest

theorem collectLoop_done (xs : List Int) (M : List (Int × MultiIndex)) (qs : List Nat)
    (r : List (Int × MultiIndex) × List Nat) (hnd : xs.Nodup)
    (h : collectLoop xs M qs = some r) :
    ∀ x ∈ xs, ∀ m1, hGet r.1 x = some m1 → ∀ f, ¬ Cand m1.SeqIndex m1.trackers f := by
  obtain ⟨ps, _, _, hmem, hkeys, htr⟩ := collectLoop_spec xs M qs r hnd h
  intro x hx m1 hm1 f hcand
  have hk : x ∈ M.map Prod.fst := by
    rw [← hkeys]
    exact hGet_key _ _ _ hm1
  obtain ⟨m, hm⟩ := hGet_of_key M x hk
  obtain ⟨m1', g1, _, _, g4, g5, g6⟩ := htr x m hm
  rw [hm1] at g1
  simp only [Option.some.injEq] at g1
  subst g1
  obtain ⟨hkv, t1, ht1, hs1⟩ := hcand
  have hlt : f < m.trackers.length := by
    have := (List.getElem?_eq_some.mp ht1).1
    rw [g5] at this
    exact this
  have ht : m.trackers[f]? = some (m.trackers.get ⟨f, hlt⟩) := List.getElem?_eq_getElem hlt
  have h2 := g6 f _ ht
  rw [ht1] at h2
  simp only [Option.some.injEq] at h2
  by_cases hin : (x, f) ∈ ps
  · rw [if_pos hin] at h2
    rw [h2] at hs1
    exact absurd hs1 (by simp [RequestTracker.marked])
  · rw [if_neg hin] at h2
    rw [h2] at hs1
    rw [g4] at hkv
    exact hin ((hmem (x, f)).mpr ⟨hx, m, hm, hkv, _, ht, hs1⟩)

theorem collectLoop_total (xs : List Int) :
    ∀ (M : List (Int × MultiIndex)) (qs : List Nat), (∀ kv ∈ M, kv.2.Inv) →
      ∃ r, collectLoop xs M qs = some r := by
  induction xs with
  | nil =>
    intro M qs _
    exact ⟨_, rfl⟩
  | cons y ys ih =>
    intro M qs hI
    unfold collectLoop
    cases hg : hGet M y with
    | none => exact ih M qs hI
    | some hi =>
      simp only
      have hIi : hi.Inv := hI (y, hi) (hGet_mem _ _ _ hg)
      obtain ⟨r1, hr1⟩ := MarkAndCollect_total hi qs hIi
      rw [hr1]
      simp only
      apply ih
      exact write_all MultiIndex.Inv M y r1.1 hI
        (MarkAndCollectUnsignedAcks_inv hi qs r1.1 r1.2 hIi hr1)

/-- A bucket is determined by its indexes and the lookups in its arena. -/
theorem multiIndex_ext (m m1 : MultiIndex) (h1 : m1.RespIndex = m.RespIndex)
    (h2 : m1.AckIndex = m.AckIndex) (h3 : m1.SeqIndex = m.SeqIndex)
    (h4 : m1.trackers.length = m.trackers.length)
    (h5 : ∀ (v : Nat) (t : RequestTracker), m.trackers[v]? = some t →
      m1.trackers[v]? = some t) : m1 = m := by
  have ht : m1.trackers = m.trackers := by
    apply List.ext_getElem?
    intro v
    by_cases hlt : v < m.trackers.length
    · have hv : m.trackers[v]? = some (m.trackers.get ⟨v, hlt⟩) := List.getElem?_eq_getElem hlt
      rw [h5 v _ hv, hv]
    · have hn1 : m.trackers[v]? = none := List.getElem?_eq_none (by omega)
      have hn2 : m1.trackers[v]? = none := List.getElem?_eq_none (by omega)
      rw [hn1, hn2]
  cases m
  cases m1
  simp only at h1 h2 h3 ht
  rw [h1, h2, h3, ht]

/-- When the loop returns, every candidate holds an acknowledgement. -/
theorem markLoop_acked (l : List (Nat × QueryTracker)) :
    ∀ (ts : List RequestTracker) (out : List Nat) (r : List RequestTracker × List Nat),
      markLoop l ts out = some r → ∀ f, Cand l ts f →
      ∃ (t : RequestTracker) (a : SignedAckHeader), ts[f]? = some t ∧ t.Ack = some a := by
  induction l with
  | nil =>
    rintro ts out r _ f ⟨⟨kv, hkv, _⟩, _⟩
    exact absurd hkv (List.not_mem_nil kv)
  | cons x rest ih =>
    intro ts out r h f hcand
    obtain ⟨k, q⟩ := x
    simp only [markLoop] at h
    cases hq : q.FirstAck with
    | none =>
      rw [hq] at h
      refine ih ts out r h f ((cand_cons_skip k q rest ts ?_ f).mp hcand)
      intro f' hf'
      rw [hq] at hf'
      exact absurd hf' (by simp)
    | some f0 =>
      rw [hq] at h
      simp only at h
      cases ht : ts[f0]? with
      | none =>
        rw [ht] at h
        refine ih ts out r h f ((cand_cons_skip k q rest ts ?_ f).mp hcand)
        intro f' hf' t htf
        rw [hq] at hf'
        simp only [Option.some.injEq] at hf'
        subst hf'
        rw [ht] at htf
        exact absurd htf (by simp)
      | some t0 =>
        rw [ht] at h
        simp only at h
        cases hs : t0.SignedBlock with
        | some sb =>
          rw [hs] at h
          refine ih ts out r h f ((cand_cons_skip k q rest ts ?_ f).mp hcand)
          intro f' hf' t htf
          rw [hq] at hf'
          simp only [Option.some.injEq] at hf'
          subst hf'
          rw [ht] at htf
          simp only [Option.some.injEq] at htf
          subst htf
          rw [hs]
          simp
        | none =>
          rw [hs] at h
          simp only at h
          cases ha : t0.Ack with
          | none =>
            rw [ha] at h
            exact absurd h (by simp)
          | some a =>
            rw [ha] at h
            simp only at h
            by_cases hff : f0 = f
            · subst hff
              exact ⟨t0, a, ht, ha⟩
            · obtain ⟨⟨kv, hkv, hkf⟩, t', ht', hs'⟩ := hcand
              have hkv' : kv ∈ rest := by
                rcases List.mem_cons.mp hkv with h1 | h1
                · subst h1
                  rw [hq] at hkf
                  simp only [Option.some.injEq] at hkf
                  exact absurd hkf hff
                · exact h1
              obtain ⟨t, a', h3, h4⟩ := ih _ _ r h f
                ⟨⟨kv, hkv', hkf⟩, t', by rw [List.getElem?_set_ne hff]; exact ht', hs'⟩
              rw [List.getElem?_set_ne hff] at h3
              exact ⟨t, a', h3, h4⟩

theorem collectLoop_acked (xs : List Int) :
    ∀ (M : List (Int × MultiIndex)) (qs : List Nat) (r : List (Int × MultiIndex) × List Nat),
      xs.Nodup → collectLoop xs M qs = some r → ∀ x ∈ xs, ∀ f, CandAt M x f →
      ∃ (m : MultiIndex) (t : RequestTracker) (a : SignedAckHeader),
        hGet M x = some m ∧ m.trackers[f]? = some t ∧ t.Ack = some a := by
  induction xs with
  | nil =>
    intro M qs r _ _ x hx
    exact absurd hx (List.not_mem_nil x)
  | cons y ys ih =>
    intro M qs r hnd h x hx f hcand
    obtain ⟨hy, hnd'⟩ := List.nodup_cons.mp hnd
    unfold collectLoop at h
    cases hg : hGet M y with
    | none =>
      rw [hg] at h
      rcases List.mem_cons.mp hx with h1 | h1
      · obtain ⟨m, hm, _⟩ := hcand
        rw [h1, hg] at hm
        exact absurd hm (by simp)
      · exact ih M qs r hnd' h x h1 f hcand
    | some hi =>
      rw [hg] at h
      simp only at h
      cases hc : hi.MarkAndCollectUnsignedAcks qs with
      | none =>
        rw [hc] at h
        exact absurd h (by simp)
      | some r1 =>
        rw [hc] at h
        simp only at h
        by_cases hyx : y = x
        · subst hyx
          obtain ⟨m, hm, hcd⟩ := hcand
          rw [hg] at hm
          simp only [Option.some.injEq] at hm
          subst hm
          unfold MultiIndex.MarkAndCollectUnsignedAcks at hc
          cases hl : markLoop hi.SeqIndex hi.trackers qs with
          | none =>
            rw [hl] at hc
            exact absurd hc (by simp)
          | some r2 =>
            obtain ⟨t, a, h3, h4⟩ := markLoop_acked _ _ _ r2 hl f hcd
            exact ⟨hi, t, a, hg, h3, h4⟩
        · have hx' : x ∈ ys := by
            rcases List.mem_cons.mp hx with h1 | h1
            · exact absurd h1.symm hyx
            · exact h1
          obtain ⟨m, t, a, h3, h4, h5⟩ := ih _ _ r hnd' h x hx' f
            ((candAt_hSet_ne M y x r1.1 f hyx).mpr hcand)
          rw [hGet_hSet, if_neg hyx] at h3
          exact ⟨m, t, a, h3, h4, h5⟩

/-! ## C15: MarkAndCollectUnsignedAcks twice -/

/-- C15: when `MarkAndCollectUnsignedAcks(h)` has returned, a second
`MarkAndCollectUnsignedAcks(h)` returns the empty list and leaves the index as the first
call left it; on every reachable index the first call returns. -/
theorem MarkAndCollectUnsignedAcks_twice (Q : QueryIndex) (h : Int) :
    (∀ Q1 out, Q.MarkAndCollectUnsignedAcks h = some (Q1, out) →
      Q1.MarkAndCollectUnsignedAcks h = some (Q1, [])) ∧
    (QueryIndex.Reach anyCall Q → ∃ r, Q.MarkAndCollectUnsignedAcks h = some r) := by
  constructor
  · intro Q1 out hc
    unfold QueryIndex.MarkAndCollectUnsignedAcks at hc
    cases hl : collectLoop (heightRange Q.barrier h) Q.heightIndex [] with
    | none =>
      rw [hl] at hc
      exact absurd hc (by simp)
    | some r =>
      rw [hl] at hc
      simp only [Option.some.injEq, Prod.mk.injEq] at hc
      obtain ⟨h1, _⟩ := hc
      subst h1
      have hdone := collectLoop_done _ _ _ r (heightRange_nodup Q.barrier h) hl
      unfold QueryIndex.MarkAndCollectUnsignedAcks
      simp only
      rw [collectLoop_fix _ r.1 [] hdone]
  · intro hr
    obtain ⟨r, hr1⟩ := collectLoop_total (heightRange Q.barrier h) Q.heightIndex []
      (buckets_inv Q hr)
    unfold QueryIndex.MarkAndCollectUnsignedAcks
    rw [hr1]
    exact ⟨_, rfl⟩

/-- Witness of C15: the index with `exAck1` at the height 10, collected up to the
height 11. -/
theorem MarkAndCollectUnsignedAcks_twice_witness :
    exAcked.MarkAndCollectUnsignedAcks 11 = some (exCollected, [200]) ∧
    exCollected.MarkAndCollectUnsignedAcks 11 = some (exCollected, []) :=
  ⟨by decide, (MarkAndCollectUnsignedAcks_twice exAcked 11).1 exCollected [200] (by decide)⟩

/-! ## C16: what MarkAndCollectUnsignedAcks returns and marks -/

/-- C16: when `MarkAndCollectUnsignedAcks(h)` returns `out`, there is a list `ps` without
duplicates of the pairs of a height `x` and a tracker `f` such that `barrier <= x < h`,
the bucket at `x` exists and `f` is the `FirstAck` of one of its query trackers, is
allocated and has a nil `SignedBlock`; each of these trackers holds an acknowledgement
and `out` is the list of the header hashes of these acknowledgements. The barrier and the keys of the height map are
unchanged, every bucket keeps its three indexes, the trackers of `ps` get the
placeholder as `SignedBlock` and every other tracker is unchanged: so are the buckets at
heights `>= h` or below the barrier and the trackers whose `SignedBlock` was set. -/
theorem MarkAndCollectUnsignedAcks_collects (Q : QueryIndex) (h : Int) (Q1 : QueryIndex)
    (out : List Nat) (hc : Q.MarkAndCollectUnsignedAcks h = some (Q1, out)) :
    ∃ ps : List (Int × Nat), ps.Nodup ∧ out = ps.map (hashIn Q.heightIndex) ∧
      (∀ x f, (x, f) ∈ ps ↔ Q.barrier ≤ x ∧ x < h ∧ CandAt Q.heightIndex x f) ∧
      (∀ x f, (x, f) ∈ ps →
        ∃ (m : MultiIndex) (t : RequestTracker) (a : SignedAckHeader),
          hGet Q.heightIndex x = some m ∧ m.trackers[f]? = some t ∧ t.Ack = some a ∧
          hashIn Q.heightIndex (x, f) = a.HeaderHash) ∧
      Q1.barrier = Q.barrier ∧
      Q1.heightIndex.map Prod.fst = Q.heightIndex.map Prod.fst ∧
      (∀ (x : Int) (m : MultiIndex), hGet Q.heightIndex x = some m →
        ∃ m1 : MultiIndex, hGet Q1.heightIndex x = some m1 ∧ m1.RespIndex = m.RespIndex ∧
          m1.AckIndex = m.AckIndex ∧ m1.SeqIndex = m.SeqIndex ∧
          m1.trackers.length = m.trackers.length ∧
          ∀ (v : Nat) (t : RequestTracker), m.trackers[v]? = some t →
            m1.trackers[v]? = some (if (x, v) ∈ ps then t.marked else t) ∧
            (t.SignedBlock ≠ none → m1.trackers[v]? = some t)) ∧
      (∀ (x : Int) (m : MultiIndex), hGet Q.heightIndex x = some m →
        x < Q.barrier ∨ h ≤ x → hGet Q1.heightIndex x = some m) := by
  unfold QueryIndex.MarkAndCollectUnsignedAcks at hc
  cases hl : collectLoop (heightRange Q.barrier h) Q.heightIndex [] with
  | none =>
    rw [hl] at hc
    exact absurd hc (by simp)
  | some r =>
    rw [hl] at hc
    simp only [Option.some.injEq, Prod.mk.injEq] at hc
    obtain ⟨h1, h2⟩ := hc
    subst h1
    subst h2
    obtain ⟨ps, p1, p2, p3, p4, p5⟩ :=
      collectLoop_spec _ _ _ r (heightRange_nodup Q.barrier h) hl
    have hmem : ∀ x f, (x, f) ∈ ps ↔ Q.barrier ≤ x ∧ x < h ∧ CandAt Q.heightIndex x f := by
      intro x f
      rw [p3 (x, f), mem_heightRange]
      exact and_assoc
    refine ⟨ps, p1, by rw [p2]; rfl, hmem, ?_, rfl, p4, ?_, ?_⟩
    · intro x f hin
      obtain ⟨hx1, hx2, hcd⟩ := (hmem x f).mp hin
      obtain ⟨m, t, a, h3, h4, h5⟩ := collectLoop_acked _ _ _ r
        (heightRange_nodup Q.barrier h) hl x ((mem_heightRange _ _ _).mpr ⟨hx1, hx2⟩) f hcd
      refine ⟨m, t, a, h3, h4, h5, ?_⟩
      unfold hashIn hashAt
      simp only [h3, h4, h5]
    · intro x m hm
      obtain ⟨m1, g1, g2, g3, g4, g5, g6⟩ := p5 x m hm
      refine ⟨m1, g1, g2, g3, g4, g5, ?_⟩
      intro v t hv
      refine ⟨g6 v t hv, ?_⟩
      intro hsb
      have hnot : (x, v) ∉ ps := by
        intro hin
        obtain ⟨_, _, m', hm', _, t', ht', hs'⟩ := (hmem x v).mp hin
        rw [hm] at hm'
        simp only [Option.some.injEq] at hm'
        subst hm'
        rw [hv] at ht'
        simp only [Option.some.injEq] at ht'
        subst ht'
        exact hsb hs'
      rw [g6 v t hv, if_neg hnot]
    · intro x m hm hout
      obtain ⟨m1, g1, g2, g3, g4, g5, g6⟩ := p5 x m hm
      have heq : m1 = m := by
        refine multiIndex_ext m m1 g2 g3 g4 g5 ?_
        intro v t hv
        have hnot : (x, v) ∉ ps := by
          intro hin
          obtain ⟨hx1, hx2, _⟩ := (hmem x v).mp hin
          omega
        rw [g6 v t hv, if_neg hnot]
      rw [g1, heq]

/-- Witness of C16: `exAck1` at the height 10, collected up to the height 11. -/
theorem MarkAndCollectUnsignedAcks_collects_witness :
    exAcked.MarkAndCollectUnsignedAcks 11 = some (exCollected, [200]) ∧
    ∃ ps : List (Int × Nat), ps.Nodup ∧ [200] = ps.map (hashIn exAcked.heightIndex) ∧
      (∀ x f, (x, f) ∈ ps ↔
        exAcked.barrier ≤ x ∧ x < 11 ∧ CandAt exAcked.heightIndex x f) ∧
      exCollected.barrier = exAcked.barrier ∧
      exCollected.heightIndex.map Prod.fst = exAcked.heightIndex.map Prod.fst :=
  have w := MarkAndCollectUnsignedAcks_collects exAcked 11 exCollected [200] (by decide)
  ⟨by decide, w.imp (fun _ hp => ⟨hp.1, hp.2.1, hp.2.2.1, hp.2.2.2.2.1, hp.2.2.2.2.2.1⟩)⟩

/-! ## C20: lookups at a height -/

/-- C20: `GetAck(h, k)` returns `ErrQueryExpired` exactly when `h` is below the barrier;
at a height not below it, it returns `ErrQueryNotCached` exactly when the bucket at `h`
has no `AckIndex` entry for `k`, and else the `Ack` of the tracker `AckIndex[k]` with a
nil error; on an index reachable with consistent acknowledgements it returns.
`CheckAckFromBlock(h, b, k)` returns `(false, ErrQueryExpired)` below the barrier and
`(false, nil)` at a height not below it where `k` has no `AckIndex` entry. -/
theorem GetAck_CheckAckFromBlock_lookup (i : QueryIndex) (h : Int) (b : HashRef) (k : Nat) :
    (h < i.barrier →
      i.GetAck h k = some (i, none, some QueryError.ErrQueryExpired) ∧
      i.CheckAckFromBlock h b k = some (i, false, some QueryError.ErrQueryExpired)) ∧
    (i.barrier ≤ h → i.ackEntry h k = none →
      i.GetAck h k = some (i.ensured h, none, some QueryError.ErrQueryNotCached) ∧
      i.CheckAckFromBlock h b k = some (i.ensured h, false, none)) ∧
    (i.barrier ≤ h → ∀ v t, i.ackEntry h k = some v → i.tracker h v = some t →
      i.GetAck h k = some (i, t.Ack, none)) ∧
    (∀ r, i.GetAck h k = some r →
      (r.2.2 = some QueryError.ErrQueryExpired ↔ h < i.barrier) ∧
      (i.barrier ≤ h → (r.2.2 = some QueryError.ErrQueryNotCached ↔ i.ackEntry h k = none))) ∧
    (QueryIndex.Reach consistentAcks i → ∃ r, i.GetAck h k = some r) := by
  refine ⟨?_, ?_, ?_, ?_, ?_⟩
  · intro hb
    exact ⟨GetAck_expired i h k hb, CheckAckFromBlock_expired i h b k hb⟩
  · intro hb hk
    refine ⟨?_, CheckAckFromBlock_unknown i h b k hb hk⟩
    rw [GetAck_live i h k hb, hk]
  · intro hb v t hv ht
    rw [GetAck_live i h k hb, hv]
    simp only [ht]
  · intro r hr
    by_cases hb : h < i.barrier
    · rw [GetAck_expired i h k hb] at hr
      simp only [Option.some.injEq] at hr
      subst hr
      exact ⟨by simp [hb], fun hc => absurd hb (by omega)⟩
    · have hb' : i.barrier ≤ h := by omega
      rw [GetAck_live i h k hb'] at hr
      cases hk : i.ackEntry h k with
      | none =>
        rw [hk] at hr
        simp only [Option.some.injEq] at hr
        subst hr
        exact ⟨by simp [hb], fun _ => by simp⟩
      | some v =>
        rw [hk] at hr
        simp only at hr
        cases ht : i.tracker h v with
        | none =>
          rw [ht] at hr
          exact absurd hr (by simp)
        | some t =>
          rw [ht] at hr
          simp only [Option.some.injEq] at hr
          subst hr
          exact ⟨by simp [hb], fun _ => by simp⟩

  · intro hr
    by_cases hb : h < i.barrier
    · exact ⟨_, GetAck_expired i h k hb⟩
    · rw [GetAck_live i h k (by omega)]
      cases hk : i.ackEntry h k with
      | none => exact ⟨_, rfl⟩
      | some v =>
        simp only
        unfold QueryIndex.ackEntry at hk
        unfold QueryIndex.tracker
        cases hg : hGet i.heightIndex h with
        | none =>
          rw [hg] at hk
          exact absurd hk (by simp)
        | some m =>
          rw [hg] at hk
          simp only [Option.some_bind] at hk ⊢
          have hS := buckets_sound i hr (h, m) (hGet_mem _ _ _ hg)
          obtain ⟨t, ht, _⟩ := hS.2.2 (k, v) (mapGet_mem _ _ _ hk)
          rw [ht]
          exact ⟨_, rfl⟩

/-- Witness of C20 on an index with the barrier at 0 and no bucket. -/
theorem GetAck_CheckAckFromBlock_lookup_witness :
    NewQueryIndex.barrier ≤ 3 ∧ NewQueryIndex.ackEntry 3 200 = none ∧
      NewQueryIndex.GetAck 3 200
        = some (NewQueryIndex.ensured 3, none, some QueryError.ErrQueryNotCached) ∧
      NewQueryIndex.CheckAckFromBlock 3 (HashRef.block 9) 200
        = some (NewQueryIndex.ensured 3, false, none) :=
  ⟨by decide, by decide,
    (GetAck_CheckAckFromBlock_lookup NewQueryIndex 3 (HashRef.block 9) 200).2.1
      (by decide) (by decide)⟩

/-! ## The shape of the index after `AddAck` -/

theorem mapSet_mapSet {β : Type} (m : List (Nat × β)) (k : Nat) (v w : β) :
    mapSet (mapSet m k v) k w = mapSet m k w := by
  induction m with
  | nil => simp [mapSet]
  | cons x rest ih =>
    obtain ⟨k0, v0⟩ := x
    simp only [mapSet]
    by_cases hk : k0 = k
    · simp only [if_pos hk, mapSet, if_true]
    · simp only [if_neg hk, mapSet, ih]

theorem mapSet_ensure (m : List (Nat × QueryTracker)) (k : Nat) (q : QueryTracker) :
    mapSet (SeqIndexEnsure m k).1 k q = mapSet m k q := by
  unfold SeqIndexEnsure
  cases mapGet m k with
  | some v => rfl
  | none => exact mapSet_mapSet m k _ q

/-- The closing test of `AddAck` when the first acknowledgement of the query tracker,
if set, is allocated: it is kept, and else the tracker of the call becomes the first
acknowledgement. -/
theorem settleFirstAck_result (i1 : MultiIndex) (seq : Nat) (q : QueryTracker) (v : Nat)
    (a : SignedAckHeader) (i2 : MultiIndex) (e : Option QueryError)
    (h : i1.settleFirstAck seq q v a = some (i2, e))
    (hq : ∀ f, q.FirstAck = some f → ∃ ft, i1.trackers[f]? = some ft) :
    i2.trackers = i1.trackers ∧ i2.RespIndex = i1.RespIndex ∧ i2.AckIndex = i1.AckIndex ∧
      i2.SeqIndex = mapSet i1.SeqIndex seq
        (QueryTracker.mk (some (q.FirstAck.getD v)) q.Queries) ∧
      (e = none ∨ e = some QueryError.ErrMultipleAckOfSeqNo) ∧
      (q.FirstAck = none → e = none) := by
  unfold MultiIndex.settleFirstAck at h
  cases hf : q.FirstAck with
  | none =>
    rw [hf] at h
    simp only [Option.some.injEq, Prod.mk.injEq] at h
    rw [← h.1]
    exact ⟨rfl, rfl, rfl, rfl, Or.inl h.2.symm, fun _ => h.2.symm⟩
  | some f =>
    obtain ⟨ft, hft⟩ := hq f hf
    have hqeq : QueryTracker.mk (some ((some f : Option Nat).getD v)) q.Queries = q := by
      cases q
      simp only at hf
      simp [hf]
    rw [hqeq]
    rw [hf] at h
    simp only [hft] at h
    split at h
    · exact absurd h (by simp)
    · split at h
      · simp only [Option.some.injEq, Prod.mk.injEq] at h
        rw [← h.1]
        exact ⟨rfl, rfl, rfl, rfl, Or.inr h.2.symm, fun h0 => absurd h0 (by simp)⟩
      · simp only [Option.some.injEq, Prod.mk.injEq] at h
        rw [← h.1]
        exact ⟨rfl, rfl, rfl, rfl, Or.inl h.2.symm, fun _ => h.2.symm⟩

/-- The index after a call of `AddAck` that returns, on an index that satisfies the
allocation invariant: either the response already holds an acknowledgement with another
header hash, the call returns `ErrMultipleAckOfResponse` and only writes `AckIndex` and
ensures the query tracker; or the acknowledgement is recorded in one of the three ways
of `Installs`, the first acknowledgement of its sequence number is kept when set and is
the tracker of the call else, and the call returns nil or `ErrMultipleAckOfSeqNo`. -/
theorem AddAck_shape (i : MultiIndex) (a : SignedAckHeader) (i' : MultiIndex)
    (e : Option QueryError) (hI : i.Inv) (h : i.AddAck a = some (i', e)) :
    (∃ (v : Nat) (t : RequestTracker) (b : SignedAckHeader),
      mapGet i.RespIndex a.ResponseHeaderHash = some v ∧ i.trackers[v]? = some t ∧
      t.Ack = some b ∧ b.HeaderHash ≠ a.HeaderHash ∧
      e = some QueryError.ErrMultipleAckOfResponse ∧ i'.trackers = i.trackers ∧
      i'.RespIndex = i.RespIndex ∧ i'.AckIndex = mapSet i.AckIndex a.HeaderHash v ∧
      i'.SeqIndex = (SeqIndexEnsure i.SeqIndex a.SeqNo).1) ∨
    (∃ (v : Nat) (T : List RequestTracker) (R : List (Nat × Nat)) (qs : List Nat),
      Installs i a v T R qs ∧ i'.trackers = T ∧ i'.RespIndex = R ∧
      i'.AckIndex = mapSet i.AckIndex a.HeaderHash v ∧
      i'.SeqIndex = mapSet i.SeqIndex a.SeqNo
        (QueryTracker.mk (some ((SeqIndexEnsure i.SeqIndex a.SeqNo).2.FirstAck.getD v)) qs) ∧
      (e = none ∨ e = some QueryError.ErrMultipleAckOfSeqNo) ∧
      ((SeqIndexEnsure i.SeqIndex a.SeqNo).2.FirstAck = none → e = none)) := by
  have hfa : ∀ (T : List RequestTracker), TrackersGrow i.trackers T →
      ∀ f, (SeqIndexEnsure i.SeqIndex a.SeqNo).2.FirstAck = some f →
        ∃ ft, T[f]? = some ft := by
    intro T hg f hf
    rcases ensure_snd i.SeqIndex a.SeqNo with hmem | hnone
    · obtain ⟨t, ht, _⟩ := hI.2 _ hmem f hf
      obtain ⟨t', ht', _⟩ := hg f t ht
      exact ⟨t', ht'⟩
    · rw [hnone] at hf
      exact absurd hf (by simp)
  unfold MultiIndex.AddAck at h
  simp only at h
  cases hv : mapGet i.RespIndex a.ResponseHeaderHash with
  | none =>
    rw [hv] at h
    simp only at h
    obtain ⟨h1, h2, h3, h4, h5, h6⟩ := settleFirstAck_result _ _ _ _ _ _ _ h
      (hfa _ (grow_append _ _))
    simp only [mapSet_ensure] at h4
    exact Or.inr ⟨i.trackers.length, i.trackers ++ [RequestTracker.ofAck a],
      mapSet i.RespIndex a.ResponseHeaderHash i.trackers.length,
      (SeqIndexEnsure i.SeqIndex a.SeqNo).2.Queries ++ [i.trackers.length],
      Or.inr (Or.inr ⟨hv, rfl, rfl, rfl, rfl⟩), h1, h2, h3, h4, h5, h6⟩
  | some v =>
    obtain ⟨t, ht, hresp⟩ := hI.1 (a.ResponseHeaderHash, v) (mapGet_mem _ _ _ hv)
    cases hr : t.Response with
    | none => exact absurd hr hresp
    | some r =>
      rw [hv] at h
      simp only [ht, hr] at h
      cases hta : t.Ack with
      | none =>
        have hu := UpdateAck_unset t a hta
        simp only [hu, if_true] at h
        obtain ⟨h1, h2, h3, h4, h5, h6⟩ := settleFirstAck_result _ _ _ _ _ _ _ h
          (hfa _ (grow_set _ _ _ _ ht (fun _ => by simp) (fun _ => by simp)))
        simp only [mapSet_ensure] at h4
        exact Or.inr ⟨v, i.trackers.set v (RequestTracker.ofAck a), i.RespIndex,
          (SeqIndexEnsure i.SeqIndex a.SeqNo).2.Queries ++ [v],
          Or.inr (Or.inl ⟨t, hv, ht, hta, rfl, rfl, rfl⟩), h1, h2, h3, h4, h5, h6⟩
      | some b =>
        have hst : i.trackers.set v t = i.trackers := set_same _ _ _ ht
        by_cases hne : b.HeaderHash ≠ a.HeaderHash
        · have hu := UpdateAck_other t a b hta hne
          simp only [hu, hst, Option.some.injEq, Prod.mk.injEq] at h
          obtain ⟨h1, h2⟩ := h
          subst h1
          exact Or.inl ⟨v, t, b, rfl, ht, hta, hne, h2.symm, rfl, rfl, rfl, rfl⟩
        · have hu := UpdateAck_same t a b hta (not_not.mp hne)
          simp only [hu, hst, Bool.false_eq_true, if_false] at h
          obtain ⟨h1, h2, h3, h4, h5, h6⟩ := settleFirstAck_result _ _ _ _ _ _ _ h
            (hfa _ (grow_refl _))
          simp only [mapSet_ensure] at h4
          exact Or.inr ⟨v, i.trackers, i.RespIndex,
            (SeqIndexEnsure i.SeqIndex a.SeqNo).2.Queries,
            Or.inl ⟨t, b, hv, ht, hta, not_not.mp hne, rfl, rfl, rfl⟩, h1, h2, h3, h4, h5, h6⟩

/-! ## C22: the index after a call that returns an error -/

theorem AddResponse_error_same (i : MultiIndex) (resp : SignedResponseHeader)
    (i' : MultiIndex) (e : QueryError) (h : i.AddResponse resp = (i', some e)) : i' = i := by
  unfold MultiIndex.AddResponse at h
  split at h
  · split at h
    · simp only [Prod.mk.injEq] at h
      exact h.1.symm
    · split at h
      · simp only [Prod.mk.injEq] at h
        exact h.1.symm
      · simp only [Prod.mk.injEq] at h
        exact absurd h.2 (by simp)
  · simp only [Prod.mk.injEq] at h
    exact absurd h.2 (by simp)

theorem CheckAckFromBlock_error_same (i : MultiIndex) (b : HashRef) (k : Nat)
    (i' : MultiIndex) (known : Bool) (e : QueryError)
    (h : i.CheckAckFromBlock b k = some (i', known, some e)) : i' = i := by
  unfold MultiIndex.CheckAckFromBlock at h
  have hsame : ∀ (kn : Bool) (r : Option QueryError),
      some (i, kn, r) = some (i', known, some e) → i' = i := by
    intro kn r hh
    simp only [Option.some.injEq, Prod.mk.injEq] at hh
    exact hh.1.symm
  split at h
  · exact hsame _ _ h
  · split at h
    · exact absurd h (by simp)
    · simp only at h
      split at h
      · exact hsame _ _ h
      · split at h
        · exact absurd h (by simp)
        · split at h
          · exact absurd h (by simp)
          · split at h
            · exact hsame _ _ h
            · split at h
              · exact hsame _ _ h
              · split at h
                · exact hsame _ _ h
                · split at h
                  · exact hsame _ _ h
                  · split at h
                    · split at h
                      · exact hsame _ _ h
                      · simp only [Option.some.injEq, Prod.mk.injEq] at h
                        exact absurd h.2.2 (by simp)
                    · exact hsame _ _ h

/-- C22, counterexample: on the index that holds `exAck1`, `AddAck(exAck3)` returns
`ErrMultipleAckOfSeqNo` and `AddAck(exAck2)` returns `ErrMultipleAckOfResponse`, and
neither call leaves the index as it was: the first installs the tracker of `exAck3`, the
second writes the header hash of `exAck2` to `AckIndex`. -/
theorem AddAck_error_changes_state :
    MultiIndex.ReachWith SignedAckHeader.consistent exOneAck ∧
    exAck3.consistent ∧
    exOneAck.AddAck exAck3 = some (exTwoAcks, some QueryError.ErrMultipleAckOfSeqNo) ∧
    exTwoAcks ≠ exOneAck ∧ exTwoAcks.trackers ≠ exOneAck.trackers ∧
    exAck2.consistent ∧
    exOneAck.AddAck exAck2 = some (exRejected, some QueryError.ErrMultipleAckOfResponse) ∧
    exRejected ≠ exOneAck ∧ exRejected.AckIndex ≠ exOneAck.AckIndex := by
  have h1 : NewMultiIndex.AddAck exAck1 = some (exOneAck, none) := by decide
  exact ⟨MultiIndex.ReachWith.addAck _ _ _ _ MultiIndex.ReachWith.new ⟨rfl, rfl⟩ h1,
    ⟨rfl, rfl⟩, by decide, by decide, by decide, ⟨rfl, rfl⟩, by decide, by decide, by decide⟩

/-- C22, amended: on a reachable index a call of `AddResponse` or `CheckAckFromBlock`
that returns an error leaves the index as it was, and `AddAck` never returns
`ErrCorruptedIndex`. A call `AddAck(a)` that returns `ErrMultipleAckOfResponse` changes no
tracker and not `RespIndex`; it maps the header hash of `a` in `AckIndex` to the tracker
of the response and ensures the query tracker of the sequence number of `a`. A call
`AddAck(a)` that returns `ErrMultipleAckOfSeqNo` records `a` as a call that returns nil
does, and keeps the first acknowledgement of the sequence number, which was set. -/
theorem error_atomicity (i : MultiIndex) (hr : MultiIndex.Reach i) :
    (∀ resp i' e, i.AddResponse resp = (i', some e) → i' = i) ∧
    (∀ b k i' known e, i.CheckAckFromBlock b k = some (i', known, some e) → i' = i) ∧
    (∀ a i', i.AddAck a ≠ some (i', some QueryError.ErrCorruptedIndex)) ∧
    (∀ a i', i.AddAck a = some (i', some QueryError.ErrMultipleAckOfResponse) →
      i'.trackers = i.trackers ∧ i'.RespIndex = i.RespIndex ∧
      i'.SeqIndex = (SeqIndexEnsure i.SeqIndex a.SeqNo).1 ∧
      ∃ v, mapGet i.RespIndex a.ResponseHeaderHash = some v ∧
        i'.AckIndex = mapSet i.AckIndex a.HeaderHash v) ∧
    (∀ a i', i.AddAck a = some (i', some QueryError.ErrMultipleAckOfSeqNo) →
      ∃ (v : Nat) (T : List RequestTracker) (R : List (Nat × Nat)) (qs : List Nat)
        (q0 : QueryTracker) (f : Nat),
        Installs i a v T R qs ∧ i'.trackers = T ∧ i'.RespIndex = R ∧
        i'.AckIndex = mapSet i.AckIndex a.HeaderHash v ∧
        mapGet i.SeqIndex a.SeqNo = some q0 ∧ q0.FirstAck = some f ∧
        i'.SeqIndex = mapSet i.SeqIndex a.SeqNo (QueryTracker.mk (some f) qs)) := by
  have hI := inv_of_reach i hr
  refine ⟨fun resp i' e h => AddResponse_error_same i resp i' e h,
    fun b k i' known e h => CheckAckFromBlock_error_same i b k i' known e h, ?_, ?_, ?_⟩
  · intro a i' h
    rcases AddAck_shape i a i' _ hI h with ⟨_, _, _, _, _, _, _, he, _⟩ |
      ⟨_, _, _, _, _, _, _, _, _, he, _⟩
    · exact absurd he (by simp)
    · rcases he with he | he <;> exact absurd he (by simp)
  · intro a i' h
    rcases AddAck_shape i a i' _ hI h with ⟨v, _, _, hv, _, _, _, _, h1, h2, h3, h4⟩ |
      ⟨_, _, _, _, _, _, _, _, _, he, _⟩
    · exact ⟨h1, h2, h4, v, hv, h3⟩
    · rcases he with he | he <;> exact absurd he (by simp)
  · intro a i' h
    rcases AddAck_shape i a i' _ hI h with ⟨_, _, _, _, _, _, _, he, _⟩ |
      ⟨v, T, R, qs, hinst, h1, h2, h3, h4, _, h6⟩
    · exact absurd he (by simp)
    · cases hf : (SeqIndexEnsure i.SeqIndex a.SeqNo).2.FirstAck with
      | none => exact absurd (h6 hf) (by simp)
      | some f =>
        cases hg : mapGet i.SeqIndex a.SeqNo with
        | none =>
          unfold SeqIndexEnsure at hf
          rw [hg] at hf
          exact absurd hf (by simp [NewQuerySummary])
        | some q0 =>
          rw [ensure_of_get _ _ _ hg] at hf h4
          simp only at hf
          rw [hf] at h4
          exact ⟨v, T, R, qs, q0, f, hinst, h1, h2, h3, rfl, hf, h4⟩

/-- Witness of the amended C22 on the index that holds `exAck1`: the call
`AddAck(exAck2)` that returns `ErrMultipleAckOfResponse`. -/
theorem error_atomicity_witness :
    MultiIndex.Reach exOneAck ∧
    exOneAck.AddAck exAck2 = some (exRejected, some QueryError.ErrMultipleAckOfResponse) ∧
    exRejected.trackers = exOneAck.trackers ∧ exRejected.RespIndex = exOneAck.RespIndex ∧
    exRejected.SeqIndex = (SeqIndexEnsure exOneAck.SeqIndex exAck2.SeqNo).1 ∧
    ∃ v, mapGet exOneAck.RespIndex exAck2.ResponseHeaderHash = some v ∧
      exRejected.AckIndex = mapSet exOneAck.AckIndex exAck2.HeaderHash v :=
  have hr : MultiIndex.Reach exOneAck :=
    MultiIndex.Reach.addAck NewMultiIndex exAck1 exOneAck none MultiIndex.Reach.new
      (by decide)
  ⟨hr, by decide, (error_atomicity exOneAck hr).2.2.2.1 exAck2 exRejected (by decide)⟩

/-! ## C21: GetAck after AddAck -/

/-- C21, counterexample: with the barrier at 5, `AddAck(2, exAck1)` returns nil, and the
immediately following `GetAck(2, exAck1.hash)` returns `ErrQueryExpired` and no
acknowledgement. -/
theorem GetAck_after_AddAck_expired :
    QueryIndex.Reach consistentAcks exBar5 ∧ exAck1.consistent ∧ exBar5.barrier = 5 ∧
    exBar5.AddAck 2 exAck1 = some (exLate, none) ∧
    exLate.GetAck 2 exAck1.HeaderHash
      = some (exLate, none, some QueryError.ErrQueryExpired) :=
  ⟨QueryIndex.Run.advanceBarrier NewQueryIndex 5 QueryIndex.Run.start trivial, ⟨rfl, rfl⟩,
    by decide, by decide, by decide⟩

/-- C21, amended: for every index, every height `h >= barrier` and every
acknowledgement `a`, if `AddAck(h, a)` returns nil, the immediately following
`GetAck(h, a.hash)` leaves the index as it is and returns, with a nil error, an
acknowledgement with the header hash of `a`; it is `a` itself unless the tracker of the
response of `a` already held that acknowledgement before the call of `AddAck`. -/
theorem GetAck_after_AddAck (Q Q1 : QueryIndex) (h : Int) (a : SignedAckHeader)
    (hb : Q.barrier ≤ h) (h1 : Q.AddAck h a = some (Q1, none)) :
    ∃ b : SignedAckHeader, Q1.GetAck h a.HeaderHash = some (Q1, some b, none) ∧
      b.HeaderHash = a.HeaderHash ∧
      (b = a ∨ ∃ (m : MultiIndex) (v0 : Nat) (t0 : RequestTracker),
        hGet Q.heightIndex h = some m ∧
        mapGet m.RespIndex a.ResponseHeaderHash = some v0 ∧ m.trackers[v0]? = some t0 ∧
        t0.Ack = some b) := by
  unfold QueryIndex.AddAck at h1
  simp only at h1
  cases hc : (EnsureHeight Q.heightIndex h).2.AddAck a with
  | none =>
    rw [hc] at h1
    exact absurd h1 (by simp)
  | some r =>
    rw [hc] at h1
    simp only [Option.some.injEq, Prod.mk.injEq] at h1
    obtain ⟨hQ1, he⟩ := h1
    subst hQ1
    have hc' : (EnsureHeight Q.heightIndex h).2.AddAck a = some (r.1, none) := by
      rw [hc, ← he]
    obtain ⟨v, q, t, b, f, ft, fa, hv, _, ht, htb, hbh, hak, _⟩ :=
      settled_none r.1 a (AddAck_settles _ a r.1 none hc')
    have hg1 : hGet (hSet (EnsureHeight Q.heightIndex h).1 h r.1) h = some r.1 := by
      rw [hGet_hSet, if_pos rfl]
    refine ⟨b, ?_, hbh, ?_⟩
    · have hl := GetAck_live
        (QueryIndex.mk Q.barrier (hSet (EnsureHeight Q.heightIndex h).1 h r.1)) h
        a.HeaderHash hb
      rw [hl]
      unfold QueryIndex.ackEntry QueryIndex.tracker
      simp only [hg1, Option.some_bind, hak, ht, htb]
    · rcases AddAck_recorded _ a r.1 none hc' v t b hv ht htb with hba | ⟨v0, t0, h3, h4, h5⟩
      · exact Or.inl hba
      · right
        cases hg : hGet Q.heightIndex h with
        | none =>
          rw [ensureHeight_of_none _ _ hg] at h3
          exact absurd h3 (by simp [NewMultiIndex, mapGet])
        | some m =>
          rw [ensureHeight_of_get _ _ _ hg] at h3 h4
          exact ⟨m, v0, t0, rfl, h3, h4, h5⟩

/-- Witness of the amended C21: `AddAck(10, exAck1)` on the fresh index. -/
theorem GetAck_after_AddAck_witness :
    NewQueryIndex.barrier ≤ 10 ∧ NewQueryIndex.AddAck 10 exAck1 = some (exAcked, none) ∧
    ∃ b : SignedAckHeader, exAcked.GetAck 10 exAck1.HeaderHash = some (exAcked, some b, none) ∧
      b.HeaderHash = exAck1.HeaderHash :=
  ⟨by decide, by decide,
    (GetAck_after_AddAck NewQueryIndex exAcked 10 exAck1 (by decide) (by decide)).imp
      (fun _ hb => ⟨hb.1, hb.2.1⟩)⟩

/-- When the tracker already holds an acknowledgement with the header hash of `a`,
`AddAck(h, a)` returns nil without writing `a`, and `GetAck` returns the acknowledgement
held: here `exAck1`, after `AddAck(10, exAck1b)` for the same header under another
signee. -/
theorem GetAck_returns_held_ack :
    exAcked.AddAck 10 exAck1b = some (exAcked, none) ∧
    exAck1b.HeaderHash = exAck1.HeaderHash ∧ exAck1b ≠ exAck1 ∧
    exAcked.GetAck 10 exAck1b.HeaderHash = some (exAcked, some exAck1, none) :=
  ⟨by decide, rfl, by decide, by decide⟩

/-! ## C25: what SetSignedBlock writes -/

/-- The loop of `SetSignedBlock` over the queries of a block writes the block hash to the
trackers found in `AckIndex` under these queries and changes nothing else. -/
theorem signLoop_frame (vs : List Nat) :
    ∀ (m : MultiIndex) (b : HashRef) (m' : MultiIndex), signLoop vs m b = some m' →
      m'.RespIndex = m.RespIndex ∧ m'.AckIndex = m.AckIndex ∧ m'.SeqIndex = m.SeqIndex ∧
      m'.trackers.length = m.trackers.length ∧
      ∀ (v : Nat) (t : RequestTracker), m.trackers[v]? = some t →
        (Packed m.AckIndex vs v → m'.trackers[v]? = some (t.signed b)) ∧
        (¬ Packed m.AckIndex vs v → m'.trackers[v]? = some t) := by
  induction vs with
  | nil =>
    intro m b m' h
    simp only [signLoop, Option.some.injEq] at h
    subst h
    refine ⟨rfl, rfl, rfl, rfl, ?_⟩
    intro v t hv
    refine ⟨?_, fun _ => hv⟩
    rintro ⟨k, hk, _⟩
    exact absurd hk (List.not_mem_nil k)
  | cons x xs ih =>
    intro m b m' h
    unfold signLoop at h
    cases hs : m.SetSignedBlock b x with
    | none =>
      rw [hs] at h
      exact absurd h (by simp)
    | some m1 =>
      rw [hs] at h
      simp only at h
      obtain ⟨g1, g2, g3, g4, g5⟩ := ih m1 b m' h
      unfold MultiIndex.SetSignedBlock at hs
      cases hx : mapGet m.AckIndex x with
      | none =>
        rw [hx] at hs
        simp only [Option.some.injEq] at hs
        subst hs
        refine ⟨g1, g2, g3, g4, ?_⟩
        intro v t hv
        have hiff : Packed m.AckIndex (x :: xs) v ↔ Packed m.AckIndex xs v := by
          constructor
          · rintro ⟨k, hk, hkv⟩
            rcases List.mem_cons.mp hk with h1 | h1
            · rw [h1, hx] at hkv
              exact absurd hkv (by simp)
            · exact ⟨k, h1, hkv⟩
          · rintro ⟨k, hk, hkv⟩
            exact ⟨k, List.mem_cons_of_mem _ hk, hkv⟩
        rw [hiff]
        exact g5 v t hv
      | some w =>
        rw [hx] at hs
        simp only at hs
        cases hw : m.trackers[w]? with
        | none =>
          rw [hw] at hs
          exact absurd hs (by simp)
        | some tw =>
          rw [hw] at hs
          simp only [Option.some.injEq] at hs
          subst hs
          simp only at g1 g2 g3 g4 g5
          refine ⟨g1, g2, g3, by rw [g4]; exact List.length_set _ _ _, ?_⟩
          intro v t hv
          by_cases hvw : w = v
          · subst hvw
            rw [hw] at hv
            simp only [Option.some.injEq] at hv
            subst hv
            have h1 := g5 w (tw.signed b) (getElem?_set_valid _ _ _ _ hw)
            have hp : Packed m.AckIndex (x :: xs) w := ⟨x, List.mem_cons_self _ _, hx⟩
            refine ⟨fun _ => ?_, fun hn => absurd hp hn⟩
            by_cases hp' : Packed m.AckIndex xs w
            · exact h1.1 hp'
            · exact h1.2 hp'
          · have hv' : (m.trackers.set w (tw.signed b))[v]? = some t := by
              rw [List.getElem?_set_ne hvw]
              exact hv
            have h1 := g5 v t hv'
            have hiff : Packed m.AckIndex (x :: xs) v ↔ Packed m.AckIndex xs v := by
              constructor
              · rintro ⟨k, hk, hkv⟩
                rcases List.mem_cons.mp hk with h2 | h2
                · rw [h2, hx] at hkv
                  simp only [Option.some.injEq] at hkv
                  exact absurd hkv hvw
                · exact ⟨k, h2, hkv⟩
              · rintro ⟨k, hk, hkv⟩
                exact ⟨k, List.mem_cons_of_mem _ hk, hkv⟩
            rw [hiff]
            exact h1

/-- C25: `SetSignedBlock(h, block)` ensures the bucket at `h` and, in it, writes the hash
of the block to `SignedBlock` of exactly the trackers that `AckIndex` holds under one of
the queries of the block; every other tracker of the bucket is unchanged, no `Response`
or `Ack` is written, the three indexes of the bucket (with every `FirstAck`) are
unchanged, and so are the barrier and the buckets at the other heights. On an index
reachable with consistent acknowledgements the call returns. -/
theorem SetSignedBlock_frame (Q : QueryIndex) (h : Int) (blk : Block) :
    (∀ Q1, Q.SetSignedBlock h blk = some Q1 →
      Q1.barrier = Q.barrier ∧
      (∀ x, x ≠ h → hGet Q1.heightIndex x = hGet Q.heightIndex x) ∧
      ∃ m1 : MultiIndex, Q1.heightIndex = hSet (EnsureHeight Q.heightIndex h).1 h m1 ∧
        hGet Q1.heightIndex h = some m1 ∧
        m1.RespIndex = (EnsureHeight Q.heightIndex h).2.RespIndex ∧
        m1.AckIndex = (EnsureHeight Q.heightIndex h).2.AckIndex ∧
        m1.SeqIndex = (EnsureHeight Q.heightIndex h).2.SeqIndex ∧
        m1.trackers.length = (EnsureHeight Q.heightIndex h).2.trackers.length ∧
        ∀ (v : Nat) (t : RequestTracker),
          (EnsureHeight Q.heightIndex h).2.trackers[v]? = some t →
          (Packed (EnsureHeight Q.heightIndex h).2.AckIndex blk.Queries v →
            m1.trackers[v]? = some (t.signed (HashRef.block blk.BlockHash))) ∧
          (¬ Packed (EnsureHeight Q.heightIndex h).2.AckIndex blk.Queries v →
            m1.trackers[v]? = some t)) ∧
    (QueryIndex.Reach consistentAcks Q → ∃ Q1, Q.SetSignedBlock h blk = some Q1) := by
  constructor
  · intro Q1 hc
    unfold QueryIndex.SetSignedBlock at hc
    simp only at hc
    cases hl : signLoop blk.Queries (EnsureHeight Q.heightIndex h).2
        (HashRef.block blk.BlockHash) with
    | none =>
      rw [hl] at hc
      exact absurd hc (by simp)
    | some m1 =>
      rw [hl] at hc
      simp only [Option.some.injEq] at hc
      subst hc
      obtain ⟨g1, g2, g3, g4, g5⟩ := signLoop_frame _ _ _ m1 hl
      refine ⟨rfl, ?_, m1, rfl, ?_, g1, g2, g3, g4, g5⟩
      · intro x hx
        show hGet (hSet (EnsureHeight Q.heightIndex h).1 h m1) x = hGet Q.heightIndex x
        rw [hGet_hSet, if_neg (fun hh => hx hh.symm)]
        unfold EnsureHeight
        cases hg : hGet Q.heightIndex h with
        | none =>
          simp only
          rw [hGet_hSet, if_neg (fun hh => hx hh.symm)]
        | some m => rfl
      · show hGet (hSet (EnsureHeight Q.heightIndex h).1 h m1) h = some m1
        rw [hGet_hSet, if_pos rfl]
  · intro hr
    obtain ⟨hm0, _⟩ := ensureHeight_all MultiIndex.Sound Q.heightIndex h sound_new
      (buckets_sound Q hr)
    obtain ⟨m', hs, _⟩ := signLoop_spec blk.Queries _ (HashRef.block blk.BlockHash) hm0
    unfold QueryIndex.SetSignedBlock
    simp only [hs]
    exact ⟨_, rfl⟩

/-- Witness of C25: the block `exBlock` packs `exAck1`, held at the height 10. -/
theorem SetSignedBlock_frame_witness :
    QueryIndex.Reach consistentAcks exAcked ∧
    ∃ Q1, exAcked.SetSignedBlock 10 exBlock = some Q1 :=
  have hr : QueryIndex.Reach consistentAcks exAcked :=
    QueryIndex.Run.addAck NewQueryIndex 10 exAck1 exAcked none QueryIndex.Run.start trivial
      ⟨rfl, rfl⟩ (by decide)
  ⟨hr, (SetSignedBlock_frame exAcked 10 exBlock).2 hr⟩

/-! ## Trackers with an acknowledgement stay filed under its sequence number -/

theorem seqGrows_refl (S : List (Nat × QueryTracker)) : SeqGrows S S :=
  fun _ q h => ⟨q, h, fun _ hv => hv, fun hf => hf⟩

theorem seqGrows_ensure (S : List (Nat × QueryTracker)) (k : Nat) :
    SeqGrows S (SeqIndexEnsure S k).1 :=
  fun s q h => ⟨q, ensure_keeps S k s q h, fun _ hv => hv, fun hf => hf⟩

theorem seqGrows_set (S : List (Nat × QueryTracker)) (k : Nat) (q' : QueryTracker)
    (h : ∀ q, mapGet S k = some q →
      (∀ v ∈ q.Queries, v ∈ q'.Queries) ∧ (q.FirstAck ≠ none → q'.FirstAck ≠ none)) :
    SeqGrows S (mapSet S k q') := by
  intro s q hq
  by_cases hks : k = s
  · subst hks
    exact ⟨q', by rw [mapGet_mapSet, if_pos rfl], (h q hq).1, (h q hq).2⟩
  · exact ⟨q, by rw [mapGet_mapSet, if_neg hks]; exact hq, fun _ hv => hv, fun hf => hf⟩

theorem respKeeps_set (R : List (Nat × Nat)) (k v : Nat) (h : mapGet R k = none) :
    RespKeeps R (mapSet R k v) := by
  intro k' v' hk
  rw [mapGet_mapSet]
  by_cases hkk : k = k'
  · subst hkk
    rw [h] at hk
    exact absurd hk (by simp)
  · rw [if_neg hkk]
    exact hk

/-- What `SeqIndexEnsure` returns for a key is the query tracker of the key, or a new
query tracker when the key is new. -/
theorem ensure_cases (S : List (Nat × QueryTracker)) (k : Nat) :
    mapGet S k = some (SeqIndexEnsure S k).2 ∨
      (mapGet S k = none ∧ (SeqIndexEnsure S k).2 = NewQuerySummary) := by
  unfold SeqIndexEnsure
  cases h : mapGet S k with
  | none => exact Or.inr ⟨rfl, rfl⟩
  | some q => exact Or.inl rfl

/-- The invariant passes to an index in which the indexes have grown and every
acknowledgement held is an old one or is filed. -/
theorem ackFiled_step (i i' : MultiIndex) (hF : i.AckFiled)
    (hS : SeqGrows i.SeqIndex i'.SeqIndex) (hR : RespKeeps i.RespIndex i'.RespIndex)
    (hT : ∀ (w : Nat) (t' : RequestTracker) (b : SignedAckHeader),
      i'.trackers[w]? = some t' → t'.Ack = some b →
      (∃ t : RequestTracker, i.trackers[w]? = some t ∧ t.Ack = some b) ∨
      (mapGet i'.RespIndex b.RespHash = some w ∧
        ∃ q : QueryTracker, mapGet i'.SeqIndex b.SeqNo = some q ∧ q.FirstAck ≠ none ∧
          w ∈ q.Queries)) : i'.AckFiled := by
  intro w t' b hw hb
  rcases hT w t' b hw hb with ⟨t, ht, htb⟩ | hnew
  · obtain ⟨h1, q, h2, h3, h4⟩ := hF w t b ht htb
    obtain ⟨q', g1, g2, g3⟩ := hS b.SeqNo q h2
    exact ⟨hR _ _ h1, q', g1, g3 h3, g2 w h4⟩
  · exact hnew

/-- The index after `AddResponse` on an index that satisfies the allocation invariant:
the call returns nil, and either overwrites the response of the tracker of the header
hash, or allocates a tracker and appends it to the `Queries` of the sequence number. -/
theorem AddResponse_shape (i : MultiIndex) (resp : SignedResponseHeader) (hI : i.Inv) :
    (i.AddResponse resp).2 = none ∧
    ((∃ (v : Nat) (t : RequestTracker),
      mapGet i.RespIndex resp.HeaderHash = some v ∧ i.trackers[v]? = some t ∧
      (i.AddResponse resp).1.trackers = i.trackers.set v (t.answered resp) ∧
      (i.AddResponse resp).1.RespIndex = i.RespIndex ∧
      (i.AddResponse resp).1.AckIndex = i.AckIndex ∧
      (i.AddResponse resp).1.SeqIndex = i.SeqIndex) ∨
    (mapGet i.RespIndex resp.HeaderHash = none ∧
      (i.AddResponse resp).1.trackers = i.trackers ++ [RequestTracker.ofResp resp] ∧
      (i.AddResponse resp).1.RespIndex
        = mapSet i.RespIndex resp.HeaderHash i.trackers.length ∧
      (i.AddResponse resp).1.AckIndex = i.AckIndex ∧
      (i.AddResponse resp).1.SeqIndex = mapSet i.SeqIndex resp.SeqNo
        (QueryTracker.mk (SeqIndexEnsure i.SeqIndex resp.SeqNo).2.FirstAck
          ((SeqIndexEnsure i.SeqIndex resp.SeqNo).2.Queries ++ [i.trackers.length])))) := by
  obtain hv | ⟨v, hv⟩ := Option.eq_none_or_eq_some (mapGet i.RespIndex resp.HeaderHash)
  · have hres : i.AddResponse resp =
        (MultiIndex.mk (i.trackers ++ [RequestTracker.ofResp resp])
          (mapSet i.RespIndex resp.HeaderHash i.trackers.length) i.AckIndex
          (mapSet (SeqIndexEnsure i.SeqIndex resp.SeqNo).1 resp.SeqNo
            (QueryTracker.mk (SeqIndexEnsure i.SeqIndex resp.SeqNo).2.FirstAck
              ((SeqIndexEnsure i.SeqIndex resp.SeqNo).2.Queries ++ [i.trackers.length]))),
          none) := by
      unfold MultiIndex.AddResponse
      simp only [hv]
      rfl
    rw [hres]
    exact ⟨rfl, Or.inr ⟨hv, rfl, rfl, rfl, mapSet_ensure _ _ _⟩⟩
  · obtain ⟨t, ht, hresp⟩ := hI.1 (resp.HeaderHash, v) (mapGet_mem _ _ _ hv)
    obtain hr | ⟨r, hr⟩ := Option.eq_none_or_eq_some t.Response
    · exact absurd hr hresp
    · have hres : i.AddResponse resp =
          (MultiIndex.mk (i.trackers.set v (t.answered resp)) i.RespIndex i.AckIndex
            i.SeqIndex, none) := by
        unfold MultiIndex.AddResponse
        simp only [hv, ht, hr]
        rfl
      rw [hres]
      exact ⟨rfl, Or.inl ⟨v, t, hv, ht, rfl, rfl, rfl, rfl⟩⟩

theorem AddResponse_filed (i : MultiIndex) (resp : SignedResponseHeader) (hI : i.Inv)
    (hF : i.AckFiled) : (i.AddResponse resp).1.AckFiled := by
  obtain ⟨_, hshape⟩ := AddResponse_shape i resp hI
  rcases hshape with ⟨v, t, hv, ht, h1, h2, _, h4⟩ | ⟨hv, h1, h2, _, h4⟩
  · refine ackFiled_step i _ hF (by rw [h4]; exact seqGrows_refl _)
      (by rw [h2]; exact fun _ _ h => h) ?_
    intro w t' b hw hb
    left
    rw [h1] at hw
    by_cases hvw : v = w
    · subst hvw
      rw [getElem?_set_valid _ _ _ _ ht] at hw
      simp only [Option.some.injEq] at hw
      subst hw
      exact ⟨t, ht, hb⟩
    · rw [List.getElem?_set_ne hvw] at hw
      exact ⟨t', hw, hb⟩
  · refine ackFiled_step i _ hF ?_ (by rw [h2]; exact respKeeps_set _ _ _ hv) ?_
    · rw [h4]
      apply seqGrows_set
      intro q hq
      rcases ensure_cases i.SeqIndex resp.SeqNo with hc | ⟨hc, _⟩
      · rw [hq] at hc
        simp only [Option.some.injEq] at hc
        rw [← hc]
        exact ⟨fun v hv' => List.mem_append_left _ hv', fun hf => hf⟩
      · rw [hq] at hc
        exact absurd hc (by simp)
    · intro w t' b hw hb
      left
      rw [h1] at hw
      by_cases hlt : w < i.trackers.length
      · rw [List.getElem?_append_left hlt] at hw
        exact ⟨t', hw, hb⟩
      · have hlen : w = i.trackers.length := by
          have := (List.getElem?_eq_some.mp hw).1
          simp only [List.length_append, List.length_singleton] at this
          omega
        subst hlen
        rw [getElem?_append_new] at hw
        simp only [Option.some.injEq] at hw
        subst hw
        exact absurd hb (by simp [RequestTracker.ofResp])

theorem installs_queries (i : MultiIndex) (a : SignedAckHeader) (v : Nat)
    (T : List RequestTracker) (R : List (Nat × Nat)) (qs : List Nat)
    (h : Installs i a v T R qs) :
    ∀ w ∈ (SeqIndexEnsure i.SeqIndex a.SeqNo).2.Queries, w ∈ qs := by
  intro w hw
  rcases h with ⟨_, _, _, _, _, _, _, _, hq⟩ | ⟨_, _, _, _, _, _, hq⟩ | ⟨_, _, _, _, hq⟩
  · rw [hq]
    exact hw
  · rw [hq]
    exact List.mem_append_left _ hw
  · rw [hq]
    exact List.mem_append_left _ hw

theorem installs_respKeeps (i : MultiIndex) (a : SignedAckHeader) (v : Nat)
    (T : List RequestTracker) (R : List (Nat × Nat)) (qs : List Nat)
    (h : Installs i a v T R qs) : RespKeeps i.RespIndex R ∧ mapGet R a.RespHash = some v := by
  rcases h with ⟨_, _, hv, _, _, _, _, hR, _⟩ | ⟨_, hv, _, _, _, hR, _⟩ | ⟨hv, _, _, hR, _⟩
  · rw [hR]
    exact ⟨fun _ _ h => h, hv⟩
  · rw [hR]
    exact ⟨fun _ _ h => h, hv⟩
  · rw [hR]
    refine ⟨respKeeps_set _ _ _ hv, ?_⟩
    show mapGet (mapSet i.RespIndex a.RespHash v) a.RespHash = some v
    rw [mapGet_mapSet, if_pos rfl]

/-- A tracker that holds an acknowledgement after the acknowledgement `a` is recorded
held it before, or is the tracker of the call, holds `a`, and is appended to the
`Queries` of the sequence number of `a`. -/
theorem installs_acks (i : MultiIndex) (a : SignedAckHeader) (v : Nat)
    (T : List RequestTracker) (R : List (Nat × Nat)) (qs : List Nat)
    (h : Installs i a v T R qs) (w : Nat) (t' : RequestTracker) (b : SignedAckHeader)
    (hw : T[w]? = some t') (hb : t'.Ack = some b) :
    (∃ t : RequestTracker, i.trackers[w]? = some t ∧ t.Ack = some b) ∨
      (w = v ∧ b = a ∧ t' = RequestTracker.ofAck a ∧ v ∈ qs ∧
        ∀ t : RequestTracker, i.trackers[v]? = some t → t.Ack = none) := by
  rcases h with ⟨_, _, _, _, _, _, hT, _, _⟩ | ⟨t, _, ht, hta, hT, _, hq⟩ |
    ⟨_, hlen, hT, _, hq⟩
  · rw [hT] at hw
    exact Or.inl ⟨t', hw, hb⟩
  · rw [hT] at hw
    by_cases hvw : v = w
    · subst hvw
      rw [getElem?_set_valid _ _ _ _ ht] at hw
      simp only [Option.some.injEq] at hw
      subst hw
      simp only [RequestTracker.ofAck, Option.some.injEq] at hb
      refine Or.inr ⟨rfl, hb.symm, rfl, by rw [hq]; simp, ?_⟩
      intro t0 ht0
      rw [ht] at ht0
      simp only [Option.some.injEq] at ht0
      rw [← ht0]
      exact hta
    · rw [List.getElem?_set_ne hvw] at hw
      exact Or.inl ⟨t', hw, hb⟩
  · rw [hT] at hw
    by_cases hlt : w < i.trackers.length
    · rw [List.getElem?_append_left hlt] at hw
      exact Or.inl ⟨t', hw, hb⟩
    · have hwl : w = i.trackers.length := by
        have := (List.getElem?_eq_some.mp hw).1
        simp only [List.length_append, List.length_singleton] at this
        omega
      subst hwl
      rw [getElem?_append_new] at hw
      simp only [Option.some.injEq] at hw
      subst hw
      simp only [RequestTracker.ofAck, Option.some.injEq] at hb
      refine Or.inr ⟨hlen.symm, hb.symm, rfl, by rw [hq]; simp, ?_⟩
      intro t0 ht0
      rw [hlen] at ht0
      have := (List.getElem?_eq_some.mp ht0).1
      omega

theorem AddAck_seqGrows (i : MultiIndex) (a : SignedAckHeader) (i' : MultiIndex)
    (e : Option QueryError) (hI : i.Inv) (h : i.AddAck a = some (i', e)) :
    SeqGrows i.SeqIndex i'.SeqIndex := by
  rcases AddAck_shape i a i' e hI h with ⟨_, _, _, _, _, _, _, _, _, _, _, h4⟩ |
    ⟨v, T, R, qs, hinst, _, _, _, h4, _, _⟩
  · rw [h4]
    exact seqGrows_ensure _ _
  · rw [h4]
    apply seqGrows_set
    intro q hq
    rcases ensure_cases i.SeqIndex a.SeqNo with hc | ⟨hc, _⟩
    · rw [hq] at hc
      simp only [Option.some.injEq] at hc
      refine ⟨?_, fun _ => by simp⟩
      intro w hw
      rw [hc] at hw
      exact installs_queries i a v T R qs hinst w hw
    · rw [hq] at hc
      exact absurd hc (by simp)

theorem AddAck_filed (i : MultiIndex) (a : SignedAckHeader) (i' : MultiIndex)
    (e : Option QueryError) (hI : i.Inv) (hF : i.AckFiled)
    (h : i.AddAck a = some (i', e)) : i'.AckFiled := by
  have hS := AddAck_seqGrows i a i' e hI h
  rcases AddAck_shape i a i' e hI h with ⟨_, _, _, _, _, _, _, _, h1, h2, _, _⟩ |
    ⟨v, T, R, qs, hinst, h1, h2, _, h4, _, _⟩
  · refine ackFiled_step i i' hF hS (by rw [h2]; exact fun _ _ h => h) ?_
    intro w t' b hw hb
    rw [h1] at hw
    exact Or.inl ⟨t', hw, hb⟩
  · obtain ⟨hRk, hRv⟩ := installs_respKeeps i a v T R qs hinst
    refine ackFiled_step i i' hF hS (by rw [h2]; exact hRk) ?_
    intro w t' b hw hb
    rw [h1] at hw
    rcases installs_acks i a v T R qs hinst w t' b hw hb with hold | ⟨hwv, hba, _, hvq, _⟩
    · exact Or.inl hold
    · right
      subst hwv
      subst hba
      rw [h2, h4]
      exact ⟨hRv, _, by rw [mapGet_mapSet, if_pos rfl], by simp, hvq⟩

/-- `CheckAckFromBlock` changes nothing, or writes the tracker of the acknowledgement
as the `FirstAck` of the sequence number of the acknowledgement it holds. -/
theorem CheckAckFromBlock_shape (i : MultiIndex) (b : HashRef) (k : Nat) (i' : MultiIndex)
    (known : Bool) (e : Option QueryError)
    (h : i.CheckAckFromBlock b k = some (i', known, e)) :
    i' = i ∨
    ∃ (qh : Nat) (q : RequestTracker) (qa : SignedAckHeader) (qs : QueryTracker),
      mapGet i.AckIndex k = some qh ∧ i.trackers[qh]? = some q ∧ q.Ack = some qa ∧
      mapGet i.SeqIndex qa.SeqNo = some qs ∧ qs.FirstAck ≠ none ∧ e = none ∧
      i'.trackers = i.trackers ∧ i'.RespIndex = i.RespIndex ∧ i'.AckIndex = i.AckIndex ∧
      i'.SeqIndex = mapSet i.SeqIndex qa.SeqNo (QueryTracker.mk (some qh) qs.Queries) := by
  unfold MultiIndex.CheckAckFromBlock at h
  have hsame : ∀ (kn : Bool) (r : Option QueryError) (P : Prop),
      some (i, kn, r) = some (i', known, e) → i' = i ∨ P := by
    intro kn r P hh
    simp only [Option.some.injEq, Prod.mk.injEq] at hh
    exact Or.inl hh.1.symm
  obtain hk | ⟨qh, hk⟩ := Option.eq_none_or_eq_some (mapGet i.AckIndex k)
  · rw [hk] at h
    exact hsame _ _ _ h
  · rw [hk] at h
    simp only at h
    obtain hq | ⟨q, hq⟩ := Option.eq_none_or_eq_some i.trackers[qh]?
    · rw [hq] at h
      exact absurd h (by simp)
    · rw [hq] at h
      simp only at h
      split at h
      · exact hsame _ _ _ h
      · obtain hqa | ⟨qa, hqa⟩ := Option.eq_none_or_eq_some q.Ack
        · rw [hqa] at h
          exact absurd h (by simp)
        · rw [hqa] at h
          simp only at h
          split at h
          · exact absurd h (by simp)
          · split at h
            · exact hsame _ _ _ h
            · obtain hqs | ⟨qs, hqs⟩ := Option.eq_none_or_eq_some (mapGet i.SeqIndex qa.SeqNo)
              · rw [hqs] at h
                exact hsame _ _ _ h
              · rw [hqs] at h
                simp only at h
                obtain hf | ⟨f, hf⟩ := Option.eq_none_or_eq_some qs.FirstAck
                · rw [hf] at h
                  exact hsame _ _ _ h
                · rw [hf] at h
                  simp only at h
                  split at h
                  · exact hsame _ _ _ h
                  · split at h
                    · split at h
                      · exact hsame _ _ _ h
                      · simp only [Option.some.injEq, Prod.mk.injEq] at h
                        obtain ⟨h1, _, h3⟩ := h
                        subst h1
                        exact Or.inr ⟨qh, q, qa, qs, hk, hq, hqa, hqs, by rw [hf]; simp,
                          h3.symm, rfl, rfl, rfl, rfl⟩
                    · exact hsame _ _ _ h

theorem CheckAckFromBlock_seqGrows (i : MultiIndex) (b : HashRef) (k : Nat)
    (i' : MultiIndex) (known : Bool) (e : Option QueryError)
    (h : i.CheckAckFromBlock b k = some (i', known, e)) :
    SeqGrows i.SeqIndex i'.SeqIndex := by
  rcases CheckAckFromBlock_shape i b k i' known e h with heq |
    ⟨qh, q, qa, qs, _, _, _, hqs, _, _, _, _, _, h4⟩
  · rw [heq]
    exact seqGrows_refl _
  · rw [h4]
    apply seqGrows_set
    intro q0 hq0
    rw [hqs] at hq0
    simp only [Option.some.injEq] at hq0
    subst hq0
    exact ⟨fun _ hv => hv, fun _ => by simp⟩

theorem CheckAckFromBlock_filed (i : MultiIndex) (b : HashRef) (k : Nat) (i' : MultiIndex)
    (known : Bool) (e : Option QueryError) (hF : i.AckFiled)
    (h : i.CheckAckFromBlock b k = some (i', known, e)) : i'.AckFiled := by
  obtain ⟨h1, h2, _⟩ := CheckAckFromBlock_frame i b k i' known e h
  refine ackFiled_step i i' hF (CheckAckFromBlock_seqGrows i b k i' known e h)
    (by rw [h2]; exact fun _ _ h => h) ?_
  intro w t' b' hw hb
  rw [h1] at hw
  exact Or.inl ⟨t', hw, hb⟩

/-- The invariant does not depend on the field `SignedBlock`. -/
theorem ackFiled_sameFields (i i' : MultiIndex) (hF : i.AckFiled)
    (hT : SameFields i.trackers i'.trackers) (hR : i'.RespIndex = i.RespIndex)
    (hS : i'.SeqIndex = i.SeqIndex) : i'.AckFiled := by
  refine ackFiled_step i i' hF (by rw [hS]; exact seqGrows_refl _)
    (by rw [hR]; exact fun _ _ h => h) ?_
  intro w t' b hw hb
  obtain ⟨t, ht, _, ha⟩ := sameFields_back _ _ hT w t' hw
  exact Or.inl ⟨t, ht, by rw [← ha]; exact hb⟩

theorem SetSignedBlock_filed (i : MultiIndex) (b : HashRef) (k : Nat) (i' : MultiIndex)
    (hF : i.AckFiled) (h : i.SetSignedBlock b k = some i') : i'.AckFiled := by
  obtain ⟨h1, h2, _, h4⟩ := SetSignedBlock_same i b k i' h
  exact ackFiled_sameFields i i' hF h1 h2 h4

theorem MarkAndCollect_same (i : MultiIndex) (qs : List Nat) (i' : MultiIndex)
    (out : List Nat) (h : i.MarkAndCollectUnsignedAcks qs = some (i', out)) :
    SameFields i.trackers i'.trackers ∧ i'.RespIndex = i.RespIndex ∧
      i'.AckIndex = i.AckIndex ∧ i'.SeqIndex = i.SeqIndex := by
  unfold MultiIndex.MarkAndCollectUnsignedAcks at h
  split at h
  · exact absurd h (by simp)
  · rename_i r hr
    simp only [Option.some.injEq, Prod.mk.injEq] at h
    rw [← h.1]
    exact ⟨markLoop_same _ _ _ _ hr, rfl, rfl, rfl⟩

theorem MarkAndCollect_filed (i : MultiIndex) (qs : List Nat) (i' : MultiIndex)
    (out : List Nat) (hF : i.AckFiled)
    (h : i.MarkAndCollectUnsignedAcks qs = some (i', out)) : i'.AckFiled := by
  obtain ⟨h1, h2, _, h4⟩ := MarkAndCollect_same i qs i' out h
  exact ackFiled_sameFields i i' hF h1 h2 h4

/-- Every reachable index files its acknowledgements. -/
theorem ackFiled_of_reach (i : MultiIndex) (h : MultiIndex.Reach i) : i.AckFiled := by
  induction h with
  | new =>
    intro v t b hv
    exact absurd hv (by simp [NewMultiIndex])
  | addResponse i resp hr ih => exact AddResponse_filed i resp (inv_of_reach i hr) ih
  | addAck i ack i' err hr h ih => exact AddAck_filed i ack i' err (inv_of_reach i hr) ih h
  | setSignedBlock i b a i' _ h ih => exact SetSignedBlock_filed i b a i' ih h
  | checkAckFromBlock i b a i' known err _ h ih =>
    exact CheckAckFromBlock_filed i b a i' known err ih h
  | markAndCollect i qs i' out _ h ih => exact MarkAndCollect_filed i qs i' out ih h

theorem reach_of_reachWith (p : SignedAckHeader → Prop) (i : MultiIndex)
    (h : MultiIndex.ReachWith p i) : MultiIndex.Reach i := by
  induction h with
  | new => exact MultiIndex.Reach.new
  | addResponse i resp _ ih => exact MultiIndex.Reach.addResponse i resp ih
  | addAck i ack i' err _ _ h ih => exact MultiIndex.Reach.addAck i ack i' err ih h
  | setSignedBlock i b a i' _ h ih => exact MultiIndex.Reach.setSignedBlock i b a i' ih h
  | checkAckFromBlock i b a i' known err _ h ih =>
    exact MultiIndex.Reach.checkAckFromBlock i b a i' known err ih h
  | markAndCollect i qs i' out _ h ih => exact MultiIndex.Reach.markAndCollect i qs i' out ih h

/-! ## C28: ErrCorruptedIndex -/

/-- On a sound index that files its acknowledgements `CheckAckFromBlock` returns, with
nil or `ErrQuerySignedByAnotherBlock`. -/
theorem CheckAckFromBlock_total (i : MultiIndex) (B : HashRef) (k : Nat) (hS : i.Sound)
    (hF : i.AckFiled) :
    ∃ i' known e, i.CheckAckFromBlock B k = some (i', known, e) ∧
      (e = none ∨ e = some QueryError.ErrQuerySignedByAnotherBlock) := by
  obtain hk | ⟨qh, hk⟩ := Option.eq_none_or_eq_some (mapGet i.AckIndex k)
  · refine ⟨i, false, none, ?_, Or.inl rfl⟩
    unfold MultiIndex.CheckAckFromBlock
    rw [hk]
  · obtain ⟨q, hq, hqa⟩ := hS.2.2 (k, qh) (mapGet_mem _ _ _ hk)
    obtain ⟨r, hqr, hresp⟩ := hS.2.1 qh q hq
    obtain hnone | ⟨qa, hqa'⟩ := Option.eq_none_or_eq_some q.Ack
    · exact absurd hnone hqa
    · obtain ⟨_, qs, hqs, hfa, _⟩ := hF qh q qa hq hqa'
      obtain hfn | ⟨f, hf⟩ := Option.eq_none_or_eq_some qs.FirstAck
      · exact absurd hfn hfa
      · obtain ⟨ft, hft, _⟩ := hS.1.2 (qa.SeqNo, qs) (mapGet_mem _ _ _ hqs) f hf
        by_cases hsb : ∀ sb, q.SignedBlock = some sb → sb.IsEqual B = true
        · rw [CheckAckFromBlock_eval i B k qh q qa r qs f ft hk hq hsb hqa' hqr hresp hqs hf
            hft]
          by_cases hfq : f ≠ qh
          · rw [if_pos hfq]
            obtain hn | ⟨sb, hs⟩ := Option.eq_none_or_eq_some ft.SignedBlock
            · rw [hn]
              exact ⟨_, _, _, rfl, Or.inl rfl⟩
            · rw [hs]
              exact ⟨_, _, _, rfl, Or.inr rfl⟩
          · rw [if_neg hfq]
            exact ⟨_, _, _, rfl, Or.inl rfl⟩
        · simp only [not_forall] at hsb
          obtain ⟨sb, hs, hne⟩ := hsb
          have hval : sb.value ≠ B.value := by
            intro heq
            apply hne
            unfold HashRef.IsEqual
            exact decide_eq_true heq
          exact ⟨i, true, _, CheckAckFromBlock_signedElsewhere i B k qh q sb hk hq hs hval,
            Or.inr rfl⟩

/-- C28: in every index reachable from `NewMultiIndex` by the five operations with
acknowledgements that satisfy the interface invariant, every call of `AddResponse`,
`AddAck` and `CheckAckFromBlock` returns, and none returns `ErrCorruptedIndex`
(`SetSignedBlock` and `MarkAndCollectUnsignedAcks` return as well); every tracker has a
response and is the tracker of its header hash in `RespIndex`, and every tracker found
in `AckIndex` holds an acknowledgement whose sequence number has a query tracker with a
`FirstAck`. -/
theorem ErrCorruptedIndex_unreachable (i : MultiIndex)
    (hr : MultiIndex.ReachWith SignedAckHeader.consistent i) :
    (∀ resp, (i.AddResponse resp).2 = none) ∧
    (∀ a, ∃ i' e, i.AddAck a = some (i', e) ∧ e ≠ some QueryError.ErrCorruptedIndex) ∧
    (∀ B k, ∃ i' known e, i.CheckAckFromBlock B k = some (i', known, e) ∧
      e ≠ some QueryError.ErrCorruptedIndex) ∧
    (∀ B k, ∃ i', i.SetSignedBlock B k = some i') ∧
    (∀ qs, ∃ r, i.MarkAndCollectUnsignedAcks qs = some r) ∧
    (∀ (v : Nat) (t : RequestTracker), i.trackers[v]? = some t →
      ∃ r : SignedResponseHeader, t.Response = some r ∧
        mapGet i.RespIndex r.HeaderHash = some v) ∧
    (∀ (k v : Nat), mapGet i.AckIndex k = some v →
      ∃ (t : RequestTracker) (b : SignedAckHeader) (q : QueryTracker) (f : Nat)
        (ft : RequestTracker),
        i.trackers[v]? = some t ∧ t.Ack = some b ∧ mapGet i.SeqIndex b.SeqNo = some q ∧
        q.FirstAck = some f ∧ i.trackers[f]? = some ft) := by
  have hS := sound_of_reachWith i hr
  have hF := ackFiled_of_reach i (reach_of_reachWith _ i hr)
  refine ⟨?_, ?_, ?_, ?_, ?_, hS.2.1, ?_⟩
  · intro resp
    exact (AddResponse_shape i resp hS.1).1
  · intro a
    obtain ⟨r, hcall⟩ := AddAck_total i a hS.1
    refine ⟨r.1, r.2, hcall, ?_⟩
    rcases AddAck_shape i a r.1 r.2 hS.1 hcall with ⟨_, _, _, _, _, _, _, he, _⟩ |
      ⟨_, _, _, _, _, _, _, _, _, he, _⟩
    · rw [he]
      simp
    · rcases he with he | he <;> rw [he] <;> simp
  · intro B k
    obtain ⟨i', known, e, hc, he⟩ := CheckAckFromBlock_total i B k hS hF
    refine ⟨i', known, e, hc, ?_⟩
    rcases he with he | he <;> rw [he] <;> simp
  · intro B k
    obtain ⟨m1, h1, _⟩ := SetSignedBlock_step i B k hS
    exact ⟨m1, h1⟩
  · intro qs
    exact MarkAndCollect_total i qs hS.1
  · intro k v hk
    obtain ⟨t, ht, hta⟩ := hS.2.2 (k, v) (mapGet_mem _ _ _ hk)
    obtain hnone | ⟨b, hb⟩ := Option.eq_none_or_eq_some t.Ack
    · exact absurd hnone hta
    · obtain ⟨_, q, hq, hfa, _⟩ := hF v t b ht hb
      obtain hfn | ⟨f, hf⟩ := Option.eq_none_or_eq_some q.FirstAck
      · exact absurd hfn hfa
      · obtain ⟨ft, hft, _⟩ := hS.1.2 (b.SeqNo, q) (mapGet_mem _ _ _ hq) f hf
        exact ⟨t, b, q, f, ft, ht, hb, hq, hf, hft⟩

/-- Witness of C28 on the index that holds `exAck1` and `exAck3`. -/
theorem ErrCorruptedIndex_unreachable_witness :
    MultiIndex.ReachWith SignedAckHeader.consistent exTwoAcks ∧
    (∀ B k, ∃ i' known e, exTwoAcks.CheckAckFromBlock B k = some (i', known, e) ∧
      e ≠ some QueryError.ErrCorruptedIndex) :=
  ⟨exTwoAcks_reachWith, (ErrCorruptedIndex_unreachable exTwoAcks exTwoAcks_reachWith).2.2.1⟩

/-! ## The invariant of indexes built from verified inputs -/

theorem verified_seq (d : Digest) (a : SignedAckHeader) (h : d.ack a) :
    a.SeqNo = d.seqOf a.RespHash := by
  obtain ⟨⟨h1, h2⟩, h3, _⟩ := h
  unfold Digest.resp at h3
  rw [← h2, h3, h1]

/-- Two verified acknowledgements with one header hash have one response hash and one
sequence number. -/
theorem verified_same (d : Digest) (a b : SignedAckHeader) (ha : d.ack a) (hb : d.ack b)
    (hh : b.HeaderHash = a.HeaderHash) : b.RespHash = a.RespHash ∧ b.SeqNo = a.SeqNo := by
  have h1 : b.RespHash = a.RespHash := by
    rw [hb.2.2, ha.2.2, hh]
  exact ⟨h1, by rw [verified_seq d a ha, verified_seq d b hb, h1]⟩

theorem ensure_mem_new (m : List (Nat × QueryTracker)) (k : Nat) (kv : Nat × QueryTracker)
    (h : kv ∈ (SeqIndexEnsure m k).1) : kv ∈ m ∨ kv.2 = NewQuerySummary := by
  unfold SeqIndexEnsure at h
  cases hg : mapGet m k with
  | none =>
    rw [hg] at h
    rcases mem_mapSet _ _ _ _ h with h1 | h1
    · right
      rw [h1]
    · exact Or.inl h1
  | some q =>
    rw [hg] at h
    exact Or.inl h

theorem respFiled_step (d : Digest) (i i' : MultiIndex) (h : i.RespFiled d)
    (hS : SeqGrows i.SeqIndex i'.SeqIndex)
    (hR : ∀ kv ∈ i'.RespIndex, kv ∈ i.RespIndex ∨ ∃ q : QueryTracker,
      mapGet i'.SeqIndex (d.seqOf kv.1) = some q ∧ kv.2 ∈ q.Queries) : i'.RespFiled d := by
  intro kv hkv
  rcases hR kv hkv with hold | hnew
  · obtain ⟨q, h1, h2⟩ := h kv hold
    obtain ⟨q', g1, g2, _⟩ := hS _ q h1
    exact ⟨q', g1, g2 _ h2⟩
  · exact hnew

theorem firstIn_step (i i' : MultiIndex) (h : i.FirstIn)
    (hS : ∀ kv ∈ i'.SeqIndex, kv ∈ i.SeqIndex ∨
      ∀ f, kv.2.FirstAck = some f → f ∈ kv.2.Queries) : i'.FirstIn := by
  intro kv hkv
  rcases hS kv hkv with hold | hnew
  · exact h kv hold
  · exact hnew

theorem queriesAlloc_step (i i' : MultiIndex) (h : i.QueriesAlloc)
    (hA : ∀ (w : Nat) (t : RequestTracker), i.trackers[w]? = some t →
      ∃ t' : RequestTracker, i'.trackers[w]? = some t')
    (hS : ∀ kv ∈ i'.SeqIndex, kv ∈ i.SeqIndex ∨
      ∀ v ∈ kv.2.Queries, ∃ t : RequestTracker, i'.trackers[v]? = some t) :
    i'.QueriesAlloc := by
  intro kv hkv v hv
  rcases hS kv hkv with hold | hnew
  · obtain ⟨t, ht⟩ := h kv hold v hv
    exact hA v t ht
  · exact hnew v hv

theorem stored_step (d : Digest) (i i' : MultiIndex) (h : i.Stored d)
    (hT : ∀ (w : Nat) (t' : RequestTracker), i'.trackers[w]? = some t' →
      (∀ r, t'.Response = some r →
        d.resp r ∨ ∃ t : RequestTracker, i.trackers[w]? = some t ∧ t.Response = some r) ∧
      (∀ b, t'.Ack = some b →
        d.ack b ∨ ∃ t : RequestTracker, i.trackers[w]? = some t ∧ t.Ack = some b)) :
    i'.Stored d := by
  intro w t' hw
  obtain ⟨h1, h2⟩ := hT w t' hw
  constructor
  · intro r hr
    rcases h1 r hr with hok | ⟨t, ht, htr⟩
    · exact hok
    · exact (h w t ht).1 r htr
  · intro b hb
    rcases h2 b hb with hok | ⟨t, ht, htb⟩
    · exact hok
    · exact (h w t ht).2 b htb

/-- The invariant does not depend on the field `SignedBlock`. -/
theorem tidy_sameFields (d : Digest) (i i' : MultiIndex) (h : i.Tidy d) (hS' : i'.Sound)
    (hT : SameFields i.trackers i'.trackers) (hR : i'.RespIndex = i.RespIndex)
    (hA : i'.AckIndex = i.AckIndex) (hS : i'.SeqIndex = i.SeqIndex) : i'.Tidy d := by
  obtain ⟨_, h2, h3, h4, h5, h6, h7⟩ := h
  refine ⟨hS', ackFiled_sameFields i i' h2 hT hR hS, ?_, ?_, ?_, ?_, ?_⟩
  · refine stored_step d i i' h3 ?_
    intro w t' hw
    obtain ⟨t, ht, hr, ha⟩ := sameFields_back _ _ hT w t' hw
    exact ⟨fun r hr' => Or.inr ⟨t, ht, by rw [← hr]; exact hr'⟩,
      fun b hb => Or.inr ⟨t, ht, by rw [← ha]; exact hb⟩⟩
  · intro w t' b hw hb
    obtain ⟨t, ht, _, ha⟩ := sameFields_back _ _ hT w t' hw
    rw [hA]
    exact h4 w t b ht (by rw [← ha]; exact hb)
  · exact respFiled_step d i i' h5 (by rw [hS]; exact seqGrows_refl _)
      (fun kv hkv => Or.inl (by rw [← hR]; exact hkv))
  · exact firstIn_step i i' h6 (fun kv hkv => Or.inl (by rw [← hS]; exact hkv))
  · refine queriesAlloc_step i i' h7 ?_ (fun kv hkv => Or.inl (by rw [← hS]; exact hkv))
    intro w t ht
    obtain ⟨t', ht', _⟩ := hT.2 w t ht
    exact ⟨t', ht'⟩

theorem tidy_new (d : Digest) : NewMultiIndex.Tidy d := by
  refine ⟨sound_new, ?_, ?_, ?_, ?_, ?_, ?_⟩
  · intro v t b hv
    exact absurd hv (by simp [NewMultiIndex])
  · intro v t hv
    exact absurd hv (by simp [NewMultiIndex])
  · intro v t b hv
    exact absurd hv (by simp [NewMultiIndex])
  · intro kv hkv
    exact absurd hkv (List.not_mem_nil kv)
  · intro kv hkv
    exact absurd hkv (List.not_mem_nil kv)
  · intro kv hkv
    exact absurd hkv (List.not_mem_nil kv)

theorem SetSignedBlock_tidy (d : Digest) (i : MultiIndex) (b : HashRef) (k : Nat)
    (i' : MultiIndex) (h : i.Tidy d) (hc : i.SetSignedBlock b k = some i') : i'.Tidy d := by
  obtain ⟨h1, h2, h3, h4⟩ := SetSignedBlock_same i b k i' hc
  exact tidy_sameFields d i i' h (SetSignedBlock_sound i b k i' h.1 hc) h1 h2 h3 h4

theorem MarkAndCollect_tidy (d : Digest) (i : MultiIndex) (qs : List Nat) (i' : MultiIndex)
    (out : List Nat) (h : i.Tidy d) (hc : i.MarkAndCollectUnsignedAcks qs = some (i', out)) :
    i'.Tidy d := by
  obtain ⟨h1, h2, h3, h4⟩ := MarkAndCollect_same i qs i' out hc
  exact tidy_sameFields d i i' h (MarkAndCollectUnsignedAcks_sound i qs i' out h.1 hc)
    h1 h2 h3 h4

theorem CheckAckFromBlock_tidy (d : Digest) (i : MultiIndex) (b : HashRef) (k : Nat)
    (i' : MultiIndex) (known : Bool) (e : Option QueryError) (h : i.Tidy d)
    (hc : i.CheckAckFromBlock b k = some (i', known, e)) : i'.Tidy d := by
  rcases CheckAckFromBlock_shape i b k i' known e hc with heq |
    ⟨qh, q, qa, qs, _, hq, hqa, hqs, _, _, g1, g2, g3, g4⟩
  · rw [heq]
    exact h
  · obtain ⟨h1, h2, h3, h4, h5, h6, h7⟩ := h
    have hmem : ∀ kv ∈ i'.SeqIndex, kv ∈ i.SeqIndex ∨
        kv = (qa.SeqNo, QueryTracker.mk (some qh) qs.Queries) := by
      intro kv hkv
      rw [g4] at hkv
      rcases mem_mapSet _ _ _ _ hkv with hk1 | hk1
      · exact Or.inr hk1
      · exact Or.inl hk1
    refine ⟨CheckAckFromBlock_sound i b k i' known e h1 hc,
      CheckAckFromBlock_filed i b k i' known e h2 hc, ?_, ?_, ?_, ?_, ?_⟩
    · refine stored_step d i i' h3 ?_
      intro w t' hw
      rw [g1] at hw
      exact ⟨fun r hr => Or.inr ⟨t', hw, hr⟩, fun b' hb => Or.inr ⟨t', hw, hb⟩⟩
    · intro w t' b' hw hb
      rw [g1] at hw
      rw [g3]
      exact h4 w t' b' hw hb
    · exact respFiled_step d i i' h5 (CheckAckFromBlock_seqGrows i b k i' known e hc)
        (fun kv hkv => Or.inl (by rw [← g2]; exact hkv))
    · refine firstIn_step i i' h6 ?_
      intro kv hkv
      rcases hmem kv hkv with hold | hnew
      · exact Or.inl hold
      · right
        intro f hf
        rw [hnew] at hf ⊢
        simp only [Option.some.injEq] at hf
        subst hf
        obtain ⟨_, q0, hq0, _, hin⟩ := h2 qh q qa hq hqa
        rw [hqs] at hq0
        simp only [Option.some.injEq] at hq0
        rw [hq0]
        exact hin
    · refine queriesAlloc_step i i' h7 (fun w t ht => ⟨t, by rw [g1]; exact ht⟩) ?_
      intro kv hkv
      rcases hmem kv hkv with hold | hnew
      · exact Or.inl hold
      · right
        intro v hv
        rw [hnew] at hv
        rw [g1]
        exact h7 (qa.SeqNo, qs) (mapGet_mem _ _ _ hqs) v hv

theorem AddResponse_tidy (d : Digest) (i : MultiIndex) (resp : SignedResponseHeader)
    (h : i.Tidy d) (hp : d.resp resp) : (i.AddResponse resp).1.Tidy d := by
  obtain ⟨h1, h2, h3, h4, h5, h6, h7⟩ := h
  obtain ⟨_, hshape⟩ := AddResponse_shape i resp h1.1
  refine ⟨AddResponse_sound i resp h1, AddResponse_filed i resp h1.1 h2, ?_⟩
  rcases hshape with ⟨v, t, hv, ht, g1, g2, g3, g4⟩ | ⟨hv, g1, g2, g3, g4⟩
  · have hold : ∀ (w : Nat) (t' : RequestTracker), (i.AddResponse resp).1.trackers[w]? = some t' →
        ∃ t0 : RequestTracker, i.trackers[w]? = some t0 ∧ t'.Ack = t0.Ack ∧
          (t'.Response = t0.Response ∨ t'.Response = some resp) := by
      intro w t' hw
      rw [g1] at hw
      by_cases hvw : v = w
      · subst hvw
        rw [getElem?_set_valid _ _ _ _ ht] at hw
        simp only [Option.some.injEq] at hw
        subst hw
        exact ⟨t, ht, rfl, Or.inr rfl⟩
      · rw [List.getElem?_set_ne hvw] at hw
        exact ⟨t', hw, rfl, Or.inl rfl⟩
    refine ⟨?_, ?_, ?_, ?_, ?_⟩
    · refine stored_step d i _ h3 ?_
      intro w t' hw
      obtain ⟨t0, ht0, ha, hr⟩ := hold w t' hw
      constructor
      · intro r hr'
        rcases hr with hr | hr
        · exact Or.inr ⟨t0, ht0, by rw [← hr]; exact hr'⟩
        · rw [hr] at hr'
          simp only [Option.some.injEq] at hr'
          rw [← hr']
          exact Or.inl hp
      · intro b hb
        exact Or.inr ⟨t0, ht0, by rw [← ha]; exact hb⟩
    · intro w t' b hw hb
      obtain ⟨t0, ht0, ha, _⟩ := hold w t' hw
      rw [g3]
      exact h4 w t0 b ht0 (by rw [← ha]; exact hb)
    · exact respFiled_step d i _ h5 (by rw [g4]; exact seqGrows_refl _)
        (fun kv hkv => Or.inl (by rw [← g2]; exact hkv))
    · exact firstIn_step i _ h6 (fun kv hkv => Or.inl (by rw [← g4]; exact hkv))
    · refine queriesAlloc_step i _ h7 ?_ (fun kv hkv => Or.inl (by rw [← g4]; exact hkv))
      intro w t0 ht0
      rw [g1]
      by_cases hvw : v = w
      · subst hvw
        exact ⟨_, getElem?_set_valid _ _ _ _ ht⟩
      · exact ⟨t0, by rw [List.getElem?_set_ne hvw]; exact ht0⟩
  · have hq0 : ∀ q, mapGet i.SeqIndex resp.SeqNo = some q →
        (SeqIndexEnsure i.SeqIndex resp.SeqNo).2 = q := by
      intro q hq
      rw [ensure_of_get _ _ _ hq]
    have hsg : SeqGrows i.SeqIndex (i.AddResponse resp).1.SeqIndex := by
      rw [g4]
      apply seqGrows_set
      intro q hq
      rw [hq0 q hq]
      exact ⟨fun v hv' => List.mem_append_left _ hv', fun hf => hf⟩
    have hmem : ∀ kv ∈ (i.AddResponse resp).1.SeqIndex, kv ∈ i.SeqIndex ∨
        kv = (resp.SeqNo, QueryTracker.mk (SeqIndexEnsure i.SeqIndex resp.SeqNo).2.FirstAck
          ((SeqIndexEnsure i.SeqIndex resp.SeqNo).2.Queries ++ [i.trackers.length])) := by
      intro kv hkv
      rw [g4] at hkv
      rcases mem_mapSet _ _ _ _ hkv with hk1 | hk1
      · exact Or.inr hk1
      · exact Or.inl hk1
    have hold : ∀ (w : Nat) (t' : RequestTracker), (i.AddResponse resp).1.trackers[w]? = some t' →
        i.trackers[w]? = some t' ∨ t' = RequestTracker.ofResp resp := by
      intro w t' hw
      rw [g1] at hw
      by_cases hlt : w < i.trackers.length
      · rw [List.getElem?_append_left hlt] at hw
        exact Or.inl hw
      · have hwl : w = i.trackers.length := by
          have := (List.getElem?_eq_some.mp hw).1
          simp only [List.length_append, List.length_singleton] at this
          omega
        subst hwl
        rw [getElem?_append_new] at hw
        simp only [Option.some.injEq] at hw
        exact Or.inr hw.symm
    have hgrow : ∀ (w : Nat) (t0 : RequestTracker), i.trackers[w]? = some t0 →
        (i.AddResponse resp).1.trackers[w]? = some t0 := by
      intro w t0 ht0
      rw [g1, List.getElem?_append_left (List.getElem?_eq_some.mp ht0).1]
      exact ht0
    refine ⟨?_, ?_, ?_, ?_, ?_⟩
    · refine stored_step d i _ h3 ?_
      intro w t' hw
      rcases hold w t' hw with ho | hn
      · exact ⟨fun r hr => Or.inr ⟨t', ho, hr⟩, fun b hb => Or.inr ⟨t', ho, hb⟩⟩
      · rw [hn]
        constructor
        · intro r hr
          simp only [RequestTracker.ofResp, Option.some.injEq] at hr
          rw [← hr]
          exact Or.inl hp
        · intro b hb
          exact absurd hb (by simp [RequestTracker.ofResp])
    · intro w t' b hw hb
      rw [g3]
      rcases hold w t' hw with ho | hn
      · exact h4 w t' b ho hb
      · rw [hn] at hb
        exact absurd hb (by simp [RequestTracker.ofResp])
    · refine respFiled_step d i _ h5 hsg ?_
      intro kv hkv
      rw [g2] at hkv
      rcases mem_mapSet _ _ _ _ hkv with hk1 | hk1
      · right
        rw [hk1, g4]
        have hseq : d.seqOf resp.HeaderHash = resp.SeqNo := hp.symm
        simp only [hseq, mapGet_mapSet, if_true]
        exact ⟨_, rfl, by simp⟩
      · exact Or.inl hk1
    · refine firstIn_step i _ h6 ?_
      intro kv hkv
      rcases hmem kv hkv with ho | hn
      · exact Or.inl ho
      · right
        intro f hf
        rw [hn] at hf ⊢
        simp only at hf ⊢
        rcases ensure_snd i.SeqIndex resp.SeqNo with hin | hnone
        · exact List.mem_append_left _ (h6 _ hin f hf)
        · rw [hnone] at hf
          exact absurd hf (by simp)
    · refine queriesAlloc_step i _ h7 (fun w t0 ht0 => ⟨t0, hgrow w t0 ht0⟩) ?_
      intro kv hkv
      rcases hmem kv hkv with ho | hn
      · exact Or.inl ho
      · right
        intro v hv'
        rw [hn] at hv'
        simp only [List.mem_append, List.mem_singleton] at hv'
        rcases hv' with hv1 | hv1
        · rcases ensure_cases i.SeqIndex resp.SeqNo with hc | ⟨_, hc⟩
          · obtain ⟨t0, ht0⟩ := h7 _ (mapGet_mem _ _ _ hc) v hv1
            exact ⟨t0, hgrow v t0 ht0⟩
          · rw [hc] at hv1
            exact absurd hv1 (by simp [NewQuerySummary])
        · rw [hv1, g1]
          exact ⟨_, getElem?_append_new _ _⟩

/-! ## `AddAck` of a verified acknowledgement keeps the invariant -/

theorem installs_resps (i : MultiIndex) (a : SignedAckHeader) (v : Nat)
    (T : List RequestTracker) (R : List (Nat × Nat)) (qs : List Nat)
    (h : Installs i a v T R qs) (w : Nat) (t' : RequestTracker) (r : SignedResponseHeader)
    (hw : T[w]? = some t') (hr : t'.Response = some r) :
    (∃ t : RequestTracker, i.trackers[w]? = some t ∧ t.Response = some r) ∨
      r = a.Response := by
  rcases h with ⟨_, _, _, _, _, _, hT, _, _⟩ | ⟨t, _, ht, _, hT, _, _⟩ | ⟨_, _, hT, _, _⟩
  · rw [hT] at hw
    exact Or.inl ⟨t', hw, hr⟩
  · rw [hT] at hw
    by_cases hvw : v = w
    · subst hvw
      rw [getElem?_set_valid _ _ _ _ ht] at hw
      simp only [Option.some.injEq] at hw
      subst hw
      simp only [RequestTracker.ofAck, SignedAckHeader.SignedResponseHeader,
        Option.some.injEq] at hr
      exact Or.inr hr.symm
    · rw [List.getElem?_set_ne hvw] at hw
      exact Or.inl ⟨t', hw, hr⟩
  · rw [hT] at hw
    by_cases hlt : w < i.trackers.length
    · rw [List.getElem?_append_left hlt] at hw
      exact Or.inl ⟨t', hw, hr⟩
    · have hwl : w = i.trackers.length := by
        have := (List.getElem?_eq_some.mp hw).1
        simp only [List.length_append, List.length_singleton] at this
        omega
      subst hwl
      rw [getElem?_append_new] at hw
      simp only [Option.some.injEq] at hw
      subst hw
      simp only [RequestTracker.ofAck, SignedAckHeader.SignedResponseHeader,
        Option.some.injEq] at hr
      exact Or.inr hr.symm

theorem installs_alloc (i : MultiIndex) (a : SignedAckHeader) (v : Nat)
    (T : List RequestTracker) (R : List (Nat × Nat)) (qs : List Nat)
    (h : Installs i a v T R qs) :
    (∀ (w : Nat) (t : RequestTracker), i.trackers[w]? = some t →
      ∃ t' : RequestTracker, T[w]? = some t') ∧ ∃ t : RequestTracker, T[v]? = some t := by
  rcases h with ⟨t, _, _, ht, _, _, hT, _, _⟩ | ⟨t, _, ht, _, hT, _, _⟩ | ⟨_, hlen, hT, _, _⟩
  · rw [hT]
    exact ⟨fun w t0 h0 => ⟨t0, h0⟩, t, ht⟩
  · rw [hT]
    refine ⟨?_, _, getElem?_set_valid _ _ _ _ ht⟩
    intro w t0 h0
    by_cases hvw : v = w
    · subst hvw
      exact ⟨_, getElem?_set_valid _ _ _ _ ht⟩
    · exact ⟨t0, by rw [List.getElem?_set_ne hvw]; exact h0⟩
  · rw [hT, hlen]
    refine ⟨?_, _, getElem?_append_new _ _⟩
    intro w t0 h0
    exact ⟨t0, by rw [List.getElem?_append_left (List.getElem?_eq_some.mp h0).1]; exact h0⟩

theorem installs_respMem (i : MultiIndex) (a : SignedAckHeader) (v : Nat)
    (T : List RequestTracker) (R : List (Nat × Nat)) (qs : List Nat)
    (h : Installs i a v T R qs) (kv : Nat × Nat) (hkv : kv ∈ R) :
    kv ∈ i.RespIndex ∨ (kv = (a.RespHash, v) ∧ v ∈ qs) := by
  rcases h with ⟨_, _, _, _, _, _, _, hR, _⟩ | ⟨_, _, _, _, _, hR, _⟩ | ⟨_, _, _, hR, hq⟩
  · rw [hR] at hkv
    exact Or.inl hkv
  · rw [hR] at hkv
    exact Or.inl hkv
  · rw [hR] at hkv
    rcases mem_mapSet _ _ _ _ hkv with hk1 | hk1
    · exact Or.inr ⟨hk1, by rw [hq]; simp⟩
    · exact Or.inl hk1

/-- The tracker of a recorded verified acknowledgement is in the `Queries` of its
sequence number. -/
theorem installs_mem (d : Digest) (i : MultiIndex) (a : SignedAckHeader) (v : Nat)
    (T : List RequestTracker) (R : List (Nat × Nat)) (qs : List Nat)
    (hF : i.AckFiled) (hS : i.Stored d) (ha : d.ack a) (h : Installs i a v T R qs) :
    v ∈ qs := by
  rcases h with ⟨t, b, _, ht, hb, hh, _, _, hq⟩ | ⟨_, _, _, _, _, _, hq⟩ | ⟨_, _, _, _, hq⟩
  · obtain ⟨_, q, hq1, _, hq3⟩ := hF v t b ht hb
    rw [(verified_same d a b ha ((hS v t ht).2 b hb) hh).2] at hq1
    rw [hq, ensure_of_get _ _ _ hq1]
    exact hq3
  · rw [hq]
    simp
  · rw [hq]
    simp

theorem AddAck_tidy (d : Digest) (i : MultiIndex) (a : SignedAckHeader) (i' : MultiIndex)
    (e : Option QueryError) (h : i.Tidy d) (ha : d.ack a)
    (hc : i.AddAck a = some (i', e)) : i'.Tidy d := by
  obtain ⟨h1, h2, h3, h4, h5, h6, h7⟩ := h
  have hsg := AddAck_seqGrows i a i' e h1.1 hc
  refine ⟨AddAck_sound i a i' e h1 ha.1 hc, AddAck_filed i a i' e h1.1 h2 hc, ?_⟩
  rcases AddAck_shape i a i' e h1.1 hc with ⟨v, t, b, hv, ht, hb, hne, _, g1, g2, g3, g4⟩ |
    ⟨v, T, R, qs, hinst, g1, g2, g3, g4, _, _⟩
  · refine ⟨?_, ?_, ?_, ?_, ?_⟩
    · refine stored_step d i i' h3 ?_
      intro w t' hw
      rw [g1] at hw
      exact ⟨fun r hr => Or.inr ⟨t', hw, hr⟩, fun b' hb' => Or.inr ⟨t', hw, hb'⟩⟩
    · intro w t' b' hw hb'
      rw [g1] at hw
      rw [g3, mapGet_mapSet]
      by_cases hh : a.HeaderHash = b'.HeaderHash
      · rw [if_pos hh]
        have hsame := (verified_same d a b' ha ((h3 w t' hw).2 b' hb') hh.symm).1
        have hw' := (h2 w t' b' hw hb').1
        rw [hsame] at hw'
        have hv' : mapGet i.RespIndex a.RespHash = some v := hv
        rw [hv'] at hw'
        exact hw'
      · rw [if_neg hh]
        exact h4 w t' b' hw hb'
    · exact respFiled_step d i i' h5 hsg (fun kv hkv => Or.inl (by rw [← g2]; exact hkv))
    · refine firstIn_step i i' h6 ?_
      intro kv hkv
      rw [g4] at hkv
      rcases ensure_mem_new _ _ _ hkv with ho | hn
      · exact Or.inl ho
      · right
        intro f hf
        rw [hn] at hf
        exact absurd hf (by simp [NewQuerySummary])
    · refine queriesAlloc_step i i' h7 (fun w t0 h0 => ⟨t0, by rw [g1]; exact h0⟩) ?_
      intro kv hkv
      rw [g4] at hkv
      rcases ensure_mem_new _ _ _ hkv with ho | hn
      · exact Or.inl ho
      · right
        intro w hw
        rw [hn] at hw
        exact absurd hw (by simp [NewQuerySummary])
  · obtain ⟨hRk, hRv⟩ := installs_respKeeps i a v T R qs hinst
    obtain ⟨hal, hav⟩ := installs_alloc i a v T R qs hinst
    have hvq := installs_mem d i a v T R qs h2 h3 ha hinst
    have hmem : ∀ kv ∈ i'.SeqIndex, kv ∈ i.SeqIndex ∨
        kv = (a.SeqNo, QueryTracker.mk
          (some ((SeqIndexEnsure i.SeqIndex a.SeqNo).2.FirstAck.getD v)) qs) := by
      intro kv hkv
      rw [g4] at hkv
      rcases mem_mapSet _ _ _ _ hkv with hk1 | hk1
      · exact Or.inr hk1
      · exact Or.inl hk1
    refine ⟨?_, ?_, ?_, ?_, ?_⟩
    · refine stored_step d i i' h3 ?_
      intro w t' hw
      rw [g1] at hw
      constructor
      · intro r hr
        rcases installs_resps i a v T R qs hinst w t' r hw hr with ho | hn
        · exact Or.inr ho
        · rw [hn]
          exact Or.inl ha.2.1
      · intro b hb
        rcases installs_acks i a v T R qs hinst w t' b hw hb with ho | ⟨_, hn, _⟩
        · exact Or.inr ho
        · rw [hn]
          exact Or.inl ha
    · intro w t' b hw hb
      rw [g1] at hw
      rw [g3, mapGet_mapSet]
      rcases installs_acks i a v T R qs hinst w t' b hw hb with ⟨t0, h0, hb0⟩ | ⟨hwv, hn, _⟩
      · by_cases hh : a.HeaderHash = b.HeaderHash
        · rw [if_pos hh]
          have hsame := (verified_same d a b ha ((h3 w t0 h0).2 b hb0) hh.symm).1
          have hw' := hRk _ _ (h2 w t0 b h0 hb0).1
          rw [hsame, hRv] at hw'
          exact hw'
        · rw [if_neg hh]
          exact h4 w t0 b h0 hb0
      · rw [hn, if_pos rfl, hwv]
    · refine respFiled_step d i i' h5 hsg ?_
      intro kv hkv
      rw [g2] at hkv
      rcases installs_respMem i a v T R qs hinst kv hkv with ho | ⟨hn, _⟩
      · exact Or.inl ho
      · right
        rw [hn, g4]
        simp only
        rw [← verified_seq d a ha, mapGet_mapSet, if_pos rfl]
        exact ⟨_, rfl, hvq⟩
    · refine firstIn_step i i' h6 ?_
      intro kv hkv
      rcases hmem kv hkv with ho | hn
      · exact Or.inl ho
      · right
        intro f hf
        rw [hn] at hf ⊢
        simp only [Option.some.injEq] at hf ⊢
        cases hfa : (SeqIndexEnsure i.SeqIndex a.SeqNo).2.FirstAck with
        | none =>
          rw [hfa] at hf
          simp only [Option.getD_none] at hf
          rw [← hf]
          exact hvq
        | some f0 =>
          rw [hfa] at hf
          simp only [Option.getD_some] at hf
          rw [← hf]
          apply installs_queries i a v T R qs hinst
          rcases ensure_snd i.SeqIndex a.SeqNo with hin | hnone
          · exact h6 _ hin f0 hfa
          · rw [hnone] at hfa
            exact absurd hfa (by simp)
    · refine queriesAlloc_step i i' h7 (fun w t0 h0 => by rw [g1]; exact hal w t0 h0) ?_
      intro kv hkv
      rcases hmem kv hkv with ho | hn
      · exact Or.inl ho
      · right
        intro w hw
        rw [hn] at hw
        simp only at hw
        rw [g1]
        have hcases : w ∈ (SeqIndexEnsure i.SeqIndex a.SeqNo).2.Queries ∨ w = v := by
          rcases hinst with ⟨_, _, _, _, _, _, _, _, hq⟩ | ⟨_, _, _, _, _, _, hq⟩ |
            ⟨_, _, _, _, hq⟩
          · rw [hq] at hw
            exact Or.inl hw
          · rw [hq] at hw
            simpa using hw
          · rw [hq] at hw
            simpa using hw
        rcases hcases with hold | hnew
        · rcases ensure_cases i.SeqIndex a.SeqNo with hc1 | ⟨_, hc1⟩
          · obtain ⟨t0, h0⟩ := h7 _ (mapGet_mem _ _ _ hc1) w hold
            exact hal w t0 h0
          · rw [hc1] at hold
            exact absurd hold (by simp [NewQuerySummary])
        · rw [hnew]
          exact hav

/-! ## Runs with verified inputs: the invariant and the emitted hashes -/

theorem tidy_of_trace (d : Digest) (i : MultiIndex) (es : List Nat)
    (h : MultiIndex.Trace d.resp d.ack i es) : i.Tidy d := by
  induction h with
  | new => exact tidy_new d
  | addResponse i es resp _ hp ih => exact AddResponse_tidy d i resp ih hp
  | addAck i es ack i' err _ hp h ih => exact AddAck_tidy d i ack i' err ih hp h
  | setSignedBlock i es b a i' _ h ih => exact SetSignedBlock_tidy d i b a i' ih h
  | checkAckFromBlock i es b a i' known err _ h ih =>
    exact CheckAckFromBlock_tidy d i b a i' known err ih h
  | markAndCollect i es qs i' out _ h ih => exact MarkAndCollect_tidy d i qs i' _ ih h

theorem tidy_of_reachIn (d : Digest) (i : MultiIndex) (h : MultiIndex.ReachIn d i) :
    i.Tidy d := by
  obtain ⟨es, hes⟩ := h
  exact tidy_of_trace d i es hes

theorem keepsSigned_refl (ts : List RequestTracker) : KeepsSigned ts ts :=
  fun _ t ht _ => ⟨t, ht, rfl, fun h => h⟩

theorem claimed_step (i i' : MultiIndex) (es : List Nat) (h : i.Claimed es)
    (hk : KeepsSigned i.trackers i'.trackers) : i'.Claimed es := by
  intro e he
  obtain ⟨v, t, b, ht, hb, hh, hs⟩ := h e he
  obtain ⟨t', ht', ha', hs'⟩ := hk v t ht (by rw [hb]; simp)
  exact ⟨v, t', b, ht', by rw [ha', hb], hh, hs' hs⟩

theorem AddResponse_keepsSigned (i : MultiIndex) (resp : SignedResponseHeader)
    (hI : i.Inv) : KeepsSigned i.trackers (i.AddResponse resp).1.trackers := by
  obtain ⟨_, hshape⟩ := AddResponse_shape i resp hI
  rcases hshape with ⟨v, t, _, ht, g1, _⟩ | ⟨_, g1, _⟩
  · intro w t0 h0 _
    rw [g1]
    by_cases hvw : v = w
    · subst hvw
      rw [ht] at h0
      simp only [Option.some.injEq] at h0
      subst h0
      exact ⟨_, getElem?_set_valid _ _ _ _ ht, rfl, fun h => h⟩
    · exact ⟨t0, by rw [List.getElem?_set_ne hvw]; exact h0, rfl, fun h => h⟩
  · intro w t0 h0 _
    rw [g1]
    exact ⟨t0, by rw [List.getElem?_append_left (List.getElem?_eq_some.mp h0).1]; exact h0,
      rfl, fun h => h⟩

theorem AddAck_keepsSigned (i : MultiIndex) (a : SignedAckHeader) (i' : MultiIndex)
    (e : Option QueryError) (hI : i.Inv) (h : i.AddAck a = some (i', e)) :
    KeepsSigned i.trackers i'.trackers := by
  rcases AddAck_shape i a i' e hI h with ⟨_, _, _, _, _, _, _, _, g1, _⟩ |
    ⟨v, T, R, qs, hinst, g1, _⟩
  · rw [g1]
    exact keepsSigned_refl _
  · rw [g1]
    rcases hinst with ⟨_, _, _, _, _, _, hT, _, _⟩ | ⟨t, _, ht, hta, hT, _, _⟩ |
      ⟨_, _, hT, _, _⟩
    · rw [hT]
      exact keepsSigned_refl _
    · rw [hT]
      intro w t0 h0 ha0
      by_cases hvw : v = w
      · subst hvw
        rw [ht] at h0
        simp only [Option.some.injEq] at h0
        subst h0
        exact absurd hta ha0
      · exact ⟨t0, by rw [List.getElem?_set_ne hvw]; exact h0, rfl, fun h => h⟩
    · rw [hT]
      intro w t0 h0 _
      exact ⟨t0, by rw [List.getElem?_append_left (List.getElem?_eq_some.mp h0).1]; exact h0,
        rfl, fun h => h⟩

theorem SetSignedBlock_keepsSigned (i : MultiIndex) (b : HashRef) (k : Nat) (i' : MultiIndex)
    (h : i.SetSignedBlock b k = some i') : KeepsSigned i.trackers i'.trackers := by
  unfold MultiIndex.SetSignedBlock at h
  obtain hv | ⟨v, hv⟩ := Option.eq_none_or_eq_some (mapGet i.AckIndex k)
  · rw [hv] at h
    simp only [Option.some.injEq] at h
    rw [← h]
    exact keepsSigned_refl _
  · rw [hv] at h
    simp only at h
    obtain ht | ⟨t, ht⟩ := Option.eq_none_or_eq_some (i.trackers[v]?)
    · rw [ht] at h
      exact absurd h (by simp)
    · rw [ht] at h
      simp only [Option.some.injEq] at h
      rw [← h]
      intro w t0 h0 _
      by_cases hvw : v = w
      · subst hvw
        rw [ht] at h0
        simp only [Option.some.injEq] at h0
        subst h0
        exact ⟨_, getElem?_set_valid _ _ _ _ ht, rfl, fun _ => by simp⟩
      · exact ⟨t0, by simp only [List.getElem?_set_ne hvw]; exact h0, rfl, fun h => h⟩

theorem hashAt_of_ack (ts : List RequestTracker) (f : Nat) (t : RequestTracker)
    (b : SignedAckHeader) (ht : ts[f]? = some t) (hb : t.Ack = some b) :
    hashAt ts f = b.HeaderHash := by
  unfold hashAt
  rw [ht]
  simp only [hb]

/-- The hashes a call of `MarkAndCollectUnsignedAcks` appends on an index built from
verified inputs are distinct, are none of the hashes claimed before, and are claimed
after the call. -/
theorem MarkAndCollect_claims (d : Digest) (i : MultiIndex) (qs : List Nat) (i' : MultiIndex)
    (out : List Nat) (es : List Nat) (hT : i.Tidy d) (hC : i.Claimed es)
    (hN : es.Nodup) (h : i.MarkAndCollectUnsignedAcks qs = some (i', qs ++ out)) :
    i'.Claimed (es ++ out) ∧ (es ++ out).Nodup := by
  obtain ⟨fs, hfs, hout, hcand, _, _, _, _, htr⟩ := MarkAndCollect_spec i qs i' _ h
  have hout' : out = fs.map (hashAt i.trackers) := List.append_cancel_left hout
  have hack : ∀ f ∈ fs, ∃ (t : RequestTracker) (b : SignedAckHeader),
      i.trackers[f]? = some t ∧ t.Ack = some b ∧ t.SignedBlock = none := by
    intro f hf
    obtain ⟨⟨kv, hkv, hfa⟩, t, ht, hsb⟩ := (hcand f).mp hf
    obtain ⟨t0, ht0, ha0⟩ := hT.1.1.2 kv hkv f hfa
    rw [ht] at ht0
    simp only [Option.some.injEq] at ht0
    subst ht0
    obtain hn | ⟨b, hb⟩ := Option.eq_none_or_eq_some t.Ack
    · exact absurd hn ha0
    · exact ⟨t, b, ht, hb, hsb⟩
  have hkeep : KeepsSigned i.trackers i'.trackers := by
    intro v t ht _
    refine ⟨_, htr v t ht, ?_, ?_⟩
    · split
      · rfl
      · rfl
    · intro hs
      split
      · simp [RequestTracker.marked]
      · exact hs
  refine ⟨?_, ?_⟩
  · intro e he
    rcases List.mem_append.mp he with he1 | he2
    · exact claimed_step i i' es hC hkeep e he1
    · rw [hout'] at he2
      obtain ⟨f, hf, hfe⟩ := List.mem_map.mp he2
      obtain ⟨t, b, ht, hb, _⟩ := hack f hf
      refine ⟨f, t.marked, b, ?_, hb, ?_, by simp [RequestTracker.marked]⟩
      · rw [htr f t ht, if_pos hf]
      · rw [← hfe, hashAt_of_ack _ f t b ht hb]
  · rw [List.nodup_append]
    refine ⟨hN, ?_, ?_⟩
    · rw [hout']
      refine List.Nodup.map_on ?_ hfs
      intro f1 hf1 f2 hf2 heq
      obtain ⟨t1, b1, ht1, hb1, _⟩ := hack f1 hf1
      obtain ⟨t2, b2, ht2, hb2, _⟩ := hack f2 hf2
      rw [hashAt_of_ack _ f1 t1 b1 ht1 hb1, hashAt_of_ack _ f2 t2 b2 ht2 hb2] at heq
      have g1 := hT.2.2.2.1 f1 t1 b1 ht1 hb1
      have g2 := hT.2.2.2.1 f2 t2 b2 ht2 hb2
      rw [heq, g2] at g1
      simp only [Option.some.injEq] at g1
      exact g1.symm
    · intro e he1 he2
      rw [hout'] at he2
      obtain ⟨f, hf, hfe⟩ := List.mem_map.mp he2
      obtain ⟨t, b, ht, hb, hsb⟩ := hack f hf
      obtain ⟨v, t0, b0, ht0, hb0, hh0, hs0⟩ := hC e he1
      rw [hashAt_of_ack _ f t b ht hb] at hfe
      have g1 := hT.2.2.2.1 f t b ht hb
      have g2 := hT.2.2.2.1 v t0 b0 ht0 hb0
      rw [hh0, ← hfe, g1] at g2
      simp only [Option.some.injEq] at g2
      subst g2
      rw [ht] at ht0
      simp only [Option.some.injEq] at ht0
      subst ht0
      exact hs0 hsb

theorem claimed_of_trace (d : Digest) (i : MultiIndex) (es : List Nat)
    (h : MultiIndex.Trace d.resp d.ack i es) : i.Claimed es ∧ es.Nodup := by
  induction h with
  | new => exact ⟨fun e he => absurd he (List.not_mem_nil e), List.nodup_nil⟩
  | addResponse i es resp ht _ ih =>
    exact ⟨claimed_step i _ es ih.1
      (AddResponse_keepsSigned i resp (tidy_of_trace d i es ht).1.1), ih.2⟩
  | addAck i es ack i' err ht _ h ih =>
    exact ⟨claimed_step i i' es ih.1
      (AddAck_keepsSigned i ack i' err (tidy_of_trace d i es ht).1.1 h), ih.2⟩
  | setSignedBlock i es b a i' _ h ih =>
    exact ⟨claimed_step i i' es ih.1 (SetSignedBlock_keepsSigned i b a i' h), ih.2⟩
  | checkAckFromBlock i es b a i' known err _ h ih =>
    refine ⟨claimed_step i i' es ih.1 ?_, ih.2⟩
    rw [(CheckAckFromBlock_frame i b a i' known err h).1]
    exact keepsSigned_refl _
  | markAndCollect i es qs i' out ht h ih =>
    exact MarkAndCollect_claims d i qs i' out es (tidy_of_trace d i es ht) ih.1 ih.2 h

/-! ## C23, C24, C26: the invariants of a bucket built from verified inputs -/

theorem exAck1_verified : exDigest.ack exAck1 := ⟨⟨rfl, rfl⟩, rfl, by decide⟩

theorem exAck3_verified : exDigest.ack exAck3 := ⟨⟨rfl, rfl⟩, rfl, by decide⟩

theorem exTwoAcks_trace : MultiIndex.Trace exDigest.resp exDigest.ack exTwoAcks [] := by
  have h1 : NewMultiIndex.AddAck exAck1 = some (exOneAck, none) := by decide
  have h2 : exOneAck.AddAck exAck3
      = some (exTwoAcks, some QueryError.ErrMultipleAckOfSeqNo) := by decide
  exact MultiIndex.Trace.addAck _ _ _ _ _
    (MultiIndex.Trace.addAck _ _ _ _ _ MultiIndex.Trace.new exAck1_verified h1)
    exAck3_verified h2

theorem exPromoted_trace : MultiIndex.Trace exDigest.resp exDigest.ack exPromoted [] := by
  have h1 : exTwoAcks.CheckAckFromBlock (HashRef.block 9) 203
      = some (exPromoted, true, none) := by decide
  exact MultiIndex.Trace.checkAckFromBlock _ _ _ _ _ _ _ exTwoAcks_trace h1

theorem exMarked_trace :
    MultiIndex.Trace exDigest.resp exDigest.ack exMarked ([] ++ [200]) := by
  have h1 : exTwoAcks.MarkAndCollectUnsignedAcks [] = some (exMarked, [] ++ [200]) := by
    decide
  exact MultiIndex.Trace.markAndCollect _ _ _ _ _ exTwoAcks_trace h1

/-- C23: index agreement. In every index reachable from `NewMultiIndex` by `AddResponse`,
`AddAck`, `SetSignedBlock`, `CheckAckFromBlock` and `MarkAndCollectUnsignedAcks` with
verified inputs, every handle found in `RespIndex`, in `AckIndex`, as a `FirstAck` or in
a `Queries` list is an allocated tracker, and every allocated tracker `t` with the
handle `v` has a response `r` with `RespIndex[r.HeaderHash] = v`, has a nil `Ack` or an
acknowledgement `b` with `AckIndex[b.HeaderHash] = v`, and `v` is an element of
`SeqIndex[r.SeqNo].Queries`. -/
theorem index_agreement (d : Digest) (i : MultiIndex) (h : MultiIndex.ReachIn d i) :
    (∀ kv ∈ i.RespIndex, ∃ t : RequestTracker, i.trackers[kv.2]? = some t) ∧
    (∀ kv ∈ i.AckIndex, ∃ t : RequestTracker, i.trackers[kv.2]? = some t) ∧
    (∀ kv ∈ i.SeqIndex,
      (∀ f, kv.2.FirstAck = some f → ∃ t : RequestTracker, i.trackers[f]? = some t) ∧
      ∀ v ∈ kv.2.Queries, ∃ t : RequestTracker, i.trackers[v]? = some t) ∧
    ∀ (v : Nat) (t : RequestTracker), i.trackers[v]? = some t →
      ∃ r : SignedResponseHeader, t.Response = some r ∧
        mapGet i.RespIndex r.HeaderHash = some v ∧
        (t.Ack = none ∨
          ∃ b : SignedAckHeader, t.Ack = some b ∧ mapGet i.AckIndex b.HeaderHash = some v) ∧
        ∃ q : QueryTracker, mapGet i.SeqIndex r.SeqNo = some q ∧ v ∈ q.Queries := by
  obtain ⟨hS, _, hSt, hAg, hRf, _, hQa⟩ := tidy_of_reachIn d i h
  refine ⟨?_, ?_, ?_, ?_⟩
  · intro kv hkv
    obtain ⟨t, ht, _⟩ := hS.1.1 kv hkv
    exact ⟨t, ht⟩
  · intro kv hkv
    obtain ⟨t, ht, _⟩ := hS.2.2 kv hkv
    exact ⟨t, ht⟩
  · intro kv hkv
    refine ⟨?_, hQa kv hkv⟩
    intro f hf
    obtain ⟨t, ht, _⟩ := hS.1.2 kv hkv f hf
    exact ⟨t, ht⟩
  · intro v t ht
    obtain ⟨r, hr, hrv⟩ := hS.2.1 v t ht
    refine ⟨r, hr, hrv, ?_, ?_⟩
    · obtain hn | ⟨b, hb⟩ := Option.eq_none_or_eq_some t.Ack
      · exact Or.inl hn
      · exact Or.inr ⟨b, hb, hAg v t b ht hb⟩
    · obtain ⟨q, hq, hvq⟩ := hRf (r.HeaderHash, v) (mapGet_mem _ _ _ hrv)
      have hseq : r.SeqNo = d.seqOf r.HeaderHash := (hSt v t ht).1 r hr
      rw [hseq]
      exact ⟨q, hq, hvq⟩

/-- Witness of C23: the index after `AddAck(exAck1); AddAck(exAck3)` and the tracker of
`exAck3` in it. -/
theorem index_agreement_witness :
    MultiIndex.ReachIn exDigest exTwoAcks ∧
    ∃ r : SignedResponseHeader, exTrackerA3.Response = some r ∧
      mapGet exTwoAcks.RespIndex r.HeaderHash = some 1 ∧
      (exTrackerA3.Ack = none ∨
        ∃ b : SignedAckHeader, exTrackerA3.Ack = some b ∧
          mapGet exTwoAcks.AckIndex b.HeaderHash = some 1) ∧
      ∃ q : QueryTracker, mapGet exTwoAcks.SeqIndex r.SeqNo = some q ∧ 1 ∈ q.Queries :=
  ⟨⟨[], exTwoAcks_trace⟩,
    (index_agreement exDigest exTwoAcks ⟨[], exTwoAcks_trace⟩).2.2.2 1 exTrackerA3
      (by decide)⟩

/-- C24: in every index reachable from `NewMultiIndex` by the five operations with
verified inputs, the `FirstAck` of every query tracker of `SeqIndex` that has one is an
element of its `Queries` and is an allocated tracker with a non-nil `Ack`; the states
right after `AddAck` sets a `FirstAck` and right after `CheckAckFromBlock` promotes a
tracker are such indexes. -/
theorem firstAck_in_queries (d : Digest) (i : MultiIndex) (h : MultiIndex.ReachIn d i) :
    ∀ kv ∈ i.SeqIndex, ∀ f, kv.2.FirstAck = some f →
      f ∈ kv.2.Queries ∧ ∃ t : RequestTracker, i.trackers[f]? = some t ∧ t.Ack ≠ none := by
  obtain ⟨hS, _, _, _, _, hFi, _⟩ := tidy_of_reachIn d i h
  intro kv hkv f hf
  exact ⟨hFi kv hkv f hf, hS.1.2 kv hkv f hf⟩

/-- Witness of C24: the index in which `CheckAckFromBlock` has promoted the tracker of
`exAck3` to the first acknowledgement of the sequence number 1. -/
theorem firstAck_in_queries_witness :
    MultiIndex.ReachIn exDigest exPromoted ∧
    exTwoAcks.CheckAckFromBlock (HashRef.block 9) 203 = some (exPromoted, true, none) ∧
    (1 ∈ [0, 1] ∧ ∃ t : RequestTracker, exPromoted.trackers[1]? = some t ∧ t.Ack ≠ none) :=
  ⟨⟨[], exPromoted_trace⟩, by decide,
    firstAck_in_queries exDigest exPromoted ⟨[], exPromoted_trace⟩
      (1, QueryTracker.mk (some 1) [0, 1]) (by decide) 1 rfl⟩

/-- C26: at-most-once claiming. Over a run of `AddResponse`, `AddAck`, `SetSignedBlock`
with a block hash, `CheckAckFromBlock` and `MarkAndCollectUnsignedAcks` on one bucket,
in any order and with verified inputs, the header hashes that the calls of
`MarkAndCollectUnsignedAcks` have appended are pairwise distinct, and at the end of the
run each of them is the header hash of the acknowledgement of a tracker whose
`SignedBlock` is not nil; every further call of `MarkAndCollectUnsignedAcks` returns its
argument with hashes appended. -/
theorem emitted_at_most_once (d : Digest) (i : MultiIndex) (es : List Nat)
    (h : MultiIndex.Trace d.resp d.ack i es) :
    es.Nodup ∧
    (∀ e ∈ es, ∃ (v : Nat) (t : RequestTracker) (b : SignedAckHeader),
      i.trackers[v]? = some t ∧ t.Ack = some b ∧ b.HeaderHash = e ∧ t.SignedBlock ≠ none) ∧
    ∀ qs : List Nat, ∃ (i' : MultiIndex) (out : List Nat),
      i.MarkAndCollectUnsignedAcks qs = some (i', qs ++ out) := by
  obtain ⟨hC, hN⟩ := claimed_of_trace d i es h
  refine ⟨hN, hC, ?_⟩
  intro qs
  obtain ⟨r, hr⟩ := MarkAndCollect_total i qs (tidy_of_trace d i es h).1.1
  obtain ⟨fs, _, hout, _⟩ := MarkAndCollect_spec i qs r.1 r.2 hr
  refine ⟨r.1, fs.map (hashAt i.trackers), ?_⟩
  rw [← hout]
  exact hr

/-- Witness of C26: the run `AddAck(exAck1); AddAck(exAck3);
MarkAndCollectUnsignedAcks; MarkAndCollectUnsignedAcks`, whose first collecting call
emits the hash of `exAck1` and whose second emits nothing. -/
theorem emitted_at_most_once_witness :
    MultiIndex.Trace exDigest.resp exDigest.ack exMarked (([] ++ [200]) ++ []) ∧
    exTwoAcks.MarkAndCollectUnsignedAcks [] = some (exMarked, [200]) ∧
    exMarked.MarkAndCollectUnsignedAcks [] = some (exMarked, []) ∧
    (([] ++ [200]) ++ [] : List Nat).Nodup :=
  have ht : MultiIndex.Trace exDigest.resp exDigest.ack exMarked (([] ++ [200]) ++ []) :=
    MultiIndex.Trace.markAndCollect exMarked ([] ++ [200]) [] exMarked [] exMarked_trace
      (by decide)
  ⟨ht, by decide, by decide,
    (emitted_at_most_once exDigest exMarked (([] ++ [200]) ++ []) ht).1⟩

/-! ## C29: what `GetAck` returns -/

theorem respKey_sameFields (i i' : MultiIndex) (h : i.RespKey)
    (hT : SameFields i.trackers i'.trackers) (hR : i'.RespIndex = i.RespIndex) :
    i'.RespKey := by
  intro kv hkv
  rw [hR] at hkv
  obtain ⟨t, r, ht, hr, hh⟩ := h kv hkv
  obtain ⟨t', ht', hr', _⟩ := hT.2 kv.2 t ht
  exact ⟨t', r, ht', by rw [hr', hr], hh⟩

/-- Two keys of `RespIndex` with one tracker are equal. -/
theorem respKey_inj (i : MultiIndex) (h : i.RespKey) (k1 k2 v : Nat)
    (h1 : (k1, v) ∈ i.RespIndex) (h2 : (k2, v) ∈ i.RespIndex) : k1 = k2 := by
  obtain ⟨t1, r1, ht1, hr1, hh1⟩ := h (k1, v) h1
  obtain ⟨t2, r2, ht2, hr2, hh2⟩ := h (k2, v) h2
  simp only at ht1 ht2 hh1 hh2
  rw [ht1] at ht2
  simp only [Option.some.injEq] at ht2
  subst ht2
  rw [hr1] at hr2
  simp only [Option.some.injEq] at hr2
  subst hr2
  rw [← hh1, ← hh2]

theorem respKey_set (i : MultiIndex) (h : i.RespKey) (v : Nat) (t t' : RequestTracker)
    (k : Nat) (r' : SignedResponseHeader) (hk : mapGet i.RespIndex k = some v)
    (ht : i.trackers[v]? = some t) (hr' : t'.Response = some r') (hh : r'.HeaderHash = k) :
    ∀ kv ∈ i.RespIndex, ∃ (t0 : RequestTracker) (r : SignedResponseHeader),
      (i.trackers.set v t')[kv.2]? = some t0 ∧ t0.Response = some r ∧
        r.HeaderHash = kv.1 := by
  intro kv hkv
  by_cases hvw : v = kv.2
  · have hkey : k = kv.1 := by
      obtain ⟨a, b⟩ := kv
      simp only at hvw
      subst hvw
      exact respKey_inj i h k a v (mapGet_mem _ _ _ hk) hkv
    refine ⟨t', r', ?_, hr', by rw [hh, hkey]⟩
    rw [← hvw]
    exact getElem?_set_valid _ _ _ _ ht
  · obtain ⟨t0, r, ht0, hr, hh0⟩ := h kv hkv
    exact ⟨t0, r, by rw [List.getElem?_set_ne hvw]; exact ht0, hr, hh0⟩

theorem respKey_append (i : MultiIndex) (h : i.RespKey) (t' : RequestTracker)
    (k : Nat) (r' : SignedResponseHeader) (hr' : t'.Response = some r')
    (hh : r'.HeaderHash = k) :
    ∀ kv ∈ mapSet i.RespIndex k i.trackers.length,
      ∃ (t0 : RequestTracker) (r : SignedResponseHeader),
        (i.trackers ++ [t'])[kv.2]? = some t0 ∧ t0.Response = some r ∧
          r.HeaderHash = kv.1 := by
  intro kv hkv
  rcases mem_mapSet _ _ _ _ hkv with hk1 | hk1
  · rw [hk1]
    exact ⟨t', r', getElem?_append_new _ _, hr', hh⟩
  · obtain ⟨t0, r, ht0, hr, hh0⟩ := h kv hk1
    refine ⟨t0, r, ?_, hr, hh0⟩
    rw [List.getElem?_append_left (List.getElem?_eq_some.mp ht0).1]
    exact ht0

theorem AddResponse_respKey (i : MultiIndex) (resp : SignedResponseHeader) (hI : i.Inv)
    (h : i.RespKey) : (i.AddResponse resp).1.RespKey := by
  obtain ⟨_, hshape⟩ := AddResponse_shape i resp hI
  rcases hshape with ⟨v, t, hv, ht, g1, g2, _, _⟩ | ⟨_, g1, g2, _, _⟩
  · intro kv hkv
    rw [g2] at hkv
    rw [g1]
    exact respKey_set i h v t (t.answered resp) resp.HeaderHash resp hv ht rfl rfl kv hkv
  · intro kv hkv
    rw [g2] at hkv
    rw [g1]
    exact respKey_append i h (RequestTracker.ofResp resp) resp.HeaderHash resp rfl rfl
      kv hkv

theorem AddAck_respKey (i : MultiIndex) (a : SignedAckHeader) (i' : MultiIndex)
    (e : Option QueryError) (hI : i.Inv) (h : i.RespKey) (hc : a.consistent)
    (hr : i.AddAck a = some (i', e)) : i'.RespKey := by
  rcases AddAck_shape i a i' e hI hr with ⟨_, _, _, _, _, _, _, _, g1, g2, _, _⟩ |
    ⟨v, T, R, qs, hinst, g1, g2, _⟩
  · intro kv hkv
    rw [g2] at hkv
    rw [g1]
    exact h kv hkv
  · intro kv hkv
    rw [g2] at hkv
    rw [g1]
    rcases hinst with ⟨_, _, _, _, _, _, hT, hR, _⟩ | ⟨t, hv, ht, _, hT, hR, _⟩ |
      ⟨_, hlen, hT, hR, _⟩
    · rw [hR] at hkv
      rw [hT]
      exact h kv hkv
    · rw [hR] at hkv
      rw [hT]
      exact respKey_set i h v t (RequestTracker.ofAck a) a.RespHash a.Response hv ht rfl
        hc.1 kv hkv
    · rw [hR, hlen] at hkv
      rw [hT]
      exact respKey_append i h (RequestTracker.ofAck a) a.RespHash a.Response rfl hc.1
        kv hkv

theorem ackOf_step (d : Digest) (i i' : MultiIndex) (h : i.AckOf d)
    (hR : RespKeeps i.RespIndex i'.RespIndex)
    (hA : ∀ kv ∈ i'.AckIndex, kv ∈ i.AckIndex ∨
      mapGet i'.RespIndex (d.respOf kv.1) = some kv.2) : i'.AckOf d := by
  intro kv hkv
  rcases hA kv hkv with ho | hn
  · exact hR _ _ (h kv ho)
  · exact hn

theorem AddResponse_ackOf (d : Digest) (i : MultiIndex) (resp : SignedResponseHeader)
    (hI : i.Inv) (h : i.AckOf d) : (i.AddResponse resp).1.AckOf d := by
  obtain ⟨_, hshape⟩ := AddResponse_shape i resp hI
  rcases hshape with ⟨_, _, _, _, _, g2, g3, _⟩ | ⟨hv, _, g2, g3, _⟩
  · exact ackOf_step d i _ h (by rw [g2]; exact fun _ _ h => h)
      (fun kv hkv => Or.inl (by rw [← g3]; exact hkv))
  · exact ackOf_step d i _ h (by rw [g2]; exact respKeeps_set _ _ _ hv)
      (fun kv hkv => Or.inl (by rw [← g3]; exact hkv))

theorem AddAck_ackOf (d : Digest) (i : MultiIndex) (a : SignedAckHeader) (i' : MultiIndex)
    (e : Option QueryError) (hI : i.Inv) (h : i.AckOf d) (ha : d.ack a)
    (hr : i.AddAck a = some (i', e)) : i'.AckOf d := by
  rcases AddAck_shape i a i' e hI hr with ⟨v, _, _, hv, _, _, _, _, _, g2, g3, _⟩ |
    ⟨v, T, R, qs, hinst, _, g2, g3, _⟩
  · refine ackOf_step d i i' h (by rw [g2]; exact fun _ _ h => h) ?_
    intro kv hkv
    rw [g3] at hkv
    rcases mem_mapSet _ _ _ _ hkv with hk1 | hk1
    · right
      rw [hk1, g2]
      simp only
      rw [← ha.2.2]
      exact hv
    · exact Or.inl hk1
  · obtain ⟨hRk, hRv⟩ := installs_respKeeps i a v T R qs hinst
    refine ackOf_step d i i' h (by rw [g2]; exact hRk) ?_
    intro kv hkv
    rw [g3] at hkv
    rcases mem_mapSet _ _ _ _ hkv with hk1 | hk1
    · right
      rw [hk1, g2]
      simp only
      rw [← ha.2.2]
      exact hRv
    · exact Or.inl hk1

theorem recorded_new (d : Digest) : NewMultiIndex.Recorded d := by
  refine ⟨sound_new, ?_, ?_, ?_⟩
  · intro v t b hv
    exact absurd hv (by simp [NewMultiIndex])
  · intro kv hkv
    exact absurd hkv (List.not_mem_nil kv)
  · intro kv hkv
    exact absurd hkv (List.not_mem_nil kv)

theorem recorded_sameFields (d : Digest) (i i' : MultiIndex) (h : i.Recorded d)
    (hS : i'.Sound) (hF : i'.AckFiled) (hT : SameFields i.trackers i'.trackers)
    (hR : i'.RespIndex = i.RespIndex) (hA : i'.AckIndex = i.AckIndex) : i'.Recorded d := by
  refine ⟨hS, hF, ?_, respKey_sameFields i i' h.2.2.2 hT hR⟩
  exact ackOf_step d i i' h.2.2.1 (by rw [hR]; exact fun _ _ h => h)
    (fun kv hkv => Or.inl (by rw [← hA]; exact hkv))

/-- Every bucket of an index over heights built from verified acknowledgements
satisfies the invariant. -/
theorem buckets_recorded (d : Digest) (Q : QueryIndex)
    (hr : QueryIndex.Reach (verifiedAcks d) Q) : ∀ kv ∈ Q.heightIndex, kv.2.Recorded d := by
  refine buckets_of_run (verifiedAcks d) (MultiIndex.Recorded d) (recorded_new d)
    (fun m r h => ⟨AddResponse_sound m r h.1, AddResponse_filed m r h.1.1 h.2.1,
      AddResponse_ackOf d m r h.1.1 h.2.2.1, AddResponse_respKey m r h.1.1 h.2.2.2⟩)
    (fun m a m' e hc h he => ⟨AddAck_sound m a m' e h.1 hc.1 he,
      AddAck_filed m a m' e h.1.1 h.2.1 he, AddAck_ackOf d m a m' e h.1.1 h.2.2.1 hc he,
      AddAck_respKey m a m' e h.1.1 h.2.2.2 hc.1 he⟩)
    (fun m b a m' h he => ?_)
    (fun m b a m' k e h he => ?_)
    (fun m qs m' out h he => ?_)
    NewQueryIndex Q hr ?_
  · obtain ⟨h1, h2, h3, _⟩ := SetSignedBlock_same m b a m' he
    exact recorded_sameFields d m m' h (SetSignedBlock_sound m b a m' h.1 he)
      (SetSignedBlock_filed m b a m' h.2.1 he) h1 h2 h3
  · obtain ⟨h1, h2, h3⟩ := CheckAckFromBlock_frame m b a m' k e he
    exact recorded_sameFields d m m' h (CheckAckFromBlock_sound m b a m' k e h.1 he)
      (CheckAckFromBlock_filed m b a m' k e h.2.1 he)
      (by rw [h1]; exact sameFields_refl _) h2 h3
  · obtain ⟨h1, h2, h3, _⟩ := MarkAndCollect_same m qs m' out he
    exact recorded_sameFields d m m' h (MarkAndCollectUnsignedAcks_sound m qs m' out h.1 he)
      (MarkAndCollect_filed m qs m' out h.2.1 he) h1 h2 h3
  · intro kv hkv
    cases hkv

/-- The tracker that `AckIndex` gives for the header hash `k` holds an acknowledgement of
the response that the acknowledgement with the header hash `k` answers. -/
theorem recorded_lookup (d : Digest) (m : MultiIndex) (h : m.Recorded d) (k v : Nat)
    (hk : mapGet m.AckIndex k = some v) :
    ∃ (t : RequestTracker) (b : SignedAckHeader), m.trackers[v]? = some t ∧
      t.Ack = some b ∧ mapGet m.RespIndex b.RespHash = some v ∧
      b.RespHash = d.respOf k := by
  obtain ⟨hS, hF, hA, hK⟩ := h
  obtain ⟨t, ht, hta⟩ := hS.2.2 (k, v) (mapGet_mem _ _ _ hk)
  obtain hn | ⟨b, hb⟩ := Option.eq_none_or_eq_some t.Ack
  · exact absurd hn hta
  · have h1 := (hF v t b ht hb).1
    have h2 := hA (k, v) (mapGet_mem _ _ _ hk)
    exact ⟨t, b, ht, hb, h1,
      respKey_inj m hK _ _ v (mapGet_mem _ _ _ h1) (mapGet_mem _ _ _ h2)⟩

theorem exAck2_verified : exDigest.ack exAck2 := ⟨⟨rfl, rfl⟩, rfl, by decide⟩

theorem exAcked_reach : QueryIndex.Reach (verifiedAcks exDigest) exAcked := by
  have h1 : NewQueryIndex.AddAck 10 exAck1 = some (exAcked, none) := by decide
  exact QueryIndex.Run.addAck _ 10 exAck1 _ _ QueryIndex.Run.start trivial exAck1_verified h1

theorem exTwoOnOne_reach : QueryIndex.Reach (verifiedAcks exDigest) exTwoOnOne := by
  have h2 : exAcked.AddAck 10 exAck2
      = some (exTwoOnOne, some QueryError.ErrMultipleAckOfResponse) := by decide
  exact QueryIndex.Run.addAck _ 10 exAck2 _ _ exAcked_reach trivial exAck2_verified h2

/-- C29, counterexample: after `AddAck(10, exAck1)` and `AddAck(10, exAck2)`, two
acknowledgements of one response of which the second is rejected with
`ErrMultipleAckOfResponse`, `GetAck(10, exAck2.hash)` returns a nil error and the
acknowledgement `exAck1`, whose header hash is 200 and not the hash 201 asked for. -/
theorem GetAck_returns_other_ack :
    QueryIndex.Reach (verifiedAcks exDigest) exTwoOnOne ∧
    NewQueryIndex.AddAck 10 exAck1 = some (exAcked, none) ∧
    exAcked.AddAck 10 exAck2
      = some (exTwoOnOne, some QueryError.ErrMultipleAckOfResponse) ∧
    exTwoOnOne.GetAck 10 exAck2.HeaderHash = some (exTwoOnOne, some exAck1, none) ∧
    exAck1.HeaderHash ≠ exAck2.HeaderHash :=
  ⟨exTwoOnOne_reach, by decide, by decide, by decide, by decide⟩

/-- C29, amended: in every index over heights reachable from `NewQueryIndex` by the
public operations with verified acknowledgements, whenever `GetAck(h, k)` returns a nil
error, the height has not expired, the index is unchanged, and the returned
acknowledgement is non-nil: it is the acknowledgement held by the tracker that
`AckIndex[k]` of the bucket at `h` points to, that tracker is the one `RespIndex` gives
for the response hash of the returned acknowledgement, and the returned acknowledgement
answers the response that the acknowledgement with the header hash `k` answers. -/
theorem GetAck_returns_recorded (d : Digest) (Q : QueryIndex)
    (hr : QueryIndex.Reach (verifiedAcks d) Q) (h : Int) (k : Nat) (Q' : QueryIndex)
    (ob : Option SignedAckHeader) (hg : Q.GetAck h k = some (Q', ob, none)) :
    Q' = Q ∧ Q.barrier ≤ h ∧
    ∃ (m : MultiIndex) (v : Nat) (t : RequestTracker) (b : SignedAckHeader),
      ob = some b ∧ hGet Q.heightIndex h = some m ∧ mapGet m.AckIndex k = some v ∧
      m.trackers[v]? = some t ∧ t.Ack = some b ∧
      mapGet m.RespIndex b.RespHash = some v ∧ b.RespHash = d.respOf k := by
  have hb : Q.barrier ≤ h := by
    by_contra hlt
    unfold QueryIndex.GetAck at hg
    rw [if_neg (by omega)] at hg
    simp at hg
  rw [GetAck_live Q h k hb] at hg
  unfold QueryIndex.ackEntry QueryIndex.tracker at hg
  obtain hm | ⟨m, hm⟩ := Option.eq_none_or_eq_some (hGet Q.heightIndex h)
  · rw [hm] at hg
    simp at hg
  · rw [hm] at hg
    simp only [Option.some_bind] at hg
    obtain hv | ⟨v, hv⟩ := Option.eq_none_or_eq_some (mapGet m.AckIndex k)
    · rw [hv] at hg
      simp at hg
    · rw [hv] at hg
      simp only at hg
      obtain ⟨t, b, ht, htb, h1, h2⟩ :=
        recorded_lookup d m (buckets_recorded d Q hr (h, m) (hGet_mem _ _ _ hm)) k v hv
      rw [ht] at hg
      simp only [Option.some.injEq, Prod.mk.injEq] at hg
      refine ⟨hg.1.symm, hb, m, v, t, b, ?_, hm, hv, ht, htb, h1, h2⟩
      rw [← hg.2.1, htb]

/-- Witness of the amended C29: `GetAck(10, exAck2.hash)` on the index of the
counterexample; the acknowledgement returned answers the response 100, as `exAck2`
does. -/
theorem GetAck_returns_recorded_witness :
    QueryIndex.Reach (verifiedAcks exDigest) exTwoOnOne ∧
    exTwoOnOne.GetAck 10 201 = some (exTwoOnOne, some exAck1, none) ∧
    ∃ (m : MultiIndex) (v : Nat) (t : RequestTracker) (b : SignedAckHeader),
      some exAck1 = some b ∧ hGet exTwoOnOne.heightIndex 10 = some m ∧
      mapGet m.AckIndex 201 = some v ∧ m.trackers[v]? = some t ∧ t.Ack = some b ∧
      mapGet m.RespIndex b.RespHash = some v ∧ b.RespHash = exDigest.respOf 201 :=
  ⟨exTwoOnOne_reach, by decide,
    (GetAck_returns_recorded exDigest exTwoOnOne exTwoOnOne_reach 10 201 exTwoOnOne
      (some exAck1) (by decide)).2.2⟩

end CovenantSQL
